import Mathlib

/-!
# REChain-IDE orchestrator: merge strategies, task processing, retry

A shallow embedding of the Go sources

* `orchestrator/internal/merge.go` (package `internal`),
* `orchestrator/cmd/orchestrator/main.go` (package `main`),

followed by theorems about them.  Go `float64` values are modelled by `F64`
(IEEE-754 binary64 with NaN, infinities, signed zero and round-to-nearest-even
arithmetic), Go strings by `String`, slices by `List`.
-/

namespace RechainIDE

/-! ## Go `float64` -/

/-- An IEEE-754 binary64 value.  A finite value is a sign and a magnitude; the
magnitude `k` counts units of `2^-1074`, the least positive subnormal, so every
finite binary64 number is `fin neg k` for exactly one pair (`fin true 0` is
negative zero).  The type is a superset of binary64: arithmetic rounds every
result to a representable magnitude. -/
inductive F64 where
  | nan : F64
  | inf (neg : Bool) : F64
  | fin (neg : Bool) (k : Nat) : F64
  deriving DecidableEq, Repr

namespace F64

/-- The signed number of units of a finite value. -/
def signed (neg : Bool) (k : Nat) : Int := if neg then -(k : Int) else (k : Int)

/-- Go `x < y` on float64: false as soon as one side is NaN. -/
def lt : F64 → F64 → Bool
  | nan, _ => false
  | _, nan => false
  | inf a, inf b => a && !b
  | inf a, fin _ _ => a
  | fin _ _, inf b => !b
  | fin s k, fin t l => decide (signed s k < signed t l)

/-- Go `x == y` on float64: NaN equals nothing, the two zeros are equal. -/
def eq : F64 → F64 → Bool
  | inf a, inf b => a == b
  | fin s k, fin t l => decide (signed s k = signed t l)
  | _, _ => false

/-- Go `x > y`. -/
def gt (x y : F64) : Bool := lt y x

/-- Go `x <= y`. -/
def le (x y : F64) : Bool := lt x y || eq x y

/-- Go `x >= y`. -/
def ge (x y : F64) : Bool := le y x

/-- The value is a NaN. -/
def isNaN : F64 → Bool
  | nan => true
  | _ => false

/-- The value is finite (neither NaN nor an infinity). -/
def isFinite : F64 → Bool
  | fin _ _ => true
  | _ => false

/-- Positive zero, the Go constant `0` and the zero value of float64. -/
def zero : F64 := fin false 0

/-- The number of units in `1.0`. -/
def unit : Nat := 2 ^ 1074

/-- The Go constant `1`. -/
def one : F64 := fin false unit

/-- The quotient `n / d` rounded to the nearest integer, ties to the even one. -/
def rhe (n d : Nat) : Nat :=
  let q := n / d
  let r := n % d
  if 2 * r < d then q else if d < 2 * r then q + 1 else if q % 2 = 0 then q else q + 1

/-- Binary search for the position of the leading bit: `i` levels decide the
bits `2^(i-1)`, ..., `1` of the position of the leading bit of `n`, added to `acc`. -/
def log2Loop : Nat → Nat → Nat → Nat
  | 0, _, acc => acc
  | i + 1, n, acc =>
    if 2 ^ 2 ^ i ≤ n then log2Loop i (n / 2 ^ 2 ^ i) (acc + 2 ^ i) else log2Loop i n acc

/-- The position of the leading bit of `n`, for `0 < n < 2^4096`. -/
def ilog2 (n : Nat) : Nat := log2Loop 12 n 0

/-- The binary logarithm of the spacing of binary64 magnitudes around `q` units:
below `2^53` units (subnormals and the first normal binade) the spacing is one
unit, above it a magnitude keeps 53 significant bits. -/
def roundShift (q : Nat) : Nat := if q < 2 ^ 53 then 0 else ilog2 q - 52

/-- Round-to-nearest-even of the exact magnitude `n / d` (in units, `0 < d`,
`n / d < 2^4096`) to a binary64 magnitude with unbounded exponent. -/
def roundMag (n d : Nat) : Nat :=
  let s := roundShift (n / d)
  rhe n (d * 2 ^ s) * 2 ^ s

/-- The binary64 result for an exact result of sign `neg` and magnitude `n / d`
units: the rounded magnitude, or an infinity when the magnitude, exact or
rounded, reaches `2^1024`. -/
def ofMag (neg : Bool) (n d : Nat) : F64 :=
  if 2 ^ 2098 ≤ n / d then inf neg
  else
    let k := roundMag n d
    if k < 2 ^ 2098 then fin neg k else inf neg

/-- The float64 value of the non-negative decimal constant `n / d`. -/
def ofRat (n d : Nat) : F64 := ofMag false (n * unit) d

/-- Go unary `-x`. -/
def neg : F64 → F64
  | nan => nan
  | inf a => inf (!a)
  | fin s k => fin (!s) k

/-- Go `x + y`. -/
def add : F64 → F64 → F64
  | nan, _ => nan
  | _, nan => nan
  | inf a, inf b => if a == b then inf a else nan
  | inf a, fin _ _ => inf a
  | fin _ _, inf b => inf b
  | fin s k, fin t l =>
    let z := signed s k + signed t l
    if z = 0 then fin (s && t) 0 else ofMag (decide (z < 0)) z.natAbs 1

/-- Go `x - y`. -/
def sub (x y : F64) : F64 := add x (neg y)

/-- Go `x * y`. -/
def mul : F64 → F64 → F64
  | nan, _ => nan
  | _, nan => nan
  | inf a, inf b => inf (a != b)
  | inf a, fin t l => if l = 0 then nan else inf (a != t)
  | fin s k, inf b => if k = 0 then nan else inf (s != b)
  | fin s k, fin t l => ofMag (s != t) (k * l) unit

/-- Go `x / y`. -/
def div : F64 → F64 → F64
  | nan, _ => nan
  | _, nan => nan
  | inf _, inf _ => nan
  | inf a, fin t _ => inf (a != t)
  | fin s _, inf b => fin (s != b) 0
  | fin s k, fin t l =>
    if l = 0 then (if k = 0 then nan else inf (s != t)) else ofMag (s != t) (k * unit) l

end F64

/-! ## Package `internal`: `merge.go` -/

namespace Internal

/-- The struct `Metric` of `merge.go`. -/
structure Metric where
  Name : String
  Value : F64
  deriving DecidableEq, Repr

/-- The struct `ModelResult` of `merge.go`. -/
structure ModelResult where
  Diff : String
  Metrics : List Metric
  deriving DecidableEq, Repr

/-- The function `metricOf`: the value of the first metric called `name`, 0 when
there is none. -/
def metricOf (r : ModelResult) (name : String) : F64 :=
  match r.Metrics.find? (fun m => m.Name == name) with
  | some m => m.Value
  | none => F64.zero

/-- One iteration of the loop of `MergeResults` over `results[1:]`; the state is
the pair `(best, bestValue)`. -/
def mergeStep (metric : String) (preferHigher : Bool)
    (st : ModelResult × F64) (r : ModelResult) : ModelResult × F64 :=
  let v := metricOf r metric
  if preferHigher then
    if F64.gt v st.2 || (F64.eq v st.2 && decide (r.Diff < st.1.Diff)) then (r, v) else st
  else
    if F64.lt v st.2 || (F64.eq v st.2 && decide (r.Diff < st.1.Diff)) then (r, v) else st

/-- The function `MergeResults`: the zero `ModelResult` and `false` on an empty
slice, otherwise the result of the selection loop and `true`. -/
def MergeResults (results : List ModelResult) (metric : String) (preferHigher : Bool) :
    ModelResult × Bool :=
  match results with
  | [] => ({ Diff := "", Metrics := [] }, false)
  | r0 :: rest => ((rest.foldl (mergeStep metric preferHigher) (r0, metricOf r0 metric)).1, true)

end Internal

/-! ## Go library functions used by the orchestrator -/

/-- One rune pair of `strings.EqualFold` when the second rune `t` is ASCII: the
runes are equal, or they are the two cases of one ASCII letter, or the first is
the one non-ASCII rune of the simple-folding orbit of `t` (U+017F for `s`,
U+212A for `k`). -/
def foldEqRune (c t : Char) : Bool :=
  c == t ||
  (c.isAlpha && t.isAlpha && c.toLower == t.toLower) ||
  ((t == 's' || t == 'S') && c == Char.ofNat 0x17F) ||
  ((t == 'k' || t == 'K') && c == Char.ofNat 0x212A)

/-- Go `strings.EqualFold(s, t)` for a string `t` of ASCII characters (every call
in the orchestrator passes an ASCII literal for `t`). -/
def EqualFold (s t : String) : Bool :=
  s.data.length == t.data.length && (List.zipWith foldEqRune s.data t.data).all id

/-- Go `unicode.IsSpace`. -/
def isSpace (c : Char) : Bool :=
  let n := c.toNat
  (9 ≤ n && n ≤ 13) || n == 0x20 || n == 0x85 || n == 0xA0 || n == 0x1680 ||
  (0x2000 ≤ n && n ≤ 0x200A) || n == 0x2028 || n == 0x2029 || n == 0x202F ||
  n == 0x205F || n == 0x3000

/-- Go `strings.TrimSpace`. -/
def TrimSpace (s : String) : String :=
  String.mk ((s.data.dropWhile isSpace).reverse.dropWhile isSpace).reverse

/-- Go `unicode.ToLower` on the runes whose lower case is an ASCII character (the
ASCII capitals, U+0130 and U+212A); every other rune is kept, its lower case
not being an ASCII character either. -/
def lowerRune (c : Char) : Char :=
  if c.isUpper then c.toLower
  else if c == Char.ofNat 0x130 then 'i'
  else if c == Char.ofNat 0x212A then 'k'
  else c

/-- Go `strings.ToLower`, exact as far as the comparison of its result with a
string of ASCII characters goes (the orchestrator only compares it with ASCII
literals). -/
def ToLower (s : String) : String := String.mk (s.data.map lowerRune)

/-- Go `strings.TrimRight(s, "/")`. -/
def trimRightSlash (s : String) : String :=
  String.mk (s.data.reverse.dropWhile (fun c => c == '/')).reverse

/-- The loop of `splitComma`: `cur` holds the runes of the current part in
reverse order. -/
def splitCommaAux : List Char → List Char → List String
  | cur, [] => [String.mk cur.reverse]
  | cur, c :: cs =>
    if c == ',' then String.mk cur.reverse :: splitCommaAux [] cs
    else splitCommaAux (c :: cur) cs

/-- Go `strings.Split(s, ",")`. -/
def splitComma (s : String) : List String := splitCommaAux [] s.data

/-- Two's-complement wrap-around of an int64 result. -/
def wrapInt64 (x : Int) : Int := (x + 2 ^ 63) % 2 ^ 64 - 2 ^ 63

/-- Go `int(v)` and `int64(v)` for a float64 `v`: truncation towards zero.  For a
NaN, an infinity or a value out of range Go leaves the result to the
implementation; the amd64 result, the least int64, is used. -/
def F64.toInt64 : F64 → Int
  | F64.fin s k =>
    let t := F64.signed s (k / F64.unit)
    if -(2 ^ 63) ≤ t ∧ t < 2 ^ 63 then t else -(2 ^ 63)
  | _ => -(2 ^ 63)

/-- Go `float64(i)` for an int `i`. -/
def F64.ofInt (i : Int) : F64 :=
  if i = 0 then F64.zero else F64.ofMag (decide (i < 0)) (i.natAbs * F64.unit) 1

/-- The outcome of an HTTP POST whose response body is decoded from JSON: the
request failed with an error, or a response arrived with a status code and a
body that decodes to a value or fails to decode. -/
inductive HTTPResult (α : Type) where
  | failed (err : String) : HTTPResult α
  | response (status : Nat) (body : Except String α) : HTTPResult α

/-! ## Package `main` of `orchestrator/cmd/orchestrator` -/

namespace Orchestrator

/-- The constant `schemaVersion`. -/
def schemaVersion : String := "0.1.0"

/-- The struct `ContextRef`. -/
structure ContextRef where
  Typ : String
  Path : String
  Rev : String
  deriving DecidableEq, Repr

/-- The dynamic value of a `Constraint` (Go `interface{}`): a string, a float64,
an int, or a value of any other type (nil, bool, array, object). -/
inductive CValue where
  | str (s : String) : CValue
  | float (f : F64) : CValue
  | int (i : Int) : CValue
  | other : CValue
  deriving DecidableEq, Repr

/-- The struct `Constraint`. -/
structure Constraint where
  Key : String
  Value : CValue
  deriving DecidableEq, Repr

/-- The struct `Metadata`. -/
structure Metadata where
  Requester : String
  Priority : String
  deriving DecidableEq, Repr

/-- The struct `TaskSpec`. -/
structure TaskSpec where
  SchemaVersion : String
  ID : String
  Typ : String
  Input : String
  Context : List ContextRef
  Constraints : List Constraint
  Metadata : Metadata
  deriving DecidableEq, Repr

/-- The struct `TaskStatus`. -/
structure TaskStatus where
  SchemaVersion : String := ""
  ID : String := ""
  State : String := ""
  Progress : F64 := F64.zero
  StartedAt : String := ""
  UpdatedAt : String := ""
  deriving DecidableEq, Repr

/-- The struct `Metric`. -/
structure Metric where
  Name : String
  Value : F64
  deriving DecidableEq, Repr

/-- The struct `ModelResult`. -/
structure ModelResult where
  SchemaVersion : String := ""
  ModelID : String := ""
  Output : String := ""
  Diff : String := ""
  Metrics : List Metric := []
  deriving DecidableEq, Repr

/-- The struct `MergeResult`. -/
structure MergeResult where
  SchemaVersion : String := ""
  Diff : String := ""
  Rationale : String := ""
  Confidence : F64 := F64.zero
  QualityScore : F64 := F64.zero
  deriving DecidableEq, Repr

/-- The struct `TraceModelResult`. -/
structure TraceModelResult where
  ModelID : String
  DiffLen : Nat
  LatencyMs : F64
  CostUSD : F64
  QualityScore : F64
  deriving DecidableEq, Repr

/-- The struct `TaskTrace`; the pointer `Merge` is an `Option`. -/
structure TaskTrace where
  SchemaVersion : String := ""
  TaskID : String := ""
  ParentTaskID : String := ""
  State : String := ""
  StartedAt : String := ""
  FinishedAt : String := ""
  RoutingPolicy : String := ""
  Selected : List String := []
  Results : List TraceModelResult := []
  MergeSource : String := ""
  Merge : Option MergeResult := none
  Error : String := ""
  deriving DecidableEq, Repr

/-- The struct `Artifact`. -/
structure Artifact where
  SchemaVersion : String
  ID : String
  Typ : String
  Path : String
  Sha256 : String
  CreatedAt : String
  deriving DecidableEq, Repr

/-- The struct `DriverMeta`. -/
structure DriverMeta where
  ID : String
  Kind : String
  CostUSD : F64
  Capabilities : List String
  Description : String
  deriving DecidableEq, Repr

/-- A Go map with string keys: the value stored under each key, if any. -/
abbrev GoMap (α : Type) : Type := String → Option α

/-- The map with `m[key] = v`. -/
def GoMap.set {α : Type} (m : GoMap α) (key : String) (v : α) : GoMap α :=
  fun k => if k = key then some v else m k

/-- The struct `TaskStore` (without its mutex). -/
structure TaskStore where
  statuses : GoMap TaskStatus
  artifacts : GoMap (List Artifact)
  results : GoMap MergeResult
  traces : GoMap TaskTrace
  specs : GoMap TaskSpec

/-- The anonymous struct that `tryAgentCompiler` decodes the response into. -/
structure CompileOut where
  Diff : String
  QualityScore : F64
  Rationale : String
  deriving DecidableEq, Repr

/-- The local struct `cand` of `tryQuantumOptimize`. -/
structure Cand where
  ID : String
  CostUSD : F64
  LatencyMs : F64
  Quality : F64
  deriving DecidableEq, Repr

/-- The context of a task: whether `ctx.Done()` fires before the backoff timer
when waited for after the given number of driver calls, and `ctx.Err()`. -/
structure Context where
  Done : Nat → Bool
  Err : String

/-- What a run of the orchestrator reads from outside the program: the process
environment, the HTTP services, the clock, the random source and the Go
formatting library. -/
structure World where
  /-- The value of `os.Getenv`. -/
  getenv : String → String
  /-- The response to `POST {url}` of the agent compiler, for the policy and
  the results sent; the body is decoded into `CompileOut`. -/
  postCompile : String → String → List ModelResult → HTTPResult CompileOut
  /-- The response to `POST {url}` of the quantum optimizer, for the
  candidates sent; the body is decoded into its `selected_id`. -/
  postOptimize : String → List Cand → HTTPResult String
  /-- The result of `fetchRAGContext` for a non-empty query. -/
  ragSearch : String → String → Except String (List ContextRef)
  /-- The value of `strconv.FormatFloat(v, 'f', 4, 64)`. -/
  formatFloat : F64 → String
  /-- The value of `time.Now().UTC().Format(time.RFC3339)` at the start of
  `processTask`. -/
  startedAt : String
  /-- The same reading when the status is updated. -/
  updatedAt : String
  /-- The same reading when the trace is finished. -/
  finishedAt : String
  /-- The same reading when the artifact is created. -/
  createdAt : String
  /-- The value of `time.Since(start).Milliseconds()` when the task ends. -/
  elapsedMs : Int
  /-- The value of `randString(n)`. -/
  randString : Nat → String
  /-- The context made by `context.WithTimeout` for a timeout in nanoseconds. -/
  withTimeout : Int → Context

/-- The function `metricValue`. -/
def metricValue (r : ModelResult) (name : String) : F64 :=
  match r.Metrics.find? (fun m => m.Name == name) with
  | some m => m.Value
  | none => F64.zero

/-- The function `metricValueInternal`. -/
def metricValueInternal (r : Internal.ModelResult) (name : String) : F64 :=
  match r.Metrics.find? (fun m => m.Name == name) with
  | some m => m.Value
  | none => F64.zero

/-- The function `normalize`. -/
def normalize (v min max : F64) : F64 :=
  if F64.eq (F64.sub max min) F64.zero then F64.zero
  else F64.div (F64.sub v min) (F64.sub max min)

/-- The function `minMaxMetric`; the loop state is the pair `(min, max)`. -/
def minMaxMetric (results : List ModelResult) (name : String) : F64 × F64 :=
  results.enum.foldl
    (fun (st : F64 × F64) (ir : Nat × ModelResult) =>
      let v := metricValue ir.2 name
      (if ir.1 == 0 || F64.lt v st.1 then v else st.1,
       if ir.1 == 0 || F64.gt v st.2 then v else st.2))
    (F64.zero, F64.zero)

/-- The function `scoreResult`. -/
def scoreResult (r : ModelResult) (weightCost weightLatency weightQuality : F64)
    (minCost maxCost minLat maxLat minQ maxQ : F64) : F64 :=
  let c := normalize (metricValue r "cost_usd") minCost maxCost
  let l := normalize (metricValue r "latency_ms") minLat maxLat
  let q := normalize (metricValue r "quality_score") minQ maxQ
  F64.add (F64.add (F64.mul weightCost c) (F64.mul weightLatency l))
    (F64.mul weightQuality (F64.sub F64.one q))

/-- The score that `weightedBest` gives to `r` among `results`. -/
def scoreIn (results : List ModelResult) (weightCost weightLatency weightQuality : F64)
    (r : ModelResult) : F64 :=
  scoreResult r weightCost weightLatency weightQuality
    (minMaxMetric results "cost_usd").1 (minMaxMetric results "cost_usd").2
    (minMaxMetric results "latency_ms").1 (minMaxMetric results "latency_ms").2
    (minMaxMetric results "quality_score").1 (minMaxMetric results "quality_score").2

/-- One iteration of the loop of `weightedBest` over `results[1:]`; the state is
the pair `(best, bestScore)`. -/
def weightedStep (score : ModelResult → F64) (st : ModelResult × F64) (r : ModelResult) :
    ModelResult × F64 :=
  let s := score r
  if F64.lt s st.2 || (F64.eq s st.2 && decide (r.Diff < st.1.Diff)) then (r, s) else st

/-- The function `weightedBest`; `none` is the run-time panic of `results[0]` on
an empty slice. -/
def weightedBest (results : List ModelResult) (weightCost weightLatency weightQuality : F64) :
    Option (ModelResult × F64) :=
  match results with
  | [] => none
  | r0 :: rest =>
    let score := scoreIn results weightCost weightLatency weightQuality
    some (rest.foldl (weightedStep score) (r0, score r0))

/-- The function `tryQuantumOptimize`. -/
def tryQuantumOptimize (W : World) (results : List ModelResult) : ModelResult × Bool :=
  let base := trimRightSlash (W.getenv "QUANTUM_URL")
  if base == "" then ({}, false)
  else
    let candidates := results.map (fun r =>
      { ID := r.ModelID, CostUSD := metricValue r "cost_usd",
        LatencyMs := metricValue r "latency_ms", Quality := metricValue r "quality_score" : Cand })
    match W.postOptimize (base ++ "/optimize") candidates with
    | .failed _ => ({}, false)
    | .response status body =>
      if status != 200 then ({}, false)
      else
        match body with
        | .error _ => ({}, false)
        | .ok selectedID =>
          match results.find? (fun r => r.ModelID == selectedID) with
          | some r => (r, true)
          | none => ({}, false)

/-- The function `tryAgentCompiler`. -/
def tryAgentCompiler (W : World) (results : List ModelResult) (policy : String) :
    Except String MergeResult :=
  let base := trimRightSlash (W.getenv "AGENT_COMPILER_URL")
  if base == "" then .error "agent compiler disabled"
  else
    match W.postCompile (base ++ "/compile") policy results with
    | .failed err => .error err
    | .response status body =>
      if status != 200 then .error "agent compiler error"
      else
        match body with
        | .error err => .error err
        | .ok out =>
          if out.Diff == "" then .error "agent compiler empty diff"
          else
            .ok { SchemaVersion := schemaVersion, Diff := out.Diff,
                  Rationale := "agent compiler: " ++ out.Rationale,
                  Confidence := F64.ofRat 6 10, QualityScore := out.QualityScore }

/-- The slice `mapped` of `mergeResults`: each result reduced to its Diff and
the one metric compared. -/
def mapped (results : List ModelResult) (metric : String) : List Internal.ModelResult :=
  results.map (fun r =>
    { Diff := r.Diff, Metrics := [{ Name := metric, Value := metricValue r metric }] })

/-- The last block of `mergeResults`, reached with `metric` equal to `cost_usd`
(policy cost) or to `latency_ms` (every policy without a branch of its own). -/
def mergeLowest (results : List ModelResult) (metric : String) : Except String MergeResult :=
  let bo := Internal.MergeResults (mapped results metric) metric false
  if !bo.2 then .error "no results"
  else
    .ok { SchemaVersion := schemaVersion, Diff := bo.1.Diff,
          Rationale := "selected lowest " ++ metric ++ " with deterministic tie-breaker",
          Confidence := F64.ofRat 6 10,
          QualityScore := metricValueInternal bo.1 "quality_score" }

/-- The function `mergeResults`; `none` is a run-time panic (of `weightedBest` on
an empty slice). -/
def mergeResults (W : World) (results : List ModelResult) (policy : String)
    (weightCost weightLatency weightQuality : F64) : Option (Except String MergeResult) :=
  if EqualFold policy "cost" then some (mergeLowest results "cost_usd")
  else if EqualFold policy "quality" then
    let metric := "quality_score"
    let bo := Internal.MergeResults (mapped results metric) metric true
    if !bo.2 then some (.error "no results")
    else
      some (.ok { SchemaVersion := schemaVersion, Diff := bo.1.Diff,
                  Rationale := "selected highest " ++ metric ++ " with deterministic tie-breaker",
                  Confidence := F64.ofRat 6 10,
                  QualityScore := metricValueInternal bo.1 "quality_score" })
  else if EqualFold policy "quantum" then
    let bo := tryQuantumOptimize W results
    if bo.2 then
      some (.ok { SchemaVersion := schemaVersion, Diff := bo.1.Diff,
                  Rationale := "selected via quantum optimizer",
                  Confidence := F64.ofRat 6 10,
                  QualityScore := metricValue bo.1 "quality_score" })
    else some (.error "quantum optimize failed")
  else if EqualFold policy "weighted" then
    (weightedBest results weightCost weightLatency F64.zero).map (fun bs =>
      .ok { SchemaVersion := schemaVersion, Diff := bs.1.Diff,
            Rationale := "selected lowest weighted score " ++ W.formatFloat bs.2,
            Confidence := F64.ofRat 6 10,
            QualityScore := metricValue bs.1 "quality_score" })
  else if EqualFold policy "weighted_quality" then
    (weightedBest results weightCost weightLatency weightQuality).map (fun bs =>
      .ok { SchemaVersion := schemaVersion, Diff := bs.1.Diff,
            Rationale := "selected lowest weighted score " ++ W.formatFloat bs.2,
            Confidence := F64.ofRat 6 10,
            QualityScore := metricValue bs.1 "quality_score" })
  else some (mergeLowest results "latency_ms")

/-! ### Constraints -/

/-- The function `constraintString`: the value of the first constraint with the
key whose value is a string. -/
def constraintString : List Constraint → String → String
  | [], _ => ""
  | c :: cs, key =>
    if c.Key == key then
      match c.Value with
      | .str v => v
      | _ => constraintString cs key
    else constraintString cs key

/-- The function `constraintInt`. -/
def constraintInt : List Constraint → String → Int → Int
  | [], _, fallback => fallback
  | c :: cs, key, fallback =>
    if c.Key == key then
      match c.Value with
      | .float v => F64.toInt64 v
      | .int v => v
      | .str v => if v == "" then fallback else constraintInt cs key fallback
      | .other => constraintInt cs key fallback
    else constraintInt cs key fallback

/-- The function `constraintFloat`. -/
def constraintFloat : List Constraint → String → F64 → F64
  | [], _, fallback => fallback
  | c :: cs, key, fallback =>
    if c.Key == key then
      match c.Value with
      | .float v => v
      | .int v => F64.ofInt v
      | _ => constraintFloat cs key fallback
    else constraintFloat cs key fallback

/-- The function `splitCSV`. -/
def splitCSV (value : String) : List String :=
  ((splitComma value).map TrimSpace).filter (fun v => v != "")

/-! ### Metrics -/

/-- The struct `Metrics` (without its mutex); a nil map reads like an empty one. -/
structure Metrics where
  submitted : Int
  replayed : Int
  forcedFallback : Int
  replayMode : GoMap Int
  completed : Int
  failed : Int
  canceled : Int
  hfErrors : Int
  taskLatencyMs : List Int
  routingCounts : GoMap Int
  routingByModel : GoMap (GoMap Int)
  mergeChoice : GoMap Int
  modelLatencyMs : GoMap (List Int)
  retries : Int
  queueDelayMs : List Int

/-- A sample appended to a window that keeps the latest 100 samples. -/
def appendWindow (xs : List Int) (ms : Int) : List Int :=
  let ys := xs ++ [ms]
  if ys.length > 100 then ys.drop (ys.length - 100) else ys

/-- The increment `m[key]++` of a counter map. -/
def incCount (m : GoMap Int) (key : String) : GoMap Int :=
  m.set key ((m key).getD 0 + 1)

/-- The method `IncCompleted`. -/
def Metrics.IncCompleted (m : Metrics) : Metrics := { m with completed := m.completed + 1 }

/-- The method `IncFailed`. -/
def Metrics.IncFailed (m : Metrics) : Metrics := { m with failed := m.failed + 1 }

/-- The method `IncForcedFallback`. -/
def Metrics.IncForcedFallback (m : Metrics) : Metrics :=
  { m with forcedFallback := m.forcedFallback + 1 }

/-- The method `IncRetry`. -/
def Metrics.IncRetry (m : Metrics) : Metrics := { m with retries := m.retries + 1 }

/-- The method `ObserveLatency`. -/
def Metrics.ObserveLatency (m : Metrics) (ms : Int) : Metrics :=
  { m with taskLatencyMs := appendWindow m.taskLatencyMs ms }

/-- The method `ObserveQueueDelay`. -/
def Metrics.ObserveQueueDelay (m : Metrics) (ms : Int) : Metrics :=
  { m with queueDelayMs := appendWindow m.queueDelayMs ms }

/-- The method `ObserveModelLatency`. -/
def Metrics.ObserveModelLatency (m : Metrics) (model : String) (ms : Int) : Metrics :=
  if model == "" || ms ≤ 0 then m
  else
    { m with modelLatencyMs :=
        m.modelLatencyMs.set model (appendWindow ((m.modelLatencyMs model).getD []) ms) }

/-- The method `IncMergeChoice`. -/
def Metrics.IncMergeChoice (m : Metrics) (source : String) : Metrics :=
  let source := if TrimSpace source == "" then "unknown" else source
  { m with mergeChoice := incCount m.mergeChoice source }

/-- The method `IncRouting`. -/
def Metrics.IncRouting (m : Metrics) (policy : String) : Metrics :=
  let policy := if policy == "" then "latency" else policy
  { m with routingCounts := incCount m.routingCounts policy }

/-- The method `IncRoutingModel`. -/
def Metrics.IncRoutingModel (m : Metrics) (policy : String) (model : String) : Metrics :=
  let policy := if policy == "" then "latency" else policy
  { m with routingByModel :=
      m.routingByModel.set model (incCount ((m.routingByModel model).getD (fun _ => none)) policy) }

/-! ### Drivers and their selection -/

/-- The interface `Driver`.  `Run tick spec` is the outcome of the call of `Run`
made after `tick` earlier calls of drivers in the same run of `processTask`
(a driver may answer differently from one call to the next); an error is its
message. -/
structure Driver where
  ID : String
  Run : Nat → TaskSpec → Except String ModelResult

/-- The function `findDriverByID`; `none` is the nil driver. -/
def findDriverByID (drivers : List Driver) (id : String) : Option Driver :=
  drivers.find? (fun d => d.ID == id)

/-- The local struct `item` of `selectByBudget`. -/
structure Item where
  d : Driver
  cost : F64

/-- One insertion of the insertion sort: `x`, placed after the sorted items of
`rev` (held in reverse order), moves towards the front while it is less than
the item before it. -/
def insertItem (x : Item) : List Item → List Item
  | [] => [x]
  | y :: ys => if F64.lt x.cost y.cost then y :: insertItem x ys else x :: y :: ys

/-- Go `sort.Slice(items, less)` with `less` comparing the costs: the insertion
sort that `sort.Slice` runs on at most 12 items (on longer slices `sort.Slice`
leaves the order of items of equal cost unspecified). -/
def sortItems (items : List Item) : List Item :=
  (items.foldl (fun rev x => insertItem x rev) []).reverse

/-- The function `selectByBudget`; the loop state is the pair `(out, sum)`. -/
def selectByBudget (drivers : List Driver) (drvMeta : GoMap DriverMeta) (budgetUSD : F64) :
    List Driver :=
  let items := drivers.map (fun d =>
    { d := d, cost := match drvMeta d.ID with
                      | some m => m.CostUSD
                      | none => F64.zero : Item })
  ((sortItems items).foldl
    (fun (st : List Driver × F64) it =>
      if F64.le (F64.add st.2 it.cost) budgetUSD || st.1.length == 0 then
        (st.1 ++ [it.d], F64.add st.2 it.cost)
      else st)
    ([], F64.zero)).1

/-- The padding loop of `selectDrivers`: the drivers not yet selected are
appended until `minModels` drivers are selected. -/
def padDrivers (minModels : Int) : List Driver → List Driver → List Driver
  | out, [] => out
  | out, d :: ds =>
    if (out.length : Int) ≥ minModels then out
    else if out.any (fun s => s.ID == d.ID) then padDrivers minModels out ds
    else padDrivers minModels (out ++ [d]) ds

/-- The function `selectDrivers`. -/
def selectDrivers (spec : TaskSpec) (drivers : List Driver) (drvMeta : GoMap DriverMeta) :
    List Driver :=
  let preferred := constraintString spec.Constraints "models"
  let maxModels := constraintInt spec.Constraints "max_models" drivers.length
  let minModels := constraintInt spec.Constraints "min_models" 0
  let budgetUSD := constraintFloat spec.Constraints "budget_usd" F64.zero
  let out :=
    if preferred != "" then
      let allowed := (splitComma preferred).map TrimSpace
      drivers.filter (fun d => allowed.contains d.ID)
    else if F64.gt budgetUSD F64.zero then selectByBudget drivers drvMeta budgetUSD
    else drivers
  if maxModels > 0 ∧ (out.length : Int) > maxModels then out.take maxModels.toNat
  else if minModels > 0 ∧ (out.length : Int) < minModels then padDrivers minModels out drivers
  else out

/-- The function `queueDelayForPriority`, in nanoseconds. -/
def queueDelayForPriority (priority : String) : Int :=
  let p := ToLower (TrimSpace priority)
  if p == "low" then 150 * 1000000
  else if p == "normal" then 50 * 1000000
  else if p == "high" then 0
  else 50 * 1000000

/-- The function `fetchRAGContext`: nothing for an empty query, otherwise the
answer of the search service. -/
def fetchRAGContext (W : World) (ragURL : String) (query : String) :
    Except String (List ContextRef) :=
  if query == "" then .ok [] else W.ragSearch ragURL query

/-! ### Retry -/

/-- The loop of `runWithRetry` with `n` iterations left, the first of them being
the attempt number `attempt`; the state is the last error, the metrics and the
number of driver calls made. -/
def retryLoop (ctx : Context) (d : Driver) (spec : TaskSpec) (retries backoff : Int) :
    Nat → Int → Option String → Option Metrics → Nat →
      Except String ModelResult × Option Metrics × Nat
  | 0, _, lastErr, metrics, tick => (.error (lastErr.getD "driver failed"), metrics, tick)
  | n + 1, attempt, _, metrics, tick =>
    match d.Run tick spec with
    | .ok res => (.ok res, metrics, tick + 1)
    | .error err =>
      let metrics := if attempt < retries then metrics.map Metrics.IncRetry else metrics
      if attempt < retries ∧ backoff > 0 ∧ ctx.Done (tick + 1) then
        (.error ctx.Err, metrics, tick + 1)
      else retryLoop ctx d spec retries backoff n (attempt + 1) (some err) metrics (tick + 1)

/-- The function `runWithRetry`; `metrics` is `none` for a nil pointer, `tick` is
the number of driver calls made before.  The result comes with the metrics and
the number of driver calls made after.  The loop runs for the attempts
0, ..., retries, so `retries + 1` times at most (the Go counter `attempt` would
wrap around only after 2^63 calls). -/
def runWithRetry (ctx : Context) (d : Driver) (spec : TaskSpec) (metrics : Option Metrics)
    (tick : Nat) : Except String ModelResult × Option Metrics × Nat :=
  let retries := constraintInt spec.Constraints "retries" 0
  let backoff := wrapInt64 (constraintInt spec.Constraints "retry_backoff_ms" 200 * 1000000)
  retryLoop ctx d spec retries backoff (retries + 1).toNat 0 none metrics tick

/-! ### `processTask` -/

/-- The two loops of `processTask` that run drivers (the selected ones, then the
fallback ones); the state is the results, the metrics and the number of driver
calls made. -/
def runDrivers (ctx : Context) (spec : TaskSpec) (ds : List Driver)
    (st : List ModelResult × Metrics × Nat) : List ModelResult × Metrics × Nat :=
  ds.foldl
    (fun st d =>
      let r := runWithRetry ctx d spec (some st.2.1) st.2.2
      let metrics := r.2.1.getD st.2.1
      match r.1 with
      | .ok res =>
        (st.1 ++ [res],
          metrics.ObserveModelLatency res.ModelID (F64.toInt64 (metricValue res "latency_ms")),
          r.2.2)
      | .error _ => (st.1, metrics, r.2.2))
    st

/-- The block of `processTask` that ends a task as failed, with the error of the
trace (it stands twice in `processTask`). -/
def failTask (W : World) (store : TaskStore) (id : String) (trace : TaskTrace)
    (errText : String) (metrics : Metrics) : TaskStore × Metrics :=
  let status := (store.statuses id).getD {}
  let status := { status with State := "failed", Progress := F64.one, UpdatedAt := W.updatedAt }
  let trace := { trace with State := "failed", FinishedAt := W.finishedAt, Error := errText }
  ({ store with statuses := store.statuses.set id status, traces := store.traces.set id trace },
    metrics.IncFailed.ObserveLatency W.elapsedMs)

/-- The call of `mergeResults` that `processTask` makes, with the weights of the
constraints. -/
def localMerge (W : World) (spec : TaskSpec) (results : List ModelResult) (policy : String) :
    Option (Except String MergeResult) :=
  mergeResults W results policy
    (constraintFloat spec.Constraints "weight_cost" (F64.ofRat 3 10))
    (constraintFloat spec.Constraints "weight_latency" (F64.ofRat 7 10))
    (constraintFloat spec.Constraints "weight_quality" F64.zero)

/-- The switch of `processTask` on the forced merge source: the merge source, the
merge or its error, and the metrics; `none` is a panic of `mergeResults`. -/
def mergeSwitch (W : World) (spec : TaskSpec) (results : List ModelResult) (policy : String)
    (forceMergeSource : String) (metrics : Metrics) :
    Option (String × Except String MergeResult × Metrics) :=
  if forceMergeSource == "agent_compiler" then
    match tryAgentCompiler W results policy with
    | .ok merge => some ("agent_compiler", .ok merge, metrics)
    | .error err =>
      some ("agent_compiler", .error ("forced agent_compiler failed: " ++ err), metrics)
  else if forceMergeSource == "agent_compiler_soft" then
    match tryAgentCompiler W results policy with
    | .ok merge => some ("agent_compiler", .ok merge, metrics)
    | .error _ =>
      (localMerge W spec results policy).map (fun r =>
        match r with
        | .ok merge => ("policy_merge", .ok merge, metrics.IncForcedFallback)
        | .error err => ("policy_merge", .error err, metrics))
  else if forceMergeSource == "policy_merge" then
    (localMerge W spec results policy).map (fun r => ("policy_merge", r, metrics))
  else
    match tryAgentCompiler W results policy with
    | .ok merge => some ("agent_compiler", .ok merge, metrics)
    | .error _ => (localMerge W spec results policy).map (fun r => ("policy_merge", r, metrics))

/-- The function `processTask`, with a non-nil `metrics` (its one caller passes
the metrics of the process): the store and the metrics when it returns; `none`
is a run-time panic. -/
def processTask (W : World) (store : TaskStore) (drivers : List Driver)
    (drvMeta : GoMap DriverMeta) (id : String) (spec : TaskSpec) (ragURL : String)
    (metrics : Metrics) : Option (TaskStore × Metrics) :=
  let trace : TaskTrace :=
    { SchemaVersion := schemaVersion, TaskID := id, State := "running",
      StartedAt := W.startedAt, RoutingPolicy := constraintString spec.Constraints "routing" }
  let trace :=
    match store.traces id with
    | some existing =>
      { trace with
        ParentTaskID := existing.ParentTaskID,
        StartedAt := if existing.StartedAt != "" then existing.StartedAt else trace.StartedAt }
    | none => trace
  let timeoutMs := constraintInt spec.Constraints "budget_ms" 2000
  let ctx := W.withTimeout (wrapInt64 (timeoutMs * 1000000))
  let delay := queueDelayForPriority spec.Metadata.Priority
  let metrics := if delay > 0 then metrics.ObserveQueueDelay (delay / 1000000) else metrics
  let spec :=
    if ragURL != "" then
      match fetchRAGContext W ragURL spec.Input with
      | .ok ctxs => if ctxs.length > 0 then { spec with Context := spec.Context ++ ctxs } else spec
      | .error _ => spec
    else spec
  let selected := selectDrivers spec drivers drvMeta
  let trace := { trace with Selected := trace.Selected ++ selected.map (fun d => d.ID) }
  let st := runDrivers ctx spec selected ([], metrics, 0)
  let st :=
    if st.1.length == 0 then
      runDrivers ctx spec
        ((splitCSV (constraintString spec.Constraints "fallback_models")).filterMap
          (findDriverByID drivers)) st
    else st
  if st.1.length == 0 then some (failTask W store id trace "no model results" st.2.1)
  else
    let results := st.1
    let trace :=
      { trace with Results := trace.Results ++ results.map (fun r =>
          { ModelID := r.ModelID, DiffLen := r.Diff.utf8ByteSize,
            LatencyMs := metricValue r "latency_ms", CostUSD := metricValue r "cost_usd",
            QualityScore := metricValue r "quality_score" : TraceModelResult }) }
    let policy := constraintString spec.Constraints "routing"
    let metrics := st.2.1.IncRouting policy
    let metrics := selected.foldl (fun m d => m.IncRoutingModel policy d.ID) metrics
    let forceMergeSource :=
      ToLower (TrimSpace (constraintString spec.Constraints "force_merge_source"))
    match mergeSwitch W spec results policy forceMergeSource metrics with
    | none => none
    | some (_, .error err, metrics) =>
      some (failTask W store id trace ("merge failed: " ++ err) metrics)
    | some (mergeSource, .ok merge, metrics) =>
      let artifact : Artifact :=
        { SchemaVersion := schemaVersion, ID := "artifact_" ++ W.randString 8, Typ := "diff",
          Path := "artifacts/" ++ id ++ "/patch.diff", Sha256 := "", CreatedAt := W.createdAt }
      let status := (store.statuses id).getD {}
      let status :=
        { status with State := "completed", Progress := F64.one, UpdatedAt := W.updatedAt }
      let trace :=
        { trace with State := "completed", FinishedAt := W.finishedAt,
                     MergeSource := mergeSource, Merge := some merge }
      some ({ store with
                statuses := store.statuses.set id status,
                artifacts := store.artifacts.set id [artifact],
                results := store.results.set id merge,
                traces := store.traces.set id trace },
            (metrics.IncMergeChoice mergeSource).IncCompleted.ObserveLatency W.elapsedMs)

/-! ### The task queue -/

/-- The struct `queuedTask`; the time `enqueued` is in nanoseconds. -/
structure queuedTask where
  id : String
  spec : TaskSpec
  enqueued : Int
  deriving DecidableEq, Repr

/-- The zero value `queuedTask{}`. -/
def queuedTask.zero : queuedTask :=
  { id := "",
    spec := { SchemaVersion := "", ID := "", Typ := "", Input := "", Context := [],
              Constraints := [], Metadata := { Requester := "", Priority := "" } },
    enqueued := 0 }

/-- The struct `TaskQueue`.  A buffered channel is the list of the tasks it
holds, the oldest first; `size` is the capacity that the three channels were
made with. -/
structure TaskQueue where
  size : Nat
  high : List queuedTask
  normal : List queuedTask
  low : List queuedTask
  deriving DecidableEq, Repr

/-- The function `NewTaskQueue`. -/
def NewTaskQueue (size : Int) : TaskQueue :=
  let size := if size ≤ 0 then 200 else size
  { size := size.toNat, high := [], normal := [], low := [] }

/-- A send `ch <- t` on a buffered channel of capacity `size`: the channel with
`t` at its tail, `none` when the channel is full and the send blocks. -/
def chanSend (size : Nat) (ch : List queuedTask) (t : queuedTask) : Option (List queuedTask) :=
  if ch.length < size then some (ch ++ [t]) else none

/-- The method `Enqueue`: the queue after the call and the error returned (`none`
is the nil error); the result `none` is a call that blocks on a full channel. -/
def TaskQueue.Enqueue (q : TaskQueue) (t : queuedTask) : Option (TaskQueue × Option String) :=
  let p := ToLower (TrimSpace t.spec.Metadata.Priority)
  if p == "high" then
    (chanSend q.size q.high t).map (fun ch => ({ q with high := ch }, none))
  else if p == "low" then
    (chanSend q.size q.low t).map (fun ch => ({ q with low := ch }, none))
  else
    (chanSend q.size q.normal t).map (fun ch => ({ q with normal := ch }, none))

/-- A case of the second `select` statement of `Dequeue`. -/
inductive SelectCase where
  | high : SelectCase
  | normal : SelectCase
  | low : SelectCase
  | done : SelectCase
  deriving DecidableEq, Repr

/-- The cases of the second `select` of `Dequeue` that can proceed: a channel
that holds a task, and `ctx.Done()` when the context is done. -/
def readyCases (q : TaskQueue) (done : Bool) : List SelectCase :=
  (if q.high.isEmpty then [] else [SelectCase.high]) ++
  (if q.normal.isEmpty then [] else [SelectCase.normal]) ++
  (if q.low.isEmpty then [] else [SelectCase.low]) ++
  (if done then [SelectCase.done] else [])

/-- The method `Dequeue`, run when no other goroutine touches the queue: the
values returned and the queue after the call; `none` is a call that blocks, no
case being able to proceed.  `done` says whether `ctx.Done()` is closed; `pick`
is the pseudo-random number by which `select` chooses among the cases that can
proceed.  Every case of the second `select` returns, so the loop body runs
once. -/
def TaskQueue.Dequeue (q : TaskQueue) (done : Bool) (pick : Nat) :
    Option ((queuedTask × Bool) × TaskQueue) :=
  match q.high with
  | t :: rest => some ((t, true), { q with high := rest })
  | [] =>
    let ready := readyCases q done
    match ready[pick % ready.length]? with
    | none => none
    | some SelectCase.high =>
      match q.high with
      | t :: rest => some ((t, true), { q with high := rest })
      | [] => none
    | some SelectCase.normal =>
      match q.normal with
      | t :: rest => some ((t, true), { q with normal := rest })
      | [] => none
    | some SelectCase.low =>
      match q.low with
      | t :: rest => some ((t, true), { q with low := rest })
      | [] => none
    | some SelectCase.done => some ((queuedTask.zero, false), q)

/-- The method `Depth`. -/
def TaskQueue.Depth (q : TaskQueue) : Int :=
  (q.high.length : Int) + (q.normal.length : Int) + (q.low.length : Int)

/-! ### The handlers that write the store -/

/-- The function `NewTaskStore`. -/
def NewTaskStore : TaskStore where
  statuses := fun _ => none
  artifacts := fun _ => none
  results := fun _ => none
  traces := fun _ => none
  specs := fun _ => none

/-- The method `IncSubmitted`. -/
def Metrics.IncSubmitted (m : Metrics) : Metrics := { m with submitted := m.submitted + 1 }

/-- The method `IncReplayed`. -/
def Metrics.IncReplayed (m : Metrics) : Metrics := { m with replayed := m.replayed + 1 }

/-- The method `IncReplayMode`. -/
def Metrics.IncReplayMode (m : Metrics) (mode : String) : Metrics :=
  let mode := ToLower (TrimSpace mode)
  let mode := if mode == "" then "default" else mode
  { m with replayMode := incCount m.replayMode mode }

/-- The method `IncCanceled`. -/
def Metrics.IncCanceled (m : Metrics) : Metrics := { m with canceled := m.canceled + 1 }

/-- The function `upsertConstraint`: the value of the first constraint whose key
equals `key` under case folding is replaced; without such a constraint a new one
is appended. -/
def upsertConstraint (constraints : List Constraint) (key : String) (value : CValue) :
    List Constraint :=
  match constraints with
  | [] => [{ Key := key, Value := value }]
  | c :: cs =>
    if EqualFold c.Key key then { c with Value := value } :: cs
    else c :: upsertConstraint cs key value

/-- The handler of `POST /tasks` from the decoded body `spec` up to the call of
`Enqueue`: the spec with its defaults, the status of the response, the store and
the metrics; `now` is the reading of the clock. -/
def submitTask (W : World) (store : TaskStore) (metrics : Metrics) (spec : TaskSpec)
    (now : String) : TaskSpec × TaskStatus × TaskStore × Metrics :=
  let spec := if spec.SchemaVersion == "" then { spec with SchemaVersion := schemaVersion } else spec
  let spec := if spec.ID == "" then { spec with ID := "task_" ++ W.randString 8 } else spec
  let status : TaskStatus :=
    { SchemaVersion := schemaVersion, ID := spec.ID, State := "queued", Progress := F64.zero,
      StartedAt := now, UpdatedAt := now }
  let store :=
    { store with
      statuses := store.statuses.set spec.ID status,
      specs := store.specs.set spec.ID spec,
      traces := store.traces.set spec.ID
        { SchemaVersion := schemaVersion, TaskID := spec.ID, State := "queued", StartedAt := now,
          RoutingPolicy := constraintString spec.Constraints "routing" } }
  (spec, status, store, metrics.IncSubmitted)

/-- The function `enqueueReplayTask` up to the call of `Enqueue`: the replay spec,
its status, the store and the metrics (`none` is the nil pointer), or the error;
`now` is the reading of the clock. -/
def enqueueReplayTask (W : World) (store : TaskStore) (metrics : Option Metrics)
    (parentID : String) (mode : String) (now : String) :
    Except String (TaskSpec × TaskStatus × TaskStore × Option Metrics) :=
  let parentID := TrimSpace parentID
  if parentID == "" then .error "missing parent task id"
  else
    match store.specs parentID with
    | none => .error "parent task not found"
    | some parentSpec =>
      let replaySpec := { parentSpec with ID := "task_" ++ W.randString 8 }
      let mode := ToLower (TrimSpace mode)
      let replaySpec :=
        if mode == "force-agent" then
          { replaySpec with Constraints :=
              upsertConstraint replaySpec.Constraints "force_merge_source" (.str "agent_compiler") }
        else if mode == "force-agent-soft" then
          { replaySpec with Constraints :=
              (upsertConstraint replaySpec.Constraints "force_merge_source"
                (.str "agent_compiler_soft")) }
        else if mode == "force-policy" then
          { replaySpec with Constraints :=
              upsertConstraint replaySpec.Constraints "force_merge_source" (.str "policy_merge") }
        else replaySpec
      let mode :=
        if mode == "force-agent" || mode == "force-agent-soft" || mode == "force-policy" then mode
        else "default"
      let replayStatus : TaskStatus :=
        { SchemaVersion := schemaVersion, ID := replaySpec.ID, State := "queued",
          Progress := F64.zero, StartedAt := now, UpdatedAt := now }
      let replayTrace : TaskTrace :=
        { SchemaVersion := schemaVersion, TaskID := replaySpec.ID, ParentTaskID := parentID,
          State := "queued", StartedAt := now,
          RoutingPolicy := constraintString replaySpec.Constraints "routing" }
      let store :=
        { store with
          statuses := store.statuses.set replaySpec.ID replayStatus,
          specs := store.specs.set replaySpec.ID replaySpec,
          traces := store.traces.set replaySpec.ID replayTrace }
      .ok (replaySpec, replayStatus, store,
        metrics.map (fun m => (m.IncSubmitted.IncReplayed).IncReplayMode mode))

/-- The critical section of a worker of `startWorkers` on the task it dequeued,
before it calls `processTask`; `now` is the reading of the clock. -/
def workerStart (store : TaskStore) (task : queuedTask) (now : String) : TaskStore :=
  let status := (store.statuses task.id).getD {}
  let status :=
    { status with State := "running", Progress := F64.ofRat 1 10, StartedAt := now,
                  UpdatedAt := now }
  let trace := (store.traces task.id).getD {}
  let trace := { trace with State := "running", StartedAt := now }
  let trace :=
    if trace.RoutingPolicy == "" then
      { trace with RoutingPolicy := constraintString task.spec.Constraints "routing" }
    else trace
  { store with
    statuses := store.statuses.set task.id status,
    traces := store.traces.set task.id trace }

/-- The critical section of the handler of `POST /tasks/{id}/cancel`: the
status of the response (`none` when the task is not found), the store, the
metrics; `now` is the reading of the clock. -/
def cancelTask (store : TaskStore) (metrics : Metrics) (id : String) (now : String) :
    Option TaskStatus × TaskStore × Metrics :=
  match store.statuses id with
  | some status =>
    let status := { status with State := "canceled", UpdatedAt := now }
    let trace := (store.traces id).getD {}
    let trace := { trace with State := "canceled", FinishedAt := status.UpdatedAt }
    (some status,
      { store with
        statuses := store.statuses.set id status,
        traces := store.traces.set id trace },
      metrics.IncCanceled)
  | none => (none, store, metrics)

/-! ### The availability prober -/

/-- The struct `pingState`.  A `time.Time` is an instant in nanoseconds, the zero
`time.Time` is 0; a `time.Duration` is an int64 number of nanoseconds. -/
structure pingState where
  okUntil : Int := 0
  failUntil : Int := 0
  backoff : Int := 0
  deriving DecidableEq, Repr

/-- The struct `PingService` (without its mutex). -/
structure PingService where
  m : GoMap pingState
  ttl : Int
  backoff : Int
  backoffMax : Int
  okCount : Int
  failCount : Int
  skipCount : Int

/-- The function `NewPingService`. -/
def NewPingService (ttl backoff backoffMax : Int) : PingService :=
  { m := fun _ => none, ttl := ttl, backoff := backoff, backoffMax := backoffMax,
    okCount := 0, failCount := 0, skipCount := 0 }

/-- The method `IsAvailable`, for a call that no other call overlaps: `now` is
the reading of the clock and `ping` the answer of `d.pingAvailable(modelID)`,
should it be called.  The result is the value returned, the service after the
call and the number of calls of `pingAvailable` made. -/
def PingService.IsAvailable (p : PingService) (modelID : String) (now : Int) (ping : Bool) :
    Bool × PingService × Nat :=
  let st := (p.m modelID).getD {}
  let p := if (p.m modelID).isSome then p else { p with m := p.m.set modelID st }
  if st.okUntil > now then (true, { p with skipCount := p.skipCount + 1 }, 0)
  else if st.failUntil > now then (false, { p with skipCount := p.skipCount + 1 }, 0)
  else if ping then
    (true,
      { p with
        okCount := p.okCount + 1,
        m := p.m.set modelID { st with backoff := 0, okUntil := now + p.ttl, failUntil := 0 } },
      1)
  else
    let backoff :=
      if st.backoff == 0 then p.backoff
      else
        let b := wrapInt64 (st.backoff * 2)
        if b > p.backoffMax then p.backoffMax else b
    (false,
      { p with
        failCount := p.failCount + 1,
        m := p.m.set modelID { st with backoff := backoff, failUntil := now + backoff } },
      1)

/-! ### The quality estimate -/

/-- The loop of `splitLines`: `cur` holds the runes of the current line in
reverse order. -/
def splitLinesAux : List Char → List Char → List String
  | cur, [] => [String.mk cur.reverse]
  | cur, c :: cs =>
    if c == '\n' then String.mk cur.reverse :: splitLinesAux [] cs
    else splitLinesAux (c :: cur) cs

/-- Go `strings.Split(s, "\n")`. -/
def splitLines (s : String) : List String := splitLinesAux [] s.data

/-- Go `strings.HasPrefix(s, p)`. -/
def HasPrefix (s p : String) : Bool := p.data.isPrefixOf s.data

/-- The loop of `Count`: the occurrences of the non-empty `t` in `s` that do not
overlap, found from the left; `n` bounds the number of runes looked at. -/
def countAux (t : List Char) : Nat → List Char → Nat
  | 0, _ => 0
  | _ + 1, [] => 0
  | n + 1, c :: cs =>
    if t.isPrefixOf (c :: cs) then 1 + countAux t n ((c :: cs).drop t.length)
    else countAux t n cs

/-- Go `strings.Count(s, t)` for a non-empty `t`. -/
def Count (s t : String) : Int := (countAux t.data s.data.length s.data : Nat)

/-- The function `errorTokenCount`. -/
def errorTokenCount (text : String) : Int :=
  let lower := ToLower text
  ["error", "exception", "failed", "panic"].foldl (fun count t => count + Count lower t) 0

/-- The function `minInt`. -/
def minInt (a b : Int) : Int := if a < b then a else b

/-- The struct `diffStat`. -/
structure diffStat where
  files : Int := 0
  hunks : Int := 0
  additions : Int := 0
  deletions : Int := 0
  totalLines : Int := 0
  deriving DecidableEq, Repr

/-- The function `diffStats`. -/
def diffStats (diff : String) : diffStat :=
  if diff == "" then {}
  else
    let lines := splitLines diff
    lines.foldl
      (fun s line =>
        if HasPrefix line "diff --git" then { s with files := s.files + 1 }
        else if HasPrefix line "@@" then { s with hunks := s.hunks + 1 }
        else if HasPrefix line "+" && !HasPrefix line "+++" then
          { s with additions := s.additions + 1 }
        else if HasPrefix line "-" && !HasPrefix line "---" then
          { s with deletions := s.deletions + 1 }
        else s)
      { totalLines := lines.length }

/-- The function `estimateQuality`; `sha256First` gives the first byte of
`sha256.Sum256` of the bytes of a string. -/
def estimateQuality (sha256First : String → Fin 256) (output diff : String) : F64 :=
  if output == "" && diff == "" then F64.zero
  else
    let stats := diffStats diff
    let diffLen := stats.totalLines
    let outputLen : Int := output.utf8ByteSize
    let errCount := errorTokenCount output
    let score := F64.ofRat 9 10
    let score :=
      if diffLen > 800 then F64.sub score (F64.ofRat 2 10)
      else if diffLen > 300 then F64.sub score (F64.ofRat 1 10)
      else score
    let score := if outputLen < 20 then F64.sub score (F64.ofRat 1 10) else score
    let score :=
      if errCount > 0 then
        F64.sub score (F64.mul (F64.ofRat 1 10) (F64.ofInt (minInt errCount 3)))
      else score
    let score := if stats.files > 10 then F64.sub score (F64.ofRat 1 10) else score
    let score := if stats.hunks > 20 then F64.sub score (F64.ofRat 1 10) else score
    let score :=
      if stats.additions + stats.deletions > 200 then F64.sub score (F64.ofRat 1 10) else score
    let score :=
      if stats.deletions > 0 then
        let ratio := F64.div (F64.ofInt stats.additions) (F64.ofInt stats.deletions)
        if F64.lt ratio (F64.ofRat 5 10) || F64.gt ratio (F64.ofRat 2 1) then
          F64.sub score (F64.ofRat 5 100)
        else score
      else score
    let hashComponent :=
      F64.div (F64.ofInt (sha256First (output ++ "|" ++ diff)).val) (F64.ofRat 255 1)
    let score := F64.add (F64.mul score (F64.ofRat 7 10)) (F64.mul hashComponent (F64.ofRat 3 10))
    if F64.lt score F64.zero then F64.zero
    else if F64.gt score F64.one then F64.one
    else score

/-! ### The replay chain -/

/-- The struct `TaskSummary`. -/
structure TaskSummary where
  ID : String := ""
  ParentTaskID : String := ""
  State : String := ""
  UpdatedAt : String := ""
  MergeSource : String := ""
  QualityScore : F64 := F64.zero
  deriving DecidableEq, Repr

/-- The struct `ReplayChain`. -/
structure ReplayChain where
  SchemaVersion : String := ""
  TaskID : String := ""
  Lineage : List TaskSummary := []
  Descendants : List TaskSummary := []
  deriving DecidableEq, Repr

/-- The closure `summaryOf` of `ReplayChain`. -/
def summaryOf (s : TaskStore) (id : String) : TaskSummary :=
  let st := (s.statuses id).getD {}
  let tr := (s.traces id).getD {}
  { ID := id, ParentTaskID := tr.ParentTaskID, State := st.State, UpdatedAt := st.UpdatedAt,
    MergeSource := tr.MergeSource,
    QualityScore := match tr.Merge with
      | some m => m.QualityScore
      | none => F64.zero }

/-- The loop of `ReplayChain` that walks the parents of the task: `cur`, the set
`seen` and the slice `lineageReversed`; `none` when the `n` iterations allowed
do not end the loop. -/
def lineageLoop (s : TaskStore) : Nat → String → List String → List TaskSummary →
    Option (List TaskSummary)
  | 0, cur, seen, lineageReversed =>
    if cur != "" && !seen.contains cur then none else some lineageReversed
  | n + 1, cur, seen, lineageReversed =>
    if cur != "" && !seen.contains cur then
      lineageLoop s n (TrimSpace ((s.traces cur).getD {}).ParentTaskID) (cur :: seen)
        (lineageReversed ++ [summaryOf s cur])
    else some lineageReversed

/-- The map `children` of `ReplayChain`; `order` is the order in which the
`range` over `s.traces` yields the ids. -/
def childrenMap (s : TaskStore) (order : List String) : GoMap (List String) :=
  order.foldl
    (fun children id =>
      let p := TrimSpace ((s.traces id).getD {}).ParentTaskID
      if p != "" then children.set p ((children p).getD [] ++ [id]) else children)
    (fun _ => none)

/-- The loop of `ReplayChain` over the queue of descendants: the queue, the set
`seenDesc` and the slice `descendants`; `none` when the `n` iterations allowed
do not empty the queue. -/
def descLoop (s : TaskStore) (children : GoMap (List String)) : Nat → List String →
    List String → List TaskSummary → Option (List TaskSummary)
  | _, [], _, descendants => some descendants
  | 0, _ :: _, _, _ => none
  | n + 1, id :: queue, seenDesc, descendants =>
    if seenDesc.contains id then descLoop s children n queue seenDesc descendants
    else if (s.statuses id).isNone then descLoop s children n queue (id :: seenDesc) descendants
    else
      descLoop s children n (queue ++ (children id).getD []) (id :: seenDesc)
        (descendants ++ [summaryOf s id])

/-- The comparison of two strings rune by rune. -/
def ltRunes : List Char → List Char → Bool
  | [], [] => false
  | [], _ :: _ => true
  | _ :: _, [] => false
  | a :: as, b :: bs =>
    if a.toNat < b.toNat then true
    else if b.toNat < a.toNat then false
    else ltRunes as bs

/-- Go `a < b` on strings: the lexicographic order of the bytes, which is that
of the runes. -/
def strLess (a b : String) : Bool := ltRunes a.data b.data

/-- One insertion of the insertion sort of the descendants: `x`, placed after
the sorted summaries of `rev` (held in reverse order), moves towards the front
while it was updated after the summary before it. -/
def insertSummary (x : TaskSummary) : List TaskSummary → List TaskSummary
  | [] => [x]
  | y :: ys =>
    if strLess y.UpdatedAt x.UpdatedAt then y :: insertSummary x ys else x :: y :: ys

/-- Go `sort.Slice(descendants, less)` with `less` comparing `UpdatedAt` with
`>`: the insertion sort that `sort.Slice` runs on at most 12 items (on longer
slices `sort.Slice` leaves the order of summaries of equal `UpdatedAt`
unspecified). -/
def sortSummaries (descendants : List TaskSummary) : List TaskSummary :=
  (descendants.foldl (fun rev x => insertSummary x rev) []).reverse

/-- The method `ReplayChain`; `order` is the order in which the `range` over
`s.traces` yields the ids and `fuel` the number of iterations allowed to each of
the two loops (`none` when a loop needs more). -/
def TaskStore.ReplayChain (s : TaskStore) (order : List String) (fuel : Nat)
    (taskID : String) : Option (ReplayChain × Bool) :=
  if (s.statuses taskID).isNone then some ({}, false)
  else
    match lineageLoop s fuel taskID [] [] with
    | none => none
    | some lineageReversed =>
      let lineage := lineageReversed.reverse
      let children := childrenMap s order
      match descLoop s children fuel ((children taskID).getD []) [] [] with
      | none => none
      | some descendants =>
        some ({ SchemaVersion := schemaVersion, TaskID := taskID, Lineage := lineage,
                Descendants := sortSummaries descendants }, true)

end Orchestrator

/-! ## Package `main` of `web6-3d/cmd/web6-3d` -/

namespace Web6

/-- The function `computeProxyAlert`: the level, the score and the reason. -/
def computeProxyAlert (jsonAge promAge staleThreshold criticalThreshold : Int) :
    String × Int × String :=
  let criticalThreshold :=
    if criticalThreshold < staleThreshold then staleThreshold else criticalThreshold
  let jsonMissing := decide (jsonAge < 0)
  let promMissing := decide (promAge < 0)
  if jsonMissing || promMissing then
    let reason :=
      if jsonMissing && promMissing then "json+prom missing"
      else if jsonMissing then "json missing"
      else if promMissing then "prom missing"
      else "missing"
    ("critical", 2, reason)
  else if jsonAge > criticalThreshold || promAge > criticalThreshold then
    ("critical", 2, "age above critical threshold")
  else if jsonAge > staleThreshold || promAge > staleThreshold then
    ("warn", 1, "age above stale threshold")
  else ("ok", 0, "fresh")

end Web6

/-! ## Auxiliary definitions used in the statements and proofs -/

namespace F64

/-- An order embedding of the non-NaN values: the class (minus infinity, finite,
plus infinity), then the signed number of units. -/
def ord : F64 → ℤ ×ₗ ℤ
  | nan => toLex (2, 0)
  | inf true => toLex (-1, 0)
  | inf false => toLex (1, 0)
  | fin s k => toLex (0, signed s k)

/-- The embedding `ord` in the direction of the selection: reversed when the
higher value is preferred. -/
def ordDir (preferHigher : Bool) (x : F64) : ℤ ×ₗ ℤ :=
  if preferHigher then toLex (-(ofLex (ord x)).1, -(ofLex (ord x)).2) else ord x

end F64

namespace Internal

/-- The sort key that `MergeResults` minimises: the metric value in the direction
of the selection, then the Diff. -/
def mergeKey (preferHigher : Bool) (st : ModelResult × F64) : (ℤ ×ₗ ℤ) ×ₗ String :=
  toLex (F64.ordDir preferHigher st.2, st.1.Diff)

/-- No result of the list has a NaN for the metric. -/
def NoNaN (results : List ModelResult) (metric : String) : Prop :=
  ∀ r ∈ results, (metricOf r metric).isNaN = false

/-- The results of `TestMergeResults_SelectsLowestLatency`. -/
def twoLatencies : List ModelResult :=
  [⟨"b", [⟨"latency_ms", F64.ofRat 150 1⟩]⟩, ⟨"a", [⟨"latency_ms", F64.ofRat 120 1⟩]⟩]

/-- The results of `TestMergeResults_TieBreakByDiff`. -/
def twoTied : List ModelResult :=
  [⟨"b", [⟨"latency_ms", F64.ofRat 120 1⟩]⟩, ⟨"a", [⟨"latency_ms", F64.ofRat 120 1⟩]⟩]

/-- A two-element result list whose first result has a NaN latency. -/
def nanFirst : List ModelResult :=
  [⟨"a", [⟨"latency_ms", F64.nan⟩]⟩, ⟨"b", [⟨"latency_ms", F64.ofRat 120 1⟩]⟩]

end Internal

namespace Orchestrator

/-- A world without services: no environment variable is set, every request
fails, the clock and the random source give fixed strings. -/
def World.quiet : World where
  getenv := fun _ => ""
  postCompile := fun _ _ _ => .failed "connection refused"
  postOptimize := fun _ _ => .failed "connection refused"
  ragSearch := fun _ _ => .error "connection refused"
  formatFloat := fun _ => "0.0000"
  startedAt := "2024-01-01T00:00:00Z"
  updatedAt := "2024-01-01T00:00:01Z"
  finishedAt := "2024-01-01T00:00:01Z"
  createdAt := "2024-01-01T00:00:01Z"
  elapsedMs := 1000
  randString := fun _ => "abcdefgh"
  withTimeout := fun _ => { Done := fun _ => false, Err := "context deadline exceeded" }

/-- The value of `x` is at most that of `y` in the direction of the selection. -/
def dirLe (higher : Bool) (x y : F64) : Bool :=
  if higher then F64.le y x else F64.le x y

/-- The outcome `out` of a merge selects by the metric `m`, as far as the values
are not NaN: the error "no results" on an empty list, otherwise the Diff of a
result whose value of `m` is the minimum (the maximum when `higher`) over the
list and whose Diff is the least among the results of equal value. -/
def SelectsBy (results : List ModelResult) (m : String) (higher : Bool)
    (out : Option (Except String MergeResult)) : Prop :=
  (results = [] → out = some (.error "no results")) ∧
  (results ≠ [] → (∀ r ∈ results, (metricValue r m).isNaN = false) →
    ∃ r ∈ results, ∃ mr, out = some (.ok mr) ∧ mr.Diff = r.Diff ∧
      (∀ x ∈ results, dirLe higher (metricValue r m) (metricValue x m) = true) ∧
      (∀ x ∈ results, F64.eq (metricValue x m) (metricValue r m) = true → r.Diff ≤ x.Diff))

/-- Two strings are equal up to the case of their ASCII letters. -/
def asciiCaseEq (s t : String) : Prop :=
  List.Forall₂ (fun c d : Char => c = d ∨ (c.isAlpha = true ∧ d.isAlpha = true ∧
    c.toLower = d.toLower)) s.data t.data

/-- Two results with the metrics of a stub driver: "b" is slower, dearer and
worse than "a". -/
def twoResults : List ModelResult :=
  [{ ModelID := "m1", Diff := "b",
     Metrics := [⟨"latency_ms", F64.ofRat 150 1⟩, ⟨"cost_usd", F64.ofRat 2 100⟩,
                 ⟨"quality_score", F64.ofRat 6 10⟩] },
   { ModelID := "m2", Diff := "a",
     Metrics := [⟨"latency_ms", F64.ofRat 120 1⟩, ⟨"cost_usd", F64.ofRat 1 100⟩,
                 ⟨"quality_score", F64.ofRat 9 10⟩] }]

/-- A result seen by `internal.MergeResults` with its score as the one metric. -/
def asScored (score : ModelResult → F64) (r : ModelResult) : Internal.ModelResult :=
  { Diff := r.Diff, Metrics := [{ Name := "score", Value := score r }] }

/-- The greatest finite float64, `math.MaxFloat64`. -/
def maxFloat : F64 := F64.fin false ((2 ^ 53 - 1) * 2 ^ 2045)

/-- Two results with finite costs whose difference overflows. -/
def farCosts : List ModelResult :=
  [{ ModelID := "m1", Diff := "b", Metrics := [⟨"cost_usd", maxFloat⟩] },
   { ModelID := "m2", Diff := "a", Metrics := [⟨"cost_usd", F64.neg maxFloat⟩] }]

/-- Two results, the first with a NaN cost. -/
def nanCost : List ModelResult :=
  [{ ModelID := "m1", Diff := "a", Metrics := [⟨"cost_usd", F64.nan⟩] },
   { ModelID := "m2", Diff := "b", Metrics := [⟨"cost_usd", F64.ofRat 1 100⟩] }]

/-- The task spec that `processTask` works with: the spec with the context
fetched from the RAG service appended. -/
def taskSpec (W : World) (spec : TaskSpec) (ragURL : String) : TaskSpec :=
  if ragURL != "" then
    match fetchRAGContext W ragURL spec.Input with
    | .ok ctxs => if ctxs.length > 0 then { spec with Context := spec.Context ++ ctxs } else spec
    | .error _ => spec
  else spec

/-- The trace that `processTask` has built when the drivers are selected. -/
def taskTrace (W : World) (store : TaskStore) (drivers : List Driver)
    (drvMeta : GoMap DriverMeta) (id : String) (spec : TaskSpec) (ragURL : String) :
    TaskTrace :=
  let trace : TaskTrace :=
    { SchemaVersion := schemaVersion, TaskID := id, State := "running",
      StartedAt := W.startedAt, RoutingPolicy := constraintString spec.Constraints "routing" }
  let trace :=
    match store.traces id with
    | some existing =>
      { trace with
        ParentTaskID := existing.ParentTaskID,
        StartedAt := if existing.StartedAt != "" then existing.StartedAt else trace.StartedAt }
    | none => trace
  { trace with
    Selected := trace.Selected ++
      (selectDrivers (taskSpec W spec ragURL) drivers drvMeta).map (fun d => d.ID) }

/-- The drivers that `processTask` runs when no selected driver gave a result. -/
def fallbackDrivers (drivers : List Driver) (spec : TaskSpec) : List Driver :=
  (splitCSV (constraintString spec.Constraints "fallback_models")).filterMap
    (findDriverByID drivers)

/-- The results, the metrics and the number of driver calls of `processTask` when
its two driver loops are over. -/
def taskRuns (W : World) (drivers : List Driver) (drvMeta : GoMap DriverMeta)
    (spec : TaskSpec) (ragURL : String) (metrics : Metrics) :
    List ModelResult × Metrics × Nat :=
  let ctx := W.withTimeout (wrapInt64 (constraintInt spec.Constraints "budget_ms" 2000 * 1000000))
  let delay := queueDelayForPriority spec.Metadata.Priority
  let metrics := if delay > 0 then metrics.ObserveQueueDelay (delay / 1000000) else metrics
  let st := runDrivers ctx (taskSpec W spec ragURL)
    (selectDrivers (taskSpec W spec ragURL) drivers drvMeta) ([], metrics, 0)
  if st.1.length == 0 then
    runDrivers ctx (taskSpec W spec ragURL) (fallbackDrivers drivers (taskSpec W spec ragURL)) st
  else st

/-- The results of the model runs of `processTask`. -/
def taskResults (W : World) (drivers : List Driver) (drvMeta : GoMap DriverMeta)
    (spec : TaskSpec) (ragURL : String) (metrics : Metrics) : List ModelResult :=
  (taskRuns W drivers drvMeta spec ragURL metrics).1

/-- The routing policy of a task. -/
def taskPolicy (spec : TaskSpec) : String := constraintString spec.Constraints "routing"

/-- The forced merge source of a task, trimmed and lower-cased. -/
def taskForce (spec : TaskSpec) : String :=
  ToLower (TrimSpace (constraintString spec.Constraints "force_merge_source"))

/-- The trace of `processTask` when the merge starts: the trace of the selection
with the summaries of the results. -/
def mergeTrace (W : World) (store : TaskStore) (drivers : List Driver)
    (drvMeta : GoMap DriverMeta) (id : String) (spec : TaskSpec) (ragURL : String)
    (metrics : Metrics) : TaskTrace :=
  { taskTrace W store drivers drvMeta id spec ragURL with
    Results := (taskTrace W store drivers drvMeta id spec ragURL).Results ++
      (taskResults W drivers drvMeta spec ragURL metrics).map (fun r =>
        { ModelID := r.ModelID, DiffLen := r.Diff.utf8ByteSize,
          LatencyMs := metricValue r "latency_ms", CostUSD := metricValue r "cost_usd",
          QualityScore := metricValue r "quality_score" : TraceModelResult }) }

/-- The metrics of `processTask` when the merge starts. -/
def mergeMetrics (W : World) (drivers : List Driver) (drvMeta : GoMap DriverMeta)
    (spec : TaskSpec) (ragURL : String) (metrics : Metrics) : Metrics :=
  (selectDrivers (taskSpec W spec ragURL) drivers drvMeta).foldl
    (fun m d => m.IncRoutingModel (taskPolicy (taskSpec W spec ragURL)) d.ID)
    ((taskRuns W drivers drvMeta spec ragURL metrics).2.1.IncRouting
      (taskPolicy (taskSpec W spec ragURL)))

/-- The store and the metrics when `processTask` ends a task as completed. -/
def completeTask (W : World) (store : TaskStore) (id : String) (trace : TaskTrace)
    (mergeSource : String) (merge : MergeResult) (metrics : Metrics) : TaskStore × Metrics :=
  ({ store with
      statuses := store.statuses.set id
        { (store.statuses id).getD {} with
          State := "completed", Progress := F64.one, UpdatedAt := W.updatedAt },
      artifacts := store.artifacts.set id
        [{ SchemaVersion := schemaVersion, ID := "artifact_" ++ W.randString 8, Typ := "diff",
           Path := "artifacts/" ++ id ++ "/patch.diff", Sha256 := "",
           CreatedAt := W.createdAt }],
      results := store.results.set id merge,
      traces := store.traces.set id
        { trace with State := "completed", FinishedAt := W.finishedAt,
                     MergeSource := mergeSource, Merge := some merge } },
    (metrics.IncMergeChoice mergeSource).IncCompleted.ObserveLatency W.elapsedMs)

/-- The world `W` with another agent compiler: another `AGENT_COMPILER_URL` and
other responses of the service. -/
def World.withCompiler (W : World) (url : String)
    (post : String → String → List ModelResult → HTTPResult CompileOut) : World :=
  { W with
    getenv := fun k => if k = "AGENT_COMPILER_URL" then url else W.getenv k,
    postCompile := post }

/-- The world `W` with other merge services: another process environment, other
responses of the agent compiler and of the quantum optimizer, another float
formatting. -/
def World.withMergeServices (W : World) (getenv : String → String)
    (postCompile : String → String → List ModelResult → HTTPResult CompileOut)
    (postOptimize : String → List Cand → HTTPResult String) (formatFloat : F64 → String) :
    World :=
  { W with getenv := getenv, postCompile := postCompile, postOptimize := postOptimize,
           formatFloat := formatFloat }

/-- A store that holds nothing. -/
def TaskStore.empty : TaskStore where
  statuses := fun _ => none
  artifacts := fun _ => none
  results := fun _ => none
  traces := fun _ => none
  specs := fun _ => none

/-- A driver whose every call fails. -/
def deadDriver : Driver := { ID := "m1", Run := fun _ _ => .error "unavailable" }

/-- A task spec with the given constraints. -/
def specWith (constraints : List Constraint) : TaskSpec :=
  { SchemaVersion := schemaVersion, ID := "t1", Typ := "code", Input := "x", Context := [],
    Constraints := constraints, Metadata := { Requester := "", Priority := "high" } }

/-- The metrics with `k` more retries counted. -/
def Metrics.addRetries (m : Metrics) (k : Nat) : Metrics := { m with retries := m.retries + k }

/-- The metrics of a process that has counted nothing yet. -/
def Metrics.fresh : Metrics where
  submitted := 0
  replayed := 0
  forcedFallback := 0
  replayMode := fun _ => none
  completed := 0
  failed := 0
  canceled := 0
  hfErrors := 0
  taskLatencyMs := []
  routingCounts := fun _ => none
  routingByModel := fun _ => none
  mergeChoice := fun _ => none
  modelLatencyMs := fun _ => none
  retries := 0
  queueDelayMs := []

/-- A context that is never done. -/
def Context.background : Context := { Done := fun _ => false, Err := "context canceled" }

/-- The result of the stub driver "m1". -/
def stubResult : ModelResult :=
  { SchemaVersion := schemaVersion, ModelID := "m1", Output := "stub result from m1",
    Diff := "a",
    Metrics := [⟨"latency_ms", F64.ofRat 120 1⟩, ⟨"cost_usd", F64.ofRat 1 100⟩,
                ⟨"quality_score", F64.ofRat 9 10⟩] }

/-- A driver whose first `f` calls fail and whose later calls succeed. -/
def flakyDriver (f : Nat) : Driver :=
  { ID := "m1", Run := fun tick _ => if tick < f then .error "unavailable" else .ok stubResult }

/-- The task spec of the retry scenario: input "x", retries 2, no backoff. -/
def retrySpec : TaskSpec :=
  { SchemaVersion := schemaVersion, ID := "t1", Typ := "code", Input := "x", Context := [],
    Constraints := [⟨"retries", .float (F64.ofRat 2 1)⟩,
                    ⟨"retry_backoff_ms", .float F64.zero⟩],
    Metadata := { Requester := "", Priority := "" } }

/-- A call on a task queue: `Enqueue(t)`, or `Dequeue(ctx)` with the state of the
context and the choice of `select`. -/
inductive QueueCall where
  | enqueue (t : queuedTask) : QueueCall
  | dequeue (done : Bool) (pick : Nat) : QueueCall
  deriving DecidableEq, Repr

/-- The call is a call of `Enqueue`. -/
def QueueCall.isEnqueue : QueueCall → Bool
  | .enqueue _ => true
  | .dequeue _ _ => false

/-- The queue after a sequence of calls made one after the other, with the
number of calls of `Dequeue` that returned a task; `none` when a call blocks. -/
def runCalls : TaskQueue → List QueueCall → Option (TaskQueue × Nat)
  | q, [] => some (q, 0)
  | q, .enqueue t :: cs =>
    match q.Enqueue t with
    | none => none
    | some (q', _) => runCalls q' cs
  | q, .dequeue done pick :: cs =>
    match q.Dequeue done pick with
    | none => none
    | some ((_, ok), q') => (runCalls q' cs).map (fun r => (r.1, r.2 + if ok then 1 else 0))

/-- A queued task with the given id and priority. -/
def taskOf (id priority : String) : queuedTask :=
  { id := id,
    spec := { SchemaVersion := schemaVersion, ID := id, Typ := "code", Input := "x",
              Context := [], Constraints := [],
              Metadata := { Requester := "", Priority := priority } },
    enqueued := 0 }

/-- The priority of a queued task as `Enqueue` reads it: trimmed and lower-cased. -/
def queuedTask.priority (t : queuedTask) : String :=
  ToLower (TrimSpace t.spec.Metadata.Priority)

/-- A queue of capacity 200 whose high tier is empty and whose normal and low
tiers hold one task each. -/
def twoTiers : TaskQueue :=
  { size := 200, high := [], normal := [taskOf "n" "normal"], low := [taskOf "l" "low"] }

/-- The queue that `fourCalls` leaves: the normal and the low task. -/
def twoLeft : TaskQueue :=
  { size := 200, high := [], normal := [taskOf "n" ""], low := [taskOf "l" "low"] }

/-- Four calls on a queue: three tasks of different priorities are enqueued,
then one task is dequeued. -/
def fourCalls : List QueueCall :=
  [.enqueue (taskOf "l" "low"), .enqueue (taskOf "h" " HIGH "), .enqueue (taskOf "n" ""),
   .dequeue false 0]

/-- The allowlist of a task: the trimmed parts of the value of its constraint
"models". -/
def allowlist (spec : TaskSpec) : List String :=
  (splitComma (constraintString spec.Constraints "models")).map TrimSpace

/-- The value of `maxModels` in `selectDrivers`. -/
def maxModelsOf (spec : TaskSpec) (drivers : List Driver) : Int :=
  constraintInt spec.Constraints "max_models" drivers.length

/-- The value of `minModels` in `selectDrivers`. -/
def minModelsOf (spec : TaskSpec) : Int := constraintInt spec.Constraints "min_models" 0

/-- The value of `budgetUSD` in `selectDrivers`. -/
def budgetOf (spec : TaskSpec) : F64 := constraintFloat spec.Constraints "budget_usd" F64.zero

/-- The slice `out` of `selectDrivers` before `max_models` and `min_models` are
looked at: the drivers chosen by the allowlist, by the budget, or all of them. -/
def candidates (spec : TaskSpec) (drivers : List Driver) (drvMeta : GoMap DriverMeta) :
    List Driver :=
  if constraintString spec.Constraints "models" != "" then
    drivers.filter (fun d => (allowlist spec).contains d.ID)
  else if F64.gt (budgetOf spec) F64.zero then selectByBudget drivers drvMeta (budgetOf spec)
  else drivers

/-- A driver with the given ID (its calls fail). -/
def idleDriver (id : String) : Driver := { ID := id, Run := fun _ _ => .error "unavailable" }

/-- A registry of three drivers. -/
def threeDrivers : List Driver := [idleDriver "a", idleDriver "b", idleDriver "c"]

/-- No driver has metadata. -/
def noMeta : GoMap DriverMeta := fun _ => none

/-- A task that allows the model "a", at most one model and at least three. -/
def oneToThree : TaskSpec :=
  specWith [⟨"models", .str "a"⟩, ⟨"max_models", .float (F64.ofRat 1 1)⟩,
            ⟨"min_models", .float (F64.ofRat 3 1)⟩]

/-- A task that allows the models "c" and "a" and sets a budget. -/
def allowTwo : TaskSpec :=
  specWith [⟨"models", .str " c, a"⟩, ⟨"budget_usd", .float (F64.ofRat 1 100)⟩]

/-- A task that allows the model "b" and asks for at least two models. -/
def padToTwo : TaskSpec :=
  specWith [⟨"models", .str "b"⟩, ⟨"min_models", .float (F64.ofRat 2 1)⟩]

/-- The static cost of a driver in `selectByBudget`: `CostUSD` of its metadata,
0 without metadata. -/
def staticCost (drvMeta : GoMap DriverMeta) (d : Driver) : F64 :=
  match drvMeta d.ID with
  | some m => m.CostUSD
  | none => F64.zero

/-- The slice `items` of `selectByBudget` before it is sorted. -/
def budgetItems (drivers : List Driver) (drvMeta : GoMap DriverMeta) : List Item :=
  drivers.map (fun d => { d := d, cost := staticCost drvMeta d })

/-- One iteration of the loop of `selectByBudget` on the state `(out, sum)`. -/
def budgetStep (budgetUSD : F64) (st : List Driver × F64) (it : Item) : List Driver × F64 :=
  if F64.le (F64.add st.2 it.cost) budgetUSD || st.1.length == 0 then
    (st.1 ++ [it.d], F64.add st.2 it.cost)
  else st

/-- The total cost of drivers as `selectByBudget` adds it up: the float64 sum of
their static costs, from 0, in the order of the list. -/
def totalCost (drvMeta : GoMap DriverMeta) (ds : List Driver) : F64 :=
  ds.foldl (fun s d => F64.add s (staticCost drvMeta d)) F64.zero

/-- The metadata of a driver that has only an ID and a cost. -/
def metaOf (id : String) (cost : F64) : DriverMeta :=
  { ID := id, Kind := "stub", CostUSD := cost, Capabilities := [], Description := "" }

/-- A cost table: "a" costs 1, "b" costs NaN, "c" costs 0. -/
def nanCosts : GoMap DriverMeta :=
  ((noMeta.set "a" (metaOf "a" (F64.ofRat 1 1))).set "b" (metaOf "b" F64.nan)).set "c"
    (metaOf "c" F64.zero)

/-- A cost table: "a" costs 0.02, "b" costs 0.01, "c" has no metadata. -/
def mixedCosts : GoMap DriverMeta :=
  (noMeta.set "a" (metaOf "a" (F64.ofRat 2 100))).set "b" (metaOf "b" (F64.ofRat 1 100))

/-- A task with a budget of 10 and at most one model. -/
def cheapestOne : TaskSpec :=
  specWith [⟨"budget_usd", .float (F64.ofRat 10 1)⟩, ⟨"max_models", .float (F64.ofRat 1 1)⟩]

/-- A task with a budget of 5 and at most one model. -/
def nanBudgetOne : TaskSpec :=
  specWith [⟨"budget_usd", .float (F64.ofRat 5 1)⟩, ⟨"max_models", .float (F64.ofRat 1 1)⟩]

/-- The candidates of a task in the order of the registry: the registered
drivers whose ID is the ID of a candidate. -/
def inRegistryOrder (drivers cands : List Driver) : List Driver :=
  drivers.filter (fun d => cands.any (fun c => c.ID == d.ID))

/-- The store `s` as `processTask` saw it when it read the trace of the task
`id`: it reads the trace in a critical section of its own, long before it writes
the store, so the trace it read is `e`, that of an earlier moment. -/
def TaskStore.withTraceRead (s : TaskStore) (id : String) (e : Option TaskTrace) : TaskStore :=
  { s with traces := fun k => if k = id then e else s.traces k }

/-- The states of the store that the program can reach: the store starts empty
and every critical section that writes it is one step, run with any arguments
and at any moment (the submission of a task, a replay, the start of a task by a
worker, the end of `processTask`, a cancel).  The tasks that the workers and
`processTask` run are not restricted to the queued ones, which only adds
states. -/
inductive Reachable : TaskStore → Prop where
  | init : Reachable NewTaskStore
  | submit (W : World) (s : TaskStore) (m : Metrics) (spec : TaskSpec) (now : String) :
      Reachable s → Reachable (submitTask W s m spec now).2.2.1
  | replay (W : World) (s : TaskStore) (m : Option Metrics) (parentID mode now : String)
      (r : TaskSpec × TaskStatus × TaskStore × Option Metrics) :
      Reachable s → enqueueReplayTask W s m parentID mode now = .ok r → Reachable r.2.2.1
  | start (s : TaskStore) (task : queuedTask) (now : String) :
      Reachable s → Reachable (workerStart s task now)
  | process (W : World) (s : TaskStore) (e : Option TaskTrace) (drivers : List Driver)
      (drvMeta : GoMap DriverMeta) (id : String) (spec : TaskSpec) (ragURL : String)
      (m : Metrics) (r : TaskStore × Metrics) :
      Reachable s →
      processTask W (s.withTraceRead id e) drivers drvMeta id spec ragURL m = some r →
      Reachable r.1
  | cancel (s : TaskStore) (m : Metrics) (id : String) (now : String) :
      Reachable s → Reachable (cancelTask s m id now).2.1

/-- The statuses and the traces of a store agree: a task has a status exactly
when it has a trace, and then both record the same state. -/
def TaskStore.Agrees (s : TaskStore) : Prop :=
  ∀ id, ((s.statuses id).isSome ↔ (s.traces id).isSome) ∧
    ∀ st tr, s.statuses id = some st → s.traces id = some tr → tr.State = st.State

/-- The store after the task "t1" is submitted, started by a worker and canceled. -/
def canceledStore : TaskStore :=
  (cancelTask
    (workerStart (submitTask World.quiet NewTaskStore Metrics.fresh (specWith []) "t0").2.2.1
      (taskOf "t1" "high") "t1")
    Metrics.fresh "t1" "t2").2.1

/-- A parent task whose forced merge source is spelled with capitals in the key. -/
def capitalKeySpec : TaskSpec :=
  specWith [⟨"Force_Merge_Source", .str "policy_merge"⟩]

/-- The store after the task `capitalKeySpec` is submitted. -/
def capitalKeyStore : TaskStore :=
  (submitTask World.quiet NewTaskStore Metrics.fresh capitalKeySpec "t0").2.2.1

/-- Two results, the first with a NaN quality score. -/
def nanQuality : List ModelResult :=
  [{ ModelID := "m1", Diff := "a", Metrics := [⟨"quality_score", F64.nan⟩] },
   { ModelID := "m2", Diff := "b", Metrics := [⟨"quality_score", F64.ofRat 9 10⟩] }]

/-- The state recorded in the status of a task, if the task has a status. -/
def stateOf (s : TaskStore) (id : String) : Option String :=
  (s.statuses id).map (fun st => st.State)

/-- The store after `processTask` has run the canceled task "t1" of
`canceledStore` on a driver that succeeds. -/
def completedStore : TaskStore :=
  ((processTask World.quiet canceledStore [flakyDriver 0] (fun _ => none) "t1" (specWith []) ""
    Metrics.fresh).map (fun r => r.1)).getD canceledStore

/-- A call of `IsAvailable`: the model, the reading of the clock and the answer
that the live probe would give. -/
structure PingCall where
  modelID : String
  now : Int
  ping : Bool
  deriving DecidableEq, Repr

/-- What a call of `IsAvailable` did: the model, the value returned and the
number of live probes made. -/
structure PingOutcome where
  modelID : String
  available : Bool
  probes : Nat
  deriving DecidableEq, Repr

/-- Calls of `IsAvailable` made one after the other: what they did, and the
service after the last one. -/
def runPings (p : PingService) : List PingCall → List PingOutcome × PingService
  | [] => ([], p)
  | c :: cs =>
    let r := p.IsAvailable c.modelID c.now c.ping
    let rest := runPings r.2.1 cs
    ({ modelID := c.modelID, available := r.1, probes := r.2.2 } :: rest.1, rest.2)

/-- The state of a model in the service, the zero state when it has none. -/
def PingService.stateOf (p : PingService) (modelID : String) : pingState :=
  (p.m modelID).getD {}

/-- Calls of `IsAvailable` for one model at the given times, each answered by a
failing probe. -/
def failingCalls (modelID : String) (times : List Int) : List PingCall :=
  times.map (fun t => { modelID := modelID, now := t, ping := false })

/-- A hash whose first byte is always `b`. -/
def constHash (b : Fin 256) : String → Fin 256 := fun _ => b

/-- A hash whose first byte is `b` on the string `key` and `other` on every
other string. -/
def hashOn (key : String) (b other : Fin 256) : String → Fin 256 :=
  fun s => if s = key then b else other

/-- The value `x` clamped to [0, 1]. -/
def clampUnit (x : F64) : F64 :=
  if F64.lt x F64.zero then F64.zero else if F64.gt x F64.one then F64.one else x

/-- The heuristic of the quality estimate as the specification words it: it
starts at 0.9 and subtracts 0.2 if the diff has more than 800 lines (else 0.1 if
more than 300), 0.1 if the output is shorter than 20, 0.1·min(errs, 3), 0.1 if
more than 10 files changed, 0.1 if there are more than 20 hunks, 0.1 if the
additions and deletions exceed 200, and 0.05 if the ratio of additions to
deletions is outside [0.5, 2.0]. -/
def heuristicScore (lines outLen errs files hunks changes : Int) (ratioOut : Bool) : F64 :=
  let h := F64.ofRat 9 10
  let h :=
    if lines > 800 then F64.sub h (F64.ofRat 2 10)
    else if lines > 300 then F64.sub h (F64.ofRat 1 10)
    else h
  let h := if outLen < 20 then F64.sub h (F64.ofRat 1 10) else h
  let h := F64.sub h (F64.mul (F64.ofRat 1 10) (F64.ofInt (min errs 3)))
  let h := if files > 10 then F64.sub h (F64.ofRat 1 10) else h
  let h := if hunks > 20 then F64.sub h (F64.ofRat 1 10) else h
  let h := if changes > 200 then F64.sub h (F64.ofRat 1 10) else h
  if ratioOut then F64.sub h (F64.ofRat 5 100) else h

/-- The blend 0.7·h + 0.3·(b / 255), clamped to [0, 1]. -/
def blend (h : F64) (b : Fin 256) : F64 :=
  clampUnit (F64.add (F64.mul (F64.ofRat 7 10) h)
    (F64.mul (F64.ofRat 3 10) (F64.div (F64.ofInt b.val) (F64.ofRat 255 1))))

/-- The ratio of additions to deletions is outside [0.5, 2.0]. -/
def ratioOutside (additions deletions : Int) : Bool :=
  F64.lt (F64.div (F64.ofInt additions) (F64.ofInt deletions)) (F64.ofRat 5 10) ||
    F64.gt (F64.div (F64.ofInt additions) (F64.ofInt deletions)) (F64.ofRat 2 1)

/-- The quality estimate as the specification states it, for all outputs and
diffs: the length of the output counted in characters, the ratio taken of any
additions and deletions. -/
def statedQuality (sha256First : String → Fin 256) (output diff : String) : F64 :=
  blend
    (heuristicScore (diffStats diff).totalLines output.length (errorTokenCount output)
      (diffStats diff).files (diffStats diff).hunks
      ((diffStats diff).additions + (diffStats diff).deletions)
      (ratioOutside (diffStats diff).additions (diffStats diff).deletions))
    (sha256First (output ++ "|" ++ diff))

/-- The first two deductions of `estimateQuality`, for a long diff and for a
short output. -/
def scoreHead (lines outputLen : Int) : F64 :=
  let score := F64.ofRat 9 10
  let score :=
    if lines > 800 then F64.sub score (F64.ofRat 2 10)
    else if lines > 300 then F64.sub score (F64.ofRat 1 10)
    else score
  if outputLen < 20 then F64.sub score (F64.ofRat 1 10) else score

/-- The deduction of `estimateQuality` for error tokens. -/
def scoreErrors (errCount : Int) (score : F64) : F64 :=
  if errCount > 0 then
    F64.sub score (F64.mul (F64.ofRat 1 10) (F64.ofInt (minInt errCount 3)))
  else score

/-- The last four deductions of `estimateQuality`, for the statistics of the
diff. -/
def scoreTail (stats : diffStat) (score : F64) : F64 :=
  let score := if stats.files > 10 then F64.sub score (F64.ofRat 1 10) else score
  let score := if stats.hunks > 20 then F64.sub score (F64.ofRat 1 10) else score
  let score :=
    if stats.additions + stats.deletions > 200 then F64.sub score (F64.ofRat 1 10) else score
  if stats.deletions > 0 then
    if F64.lt (F64.div (F64.ofInt stats.additions) (F64.ofInt stats.deletions))
          (F64.ofRat 5 10) ||
        F64.gt (F64.div (F64.ofInt stats.additions) (F64.ofInt stats.deletions))
          (F64.ofRat 2 1) then
      F64.sub score (F64.ofRat 5 100)
    else score
  else score

/-- The heuristic part of `estimateQuality`: the score before the blend, as a
function of the statistics of the diff, the length of the output and the count
of error tokens. -/
def codeScore (stats : diffStat) (outputLen errCount : Int) : F64 :=
  scoreTail stats (scoreErrors errCount (scoreHead stats.totalLines outputLen))

/-- The last four deductions of `heuristicScore`. -/
def heuristicTail (files hunks changes : Int) (ratioOut : Bool) (h : F64) : F64 :=
  let h := if files > 10 then F64.sub h (F64.ofRat 1 10) else h
  let h := if hunks > 20 then F64.sub h (F64.ofRat 1 10) else h
  let h := if changes > 200 then F64.sub h (F64.ofRat 1 10) else h
  if ratioOut then F64.sub h (F64.ofRat 5 100) else h

/-- The value is finite with a magnitude of at most `2^e` units. -/
def Within (x : F64) (e : Nat) : Prop := ∃ s k, x = F64.fin s k ∧ k ≤ 2 ^ e

/-- The parent of a task as `ReplayChain` reads it: the trimmed `ParentTaskID` of
its trace, the empty string when it has no trace or no parent. -/
def parentOf (s : TaskStore) (id : String) : String :=
  TrimSpace ((s.traces id).getD {}).ParentTaskID

/-- The task `a` is the parent of the task `b`. -/
def IsParentOf (s : TaskStore) (a b : String) : Prop := a ≠ "" ∧ parentOf s b = a

/-- The parent links of the store are acyclic: no task is among its own
ancestors. -/
def Acyclic (s : TaskStore) : Prop := ∀ x, ¬ Relation.TransGen (IsParentOf s) x x

/-- A status and a trace with the given parent and time of update, stored under
the id. -/
def TaskStore.withTask (s : TaskStore) (id parent updatedAt : String) : TaskStore :=
  { s with
    statuses := s.statuses.set id { ID := id, State := "completed", UpdatedAt := updatedAt },
    traces := s.traces.set id { TaskID := id, ParentTaskID := parent, State := "completed" } }

/-- Three generations: A is the parent of B and B the parent of C; C was updated
last. -/
def threeGenerations : TaskStore :=
  ((NewTaskStore.withTask "A" "" "2024-01-01T00:00:00Z").withTask "B" "A"
    "2024-01-01T00:00:01Z").withTask "C" "B" "2024-01-01T00:00:02Z"

/-- Two tasks, each the parent of the other. -/
def twoCycle : TaskStore :=
  (NewTaskStore.withTask "A" "B" "2024-01-01T00:00:00Z").withTask "B" "A" "2024-01-01T00:00:01Z"

/-- The children of a task in the map `children` of `ReplayChain`. -/
def childrenOf (s : TaskStore) (order : List String) (p : String) : List String :=
  (childrenMap s order p).getD []

/-- The loop `descLoop` on ids: the ids of the summaries it appends, in order,
and the set `seenDesc` at its end. -/
def descIds (s : TaskStore) (children : GoMap (List String)) : Nat → List String →
    List String → Option (List String × List String)
  | _, [], seenDesc => some ([], seenDesc)
  | 0, _ :: _, _ => none
  | n + 1, id :: queue, seenDesc =>
    if seenDesc.contains id then descIds s children n queue seenDesc
    else if (s.statuses id).isNone then descIds s children n queue (id :: seenDesc)
    else
      (descIds s children n (queue ++ (children id).getD []) (id :: seenDesc)).map
        (fun r => (id :: r.1, r.2))

/-- The loop `lineageLoop` on ids: the ids of the summaries it appends, in
order. -/
def lineageIds (s : TaskStore) : Nat → String → List String → Option (List String)
  | 0, cur, seen => if cur != "" && !seen.contains cur then none else some []
  | n + 1, cur, seen =>
    if cur != "" && !seen.contains cur then
      (lineageIds s n (parentOf s cur) (cur :: seen)).map (fun v => cur :: v)
    else some []

/-- The number of ids of `order` whose parent is still to be expanded by the
descendants loop. -/
def pending (s : TaskStore) (order seen : List String) : Nat :=
  (order.filter (fun x => parentOf s x != "" && !seen.contains (parentOf s x))).length

/-- The number of ids of `order` that the lineage walk has not visited. -/
def remaining (order seen : List String) : Nat :=
  (order.filter (fun x => !seen.contains x)).length

end Orchestrator

/-! ## Theorems -/

set_option exponentiation.threshold 5000

namespace F64

theorem lt_iff_ord {x y : F64} (hx : x.isNaN = false) (hy : y.isNaN = false) :
    lt x y = true ↔ ord x < ord y := by
  cases x with
  | nan => simp [isNaN] at hx
  | inf a =>
    cases y with
    | nan => simp [isNaN] at hy
    | inf b => cases a <;> cases b <;> simp [lt, ord, Prod.Lex.lt_iff]
    | fin t l => cases a <;> simp [lt, ord, Prod.Lex.lt_iff]
  | fin s k =>
    cases y with
    | nan => simp [isNaN] at hy
    | inf b => cases b <;> simp [lt, ord, Prod.Lex.lt_iff]
    | fin t l => simp [lt, ord, Prod.Lex.lt_iff]

theorem eq_iff_ord {x y : F64} (hx : x.isNaN = false) (hy : y.isNaN = false) :
    eq x y = true ↔ ord x = ord y := by
  cases x with
  | nan => simp [isNaN] at hx
  | inf a =>
    cases y with
    | nan => simp [isNaN] at hy
    | inf b => cases a <;> cases b <;> simp [eq, ord]
    | fin t l => cases a <;> simp [eq, ord]
  | fin s k =>
    cases y with
    | nan => simp [isNaN] at hy
    | inf b => cases b <;> simp [eq, ord]
    | fin t l => simp [eq, ord]

theorem le_iff_ord {x y : F64} (hx : x.isNaN = false) (hy : y.isNaN = false) :
    le x y = true ↔ ord x ≤ ord y := by
  simp [le, lt_iff_ord hx hy, eq_iff_ord hx hy, le_iff_lt_or_eq]

theorem eq_symm (x y : F64) : eq x y = eq y x := by
  cases x with
  | nan => cases y <;> rfl
  | inf a =>
    cases y with
    | nan => rfl
    | inf b => cases a <;> cases b <;> rfl
    | fin t l => rfl
  | fin s k =>
    cases y with
    | nan => rfl
    | inf b => rfl
    | fin t l => simp only [eq]; congr 1; exact propext eq_comm

theorem lt_nan_left (y : F64) : lt nan y = false := by cases y <;> rfl

theorem lt_nan_right (x : F64) : lt x nan = false := by cases x <;> rfl

theorem eq_nan_left (y : F64) : eq nan y = false := by cases y <;> rfl

theorem eq_nan_right (x : F64) : eq x nan = false := by cases x <;> rfl

theorem ordDir_lt {p : Bool} {x y : F64} (hx : x.isNaN = false) (hy : y.isNaN = false) :
    ordDir p x < ordDir p y ↔ (if p then gt x y else lt x y) = true := by
  cases p
  · simp [ordDir, lt_iff_ord hx hy]
  · simp only [ordDir, gt, if_true, lt_iff_ord hy hx]
    rw [Prod.Lex.lt_iff]
    conv_rhs => rw [← toLex_ofLex (ord x), ← toLex_ofLex (ord y), Prod.Lex.lt_iff]
    simp only [ofLex_toLex, neg_lt_neg_iff, neg_inj]
    constructor
    · rintro (h | ⟨h, h2⟩)
      · exact Or.inl h
      · exact Or.inr ⟨h.symm, h2⟩
    · rintro (h | ⟨h, h2⟩)
      · exact Or.inl h
      · exact Or.inr ⟨h.symm, h2⟩

theorem ordDir_eq {p : Bool} {x y : F64} (hx : x.isNaN = false) (hy : y.isNaN = false) :
    ordDir p x = ordDir p y ↔ eq x y = true := by
  cases p
  · simp [ordDir, eq_iff_ord hx hy]
  · simp only [ordDir, if_true, eq_iff_ord hx hy]
    constructor
    · intro h
      have h1 := congrArg (fun z => (ofLex z).1) h
      have h2 := congrArg (fun z => (ofLex z).2) h
      simp only [ofLex_toLex, neg_inj] at h1 h2
      rw [← toLex_ofLex (ord x), ← toLex_ofLex (ord y)]
      exact congrArg toLex (Prod.ext h1 h2)
    · intro h
      rw [h]

/-! ### Rounding -/

theorem rhe_cases (n d : Nat) : rhe n d = n / d ∨ (rhe n d = n / d + 1 ∧ d ≤ 2 * (n % d)) := by
  unfold rhe
  simp only
  split
  · exact Or.inl rfl
  · split
    · right; exact ⟨rfl, by omega⟩
    · split
      · exact Or.inl rfl
      · right; exact ⟨rfl, by omega⟩

theorem le_rhe (n d m : Nat) (hd : 0 < d) (h : m * d ≤ n) : m ≤ rhe n d := by
  have hq : m ≤ n / d := (Nat.le_div_iff_mul_le hd).2 h
  rcases rhe_cases n d with h1 | ⟨h1, _⟩ <;> omega

theorem rhe_le (n d m : Nat) (hd : 0 < d) (h : n ≤ m * d) : rhe n d ≤ m := by
  rcases rhe_cases n d with h1 | ⟨h1, h2⟩
  · rw [h1]
    calc n / d ≤ (m * d) / d := Nat.div_le_div_right h
      _ = m := Nat.mul_div_cancel _ hd
  · rw [h1]
    by_contra hc
    have hm : m ≤ n / d := by omega
    have h3 : m * d ≤ (n / d) * d := Nat.mul_le_mul_right d hm
    have h4 := Nat.div_add_mod n d
    have h5 : 0 < n % d := by omega
    have h6 : d * (n / d) = (n / d) * d := Nat.mul_comm _ _
    omega

theorem rhe_mono (a b d : Nat) (h : a ≤ b) : rhe a d ≤ rhe b d := by
  have hq : a / d ≤ b / d := Nat.div_le_div_right h
  rcases Nat.lt_or_ge (a / d) (b / d) with hlt | hge
  · rcases rhe_cases a d with h1 | ⟨h1, _⟩ <;> rcases rhe_cases b d with h2 | ⟨h2, _⟩ <;> omega
  · have he : a / d = b / d := by omega
    have ha := Nat.div_add_mod a d
    have hb := Nat.div_add_mod b d
    rw [he] at ha
    have hr : a % d ≤ b % d := by omega
    unfold rhe
    simp only [he]
    split <;> split <;> (try split) <;> (try split) <;> (try split) <;> omega

theorem log2Loop_spec : ∀ (i n acc : Nat), 0 < n → n < 2 ^ 2 ^ i →
    ∃ e, log2Loop i n acc = acc + e ∧ 2 ^ e ≤ n ∧ n < 2 ^ (e + 1) := by
  intro i
  induction i with
  | zero =>
    intro n acc h0 h1
    refine ⟨0, rfl, ?_, ?_⟩ <;> simp at h1 ⊢ <;> omega
  | succ i ih =>
    intro n acc h0 h1
    unfold log2Loop
    have hp : 0 < 2 ^ 2 ^ i := Nat.two_pow_pos _
    by_cases hc : 2 ^ 2 ^ i ≤ n
    · simp only [hc, if_true]
      have h2 : n / 2 ^ 2 ^ i < 2 ^ 2 ^ i := by
        rw [Nat.div_lt_iff_lt_mul hp]
        calc n < 2 ^ 2 ^ (i + 1) := h1
          _ = 2 ^ 2 ^ i * 2 ^ 2 ^ i := by rw [← pow_add]; congr 1; rw [pow_succ]; omega
      have h3 : 0 < n / 2 ^ 2 ^ i := Nat.div_pos hc hp
      obtain ⟨e, he, hl, hu⟩ := ih (n / 2 ^ 2 ^ i) (acc + 2 ^ i) h3 h2
      refine ⟨2 ^ i + e, by rw [he]; omega, ?_, ?_⟩
      · rw [pow_add]
        calc 2 ^ 2 ^ i * 2 ^ e ≤ 2 ^ 2 ^ i * (n / 2 ^ 2 ^ i) := Nat.mul_le_mul_left _ hl
          _ ≤ n := Nat.mul_div_le n _
      · have : n < 2 ^ 2 ^ i * (n / 2 ^ 2 ^ i + 1) := by
          have := Nat.div_add_mod n (2 ^ 2 ^ i)
          have := Nat.mod_lt n hp
          rw [Nat.mul_add]
          omega
        calc n < 2 ^ 2 ^ i * (n / 2 ^ 2 ^ i + 1) := this
          _ ≤ 2 ^ 2 ^ i * 2 ^ (e + 1) := Nat.mul_le_mul_left _ hu
          _ = 2 ^ (2 ^ i + e + 1) := by rw [← pow_add]; congr 1
    · simp only [hc, if_false]
      exact ih n acc h0 (by omega)

theorem ilog2_spec (n : Nat) (h0 : 0 < n) (h1 : n < 2 ^ 4096) :
    2 ^ ilog2 n ≤ n ∧ n < 2 ^ (ilog2 n + 1) := by
  obtain ⟨e, he, hl, hu⟩ := log2Loop_spec 12 n 0 h0 (by simpa using h1)
  unfold ilog2
  rw [he, Nat.zero_add]
  exact ⟨hl, hu⟩

theorem roundShift_spec (q : Nat) (h : q < 2 ^ 4096) :
    (roundShift q = 0 ∧ q < 2 ^ 53) ∨
    (2 ^ 53 ≤ q ∧ 2 ^ (roundShift q + 52) ≤ q ∧ q < 2 ^ (roundShift q + 53) ∧
      1 ≤ roundShift q) := by
  unfold roundShift
  by_cases hc : q < 2 ^ 53
  · left
    rw [if_pos hc]
    exact ⟨rfl, hc⟩
  · right
    have hq : 2 ^ 53 ≤ q := by omega
    have h0 : 0 < q := lt_of_lt_of_le (Nat.two_pow_pos 53) hq
    obtain ⟨hl, hu⟩ := ilog2_spec q h0 h
    have h53 : 53 ≤ ilog2 q := by
      have : 2 ^ 53 < 2 ^ (ilog2 q + 1) := lt_of_le_of_lt hq hu
      have := (Nat.pow_lt_pow_iff_right (by norm_num : 1 < 2)).1 this
      omega
    simp only [hc, if_false]
    have e1 : ilog2 q - 52 + 52 = ilog2 q := by omega
    have e2 : ilog2 q - 52 + 53 = ilog2 q + 1 := by omega
    rw [e1, e2]
    exact ⟨hq, hl, hu, by omega⟩

theorem roundShift_pow_le (q : Nat) (h : q < 2 ^ 4096) (h1 : 1 ≤ q) : 2 ^ roundShift q ≤ q := by
  rcases roundShift_spec q h with ⟨h0, _⟩ | ⟨_, h2, _, _⟩
  · rw [h0]
    simpa using h1
  · exact le_trans (Nat.pow_le_pow_right (by norm_num) (by omega)) h2

theorem roundShift_mono (a b : Nat) (hab : a ≤ b) (hb : b < 2 ^ 4096) :
    roundShift a ≤ roundShift b := by
  have ha : a < 2 ^ 4096 := lt_of_le_of_lt hab hb
  rcases roundShift_spec a ha with ⟨h0, _⟩ | ⟨_, a2, _, _⟩
  · omega
  · rcases roundShift_spec b hb with ⟨_, b1⟩ | ⟨_, _, b3, _⟩
    · have : 2 ^ 53 ≤ a := le_trans (Nat.pow_le_pow_right (by norm_num) (by omega)) a2
      omega
    · have : 2 ^ (roundShift a + 52) < 2 ^ (roundShift b + 53) :=
        lt_of_le_of_lt (le_trans a2 hab) b3
      have := (Nat.pow_lt_pow_iff_right (by norm_num : 1 < 2)).1 this
      omega

theorem roundMag_zero (d : Nat) : roundMag 0 d = 0 := by
  simp [roundMag, roundShift, rhe]

/-- Rounding does not cross a power of two. -/
theorem roundMag_le_pow (n d e : Nat) (hd : 0 < d) (hq : n / d < 2 ^ 4096)
    (h : n ≤ 2 ^ e * d) : roundMag n d ≤ 2 ^ e := by
  unfold roundMag
  simp only
  have hqe : n / d ≤ 2 ^ e := by
    calc n / d ≤ (2 ^ e * d) / d := Nat.div_le_div_right h
      _ = 2 ^ e := Nat.mul_div_cancel _ hd
  rcases roundShift_spec (n / d) hq with ⟨h0, _⟩ | ⟨_, h2, _, _⟩
  · rw [h0]
    simpa using rhe_le n d (2 ^ e) hd h
  · have hle : roundShift (n / d) + 52 ≤ e := by
      have := le_trans h2 hqe
      exact (Nat.pow_le_pow_iff_right (by norm_num : 1 < 2)).1 this
    have hs : roundShift (n / d) ≤ e := by omega
    have hpow : 2 ^ e = 2 ^ (e - roundShift (n / d)) * 2 ^ roundShift (n / d) := by
      rw [← pow_add]
      congr 1
      omega
    have h3 : rhe n (d * 2 ^ roundShift (n / d)) ≤ 2 ^ (e - roundShift (n / d)) := by
      apply rhe_le
      · exact Nat.mul_pos hd (Nat.two_pow_pos _)
      · calc n ≤ 2 ^ e * d := h
          _ = 2 ^ (e - roundShift (n / d)) * (d * 2 ^ roundShift (n / d)) := by
            rw [hpow]; ring
    calc rhe n (d * 2 ^ roundShift (n / d)) * 2 ^ roundShift (n / d)
        ≤ 2 ^ (e - roundShift (n / d)) * 2 ^ roundShift (n / d) := Nat.mul_le_mul_right _ h3
      _ = 2 ^ e := hpow.symm

theorem le_roundMag (n d m : Nat) (hd : 0 < d) (h : m * (d * 2 ^ roundShift (n / d)) ≤ n) :
    m * 2 ^ roundShift (n / d) ≤ roundMag n d := by
  unfold roundMag
  simp only
  exact Nat.mul_le_mul_right _
    (le_rhe n _ m (Nat.mul_pos hd (Nat.two_pow_pos _)) h)

theorem one_le_roundMag (b : Nat) (h1 : 1 ≤ b) (hb : b < 2 ^ 4096) : 1 ≤ roundMag b 1 := by
  have hs := roundShift_pow_le b hb h1
  have h := le_roundMag b 1 1 (by norm_num) (by simpa using hs)
  have : 1 ≤ 2 ^ roundShift (b / 1) := Nat.two_pow_pos _
  omega

theorem roundMag_mono (a b : Nat) (hab : a ≤ b) (hb : b < 2 ^ 4096) :
    roundMag a 1 ≤ roundMag b 1 := by
  have ha : a < 2 ^ 4096 := lt_of_le_of_lt hab hb
  have hs := roundShift_mono a b hab hb
  rcases Nat.lt_or_ge (roundShift a) (roundShift b) with hlt | hge
  · -- a power of two separates the two binades
    rcases roundShift_spec b hb with ⟨b0, _⟩ | ⟨_, b2, _, _⟩
    · omega
    · have haB : a ≤ 2 ^ (roundShift b + 52) * 1 := by
        rcases roundShift_spec a ha with ⟨_, a1⟩ | ⟨_, _, a3, _⟩
        · have : 2 ^ 53 ≤ 2 ^ (roundShift b + 52) := Nat.pow_le_pow_right (by norm_num) (by omega)
          omega
        · have : 2 ^ (roundShift a + 53) ≤ 2 ^ (roundShift b + 52) :=
            Nat.pow_le_pow_right (by norm_num) (by omega)
          omega
      have h1 := roundMag_le_pow a 1 (roundShift b + 52) (by norm_num) (by simpa using ha) haB
      have h2 := le_roundMag b 1 (2 ^ 52) (by norm_num) (by
        rw [Nat.div_one, Nat.one_mul, ← pow_add]
        rw [Nat.add_comm]
        exact b2)
      rw [Nat.div_one, ← pow_add, Nat.add_comm] at h2
      exact le_trans h1 h2
  · have he : roundShift a = roundShift b := by omega
    unfold roundMag
    simp only [Nat.div_one, he]
    exact Nat.mul_le_mul_right _ (rhe_mono a b _ hab)

end F64

/-! ### Selection by a fold -/

/-- A fold whose step keeps the accumulator unless the new element has a strictly
smaller key returns an element of least key. -/
theorem foldl_select_spec {σ α κ : Type*} [LinearOrder κ] (key : σ → κ) (inj : α → σ)
    (step : σ → α → σ) (S : List α)
    (hstep : ∀ a ∈ S, ∀ r ∈ S,
      step (inj a) r = if key (inj r) < key (inj a) then inj r else inj a) :
    ∀ (l : List α) (b : α), (∀ x ∈ b :: l, x ∈ S) →
      ∃ f ∈ b :: l, l.foldl step (inj b) = inj f ∧ ∀ x ∈ b :: l, key (inj f) ≤ key (inj x) := by
  intro l
  induction l with
  | nil =>
    intro b _
    exact ⟨b, by simp, rfl, by simp⟩
  | cons r l ih =>
    intro b hS
    have hb : b ∈ S := hS b (by simp)
    have hr : r ∈ S := hS r (by simp)
    simp only [List.foldl_cons]
    rw [hstep b hb r hr]
    by_cases h : key (inj r) < key (inj b)
    · rw [if_pos h]
      obtain ⟨f, hf, he, hmin⟩ := ih r (fun x hx => hS x (List.mem_cons_of_mem _ hx))
      refine ⟨f, List.mem_cons_of_mem _ hf, he, ?_⟩
      intro x hx
      rcases List.mem_cons.1 hx with rfl | hx
      · exact le_of_lt (lt_of_le_of_lt (hmin r (by simp)) h)
      · exact hmin x hx
    · rw [if_neg h]
      obtain ⟨f, hf, he, hmin⟩ := ih b (fun x hx => hS x (by
        rcases List.mem_cons.1 hx with rfl | hx
        · simp
        · exact List.mem_cons_of_mem _ (List.mem_cons_of_mem _ hx)))
      refine ⟨f, ?_, he, ?_⟩
      · rcases List.mem_cons.1 hf with rfl | hf
        · simp
        · exact List.mem_cons_of_mem _ (List.mem_cons_of_mem _ hf)
      · intro x hx
        rcases List.mem_cons.1 hx with rfl | hx
        · exact hmin x (by simp)
        · rcases List.mem_cons.1 hx with rfl | hx
          · exact le_trans (hmin b (by simp)) (not_lt.1 h)
          · exact hmin x (List.mem_cons_of_mem _ hx)

namespace Internal

theorem mergeKey_lt_iff (p : Bool) (a r : ModelResult) (m : String)
    (ha : (metricOf a m).isNaN = false) (hr : (metricOf r m).isNaN = false) :
    mergeKey p (r, metricOf r m) < mergeKey p (a, metricOf a m) ↔
      ((if p then F64.gt (metricOf r m) (metricOf a m) else F64.lt (metricOf r m) (metricOf a m))
          = true ∨
        (F64.eq (metricOf r m) (metricOf a m) = true ∧ r.Diff < a.Diff)) := by
  unfold mergeKey
  rw [Prod.Lex.lt_iff]
  simp only [F64.ordDir_lt hr ha, F64.ordDir_eq hr ha]

theorem mergeKey_le_iff (p : Bool) (a r : ModelResult) (m : String)
    (ha : (metricOf a m).isNaN = false) (hr : (metricOf r m).isNaN = false) :
    mergeKey p (r, metricOf r m) ≤ mergeKey p (a, metricOf a m) ↔
      ((if p then F64.gt (metricOf r m) (metricOf a m) else F64.lt (metricOf r m) (metricOf a m))
          = true ∨
        (F64.eq (metricOf r m) (metricOf a m) = true ∧ r.Diff ≤ a.Diff)) := by
  unfold mergeKey
  rw [Prod.Lex.le_iff]
  simp only [F64.ordDir_lt hr ha, F64.ordDir_eq hr ha]

theorem mergeStep_eq_select (p : Bool) (m : String) (a r : ModelResult)
    (ha : (metricOf a m).isNaN = false) (hr : (metricOf r m).isNaN = false) :
    mergeStep m p (a, metricOf a m) r =
      if mergeKey p (r, metricOf r m) < mergeKey p (a, metricOf a m) then (r, metricOf r m)
      else (a, metricOf a m) := by
  have key := mergeKey_lt_iff p a r m ha hr
  by_cases h : mergeKey p (r, metricOf r m) < mergeKey p (a, metricOf a m)
  · rw [if_pos h]
    have h2 := key.1 h
    cases p <;> simp_all [mergeStep]
  · rw [if_neg h]
    have h2 := fun c => h (key.2 c)
    cases p <;> simp_all [mergeStep]

/-- Without NaN the loop of `MergeResults` ends on an element of least key. -/
theorem mergeLoop_spec (p : Bool) (m : String) (r0 : ModelResult) (rest : List ModelResult)
    (hnan : NoNaN (r0 :: rest) m) :
    ∃ f ∈ r0 :: rest, rest.foldl (mergeStep m p) (r0, metricOf r0 m) = (f, metricOf f m) ∧
      ∀ x ∈ r0 :: rest, mergeKey p (f, metricOf f m) ≤ mergeKey p (x, metricOf x m) :=
  foldl_select_spec (mergeKey p) (fun r => (r, metricOf r m)) (mergeStep m p) (r0 :: rest)
    (fun a ha r hr => mergeStep_eq_select p m a r (hnan a ha) (hnan r hr)) rest r0 (fun _ hx => hx)

theorem MergeResults_cons (p : Bool) (m : String) (r0 : ModelResult) (rest : List ModelResult) :
    MergeResults (r0 :: rest) m p =
      ((rest.foldl (mergeStep m p) (r0, metricOf r0 m)).1, true) := rfl

/-- Without NaN `MergeResults` returns an element of least key. -/
theorem MergeResults_least_key (p : Bool) (m : String) (results : List ModelResult)
    (hne : results ≠ []) (hnan : NoNaN results m) :
    (MergeResults results m p).1 ∈ results ∧
      ∀ x ∈ results, mergeKey p ((MergeResults results m p).1,
        metricOf (MergeResults results m p).1 m) ≤ mergeKey p (x, metricOf x m) := by
  cases results with
  | nil => exact absurd rfl hne
  | cons r0 rest =>
    obtain ⟨f, hf, he, hmin⟩ := mergeLoop_spec p m r0 rest hnan
    rw [MergeResults_cons, he]
    exact ⟨hf, hmin⟩

theorem metricOf_absent (r : ModelResult) (metric : String)
    (h : ∀ m ∈ r.Metrics, m.Name ≠ metric) : metricOf r metric = F64.zero := by
  unfold metricOf
  have : r.Metrics.find? (fun m => m.Name == metric) = none := by
    rw [List.find?_eq_none]
    intro m hm
    simpa using h m hm
  rw [this]

theorem mergeKey_le_dirLe (p : Bool) (a r : ModelResult) (m : String)
    (ha : (metricOf a m).isNaN = false) (hr : (metricOf r m).isNaN = false)
    (h : mergeKey p (r, metricOf r m) ≤ mergeKey p (a, metricOf a m)) :
    (if p then F64.le (metricOf a m) (metricOf r m)
     else F64.le (metricOf r m) (metricOf a m)) = true := by
  have h := (mergeKey_le_iff p a r m ha hr).1 h
  cases p
  · rcases h with h | ⟨h, _⟩
    · simp only [Bool.false_eq_true, if_false] at h ⊢
      simp [F64.le, h]
    · simp only [Bool.false_eq_true, if_false]
      simp [F64.le, h]
  · rcases h with h | ⟨h, _⟩
    · simp only [if_true] at h ⊢
      simp [F64.le, F64.gt] at h ⊢
      exact Or.inl h
    · simp only [if_true]
      rw [F64.eq_symm] at h
      simp [F64.le, h]

/-- C1 (amended): `MergeResults` returns ok exactly on a non-empty list and reads
an absent metric as 0; when no result has a NaN for the metric, the returned
result is an element of the list whose metric value is the minimum (the
maximum when preferHigher is set) over the list, and when moreover the metric
values are pairwise distinct it is exactly the element with the minimum value
(in particular for the metric latency_ms). -/
theorem MergeResults_selects_extremum (results : List ModelResult) (metric : String)
    (preferHigher : Bool) :
    ((MergeResults results metric preferHigher).2 = true ↔ results ≠ []) ∧
    (∀ r : ModelResult, (∀ m ∈ r.Metrics, m.Name ≠ metric) → metricOf r metric = F64.zero) ∧
    (NoNaN results metric → results ≠ [] →
      (MergeResults results metric preferHigher).1 ∈ results ∧
      (∀ x ∈ results,
        (if preferHigher then
          F64.le (metricOf x metric)
            (metricOf (MergeResults results metric preferHigher).1 metric)
        else
          F64.le (metricOf (MergeResults results metric preferHigher).1 metric)
            (metricOf x metric)) = true) ∧
      (results.Pairwise (fun a b => F64.eq (metricOf a metric) (metricOf b metric) = false) →
        ∀ x ∈ results,
          (∀ y ∈ results, F64.le (metricOf x metric) (metricOf y metric) = true) →
          (MergeResults results metric false).1 = x)) := by
  refine ⟨?_, fun r h => metricOf_absent r metric h, ?_⟩
  · cases results <;> simp [MergeResults]
  · intro hnan hne
    obtain ⟨hmem, hmin⟩ := MergeResults_least_key preferHigher metric results hne hnan
    refine ⟨hmem, ?_, ?_⟩
    · intro x hx
      exact mergeKey_le_dirLe preferHigher x _ metric (hnan x hx) (hnan _ hmem) (hmin x hx)
    · intro hdist x hx hxmin
      obtain ⟨hmem', hmin'⟩ := MergeResults_least_key false metric results hne hnan
      by_contra hneq
      have hsym : Symmetric (fun a b : ModelResult =>
          F64.eq (metricOf a metric) (metricOf b metric) = false) := by
        intro a b hab
        rw [F64.eq_symm]
        exact hab
      have hR := hdist.forall hsym hmem' hx hneq
      have h1 := (mergeKey_le_iff false x _ metric (hnan x hx) (hnan _ hmem')).1 (hmin' x hx)
      have h2 := hxmin _ hmem'
      simp only [Bool.false_eq_true, if_false] at h1
      rcases h1 with h1 | ⟨h1, _⟩
      · rw [F64.lt_iff_ord (hnan _ hmem') (hnan x hx)] at h1
        rw [F64.le_iff_ord (hnan x hx) (hnan _ hmem')] at h2
        exact absurd h1 (not_lt.2 h2)
      · rw [h1] at hR
        exact absurd hR (by simp)

/-- Witness of `MergeResults_selects_extremum` on the list of the latency test. -/
theorem MergeResults_selects_extremum_witness :
    NoNaN twoLatencies "latency_ms" ∧ twoLatencies ≠ [] ∧
      (MergeResults twoLatencies "latency_ms" false).1 ∈ twoLatencies :=
  ⟨by unfold NoNaN; decide, by decide,
    ((MergeResults_selects_extremum twoLatencies "latency_ms" false).2.2
      (by unfold NoNaN; decide) (by decide)).1⟩

/-- C1 as stated fails: on a list whose first result has a NaN latency,
`MergeResults` returns that result, whose latency is not at most the latency
of the other result. -/
theorem MergeResults_nan_not_minimum :
    nanFirst ≠ [] ∧ (MergeResults nanFirst "latency_ms" false).1.Diff = "a" ∧
      ¬ (∀ x ∈ nanFirst,
        F64.le (metricOf (MergeResults nanFirst "latency_ms" false).1 "latency_ms")
          (metricOf x "latency_ms") = true) := by
  decide

/-! ### NaN in the selection loop -/

theorem isNaN_eq_true {x : F64} (h : x.isNaN = true) : x = F64.nan := by
  cases x <;> simp_all [F64.isNaN]

theorem mergeStep_nan_elem (m : String) (p : Bool) (st : ModelResult × F64) (r : ModelResult)
    (h : (metricOf r m).isNaN = true) : mergeStep m p st r = st := by
  unfold mergeStep
  rw [isNaN_eq_true h]
  cases p <;>
    simp [F64.gt, F64.lt_nan_left, F64.lt_nan_right, F64.eq_nan_left]

theorem mergeStep_nan_state (m : String) (p : Bool) (b r : ModelResult) :
    mergeStep m p (b, F64.nan) r = (b, F64.nan) := by
  unfold mergeStep
  cases p <;>
    simp [F64.gt, F64.lt_nan_left, F64.lt_nan_right, F64.eq_nan_right]

theorem foldl_mergeStep_nan_state (m : String) (p : Bool) (b : ModelResult)
    (l : List ModelResult) : l.foldl (mergeStep m p) (b, F64.nan) = (b, F64.nan) := by
  induction l with
  | nil => rfl
  | cons r l ih => rw [List.foldl_cons, mergeStep_nan_state, ih]

theorem foldl_mergeStep_nan_state_of (m : String) (p : Bool) (b : ModelResult)
    (l : List ModelResult) (h : (metricOf b m).isNaN = true) :
    l.foldl (mergeStep m p) (b, metricOf b m) = (b, metricOf b m) := by
  rw [isNaN_eq_true h, foldl_mergeStep_nan_state]

theorem foldl_mergeStep_filter (m : String) (p : Bool) (l : List ModelResult) :
    ∀ st : ModelResult × F64, l.foldl (mergeStep m p) st =
      (l.filter (fun r => !(metricOf r m).isNaN)).foldl (mergeStep m p) st := by
  induction l with
  | nil => intro st; rfl
  | cons r l ih =>
    intro st
    by_cases h : (metricOf r m).isNaN = true
    · rw [List.foldl_cons, mergeStep_nan_elem m p st r h, ih]
      simp [List.filter_cons, h]
    · have h2 : (metricOf r m).isNaN = false := by simpa using h
      rw [List.foldl_cons, ih]
      simp [List.filter_cons, h2]

theorem lt_eq_exclusive (p : Bool) {x y : F64}
    (hlt : (if p then F64.gt x y else F64.lt x y) = true) (heq : F64.eq x y = true) : False := by
  have hx : x.isNaN = false := by
    cases x
    · simp [F64.eq_nan_left] at heq
    all_goals rfl
  have hy : y.isNaN = false := by
    cases y
    · simp [F64.eq_nan_right] at heq
    all_goals rfl
  rw [F64.eq_iff_ord hx hy] at heq
  cases p
  · simp only [Bool.false_eq_true, if_false] at hlt
    rw [F64.lt_iff_ord hx hy, heq] at hlt
    exact lt_irrefl _ hlt
  · simp only [if_true, F64.gt] at hlt
    rw [F64.lt_iff_ord hy hx, heq] at hlt
    exact lt_irrefl _ hlt

/-- The tie-break of `MergeResults`, for every list: the returned result has the
least Diff among the results whose value is `==` to its own. -/
theorem MergeResults_least_diff (p : Bool) (m : String) (results : List ModelResult)
    (hne : results ≠ []) :
    (MergeResults results m p).1 ∈ results ∧
      ∀ x ∈ results,
        F64.eq (metricOf x m) (metricOf (MergeResults results m p).1 m) = true →
        (MergeResults results m p).1.Diff ≤ x.Diff := by
  cases results with
  | nil => exact absurd rfl hne
  | cons r0 rest =>
    rw [MergeResults_cons]
    by_cases h0 : (metricOf r0 m).isNaN = true
    · rw [foldl_mergeStep_nan_state_of m p r0 rest h0]
      refine ⟨by simp, ?_⟩
      intro x _ hx
      rw [isNaN_eq_true h0, F64.eq_nan_right] at hx
      exact absurd hx (by simp)
    · have h0' : (metricOf r0 m).isNaN = false := by simpa using h0
      rw [foldl_mergeStep_filter]
      have hnan : NoNaN (r0 :: rest.filter (fun r => !(metricOf r m).isNaN)) m := by
        intro r hr
        rcases List.mem_cons.1 hr with rfl | hr
        · exact h0'
        · simpa using (List.mem_filter.1 hr).2
      obtain ⟨f, hf, he, hmin⟩ := mergeLoop_spec p m r0 _ hnan
      rw [he]
      refine ⟨?_, ?_⟩
      · rcases List.mem_cons.1 hf with rfl | hf
        · simp
        · exact List.mem_cons_of_mem _ (List.mem_filter.1 hf).1
      · intro x hx hxe
        have hxn : (metricOf x m).isNaN = false := by
          cases hv : metricOf x m
          · rw [hv, F64.eq_nan_left] at hxe
            exact absurd hxe (by simp)
          all_goals rfl
        have hx' : x ∈ r0 :: rest.filter (fun r => !(metricOf r m).isNaN) := by
          rcases List.mem_cons.1 hx with rfl | hx
          · simp
          · exact List.mem_cons_of_mem _ (List.mem_filter.2 ⟨hx, by simpa using hxn⟩)
        have h := (mergeKey_le_iff p x f m hxn (hnan f hf)).1 (hmin x hx')
        rcases h with h | ⟨_, h⟩
        · rw [F64.eq_symm] at hxe
          exact absurd (lt_eq_exclusive p h hxe) id
        · exact h

/-- Without NaN, on a non-empty list, `MergeResults` returns an element of the
list that is extremal for the metric and has the least Diff among the results
of equal value. -/
theorem MergeResults_spec (p : Bool) (m : String) (results : List ModelResult)
    (hne : results ≠ []) (hnan : NoNaN results m) :
    (MergeResults results m p).2 = true ∧
    (MergeResults results m p).1 ∈ results ∧
    (∀ x ∈ results,
      (if p then F64.le (metricOf x m) (metricOf (MergeResults results m p).1 m)
       else F64.le (metricOf (MergeResults results m p).1 m) (metricOf x m)) = true) ∧
    (∀ x ∈ results,
      F64.eq (metricOf x m) (metricOf (MergeResults results m p).1 m) = true →
      (MergeResults results m p).1.Diff ≤ x.Diff) := by
  obtain ⟨hmem, hmin⟩ := MergeResults_least_key p m results hne hnan
  refine ⟨?_, hmem, ?_, (MergeResults_least_diff p m results hne).2⟩
  · cases results with
    | nil => exact absurd rfl hne
    | cons a l => rfl
  · intro x hx
    exact mergeKey_le_dirLe p x _ m (hnan x hx) (hnan _ hmem) (hmin x hx)

theorem le_not_nan {x y : F64} (h : F64.le x y = true) :
    x.isNaN = false ∧ y.isNaN = false := by
  cases x with
  | nan => simp [F64.le, F64.lt_nan_left, F64.eq_nan_left] at h
  | inf a =>
    cases y with
    | nan => simp [F64.le, F64.lt_nan_right, F64.eq_nan_right] at h
    | inf b => exact ⟨rfl, rfl⟩
    | fin t l => exact ⟨rfl, rfl⟩
  | fin s k =>
    cases y with
    | nan => simp [F64.le, F64.lt_nan_right, F64.eq_nan_right] at h
    | inf b => exact ⟨rfl, rfl⟩
    | fin t l => exact ⟨rfl, rfl⟩

/-- C2: on every non-empty list, for every metric and either direction, the
result returned by `MergeResults` is an element of the list whose Diff is the
least among the results whose metric value equals (Go `==`) the selected value;
and every result whose value is the minimum (the maximum when preferHigher is
set) over the list has the selected value and a Diff at least the returned one. -/
theorem MergeResults_tie_break (results : List ModelResult) (metric : String)
    (preferHigher : Bool) (hne : results ≠ []) :
    (MergeResults results metric preferHigher).1 ∈ results ∧
    (∀ x ∈ results,
      F64.eq (metricOf x metric)
        (metricOf (MergeResults results metric preferHigher).1 metric) = true →
      (MergeResults results metric preferHigher).1.Diff ≤ x.Diff) ∧
    (∀ x ∈ results,
      (∀ y ∈ results,
        (if preferHigher then F64.le (metricOf y metric) (metricOf x metric)
         else F64.le (metricOf x metric) (metricOf y metric)) = true) →
      F64.eq (metricOf x metric)
        (metricOf (MergeResults results metric preferHigher).1 metric) = true ∧
      (MergeResults results metric preferHigher).1.Diff ≤ x.Diff) := by
  obtain ⟨hmem, htie⟩ := MergeResults_least_diff preferHigher metric results hne
  refine ⟨hmem, htie, ?_⟩
  intro x hx hext
  have hnan : NoNaN results metric := by
    intro y hy
    have h := hext y hy
    cases preferHigher
    · simp only [Bool.false_eq_true, if_false] at h
      exact (le_not_nan h).2
    · simp only [if_true] at h
      exact (le_not_nan h).1
  obtain ⟨_, hmin⟩ := MergeResults_least_key preferHigher metric results hne hnan
  have hb := hext _ hmem
  have h := (mergeKey_le_iff preferHigher x _ metric (hnan x hx) (hnan _ hmem)).1 (hmin x hx)
  have heq : F64.eq (metricOf x metric)
      (metricOf (MergeResults results metric preferHigher).1 metric) = true := by
    rcases h with h | ⟨h, _⟩
    · exfalso
      cases preferHigher
      · simp only [Bool.false_eq_true, if_false] at h hb
        rw [F64.lt_iff_ord (hnan _ hmem) (hnan x hx)] at h
        rw [F64.le_iff_ord (hnan x hx) (hnan _ hmem)] at hb
        exact absurd h (not_lt.2 hb)
      · simp only [if_true, F64.gt] at h hb
        rw [F64.lt_iff_ord (hnan x hx) (hnan _ hmem)] at h
        rw [F64.le_iff_ord (hnan _ hmem) (hnan x hx)] at hb
        exact absurd h (not_lt.2 hb)
    · rw [F64.eq_symm]
      exact h
  exact ⟨heq, htie x hx heq⟩

/-- Witness of `MergeResults_tie_break` on the list of the tie-break test. -/
theorem MergeResults_tie_break_witness :
    twoTied ≠ [] ∧ (MergeResults twoTied "latency_ms" false).1 ∈ twoTied :=
  ⟨by decide, (MergeResults_tie_break twoTied "latency_ms" false (by decide)).1⟩

/-- C3 (amended): when no result has a NaN for the metric, `MergeResults` on a
permutation of the list returns the same ok flag, a result with the same Diff
and an equal (Go `==`) metric value. -/
theorem MergeResults_perm_invariant (l₁ l₂ : List ModelResult) (metric : String)
    (preferHigher : Bool) (hperm : l₁.Perm l₂) (hnan : NoNaN l₁ metric) :
    (MergeResults l₁ metric preferHigher).2 = (MergeResults l₂ metric preferHigher).2 ∧
    (MergeResults l₁ metric preferHigher).1.Diff = (MergeResults l₂ metric preferHigher).1.Diff ∧
    F64.eq (metricOf (MergeResults l₁ metric preferHigher).1 metric)
      (metricOf (MergeResults l₂ metric preferHigher).1 metric) = true := by
  by_cases h1 : l₁ = []
  · subst h1
    have h2 : l₂ = [] := List.Perm.nil_eq hperm |>.symm
    subst h2
    refine ⟨rfl, rfl, ?_⟩
    show F64.eq F64.zero F64.zero = true
    decide
  · have h2 : l₂ ≠ [] := by
      intro h
      subst h
      exact h1 (List.Perm.eq_nil hperm)
    have hnan2 : NoNaN l₂ metric := fun r hr => hnan r (hperm.mem_iff.2 hr)
    obtain ⟨hm1, hk1⟩ := MergeResults_least_key preferHigher metric l₁ h1 hnan
    obtain ⟨hm2, hk2⟩ := MergeResults_least_key preferHigher metric l₂ h2 hnan2
    have hkey := le_antisymm (hk1 _ (hperm.mem_iff.2 hm2)) (hk2 _ (hperm.mem_iff.1 hm1))
    have ha := congrArg (fun z => (ofLex z).1) hkey
    have hb := congrArg (fun z => (ofLex z).2) hkey
    simp only [mergeKey, ofLex_toLex] at ha hb
    refine ⟨?_, hb, (F64.ordDir_eq (hnan _ hm1) (hnan2 _ hm2)).1 ha⟩
    cases l₁ with
    | nil => exact absurd rfl h1
    | cons a l₁ =>
      cases l₂ with
      | nil => exact absurd rfl h2
      | cons b l₂ => rfl

/-- Witness of `MergeResults_perm_invariant` on the list of the latency test and
its reversal. -/
theorem MergeResults_perm_invariant_witness :
    twoLatencies.Perm twoLatencies.reverse ∧ NoNaN twoLatencies "latency_ms" ∧
      (MergeResults twoLatencies "latency_ms" false).1.Diff =
        (MergeResults twoLatencies.reverse "latency_ms" false).1.Diff :=
  ⟨(List.reverse_perm _).symm, by unfold NoNaN; decide,
    (MergeResults_perm_invariant twoLatencies twoLatencies.reverse "latency_ms" false
      (List.reverse_perm _).symm (by unfold NoNaN; decide)).2.1⟩

/-- C3 as stated fails: a list with a NaN latency and its reversal give results
with different Diffs. -/
theorem MergeResults_nan_order_dependent :
    nanFirst.Perm nanFirst.reverse ∧
      (MergeResults nanFirst "latency_ms" false).1.Diff = "a" ∧
      (MergeResults nanFirst.reverse "latency_ms" false).1.Diff = "b" :=
  ⟨(List.reverse_perm _).symm, by decide, by decide⟩

end Internal

/-! ### `mergeResults` -/

namespace Orchestrator

theorem metricOf_mapped (r : ModelResult) (m : String) :
    Internal.metricOf
      { Diff := r.Diff, Metrics := [{ Name := m, Value := metricValue r m }] } m =
      metricValue r m := by
  simp [Internal.metricOf]

theorem mapped_NoNaN (results : List ModelResult) (m : String)
    (hnan : ∀ r ∈ results, (metricValue r m).isNaN = false) :
    Internal.NoNaN (mapped results m) m := by
  intro x hx
  obtain ⟨r, hr, rfl⟩ := List.mem_map.1 hx
  rw [metricOf_mapped]
  exact hnan r hr

/-- The call of `internal.MergeResults` on the mapped results: on a non-empty list
without NaN it is ok and returns the Diff of an extremal result of least Diff. -/
theorem mergeInternal_spec (higher : Bool) (m : String) (results : List ModelResult)
    (hne : results ≠ []) (hnan : ∀ r ∈ results, (metricValue r m).isNaN = false) :
    (Internal.MergeResults (mapped results m) m higher).2 = true ∧
    ∃ r ∈ results,
      (Internal.MergeResults (mapped results m) m higher).1 =
        { Diff := r.Diff, Metrics := [{ Name := m, Value := metricValue r m }] } ∧
      (∀ x ∈ results, dirLe higher (metricValue r m) (metricValue x m) = true) ∧
      (∀ x ∈ results, F64.eq (metricValue x m) (metricValue r m) = true → r.Diff ≤ x.Diff) := by
  have hne' : mapped results m ≠ [] := by
    simpa [mapped] using hne
  obtain ⟨hok, hmem, hext, htie⟩ :=
    Internal.MergeResults_spec higher m (mapped results m) hne' (mapped_NoNaN results m hnan)
  obtain ⟨r, hr, hbest⟩ := List.mem_map.1 hmem
  refine ⟨hok, r, hr, hbest.symm, ?_, ?_⟩
  · intro x hx
    have h := hext _ (List.mem_map.2 ⟨x, hx, rfl⟩)
    rw [← hbest, metricOf_mapped, metricOf_mapped] at h
    cases higher <;> simpa [dirLe] using h
  · intro x hx he
    have h := htie _ (List.mem_map.2 ⟨x, hx, rfl⟩)
    rw [← hbest, metricOf_mapped, metricOf_mapped] at h
    exact h he

theorem mergeLowest_selects (results : List ModelResult) (m : String) :
    SelectsBy results m false (some (mergeLowest results m)) := by
  constructor
  · intro h
    subst h
    rfl
  · intro hne hnan
    obtain ⟨hok, r, hr, hbest, hext, htie⟩ := mergeInternal_spec false m results hne hnan
    have hm : mergeLowest results m = .ok
        { SchemaVersion := schemaVersion,
          Diff := (Internal.MergeResults (mapped results m) m false).1.Diff,
          Rationale := "selected lowest " ++ m ++ " with deterministic tie-breaker",
          Confidence := F64.ofRat 6 10,
          QualityScore := metricValueInternal
            (Internal.MergeResults (mapped results m) m false).1 "quality_score" } := by
      simp only [mergeLowest, hok, Bool.not_true, Bool.false_eq_true, if_false]
    refine ⟨r, hr, _, congrArg some hm, ?_, hext, htie⟩
    simp [hbest]

theorem asciiCaseEq_EqualFold (s t : String) (h : asciiCaseEq s t) : EqualFold s t = true := by
  unfold EqualFold
  unfold asciiCaseEq at h
  generalize s.data = a at h
  generalize t.data = b at h
  induction h with
  | nil => rfl
  | cons hcd _ ih =>
    rename_i c d l₁ l₂
    simp only [List.length_cons, List.zipWith_cons_cons, List.all_cons, Bool.and_eq_true,
      beq_iff_eq, Nat.add_right_cancel_iff] at ih ⊢
    refine ⟨ih.1, ?_, ih.2⟩
    rcases hcd with rfl | ⟨h1, h2, h3⟩
    · simp [foldEqRune]
    · simp [foldEqRune, h1, h2, h3]

/-- C4 (amended): `mergeResults` compares the policy with `strings.EqualFold`, so
case-insensitively.  A policy equal to cost selects by minimum cost_usd, one
equal to quality by maximum quality_score, and every policy that is none of
cost, quality, quantum, weighted and weighted_quality (the empty policy and
latency among them) by minimum latency_ms: on an empty list the error is
"no results", and on a non-empty list in which no result has a NaN for the
metric the Diff returned is that of a result with the minimum (maximum) value,
the least Diff among the results of equal value. -/
theorem mergeResults_policy (W : World) (results : List ModelResult) (policy : String)
    (weightCost weightLatency weightQuality : F64) :
    (∀ s t : String, asciiCaseEq s t → EqualFold s t = true) ∧
    (EqualFold policy "cost" = true →
      SelectsBy results "cost_usd" false
        (mergeResults W results policy weightCost weightLatency weightQuality)) ∧
    (EqualFold policy "cost" = false → EqualFold policy "quality" = true →
      SelectsBy results "quality_score" true
        (mergeResults W results policy weightCost weightLatency weightQuality)) ∧
    (EqualFold policy "cost" = false → EqualFold policy "quality" = false →
      EqualFold policy "quantum" = false → EqualFold policy "weighted" = false →
      EqualFold policy "weighted_quality" = false →
      SelectsBy results "latency_ms" false
        (mergeResults W results policy weightCost weightLatency weightQuality)) ∧
    (∀ p ∈ ["", "latency"], EqualFold p "cost" = false ∧ EqualFold p "quality" = false ∧
      EqualFold p "quantum" = false ∧ EqualFold p "weighted" = false ∧
      EqualFold p "weighted_quality" = false) := by
  refine ⟨asciiCaseEq_EqualFold, ?_, ?_, ?_, by decide⟩
  · intro hc
    simp only [mergeResults, hc, if_true]
    exact mergeLowest_selects results "cost_usd"
  · intro hc hq
    simp only [mergeResults, hc, hq, if_true, Bool.false_eq_true, if_false]
    constructor
    · intro h
      subst h
      rfl
    · intro hne hnan
      obtain ⟨hok, r, hr, hbest, hext, htie⟩ :=
        mergeInternal_spec true "quality_score" results hne hnan
      simp only [hok, Bool.not_true, Bool.false_eq_true, if_false]
      refine ⟨r, hr, _, rfl, ?_, hext, htie⟩
      simp [hbest]
  · intro hc hq hx hw hwq
    simp only [mergeResults, hc, hq, hx, hw, hwq, Bool.false_eq_true, if_false]
    exact mergeLowest_selects results "latency_ms"

/-- Witness of `mergeResults_policy`: the policy "Cost" on two results. -/
theorem mergeResults_policy_witness :
    EqualFold "Cost" "cost" = true ∧
      SelectsBy twoResults "cost_usd" false
        (mergeResults World.quiet twoResults "Cost" (F64.ofRat 3 10) (F64.ofRat 7 10) F64.zero) :=
  ⟨by decide,
    (mergeResults_policy World.quiet twoResults "Cost" (F64.ofRat 3 10) (F64.ofRat 7 10)
      F64.zero).2.1 (by decide)⟩

/-- C4 as stated fails: under the policy cost, on a list whose first result has a
NaN cost, `mergeResults` returns the Diff "a" of that result, and no result with
that Diff has a cost at most the cost of every result. -/
theorem mergeResults_nan_cost :
    ∃ mr, mergeResults World.quiet nanCost "cost" (F64.ofRat 3 10) (F64.ofRat 7 10) F64.zero =
        some (.ok mr) ∧ mr.Diff = "a" ∧
      ¬ ∃ r ∈ nanCost, r.Diff = "a" ∧
        ∀ x ∈ nanCost, F64.le (metricValue r "cost_usd") (metricValue x "cost_usd") = true :=
  ⟨_, rfl, by decide, by decide⟩

/-! ### `weightedBest` -/

theorem metricOf_asScored (score : ModelResult → F64) (r : ModelResult) :
    Internal.metricOf (asScored score r) "score" = score r := by
  simp [Internal.metricOf, asScored]

/-- The loop of `weightedBest` is the loop of `MergeResults` on the scores. -/
theorem weightedStep_sim (score : ModelResult → F64) (st : ModelResult × F64) (r : ModelResult) :
    Internal.mergeStep "score" false (asScored score st.1, st.2) (asScored score r) =
      (asScored score (weightedStep score st r).1, (weightedStep score st r).2) := by
  unfold Internal.mergeStep weightedStep
  rw [metricOf_asScored]
  simp only [Bool.false_eq_true, if_false]
  have hd : (asScored score r).Diff = r.Diff := rfl
  have hd2 : (asScored score st.1).Diff = st.1.Diff := rfl
  rw [hd, hd2]
  split <;> rfl

theorem weightedLoop_sim (score : ModelResult → F64) (l : List ModelResult) :
    ∀ st : ModelResult × F64,
      (l.map (asScored score)).foldl (Internal.mergeStep "score" false)
          (asScored score st.1, st.2) =
        (asScored score (l.foldl (weightedStep score) st).1,
          (l.foldl (weightedStep score) st).2) := by
  induction l with
  | nil => intro st; rfl
  | cons r l ih =>
    intro st
    simp only [List.map_cons, List.foldl_cons]
    rw [weightedStep_sim, ih]

theorem weightedStep_cases (score : ModelResult → F64) (st : ModelResult × F64)
    (r : ModelResult) :
    weightedStep score st r = (r, score r) ∨ weightedStep score st r = st := by
  unfold weightedStep
  by_cases h : (F64.lt (score r) st.2 ||
      (F64.eq (score r) st.2 && decide (r.Diff < st.1.Diff))) = true
  · left
    simp only [h, if_true]
  · right
    simp only [h, Bool.false_eq_true, if_false]

theorem weightedLoop_inv (score : ModelResult → F64) (l : List ModelResult) :
    ∀ st : ModelResult × F64, st.2 = score st.1 →
      (l.foldl (weightedStep score) st).1 ∈ st.1 :: l ∧
      (l.foldl (weightedStep score) st).2 = score (l.foldl (weightedStep score) st).1 := by
  induction l with
  | nil => intro st h; exact ⟨by simp, h⟩
  | cons r l ih =>
    intro st h
    simp only [List.foldl_cons]
    have hst : (weightedStep score st r).2 = score (weightedStep score st r).1 := by
      rcases weightedStep_cases score st r with hc | hc
      · rw [hc]
      · rw [hc]
        exact h
    obtain ⟨hm, hs⟩ := ih _ hst
    refine ⟨?_, hs⟩
    rcases List.mem_cons.1 hm with hm | hm
    · rw [hm]
      rcases weightedStep_cases score st r with hc | hc
      · rw [hc]
        simp
      · rw [hc]
        simp
    · exact List.mem_cons_of_mem _ (List.mem_cons_of_mem _ hm)

/-- On a non-empty list `weightedBest` returns a result of the list with its
score, which is the result that `MergeResults` selects on the scores. -/
theorem weightedBest_eq (results : List ModelResult) (wc wl wq : F64) (hne : results ≠ []) :
    ∃ best, weightedBest results wc wl wq = some (best, scoreIn results wc wl wq best) ∧
      best ∈ results ∧
      (Internal.MergeResults (results.map (asScored (scoreIn results wc wl wq))) "score" false).1 =
        asScored (scoreIn results wc wl wq) best := by
  cases results with
  | nil => exact absurd rfl hne
  | cons r0 rest =>
    obtain ⟨hm, hs⟩ := weightedLoop_inv (scoreIn (r0 :: rest) wc wl wq) rest
      (r0, scoreIn (r0 :: rest) wc wl wq r0) rfl
    refine ⟨_, ?_, hm, ?_⟩
    · simp only [weightedBest]
      rw [← hs]
    · simp only [List.map_cons, Internal.MergeResults_cons, metricOf_asScored]
      exact congrArg Prod.fst (weightedLoop_sim (scoreIn (r0 :: rest) wc wl wq) rest
        (r0, scoreIn (r0 :: rest) wc wl wq r0))

/-! ### `minMaxMetric` -/

theorem minMax_enumFrom (name : String) (rest : List ModelResult) :
    ∀ (n : Nat) (st : F64 × F64),
      (List.enumFrom (n + 1) rest).foldl
        (fun (st : F64 × F64) (ir : Nat × ModelResult) =>
          (if ir.1 == 0 || F64.lt (metricValue ir.2 name) st.1 then metricValue ir.2 name
           else st.1,
           if ir.1 == 0 || F64.gt (metricValue ir.2 name) st.2 then metricValue ir.2 name
           else st.2)) st =
      rest.foldl (fun (st : F64 × F64) (r : ModelResult) =>
          (if F64.lt (metricValue r name) st.1 then metricValue r name else st.1,
           if F64.gt (metricValue r name) st.2 then metricValue r name else st.2)) st := by
  induction rest with
  | nil => intro n st; rfl
  | cons r rest ih =>
    intro n st
    simp only [List.enumFrom_cons, List.foldl_cons]
    rw [ih]
    simp

theorem minMaxMetric_cons (r0 : ModelResult) (rest : List ModelResult) (name : String) :
    minMaxMetric (r0 :: rest) name =
      rest.foldl (fun (st : F64 × F64) (r : ModelResult) =>
          (if F64.lt (metricValue r name) st.1 then metricValue r name else st.1,
           if F64.gt (metricValue r name) st.2 then metricValue r name else st.2))
        (metricValue r0 name, metricValue r0 name) := by
  unfold minMaxMetric
  simp only [List.enum, List.enumFrom_cons, List.foldl_cons]
  rw [minMax_enumFrom]
  simp

theorem minMax_fold_spec (name : String) (l : List ModelResult)
    (hl : ∀ r ∈ l, (metricValue r name).isNaN = false) :
    ∀ mn mx : F64, mn.isNaN = false → mx.isNaN = false →
      ((l.foldl (fun (st : F64 × F64) (r : ModelResult) =>
          (if F64.lt (metricValue r name) st.1 then metricValue r name else st.1,
           if F64.gt (metricValue r name) st.2 then metricValue r name else st.2))
        (mn, mx)).1.isNaN = false ∧
       F64.ord (l.foldl (fun (st : F64 × F64) (r : ModelResult) =>
          (if F64.lt (metricValue r name) st.1 then metricValue r name else st.1,
           if F64.gt (metricValue r name) st.2 then metricValue r name else st.2))
        (mn, mx)).1 ≤ F64.ord mn ∧
       (∀ x ∈ l, F64.ord (l.foldl (fun (st : F64 × F64) (r : ModelResult) =>
          (if F64.lt (metricValue r name) st.1 then metricValue r name else st.1,
           if F64.gt (metricValue r name) st.2 then metricValue r name else st.2))
        (mn, mx)).1 ≤ F64.ord (metricValue x name)) ∧
       ((l.foldl (fun (st : F64 × F64) (r : ModelResult) =>
          (if F64.lt (metricValue r name) st.1 then metricValue r name else st.1,
           if F64.gt (metricValue r name) st.2 then metricValue r name else st.2))
        (mn, mx)).1 = mn ∨ ∃ x ∈ l, metricValue x name =
          (l.foldl (fun (st : F64 × F64) (r : ModelResult) =>
          (if F64.lt (metricValue r name) st.1 then metricValue r name else st.1,
           if F64.gt (metricValue r name) st.2 then metricValue r name else st.2))
        (mn, mx)).1)) ∧
      ((l.foldl (fun (st : F64 × F64) (r : ModelResult) =>
          (if F64.lt (metricValue r name) st.1 then metricValue r name else st.1,
           if F64.gt (metricValue r name) st.2 then metricValue r name else st.2))
        (mn, mx)).2.isNaN = false ∧
       F64.ord mx ≤ F64.ord (l.foldl (fun (st : F64 × F64) (r : ModelResult) =>
          (if F64.lt (metricValue r name) st.1 then metricValue r name else st.1,
           if F64.gt (metricValue r name) st.2 then metricValue r name else st.2))
        (mn, mx)).2 ∧
       (∀ x ∈ l, F64.ord (metricValue x name) ≤
         F64.ord (l.foldl (fun (st : F64 × F64) (r : ModelResult) =>
          (if F64.lt (metricValue r name) st.1 then metricValue r name else st.1,
           if F64.gt (metricValue r name) st.2 then metricValue r name else st.2))
        (mn, mx)).2) ∧
       ((l.foldl (fun (st : F64 × F64) (r : ModelResult) =>
          (if F64.lt (metricValue r name) st.1 then metricValue r name else st.1,
           if F64.gt (metricValue r name) st.2 then metricValue r name else st.2))
        (mn, mx)).2 = mx ∨ ∃ x ∈ l, metricValue x name =
          (l.foldl (fun (st : F64 × F64) (r : ModelResult) =>
          (if F64.lt (metricValue r name) st.1 then metricValue r name else st.1,
           if F64.gt (metricValue r name) st.2 then metricValue r name else st.2))
        (mn, mx)).2)) := by
  induction l with
  | nil =>
    intro mn mx hmn hmx
    exact ⟨⟨hmn, le_refl _, by simp, Or.inl rfl⟩, ⟨hmx, le_refl _, by simp, Or.inl rfl⟩⟩
  | cons r l ih =>
    intro mn mx hmn hmx
    have hr : (metricValue r name).isNaN = false := hl r (by simp)
    have hl' : ∀ x ∈ l, (metricValue x name).isNaN = false :=
      fun x hx => hl x (List.mem_cons_of_mem _ hx)
    simp only [List.foldl_cons]
    have hmn' : (if F64.lt (metricValue r name) mn then metricValue r name else mn).isNaN
        = false := by split <;> assumption
    have hmx' : (if F64.gt (metricValue r name) mx then metricValue r name else mx).isNaN
        = false := by split <;> assumption
    obtain ⟨⟨a1, a2, a3, a4⟩, ⟨b1, b2, b3, b4⟩⟩ := ih hl' _ _ hmn' hmx'
    have cmn : F64.ord (if F64.lt (metricValue r name) mn then metricValue r name else mn) ≤
        F64.ord mn ∧
        F64.ord (if F64.lt (metricValue r name) mn then metricValue r name else mn) ≤
        F64.ord (metricValue r name) := by
      by_cases h : F64.lt (metricValue r name) mn = true
      · simp only [h, if_true]
        exact ⟨le_of_lt ((F64.lt_iff_ord hr hmn).1 h), le_refl _⟩
      · simp only [h, Bool.false_eq_true, if_false]
        exact ⟨le_refl _, not_lt.1 (fun c => h ((F64.lt_iff_ord hr hmn).2 c))⟩
    have cmx : F64.ord mx ≤
        F64.ord (if F64.gt (metricValue r name) mx then metricValue r name else mx) ∧
        F64.ord (metricValue r name) ≤
        F64.ord (if F64.gt (metricValue r name) mx then metricValue r name else mx) := by
      by_cases h : F64.gt (metricValue r name) mx = true
      · simp only [h, if_true]
        exact ⟨le_of_lt ((F64.lt_iff_ord hmx hr).1 h), le_refl _⟩
      · simp only [h, Bool.false_eq_true, if_false]
        exact ⟨le_refl _, not_lt.1 (fun c => h ((F64.lt_iff_ord hmx hr).2 c))⟩
    refine ⟨⟨a1, le_trans a2 cmn.1, ?_, ?_⟩, ⟨b1, le_trans cmx.1 b2, ?_, ?_⟩⟩
    · intro x hx
      rcases List.mem_cons.1 hx with rfl | hx
      · exact le_trans a2 cmn.2
      · exact a3 x hx
    · rcases a4 with h | ⟨x, hx, h⟩
      · by_cases hc : F64.lt (metricValue r name) mn = true
        · right
          refine ⟨r, by simp, ?_⟩
          rw [h]
          simp only [hc, if_true]
        · left
          rw [h]
          simp only [hc, Bool.false_eq_true, if_false]
      · exact Or.inr ⟨x, List.mem_cons_of_mem _ hx, h⟩
    · intro x hx
      rcases List.mem_cons.1 hx with rfl | hx
      · exact le_trans cmx.2 b2
      · exact b3 x hx
    · rcases b4 with h | ⟨x, hx, h⟩
      · by_cases hc : F64.gt (metricValue r name) mx = true
        · right
          refine ⟨r, by simp, ?_⟩
          rw [h]
          simp only [hc, if_true]
        · left
          rw [h]
          simp only [hc, Bool.false_eq_true, if_false]
      · exact Or.inr ⟨x, List.mem_cons_of_mem _ hx, h⟩

/-- On a non-empty list without NaN for the metric, `minMaxMetric` returns the
least and the greatest value of the metric over the list. -/
theorem minMaxMetric_spec (results : List ModelResult) (name : String) (hne : results ≠ [])
    (hnan : ∀ r ∈ results, (metricValue r name).isNaN = false) :
    (∃ r ∈ results, metricValue r name = (minMaxMetric results name).1) ∧
    (∀ x ∈ results, F64.le (minMaxMetric results name).1 (metricValue x name) = true) ∧
    (∃ r ∈ results, metricValue r name = (minMaxMetric results name).2) ∧
    (∀ x ∈ results, F64.le (metricValue x name) (minMaxMetric results name).2 = true) := by
  cases results with
  | nil => exact absurd rfl hne
  | cons r0 rest =>
    have h0 : (metricValue r0 name).isNaN = false := hnan r0 (by simp)
    have hrest : ∀ r ∈ rest, (metricValue r name).isNaN = false :=
      fun r hr => hnan r (List.mem_cons_of_mem _ hr)
    obtain ⟨⟨a1, a2, a3, a4⟩, ⟨b1, b2, b3, b4⟩⟩ :=
      minMax_fold_spec name rest hrest (metricValue r0 name) (metricValue r0 name) h0 h0
    rw [minMaxMetric_cons]
    refine ⟨?_, ?_, ?_, ?_⟩
    · rcases a4 with h | ⟨x, hx, h⟩
      · exact ⟨r0, by simp, h.symm⟩
      · exact ⟨x, List.mem_cons_of_mem _ hx, h⟩
    · intro x hx
      rw [F64.le_iff_ord a1 (hnan x hx)]
      rcases List.mem_cons.1 hx with rfl | hx
      · exact a2
      · exact a3 x hx
    · rcases b4 with h | ⟨x, hx, h⟩
      · exact ⟨r0, by simp, h.symm⟩
      · exact ⟨x, List.mem_cons_of_mem _ hx, h⟩
    · intro x hx
      rw [F64.le_iff_ord (hnan x hx) b1]
      rcases List.mem_cons.1 hx with rfl | hx
      · exact b2
      · exact b3 x hx

/-- C5 (amended): on a non-empty list `weightedBest` returns a result of the list
together with its score, the score being
weightCost·normalize(cost_usd) + weightLatency·normalize(latency_ms) +
weightQuality·(1 − normalize(quality_score)) with each metric normalised between
the minimum and the maximum that `minMaxMetric` finds over the whole list (the
least and the greatest value when none is NaN); the returned result has the
least Diff among the results of equal score, and when no score of the list is
NaN its score is the lowest of the list.  Under a policy equal to weighted,
`mergeResults` calls `weightedBest` with quality weight 0, so its outcome does
not depend on the quality weight. -/
theorem weightedBest_lowest_score (W : World) (results : List ModelResult) (policy : String)
    (weightCost weightLatency weightQuality : F64) (hne : results ≠ []) :
    (∃ best,
      weightedBest results weightCost weightLatency weightQuality =
        some (best, scoreIn results weightCost weightLatency weightQuality best) ∧
      best ∈ results ∧
      ((∀ r ∈ results,
          (scoreIn results weightCost weightLatency weightQuality r).isNaN = false) →
        ∀ x ∈ results,
          F64.le (scoreIn results weightCost weightLatency weightQuality best)
            (scoreIn results weightCost weightLatency weightQuality x) = true) ∧
      (∀ x ∈ results,
        F64.eq (scoreIn results weightCost weightLatency weightQuality x)
          (scoreIn results weightCost weightLatency weightQuality best) = true →
        best.Diff ≤ x.Diff)) ∧
    (∀ r, scoreIn results weightCost weightLatency weightQuality r =
      F64.add
        (F64.add
          (F64.mul weightCost (normalize (metricValue r "cost_usd")
            (minMaxMetric results "cost_usd").1 (minMaxMetric results "cost_usd").2))
          (F64.mul weightLatency (normalize (metricValue r "latency_ms")
            (minMaxMetric results "latency_ms").1 (minMaxMetric results "latency_ms").2)))
        (F64.mul weightQuality (F64.sub F64.one (normalize (metricValue r "quality_score")
          (minMaxMetric results "quality_score").1
          (minMaxMetric results "quality_score").2)))) ∧
    (∀ name, (∀ r ∈ results, (metricValue r name).isNaN = false) →
      (∃ r ∈ results, metricValue r name = (minMaxMetric results name).1) ∧
      (∀ x ∈ results, F64.le (minMaxMetric results name).1 (metricValue x name) = true) ∧
      (∃ r ∈ results, metricValue r name = (minMaxMetric results name).2) ∧
      (∀ x ∈ results, F64.le (metricValue x name) (minMaxMetric results name).2 = true)) ∧
    (EqualFold policy "cost" = false → EqualFold policy "quality" = false →
      EqualFold policy "quantum" = false → EqualFold policy "weighted" = true →
      (∀ w, mergeResults W results policy weightCost weightLatency w =
        mergeResults W results policy weightCost weightLatency weightQuality) ∧
      ∃ best mr, weightedBest results weightCost weightLatency F64.zero =
          some (best, scoreIn results weightCost weightLatency F64.zero best) ∧
        mergeResults W results policy weightCost weightLatency weightQuality = some (.ok mr) ∧
        mr.Diff = best.Diff) := by
  refine ⟨?_, fun _ => rfl, fun name h => minMaxMetric_spec results name hne h, ?_⟩
  · obtain ⟨best, hw, hmem, hsim⟩ :=
      weightedBest_eq results weightCost weightLatency weightQuality hne
    have hne' : results.map (asScored (scoreIn results weightCost weightLatency weightQuality))
        ≠ [] := by simpa using hne
    refine ⟨best, hw, hmem, ?_, ?_⟩
    · intro hnan x hx
      have hn : Internal.NoNaN
          (results.map (asScored (scoreIn results weightCost weightLatency weightQuality)))
          "score" := by
        intro y hy
        obtain ⟨r, hr, rfl⟩ := List.mem_map.1 hy
        rw [metricOf_asScored]
        exact hnan r hr
      have h := (Internal.MergeResults_spec false "score" _ hne' hn).2.2.1 _
        (List.mem_map.2 ⟨x, hx, rfl⟩)
      rw [hsim, metricOf_asScored, metricOf_asScored] at h
      simpa using h
    · intro x hx he
      have h := (Internal.MergeResults_least_diff false "score" _ hne').2 _
        (List.mem_map.2 ⟨x, hx, rfl⟩)
      rw [hsim, metricOf_asScored, metricOf_asScored] at h
      exact h he
  · intro hc hq hx hw
    obtain ⟨best, hwb, _, _⟩ := weightedBest_eq results weightCost weightLatency F64.zero hne
    have hm : mergeResults W results policy weightCost weightLatency weightQuality =
        some (.ok { SchemaVersion := schemaVersion, Diff := best.Diff,
                    Rationale := "selected lowest weighted score " ++
                      W.formatFloat (scoreIn results weightCost weightLatency F64.zero best),
                    Confidence := F64.ofRat 6 10,
                    QualityScore := metricValue best "quality_score" }) := by
      simp only [mergeResults, hc, hq, hx, hw, if_true, Bool.false_eq_true, if_false, hwb,
        Option.map_some']
    refine ⟨fun w => ?_, best, _, hwb, hm, rfl⟩
    simp only [mergeResults, hc, hq, hx, hw, if_true, Bool.false_eq_true, if_false]

/-- Witness of `weightedBest_lowest_score`: the policy "weighted" on two results
with the default weights. -/
theorem weightedBest_lowest_score_witness :
    twoResults ≠ [] ∧
      ∃ best, weightedBest twoResults (F64.ofRat 3 10) (F64.ofRat 7 10) F64.zero =
          some (best, scoreIn twoResults (F64.ofRat 3 10) (F64.ofRat 7 10) F64.zero best) ∧
        best ∈ twoResults :=
  ⟨by decide,
    (weightedBest_lowest_score World.quiet twoResults "weighted" (F64.ofRat 3 10)
      (F64.ofRat 7 10) F64.zero (by decide)).1.imp (fun _ h => ⟨h.1, h.2.1⟩)⟩

/-- C5 as stated fails: with the finite costs `MaxFloat64` and `-MaxFloat64` the
difference max − min overflows, the first result gets the score NaN, and
`weightedBest` returns it although its score is not at most the score 0 of the
second result. -/
theorem weightedBest_nan_score :
    weightedBest farCosts F64.one F64.zero F64.zero =
        some ({ ModelID := "m1", Diff := "b", Metrics := [⟨"cost_usd", maxFloat⟩] }, F64.nan) ∧
      ¬ (∀ x ∈ farCosts,
        F64.le (scoreIn farCosts F64.one F64.zero F64.zero
            { ModelID := "m1", Diff := "b", Metrics := [⟨"cost_usd", maxFloat⟩] })
          (scoreIn farCosts F64.one F64.zero F64.zero x) = true) := by
  decide

/-! ### `normalize` -/

theorem ofMag_cases (neg : Bool) (n d : Nat) :
    F64.ofMag neg n d = F64.inf neg ∨
    (F64.ofMag neg n d = F64.fin neg (F64.roundMag n d) ∧ n / d < 2 ^ 2098 ∧
      F64.roundMag n d < 2 ^ 2098) := by
  unfold F64.ofMag
  by_cases h1 : 2 ^ 2098 ≤ n / d
  · left
    rw [if_pos h1]
  · by_cases h2 : F64.roundMag n d < 2 ^ 2098
    · right
      simp only [h1, h2, if_true, if_false]
      exact ⟨trivial, by omega, trivial⟩
    · left
      simp only [h1, h2, if_false]

theorem signed_not (t : Bool) (l : Nat) : F64.signed (!t) l = -F64.signed t l := by
  cases t <;> simp [F64.signed]

/-- The difference of two finite values, the first at least the second. -/
theorem sub_fin_of_le (s t : Bool) (k l : Nat) (h : F64.signed t l ≤ F64.signed s k) :
    F64.sub (F64.fin s k) (F64.fin t l) =
      if (F64.signed s k - F64.signed t l).toNat = 0 then F64.fin (s && !t) 0
      else F64.ofMag false (F64.signed s k - F64.signed t l).toNat 1 := by
  unfold F64.sub F64.neg F64.add
  simp only [signed_not]
  by_cases hz : F64.signed s k + -F64.signed t l = 0
  · have : (F64.signed s k - F64.signed t l).toNat = 0 := by omega
    simp only [hz, this, if_true]
  · have h1 : (F64.signed s k - F64.signed t l).toNat ≠ 0 := by omega
    have h2 : ¬ (F64.signed s k + -F64.signed t l < 0) := by omega
    have h3 : (F64.signed s k + -F64.signed t l).natAbs =
        (F64.signed s k - F64.signed t l).toNat := by omega
    simp only [hz, h1, h2, h3, if_false, decide_False]

theorem le_fin_iff (s t : Bool) (k l : Nat) :
    F64.le (F64.fin s k) (F64.fin t l) = true ↔ F64.signed s k ≤ F64.signed t l := by
  simp only [F64.le, F64.lt, F64.eq, Bool.or_eq_true, decide_eq_true_eq]
  omega

/-- A finite value between the two zeros and one lies in the interval [0, 1]. -/
theorem unit_interval_fin (s : Bool) (k : Nat) (hk : k ≤ F64.unit) (hs : s = true → k = 0) :
    F64.le F64.zero (F64.fin s k) = true ∧ F64.le (F64.fin s k) F64.one = true := by
  unfold F64.zero F64.one
  rw [le_fin_iff, le_fin_iff]
  cases s
  · simp only [F64.signed, Bool.false_eq_true, if_false]
    omega
  · have := hs rfl
    subst this
    simp [F64.signed]

/-- The quotient of a finite value by a finite value that is at least as large
and not zero is a finite value at most one. -/
theorem div_fin_le_one (sx : Bool) (kx ky : Nat) (hxy : kx ≤ ky) (hy : 1 ≤ ky)
    (hs : sx = true → kx = 0) :
    ∃ k, F64.div (F64.fin sx kx) (F64.fin false ky) = F64.fin sx k ∧ k ≤ F64.unit ∧
      (sx = true → k = 0) := by
  have hy0 : ky ≠ 0 := by omega
  have hn : kx * F64.unit ≤ 2 ^ 1074 * ky := by
    unfold F64.unit
    rw [Nat.mul_comm]
    exact Nat.mul_le_mul_left _ hxy
  have hq : kx * F64.unit / ky ≤ 2 ^ 1074 := by
    calc kx * F64.unit / ky ≤ (2 ^ 1074 * ky) / ky := Nat.div_le_div_right hn
      _ = 2 ^ 1074 := Nat.mul_div_cancel _ (by omega)
  have hp : (2 : Nat) ^ 1074 < 2 ^ 2098 := Nat.pow_lt_pow_right (by norm_num) (by norm_num)
  have hp2 : (2 : Nat) ^ 1074 < 2 ^ 4096 := Nat.pow_lt_pow_right (by norm_num) (by norm_num)
  have hr := F64.roundMag_le_pow (kx * F64.unit) ky 1074 (by omega) (by omega) hn
  have hsx : (sx != false) = sx := by cases sx <;> rfl
  refine ⟨F64.roundMag (kx * F64.unit) ky, ?_, hr, ?_⟩
  · unfold F64.div
    simp only [hy0, if_false, hsx]
    rcases ofMag_cases sx (kx * F64.unit) ky with h | ⟨h, _, _⟩
    · exfalso
      unfold F64.ofMag at h
      have h1 : ¬ (2 ^ 2098 ≤ kx * F64.unit / ky) := by omega
      have h2 : F64.roundMag (kx * F64.unit) ky < 2 ^ 2098 := by omega
      simp only [h1, h2, if_true, if_false] at h
      exact F64.noConfusion h
    · exact h
  · intro h
    rw [hs h, Nat.zero_mul, F64.roundMag_zero]

/-- The difference of two finite values, the first at least the second, is plus
infinity or the rounded exact difference. -/
theorem sub_fin_cases (s t : Bool) (k l : Nat) (h : F64.signed t l ≤ F64.signed s k) :
    F64.sub (F64.fin s k) (F64.fin t l) = F64.inf false ∨
    ∃ sx, F64.sub (F64.fin s k) (F64.fin t l) =
        F64.fin sx (F64.roundMag (F64.signed s k - F64.signed t l).toNat 1) ∧
      (sx = true → (F64.signed s k - F64.signed t l).toNat = 0) ∧
      (F64.signed s k - F64.signed t l).toNat < 2 ^ 2098 := by
  rw [sub_fin_of_le s t k l h]
  by_cases hz : (F64.signed s k - F64.signed t l).toNat = 0
  · right
    refine ⟨s && !t, ?_, fun _ => hz, ?_⟩
    · rw [if_pos hz, hz, F64.roundMag_zero]
    · rw [hz]
      exact Nat.two_pow_pos _
  · rw [if_neg hz]
    rcases ofMag_cases false (F64.signed s k - F64.signed t l).toNat 1 with h1 | ⟨h1, h2, _⟩
    · exact Or.inl h1
    · right
      refine ⟨false, h1, fun c => absurd c (by simp), ?_⟩
      simpa using h2

theorem eq_zero_fin (s : Bool) (k : Nat) : F64.eq (F64.fin s k) F64.zero = decide (k = 0) := by
  unfold F64.zero F64.eq
  cases s <;> simp [F64.signed]

/-- The difference max − min is not zero when min < max. -/
theorem sub_ne_zero_of_lt (min max : F64) (h : F64.lt min max = true) :
    F64.eq (F64.sub max min) F64.zero = false := by
  cases max with
  | nan => rw [F64.lt_nan_right] at h; exact absurd h (by simp)
  | inf b =>
    cases min with
    | nan => rw [F64.lt_nan_left] at h; exact absurd h (by simp)
    | inf a => cases a <;> cases b <;> rfl
    | fin t l => cases b <;> rfl
  | fin u m =>
    cases min with
    | nan => rw [F64.lt_nan_left] at h; exact absurd h (by simp)
    | inf a => cases a <;> rfl
    | fin t l =>
      have hlt : F64.signed t l < F64.signed u m := by simpa [F64.lt] using h
      rcases sub_fin_cases u t m l (le_of_lt hlt) with h1 | ⟨sx, h1, _, h3⟩
      · rw [h1]
        rfl
      · rw [h1, eq_zero_fin]
        have hz : 1 ≤ (F64.signed u m - F64.signed t l).toNat := by omega
        have hp : (2 : Nat) ^ 2098 < 2 ^ 4096 :=
          Nat.pow_lt_pow_right (by norm_num) (by norm_num)
        have := F64.one_le_roundMag _ hz (by omega)
        simp only [decide_eq_false_iff_not]
        omega

/-- C6 (amended): for min ≤ v ≤ max with a finite difference v − min (finite v
and min whose difference does not overflow), `normalize v min max` lies in
[0, 1]; `normalize v min min` is 0 for every v and every finite min; and when
min < max, `normalize v min max` is the float64 quotient (v − min) / (max − min). -/
theorem normalize_spec (v min max : F64) :
    (F64.le min v = true → F64.le v max = true → (F64.sub v min).isFinite = true →
      F64.le F64.zero (normalize v min max) = true ∧
      F64.le (normalize v min max) F64.one = true) ∧
    (min.isFinite = true → normalize v min min = F64.zero) ∧
    (F64.lt min max = true →
      normalize v min max = F64.div (F64.sub v min) (F64.sub max min)) := by
  refine ⟨?_, ?_, ?_⟩
  · intro h1 h2 hf
    have hzero : F64.le F64.zero F64.zero = true ∧ F64.le F64.zero F64.one = true :=
      unit_interval_fin false 0 (Nat.zero_le _) (fun c => absurd c (by simp))
    cases v with
    | nan => exact absurd (Internal.le_not_nan h1).2 (by simp [F64.isNaN])
    | inf a =>
      exfalso
      cases min with
      | nan => simp [F64.le, F64.lt, F64.eq] at h1
      | inf b => cases a <;> cases b <;> simp [F64.sub, F64.neg, F64.add, F64.isFinite] at hf
      | fin t l => simp [F64.sub, F64.neg, F64.add, F64.isFinite] at hf
    | fin s k =>
      cases min with
      | nan => simp [F64.le, F64.lt, F64.eq] at h1
      | inf b => simp [F64.sub, F64.neg, F64.add, F64.isFinite] at hf
      | fin t l =>
        have hle : F64.signed t l ≤ F64.signed s k := (le_fin_iff t s l k).1 h1
        rcases sub_fin_cases s t k l hle with hx | ⟨sx, hx, hsx, hzx⟩
        · rw [hx] at hf
          simp [F64.isFinite] at hf
        · cases max with
          | nan => simp [F64.le, F64.lt, F64.eq] at h2
          | inf b =>
            have hb : b = false := by
              cases b
              · rfl
              · simp [F64.le, F64.lt, F64.eq] at h2
            subst hb
            have hy : F64.sub (F64.inf false) (F64.fin t l) = F64.inf false := rfl
            unfold normalize
            rw [hy, hx]
            have he : F64.eq (F64.inf false) F64.zero = false := rfl
            rw [he]
            simp only [Bool.false_eq_true, if_false]
            have hd : F64.div (F64.fin sx (F64.roundMag
                (F64.signed s k - F64.signed t l).toNat 1)) (F64.inf false) =
                F64.fin sx 0 := by
              cases sx <;> rfl
            rw [hd]
            exact unit_interval_fin sx 0 (Nat.zero_le _) (fun _ => rfl)
          | fin u m =>
            have hle2 : F64.signed s k ≤ F64.signed u m := (le_fin_iff s u k m).1 h2
            unfold normalize
            rcases sub_fin_cases u t m l (le_trans hle hle2) with hy | ⟨sy, hy, hsy, hzy⟩
            · rw [hy, hx]
              have he : F64.eq (F64.inf false) F64.zero = false := rfl
              rw [he]
              simp only [Bool.false_eq_true, if_false]
              have hd : F64.div (F64.fin sx (F64.roundMag
                  (F64.signed s k - F64.signed t l).toNat 1)) (F64.inf false) =
                  F64.fin sx 0 := by
                cases sx <;> rfl
              rw [hd]
              exact unit_interval_fin sx 0 (Nat.zero_le _) (fun _ => rfl)
            · rw [hy, hx, eq_zero_fin]
              by_cases hk : F64.roundMag (F64.signed u m - F64.signed t l).toNat 1 = 0
              · simp only [hk, decide_True, if_true]
                exact hzero
              · simp only [hk, decide_False, Bool.false_eq_true, if_false]
                have hp : (2 : Nat) ^ 2098 < 2 ^ 4096 :=
                  Nat.pow_lt_pow_right (by norm_num) (by norm_num)
                have hzle : (F64.signed s k - F64.signed t l).toNat ≤
                    (F64.signed u m - F64.signed t l).toNat := by omega
                have hmono := F64.roundMag_mono _ _ hzle (by omega)
                have hsy' : sy = false := by
                  cases sy
                  · rfl
                  · exfalso
                    apply hk
                    rw [hsy rfl, F64.roundMag_zero]
                subst hsy'
                obtain ⟨k', hd, hk', hs'⟩ := div_fin_le_one sx _ _ hmono (by omega)
                  (fun c => by rw [hsx c, F64.roundMag_zero])
                rw [hd]
                exact unit_interval_fin sx k' hk' hs'
  · intro hf
    cases min with
    | nan => simp [F64.isFinite] at hf
    | inf b => simp [F64.isFinite] at hf
    | fin t l =>
      unfold normalize
      rw [sub_fin_of_le t t l l (le_refl _)]
      simp only [sub_self, Int.toNat_zero, if_true, eq_zero_fin, decide_True]
  · intro h
    unfold normalize
    rw [sub_ne_zero_of_lt min max h]
    simp

/-- Witness of `normalize_spec`: 135 between 120 and 150. -/
theorem normalize_spec_witness :
    F64.le (F64.ofRat 120 1) (F64.ofRat 135 1) = true ∧
    F64.le (F64.ofRat 135 1) (F64.ofRat 150 1) = true ∧
    (F64.sub (F64.ofRat 135 1) (F64.ofRat 120 1)).isFinite = true ∧
    F64.le F64.zero (normalize (F64.ofRat 135 1) (F64.ofRat 120 1) (F64.ofRat 150 1)) = true ∧
    F64.le (normalize (F64.ofRat 135 1) (F64.ofRat 120 1) (F64.ofRat 150 1)) F64.one = true :=
  ⟨by decide, by decide, by decide,
    (normalize_spec (F64.ofRat 135 1) (F64.ofRat 120 1) (F64.ofRat 150 1)).1
      (by decide) (by decide) (by decide)⟩

/-- C6 as stated fails: for the finite values min = -MaxFloat64 and
v = max = MaxFloat64 both differences overflow and `normalize` is NaN, which is
not in [0, 1]; and `normalize v min min` is NaN, not 0, when min is +Inf. -/
theorem normalize_overflow_nan :
    F64.le (F64.neg maxFloat) maxFloat = true ∧ F64.le maxFloat maxFloat = true ∧
    normalize maxFloat (F64.neg maxFloat) maxFloat = F64.nan ∧
    F64.le F64.zero (normalize maxFloat (F64.neg maxFloat) maxFloat) = false ∧
    normalize F64.one (F64.inf false) (F64.inf false) = F64.nan := by
  decide

/-! ### `runWithRetry` -/

theorem addRetries_zero (m : Metrics) : m.addRetries 0 = m := by
  simp [Metrics.addRetries]

theorem IncRetry_addRetries (m : Metrics) (k : Nat) :
    (m.addRetries k).IncRetry = m.addRetries (k + 1) := by
  simp [Metrics.addRetries, Metrics.IncRetry, add_assoc]

theorem IncRetry_eq_addRetries (m : Metrics) : m.IncRetry = m.addRetries 1 := by
  simp [Metrics.addRetries, Metrics.IncRetry]

theorem addRetries_addRetries (m : Metrics) (j k : Nat) :
    (m.addRetries j).addRetries k = m.addRetries (j + k) := by
  simp [Metrics.addRetries, add_assoc]

/-- The retry loop makes at most as many driver calls as it has iterations. -/
theorem retryLoop_calls_le (ctx : Context) (d : Driver) (spec : TaskSpec)
    (retries backoff : Int) :
    ∀ (n : Nat) (attempt : Int) (lastErr : Option String) (metrics : Option Metrics)
      (tick : Nat),
      (retryLoop ctx d spec retries backoff n attempt lastErr metrics tick).2.2 ≤ tick + n := by
  intro n
  induction n with
  | zero => intro attempt lastErr metrics tick; simp [retryLoop]
  | succ n ih =>
    intro attempt lastErr metrics tick
    unfold retryLoop
    cases hrun : d.Run tick spec with
    | ok res => simp only; omega
    | error err =>
      simp only
      split
      · simp only
        omega
      · have := ih (attempt + 1) (some err)
          (if attempt < retries then metrics.map Metrics.IncRetry else metrics) (tick + 1)
        omega

/-- The retry loop without backoff, on a driver whose next `f` calls fail with
the errors `errs` and whose call after them succeeds with `res`. -/
theorem retryLoop_flaky (ctx : Context) (d : Driver) (spec : TaskSpec) (r : Nat)
    (errs : Nat → String) (res : ModelResult) :
    ∀ (n a f : Nat) (lastErr : Option String) (m : Metrics) (tick : Nat),
      a + n = r + 1 →
      (∀ j < f, d.Run (tick + j) spec = .error (errs (tick + j))) →
      d.Run (tick + f) spec = .ok res →
      retryLoop ctx d spec (r : Int) 0 n (a : Int) lastErr (some m) tick =
        if f < n then (.ok res, some (m.addRetries f), tick + f + 1)
        else
          match n with
          | 0 => (.error (lastErr.getD "driver failed"), some m, tick)
          | k + 1 => (.error (errs (tick + k)), some (m.addRetries k), tick + k + 1) := by
  intro n
  induction n with
  | zero =>
    intro a f lastErr m tick _ _ _
    simp [retryLoop]
  | succ n ih =>
    intro a f lastErr m tick han hfail hok
    unfold retryLoop
    cases f with
    | zero =>
      rw [Nat.add_zero] at hok
      rw [hok]
      simp [addRetries_zero]
    | succ f =>
      have h0 := hfail 0 (Nat.succ_pos f)
      rw [Nat.add_zero] at h0
      rw [h0]
      simp only [lt_self_iff_false, false_and, and_false, if_false, gt_iff_lt]
      have hfail' : ∀ j < f, d.Run (tick + 1 + j) spec = .error (errs (tick + 1 + j)) := by
        intro j hj
        have := hfail (j + 1) (by omega)
        rw [show tick + (j + 1) = tick + 1 + j by omega] at this
        exact this
      have hok' : d.Run (tick + 1 + f) spec = .ok res := by
        rw [show tick + 1 + f = tick + (f + 1) by omega]
        exact hok
      by_cases har : a < r
      · have hc : ((a : Int) < (r : Int)) := by exact_mod_cast har
        simp only [hc, if_true, Option.map_some']
        have := ih (a + 1) f (some (errs tick)) m.IncRetry (tick + 1) (by omega) hfail' hok'
        rw [show ((a : Int) + 1) = ((a + 1 : Nat) : Int) by push_cast; rfl, this]
        by_cases hfn : f < n
        · have hfn' : f + 1 < n + 1 := by omega
          simp only [hfn, hfn', if_true, IncRetry_eq_addRetries, addRetries_addRetries]
          rw [show 1 + f = f + 1 by omega, show tick + 1 + f + 1 = tick + (f + 1) + 1 by omega]
        · have hfn' : ¬ (f + 1 < n + 1) := by omega
          simp only [hfn, hfn', if_false]
          cases n with
          | zero => omega
          | succ k =>
            simp only [IncRetry_eq_addRetries, addRetries_addRetries]
            rw [show 1 + k = k + 1 by omega, show tick + 1 + k = tick + (k + 1) by omega]
      · have hn : n = 0 := by omega
        subst hn
        have hc : ¬ ((a : Int) < (r : Int)) := by exact_mod_cast har
        simp only [hc, if_false]
        simp [retryLoop, addRetries_zero]

/-- C10: with retries = r ≥ 0 and retry_backoff_ms = 0, on a driver whose first f
calls fail and whose next call succeeds, `runWithRetry` calls the driver exactly
min(f, r) + 1 times, returns the result of the driver iff f ≤ r and the last
error otherwise, and adds exactly min(f, r) to the retry counter; and on every
driver, with any backoff, it calls the driver at most r + 1 times. -/
theorem runWithRetry_flaky (ctx : Context) (d : Driver) (spec : TaskSpec) (m : Metrics)
    (tick r f : Nat) (errs : Nat → String) (res : ModelResult)
    (hr : constraintInt spec.Constraints "retries" 0 = (r : Int))
    (hb : constraintInt spec.Constraints "retry_backoff_ms" 200 = 0)
    (hfail : ∀ j < f, d.Run (tick + j) spec = .error (errs j))
    (hok : d.Run (tick + f) spec = .ok res) :
    (runWithRetry ctx d spec (some m) tick).2.2 = tick + (min f r + 1) ∧
    ((runWithRetry ctx d spec (some m) tick).1 = .ok res ↔ f ≤ r) ∧
    (r < f → (runWithRetry ctx d spec (some m) tick).1 = .error (errs r)) ∧
    (runWithRetry ctx d spec (some m) tick).2.1 =
      some { m with retries := m.retries + (min f r : Nat) } ∧
    (∀ (ctx' : Context) (d' : Driver) (spec' : TaskSpec) (m' : Option Metrics) (t : Nat),
      constraintInt spec'.Constraints "retries" 0 = (r : Int) →
      (runWithRetry ctx' d' spec' m' t).2.2 ≤ t + (r + 1)) := by
  have hloop := retryLoop_flaky ctx d spec r (fun t => errs (t - tick)) res (r + 1) 0 f none m tick
    (by omega)
    (by
      intro j hj
      simp only [Nat.add_sub_cancel_left]
      exact hfail j hj)
    hok
  have hrun : runWithRetry ctx d spec (some m) tick =
      if f < r + 1 then (.ok res, some (m.addRetries f), tick + f + 1)
      else (.error (errs r), some (m.addRetries r), tick + r + 1) := by
    unfold runWithRetry
    simp only [hr, hb, zero_mul]
    have hw : wrapInt64 0 = 0 := by decide
    have hn : ((r : Int) + 1).toNat = r + 1 := by omega
    rw [hw, hn]
    have h0 : ((0 : Nat) : Int) = 0 := rfl
    rw [h0] at hloop
    rw [hloop]
    simp only [Nat.add_sub_cancel_left]
  refine ⟨?_, ?_, ?_, ?_, ?_⟩
  · rw [hrun]
    by_cases h : f < r + 1
    · simp only [h, if_true]
      rw [Nat.min_eq_left (by omega)]
      omega
    · simp only [h, if_false]
      rw [Nat.min_eq_right (by omega)]
      omega
  · rw [hrun]
    by_cases h : f < r + 1
    · simp only [h, if_true, true_iff]
      omega
    · simp only [h, if_false]
      constructor
      · intro c
        cases c
      · intro c
        omega
  · intro h
    rw [hrun]
    have h' : ¬ (f < r + 1) := by omega
    simp only [h', if_false]
  · rw [hrun]
    by_cases h : f < r + 1
    · simp only [h, if_true]
      rw [Nat.min_eq_left (by omega)]
      rfl
    · simp only [h, if_false]
      rw [Nat.min_eq_right (by omega)]
      rfl
  · intro ctx' d' spec' m' t hr'
    unfold runWithRetry
    have := retryLoop_calls_le ctx' d' spec' (constraintInt spec'.Constraints "retries" 0)
      (wrapInt64 (constraintInt spec'.Constraints "retry_backoff_ms" 200 * 1000000))
      ((constraintInt spec'.Constraints "retries" 0 + 1).toNat) 0 none m' t
    rw [hr'] at this ⊢
    have hn : ((r : Int) + 1).toNat = r + 1 := by omega
    simp only [hn] at this ⊢
    exact this

/-- Witness of `runWithRetry_flaky`: the retry scenario of the spec, a driver that
fails twice and then succeeds under retries = 2, gives a success after 3 calls
with exactly 2 retries counted. -/
theorem runWithRetry_flaky_witness :
    (runWithRetry Context.background (flakyDriver 2) retrySpec (some Metrics.fresh) 0).2.2 = 3 ∧
    (runWithRetry Context.background (flakyDriver 2) retrySpec (some Metrics.fresh) 0).1 =
      .ok stubResult ∧
    ((runWithRetry Context.background (flakyDriver 2) retrySpec (some Metrics.fresh) 0).2.1.map
      (fun m => m.retries)) = some 2 := by
  have h := runWithRetry_flaky Context.background (flakyDriver 2) retrySpec Metrics.fresh 0 2 2
    (fun _ => "unavailable") stubResult (by decide) (by decide)
    (by intro j hj; interval_cases j <;> rfl) (by rfl)
  refine ⟨h.1, h.2.1.2 (le_refl _), ?_⟩
  rw [h.2.2.2.1]
  rfl

/-! ### `processTask` -/

/-- The run of `processTask` in three parts: the driver loops, then the failure
for want of results, or the merge switch and its two exits. -/
theorem processTask_eq (W : World) (store : TaskStore) (drivers : List Driver)
    (drvMeta : GoMap DriverMeta) (id : String) (spec : TaskSpec) (ragURL : String)
    (metrics : Metrics) :
    processTask W store drivers drvMeta id spec ragURL metrics =
      if (taskResults W drivers drvMeta spec ragURL metrics).length == 0 then
        some (failTask W store id (taskTrace W store drivers drvMeta id spec ragURL)
          "no model results" (taskRuns W drivers drvMeta spec ragURL metrics).2.1)
      else
        match mergeSwitch W (taskSpec W spec ragURL)
            (taskResults W drivers drvMeta spec ragURL metrics)
            (taskPolicy (taskSpec W spec ragURL)) (taskForce (taskSpec W spec ragURL))
            (mergeMetrics W drivers drvMeta spec ragURL metrics) with
        | none => none
        | some (_, .error err, m) =>
          some (failTask W store id (mergeTrace W store drivers drvMeta id spec ragURL metrics)
            ("merge failed: " ++ err) m)
        | some (mergeSource, .ok merge, m) =>
          some (completeTask W store id
            (mergeTrace W store drivers drvMeta id spec ragURL metrics) mergeSource merge m) := by
  rfl

theorem taskSpec_Constraints (W : World) (spec : TaskSpec) (ragURL : String) :
    (taskSpec W spec ragURL).Constraints = spec.Constraints := by
  unfold taskSpec
  split
  · split
    · split <;> rfl
    · rfl
  · rfl

theorem selectDrivers_congr (s s' : TaskSpec) (drivers : List Driver)
    (drvMeta : GoMap DriverMeta) (h : s.Constraints = s'.Constraints) :
    selectDrivers s drivers drvMeta = selectDrivers s' drivers drvMeta := by
  unfold selectDrivers
  rw [h]

/-- The retry loop on a driver whose every call fails ends with an error. -/
theorem retryLoop_fails (ctx : Context) (d : Driver) (spec : TaskSpec) (retries backoff : Int)
    (hd : ∀ tick, ∃ e, d.Run tick spec = .error e) :
    ∀ (n : Nat) (attempt : Int) (lastErr : Option String) (metrics : Option Metrics)
      (tick : Nat),
      ∃ e, (retryLoop ctx d spec retries backoff n attempt lastErr metrics tick).1 = .error e := by
  intro n
  induction n with
  | zero => intro attempt lastErr metrics tick; exact ⟨_, rfl⟩
  | succ n ih =>
    intro attempt lastErr metrics tick
    unfold retryLoop
    obtain ⟨e, he⟩ := hd tick
    rw [he]
    simp only
    split
    · exact ⟨_, rfl⟩
    · exact ih _ _ _ _

/-- Drivers whose every call fails add no result. -/
theorem runDrivers_fails (ctx : Context) (spec : TaskSpec) (ds : List Driver)
    (hd : ∀ d ∈ ds, ∀ tick, ∃ e, d.Run tick spec = .error e) :
    ∀ st : List ModelResult × Metrics × Nat, (runDrivers ctx spec ds st).1 = st.1 := by
  induction ds with
  | nil => intro st; rfl
  | cons d ds ih =>
    intro st
    unfold runDrivers
    rw [List.foldl_cons]
    have ih' := ih (fun d' hd' => hd d' (List.mem_cons_of_mem _ hd'))
    unfold runDrivers at ih'
    rw [ih']
    obtain ⟨e, he⟩ := retryLoop_fails ctx d spec
      (constraintInt spec.Constraints "retries" 0)
      (wrapInt64 (constraintInt spec.Constraints "retry_backoff_ms" 200 * 1000000))
      (hd d (by simp)) ((constraintInt spec.Constraints "retries" 0 + 1).toNat) 0 none
      (some st.2.1) st.2.2
    have he' : (runWithRetry ctx d spec (some st.2.1) st.2.2).1 = .error e := he
    simp only [he']

theorem mem_fallbackDrivers (drivers : List Driver) (spec : TaskSpec) (d : Driver)
    (h : d ∈ fallbackDrivers drivers spec) :
    ∃ fid ∈ splitCSV (constraintString spec.Constraints "fallback_models"),
      findDriverByID drivers fid = some d := by
  unfold fallbackDrivers at h
  exact List.mem_filterMap.1 h

/-- When every selected driver and every fallback driver fails, the task has no
result. -/
theorem taskResults_nil (W : World) (drivers : List Driver) (drvMeta : GoMap DriverMeta)
    (spec : TaskSpec) (ragURL : String) (metrics : Metrics)
    (hsel : ∀ d ∈ selectDrivers spec drivers drvMeta, ∀ tick s, ∃ e, d.Run tick s = .error e)
    (hfb : ∀ fid ∈ splitCSV (constraintString spec.Constraints "fallback_models"),
      ∀ d, findDriverByID drivers fid = some d → ∀ tick s, ∃ e, d.Run tick s = .error e) :
    taskResults W drivers drvMeta spec ragURL metrics = [] := by
  have hc := taskSpec_Constraints W spec ragURL
  have hsel' : ∀ d ∈ selectDrivers (taskSpec W spec ragURL) drivers drvMeta,
      ∀ tick, ∃ e, d.Run tick (taskSpec W spec ragURL) = .error e := by
    intro d hd tick
    rw [selectDrivers_congr _ spec drivers drvMeta hc] at hd
    exact hsel d hd tick _
  have hfb' : ∀ d ∈ fallbackDrivers drivers (taskSpec W spec ragURL),
      ∀ tick, ∃ e, d.Run tick (taskSpec W spec ragURL) = .error e := by
    intro d hd tick
    obtain ⟨fid, hfid, hfind⟩ := mem_fallbackDrivers drivers _ d hd
    rw [hc] at hfid
    exact hfb fid hfid d hfind tick _
  unfold taskResults taskRuns
  simp only
  have h1 := runDrivers_fails
    (W.withTimeout (wrapInt64 (constraintInt spec.Constraints "budget_ms" 2000 * 1000000)))
    (taskSpec W spec ragURL) _ hsel'
  have h2 := runDrivers_fails
    (W.withTimeout (wrapInt64 (constraintInt spec.Constraints "budget_ms" 2000 * 1000000)))
    (taskSpec W spec ragURL) _ hfb'
  generalize (if queueDelayForPriority spec.Metadata.Priority > 0 then
    metrics.ObserveQueueDelay (queueDelayForPriority spec.Metadata.Priority / 1000000)
    else metrics) = m0
  have hst := h1 ([], m0, 0)
  simp only [hst, List.length_nil, beq_self_eq_true, if_true]
  rw [h2, hst]

theorem GoMap.set_same {α : Type} (m : GoMap α) (key : String) (v : α) :
    m.set key v key = some v := by
  simp [GoMap.set]

/-- C7: when the runs of the selected drivers and then of the drivers named by
the fallback_models constraint leave `processTask` without a result, whatever
the calls that failed, it returns with the status of the task in state "failed"
with progress 1.0 and its trace in state "failed" with the error
"no model results", without a merge source or a merge in the trace; the stored
results and artifacts are unchanged; and the outcome does not depend on the
merge services (process environment, agent compiler, quantum optimizer, score
formatting): no merge is attempted. -/
theorem processTask_no_results (W : World) (store : TaskStore) (drivers : List Driver)
    (drvMeta : GoMap DriverMeta) (id : String) (spec : TaskSpec) (ragURL : String)
    (metrics : Metrics) (hres : taskResults W drivers drvMeta spec ragURL metrics = []) :
    ∃ store' metrics',
      processTask W store drivers drvMeta id spec ragURL metrics = some (store', metrics') ∧
      (∃ st, store'.statuses id = some st ∧ st.State = "failed" ∧ st.Progress = F64.one) ∧
      (∃ tr, store'.traces id = some tr ∧ tr.State = "failed" ∧
        tr.Error = "no model results" ∧ tr.MergeSource = "" ∧ tr.Merge = none) ∧
      store'.results = store.results ∧ store'.artifacts = store.artifacts ∧
      (∀ getenv postCompile postOptimize formatFloat,
        processTask (W.withMergeServices getenv postCompile postOptimize formatFloat)
          store drivers drvMeta id spec ragURL metrics =
        processTask W store drivers drvMeta id spec ragURL metrics) := by
  have hrun : processTask W store drivers drvMeta id spec ragURL metrics =
      some (failTask W store id (taskTrace W store drivers drvMeta id spec ragURL)
        "no model results" (taskRuns W drivers drvMeta spec ragURL metrics).2.1) := by
    rw [processTask_eq, hres]
    rfl
  refine ⟨_, _, hrun, ?_, ?_, rfl, rfl, ?_⟩
  · exact ⟨_, GoMap.set_same _ _ _, rfl, rfl⟩
  · refine ⟨_, GoMap.set_same _ _ _, rfl, rfl, ?_, ?_⟩
    · simp only [taskTrace]
      split <;> rfl
    · simp only [taskTrace]
      split <;> rfl
  · intro getenv postCompile postOptimize formatFloat
    rw [hrun, processTask_eq]
    have hres' : taskResults (W.withMergeServices getenv postCompile postOptimize formatFloat)
        drivers drvMeta spec ragURL metrics = [] := hres
    rw [hres']
    rfl

/-- Witness of `processTask_no_results`: one driver whose first call fails and
whose later calls would succeed, no retry and no fallback. -/
theorem processTask_no_results_witness :
    ∃ store' metrics',
      processTask World.quiet TaskStore.empty [flakyDriver 1] (fun _ => none) "t1" (specWith [])
        "" Metrics.fresh = some (store', metrics') ∧
      (∃ st, store'.statuses "t1" = some st ∧ st.State = "failed" ∧ st.Progress = F64.one) ∧
      (∃ tr, store'.traces "t1" = some tr ∧ tr.State = "failed" ∧
        tr.Error = "no model results" ∧ tr.MergeSource = "" ∧ tr.Merge = none) := by
  obtain ⟨s, m, h1, h2, h3, _⟩ := processTask_no_results World.quiet TaskStore.empty
    [flakyDriver 1] (fun _ => none) "t1" (specWith []) "" Metrics.fresh (by decide)
  exact ⟨s, m, h1, h2, h3⟩

theorem taskForce_taskSpec (W : World) (spec : TaskSpec) (ragURL : String) :
    taskForce (taskSpec W spec ragURL) = taskForce spec := by
  unfold taskForce
  rw [taskSpec_Constraints]

theorem taskPolicy_taskSpec (W : World) (spec : TaskSpec) (ragURL : String) :
    taskPolicy (taskSpec W spec ragURL) = taskPolicy spec := by
  unfold taskPolicy
  rw [taskSpec_Constraints]

theorem length_beq_zero_of_ne_nil {α : Type} (l : List α) (h : l ≠ []) :
    (l.length == 0) = false := by
  cases l with
  | nil => exact absurd rfl h
  | cons a l => rfl

/-- The run of `processTask` when the forced agent compiler fails. -/
theorem processTask_forced_fail_eq (W : World) (store : TaskStore)
    (drivers : List Driver) (drvMeta : GoMap DriverMeta) (id : String) (spec : TaskSpec)
    (ragURL : String) (metrics : Metrics) (e : String)
    (hres : taskResults W drivers drvMeta spec ragURL metrics ≠ [])
    (hforce : ToLower (TrimSpace (constraintString spec.Constraints "force_merge_source")) =
      "agent_compiler")
    (hfail : tryAgentCompiler W (taskResults W drivers drvMeta spec ragURL metrics)
      (constraintString spec.Constraints "routing") = .error e) :
    processTask W store drivers drvMeta id spec ragURL metrics =
      some (failTask W store id (mergeTrace W store drivers drvMeta id spec ragURL metrics)
        ("merge failed: " ++ ("forced agent_compiler failed: " ++ e))
        (mergeMetrics W drivers drvMeta spec ragURL metrics)) := by
  have hf : taskForce (taskSpec W spec ragURL) = "agent_compiler" := by
    rw [taskForce_taskSpec]
    exact hforce
  have hp : taskPolicy (taskSpec W spec ragURL) = constraintString spec.Constraints "routing" :=
    taskPolicy_taskSpec W spec ragURL
  have hsw : mergeSwitch W (taskSpec W spec ragURL)
      (taskResults W drivers drvMeta spec ragURL metrics)
      (taskPolicy (taskSpec W spec ragURL)) (taskForce (taskSpec W spec ragURL))
      (mergeMetrics W drivers drvMeta spec ragURL metrics) =
      some ("agent_compiler", .error ("forced agent_compiler failed: " ++ e),
        mergeMetrics W drivers drvMeta spec ragURL metrics) := by
    unfold mergeSwitch
    rw [hf, hp, hfail]
    rfl
  rw [processTask_eq, length_beq_zero_of_ne_nil _ hres, hsw]
  rfl

/-- C8: for a task with at least one model result whose force_merge_source
constraint, trimmed and lower-cased, is "agent_compiler", when the call of the
agent compiler fails with the error e, `processTask` returns with the status in
state "failed" (progress 1.0) and the trace in state "failed" with the error
"merge failed: forced agent_compiler failed: " followed by e, without a merge
source or a merge; the stored results and artifacts are unchanged; and the
outcome does not depend on what the local merge would read (the quantum
optimizer, the score formatting): the local merge is not run as a fallback. -/
theorem processTask_forced_compiler_fails (W : World) (store : TaskStore)
    (drivers : List Driver) (drvMeta : GoMap DriverMeta) (id : String) (spec : TaskSpec)
    (ragURL : String) (metrics : Metrics) (e : String)
    (hres : taskResults W drivers drvMeta spec ragURL metrics ≠ [])
    (hforce : ToLower (TrimSpace (constraintString spec.Constraints "force_merge_source")) =
      "agent_compiler")
    (hfail : tryAgentCompiler W (taskResults W drivers drvMeta spec ragURL metrics)
      (constraintString spec.Constraints "routing") = .error e) :
    ∃ store' metrics',
      processTask W store drivers drvMeta id spec ragURL metrics = some (store', metrics') ∧
      (∃ st, store'.statuses id = some st ∧ st.State = "failed" ∧ st.Progress = F64.one) ∧
      (∃ tr, store'.traces id = some tr ∧ tr.State = "failed" ∧
        tr.Error = "merge failed: forced agent_compiler failed: " ++ e ∧
        tr.MergeSource = "" ∧ tr.Merge = none) ∧
      store'.results = store.results ∧ store'.artifacts = store.artifacts ∧
      (∀ postOptimize formatFloat,
        processTask { W with postOptimize := postOptimize, formatFloat := formatFloat }
          store drivers drvMeta id spec ragURL metrics =
        processTask W store drivers drvMeta id spec ragURL metrics) := by
  have hrun := processTask_forced_fail_eq W store drivers drvMeta id spec ragURL metrics e
    hres hforce hfail
  have hstr : "merge failed: " ++ ("forced agent_compiler failed: " ++ e) =
      "merge failed: forced agent_compiler failed: " ++ e := by
    rw [← String.append_assoc]
    rfl
  refine ⟨_, _, hrun, ?_, ?_, rfl, rfl, ?_⟩
  · exact ⟨_, GoMap.set_same _ _ _, rfl, rfl⟩
  · refine ⟨_, GoMap.set_same _ _ _, rfl, hstr, ?_, ?_⟩
    · simp only [mergeTrace, taskTrace]
      split <;> rfl
    · simp only [mergeTrace, taskTrace]
      split <;> rfl
  · intro postOptimize formatFloat
    rw [hrun, processTask_forced_fail_eq
      { W with postOptimize := postOptimize, formatFloat := formatFloat }
      store drivers drvMeta id spec ragURL metrics e hres hforce hfail]
    rfl

/-- Witness of `processTask_forced_compiler_fails`: a driver that succeeds, the
forced source " Agent_Compiler " and no compiler configured. -/
theorem processTask_forced_compiler_fails_witness :
    ∃ store' metrics',
      processTask World.quiet TaskStore.empty [flakyDriver 0] (fun _ => none) "t1"
        (specWith [⟨"force_merge_source", .str " Agent_Compiler "⟩]) "" Metrics.fresh =
        some (store', metrics') ∧
      (∃ tr, store'.traces "t1" = some tr ∧ tr.State = "failed" ∧
        tr.Error = "merge failed: forced agent_compiler failed: " ++ "agent compiler disabled" ∧
        tr.MergeSource = "" ∧ tr.Merge = none) := by
  obtain ⟨s, m, h1, _, h3, _⟩ := processTask_forced_compiler_fails World.quiet TaskStore.empty
    [flakyDriver 0] (fun _ => none) "t1"
    (specWith [⟨"force_merge_source", .str " Agent_Compiler "⟩]) "" Metrics.fresh
    "agent compiler disabled" (by decide) (by decide) (by rfl)
  exact ⟨s, m, h1, h3⟩

/-- What a successful merge switch tells: the merge came from the compiler under
the source "agent_compiler", or from the local merge under "policy_merge". -/
theorem mergeSwitch_ok (W : World) (spec : TaskSpec) (results : List ModelResult)
    (policy force : String) (metrics m : Metrics) (src : String) (merge : MergeResult)
    (h : mergeSwitch W spec results policy force metrics = some (src, .ok merge, m)) :
    (src = "agent_compiler" ∧ force ≠ "policy_merge" ∧
      tryAgentCompiler W results policy = .ok merge) ∨
    (src = "policy_merge" ∧ force ≠ "agent_compiler" ∧
      localMerge W spec results policy = some (.ok merge) ∧
      (force = "policy_merge" ∨ ∃ e, tryAgentCompiler W results policy = .error e)) := by
  unfold mergeSwitch at h
  by_cases h1 : force = "agent_compiler"
  · subst h1
    simp only [beq_self_eq_true, if_true] at h
    cases hc : tryAgentCompiler W results policy with
    | ok mr =>
      rw [hc] at h
      simp only [Option.some.injEq, Prod.mk.injEq, Except.ok.injEq] at h
      left
      exact ⟨h.1.symm, by decide, by rw [h.2.1]⟩
    | error e =>
      rw [hc] at h
      simp at h
  · have hb1 : (force == "agent_compiler") = false := by simpa using h1
    simp only [hb1, Bool.false_eq_true, if_false] at h
    by_cases h2 : force = "agent_compiler_soft"
    · subst h2
      simp only [beq_self_eq_true, if_true] at h
      cases hc : tryAgentCompiler W results policy with
      | ok mr =>
        rw [hc] at h
        simp only [Option.some.injEq, Prod.mk.injEq, Except.ok.injEq] at h
        left
        exact ⟨h.1.symm, by decide, by rw [h.2.1]⟩
      | error e =>
        rw [hc] at h
        simp only at h
        right
        cases hl : localMerge W spec results policy with
        | none => rw [hl] at h; simp at h
        | some r =>
          rw [hl] at h
          cases r with
          | error e' => simp at h
          | ok mr =>
            simp only [Option.map_some', Option.some.injEq, Prod.mk.injEq, Except.ok.injEq] at h
            exact ⟨h.1.symm, by decide, by rw [h.2.1], Or.inr ⟨e, rfl⟩⟩
    · have hb2 : (force == "agent_compiler_soft") = false := by simpa using h2
      simp only [hb2, Bool.false_eq_true, if_false] at h
      by_cases h3 : force = "policy_merge"
      · subst h3
        simp only [beq_self_eq_true, if_true] at h
        right
        cases hl : localMerge W spec results policy with
        | none => rw [hl] at h; simp at h
        | some r =>
          rw [hl] at h
          simp only [Option.map_some', Option.some.injEq, Prod.mk.injEq] at h
          exact ⟨h.1.symm, by decide, by rw [h.2.1], Or.inl rfl⟩
      · have hb3 : (force == "policy_merge") = false := by simpa using h3
        simp only [hb3, Bool.false_eq_true, if_false] at h
        cases hc : tryAgentCompiler W results policy with
        | ok mr =>
          rw [hc] at h
          simp only [Option.some.injEq, Prod.mk.injEq, Except.ok.injEq] at h
          left
          exact ⟨h.1.symm, h3, by rw [h.2.1]⟩
        | error e =>
          rw [hc] at h
          simp only at h
          right
          cases hl : localMerge W spec results policy with
          | none => rw [hl] at h; simp at h
          | some r =>
            rw [hl] at h
            simp only [Option.map_some', Option.some.injEq, Prod.mk.injEq] at h
            exact ⟨h.1.symm, h1, by rw [h.2.1], Or.inr ⟨e, rfl⟩⟩

theorem tryQuantumOptimize_withCompiler (W : World) (url : String)
    (post : String → String → List ModelResult → HTTPResult CompileOut)
    (results : List ModelResult) :
    tryQuantumOptimize (W.withCompiler url post) results = tryQuantumOptimize W results := by
  rfl

theorem mergeResults_withCompiler (W : World) (url : String)
    (post : String → String → List ModelResult → HTTPResult CompileOut)
    (results : List ModelResult) (policy : String) (wc wl wq : F64) :
    mergeResults (W.withCompiler url post) results policy wc wl wq =
      mergeResults W results policy wc wl wq := by
  unfold mergeResults
  rw [tryQuantumOptimize_withCompiler]
  rfl

/-- C9: when `processTask` returns with the status of the task in state
"completed", the trace of the task is in state "completed", its Merge is the
stored result, exactly one artifact, of type "diff", is stored, and its merge
source is "agent_compiler" with the merge returned by the agent compiler (the
forced source not being policy_merge), or "policy_merge" with the merge of the
local `mergeResults`, the forced source being policy_merge or the compiler
having failed under a forced source other than agent_compiler.  When the forced
source is policy_merge the outcome of `processTask` does not depend on the
agent compiler (its URL and its responses). -/
theorem processTask_completed (W : World) (store : TaskStore) (drivers : List Driver)
    (drvMeta : GoMap DriverMeta) (id : String) (spec : TaskSpec) (ragURL : String)
    (metrics : Metrics) :
    (∀ store' metrics',
      processTask W store drivers drvMeta id spec ragURL metrics = some (store', metrics') →
      (∃ st, store'.statuses id = some st ∧ st.State = "completed") →
      ∃ tr merge art,
        store'.traces id = some tr ∧ tr.State = "completed" ∧ tr.Merge = some merge ∧
        store'.results id = some merge ∧
        store'.artifacts id = some [art] ∧ art.Typ = "diff" ∧
        ((tr.MergeSource = "agent_compiler" ∧ taskForce spec ≠ "policy_merge" ∧
            tryAgentCompiler W (taskResults W drivers drvMeta spec ragURL metrics)
              (taskPolicy spec) = .ok merge) ∨
         (tr.MergeSource = "policy_merge" ∧ taskForce spec ≠ "agent_compiler" ∧
            localMerge W (taskSpec W spec ragURL)
              (taskResults W drivers drvMeta spec ragURL metrics) (taskPolicy spec) =
              some (.ok merge) ∧
            (taskForce spec = "policy_merge" ∨
              ∃ e, tryAgentCompiler W (taskResults W drivers drvMeta spec ragURL metrics)
                (taskPolicy spec) = .error e)))) ∧
    (taskForce spec = "policy_merge" →
      ∀ url post,
        processTask (W.withCompiler url post) store drivers drvMeta id spec ragURL metrics =
          processTask W store drivers drvMeta id spec ragURL metrics) := by
  constructor
  · intro store' metrics' hrun hdone
    rw [processTask_eq] at hrun
    by_cases hlen : ((taskResults W drivers drvMeta spec ragURL metrics).length == 0) = true
    · rw [if_pos hlen] at hrun
      simp only [Option.some.injEq] at hrun
      obtain ⟨st, hst, hstate⟩ := hdone
      have hs : store' = (failTask W store id (taskTrace W store drivers drvMeta id spec ragURL)
          "no model results" (taskRuns W drivers drvMeta spec ragURL metrics).2.1).1 :=
        (congrArg Prod.fst hrun).symm
      rw [hs] at hst
      simp only [failTask, GoMap.set_same, Option.some.injEq] at hst
      rw [← hst] at hstate
      have hne : ("failed" : String) = "completed" := hstate
      exact absurd hne (by decide)
    · rw [if_neg hlen] at hrun
      cases hsw : mergeSwitch W (taskSpec W spec ragURL)
          (taskResults W drivers drvMeta spec ragURL metrics)
          (taskPolicy (taskSpec W spec ragURL)) (taskForce (taskSpec W spec ragURL))
          (mergeMetrics W drivers drvMeta spec ragURL metrics) with
      | none => rw [hsw] at hrun; simp at hrun
      | some out =>
        obtain ⟨src, r, m⟩ := out
        rw [hsw] at hrun
        cases r with
        | error err =>
          simp only [Option.some.injEq] at hrun
          obtain ⟨st, hst, hstate⟩ := hdone
          have hs : store' = (failTask W store id
              (mergeTrace W store drivers drvMeta id spec ragURL metrics)
              ("merge failed: " ++ err) m).1 :=
            (congrArg Prod.fst hrun).symm
          rw [hs] at hst
          simp only [failTask, GoMap.set_same, Option.some.injEq] at hst
          rw [← hst] at hstate
          have hne : ("failed" : String) = "completed" := hstate
          exact absurd hne (by decide)
        | ok merge =>
          simp only [Option.some.injEq] at hrun
          have hinv := mergeSwitch_ok _ _ _ _ _ _ _ _ _ hsw
          rw [taskForce_taskSpec, taskPolicy_taskSpec] at hinv
          have hs : store' = (completeTask W store id
              (mergeTrace W store drivers drvMeta id spec ragURL metrics) src merge m).1 :=
            (congrArg Prod.fst hrun).symm
          subst hs
          exact ⟨{ mergeTrace W store drivers drvMeta id spec ragURL metrics with
                    State := "completed", FinishedAt := W.finishedAt,
                    MergeSource := src, Merge := some merge },
            merge,
            { SchemaVersion := schemaVersion, ID := "artifact_" ++ W.randString 8, Typ := "diff",
              Path := "artifacts/" ++ id ++ "/patch.diff", Sha256 := "",
              CreatedAt := W.createdAt },
            GoMap.set_same _ _ _, rfl, rfl, GoMap.set_same _ _ _, GoMap.set_same _ _ _, rfl,
            hinv⟩
  · intro hforce url post
    rw [processTask_eq, processTask_eq]
    have hres : taskResults (W.withCompiler url post) drivers drvMeta spec ragURL metrics =
        taskResults W drivers drvMeta spec ragURL metrics := rfl
    have hsp : taskSpec (W.withCompiler url post) spec ragURL = taskSpec W spec ragURL := rfl
    have hmm : mergeMetrics (W.withCompiler url post) drivers drvMeta spec ragURL metrics =
        mergeMetrics W drivers drvMeta spec ragURL metrics := rfl
    rw [hres, hsp, hmm]
    have hf : taskForce (taskSpec W spec ragURL) = "policy_merge" := by
      rw [taskForce_taskSpec]
      exact hforce
    have hsw : ∀ W' : World, mergeSwitch W' (taskSpec W spec ragURL)
        (taskResults W drivers drvMeta spec ragURL metrics)
        (taskPolicy (taskSpec W spec ragURL)) (taskForce (taskSpec W spec ragURL))
        (mergeMetrics W drivers drvMeta spec ragURL metrics) =
        (localMerge W' (taskSpec W spec ragURL)
          (taskResults W drivers drvMeta spec ragURL metrics)
          (taskPolicy (taskSpec W spec ragURL))).map
          (fun r => ("policy_merge", r, mergeMetrics W drivers drvMeta spec ragURL metrics)) := by
      intro W'
      unfold mergeSwitch
      rw [hf]
      rfl
    rw [hsw, hsw]
    have hl : localMerge (W.withCompiler url post) (taskSpec W spec ragURL)
        (taskResults W drivers drvMeta spec ragURL metrics)
        (taskPolicy (taskSpec W spec ragURL)) =
        localMerge W (taskSpec W spec ragURL)
          (taskResults W drivers drvMeta spec ragURL metrics)
          (taskPolicy (taskSpec W spec ragURL)) := by
      unfold localMerge
      rw [mergeResults_withCompiler]
    rw [hl]
    rfl

/-- Witness of `processTask_completed`: a driver that succeeds and no compiler
configured; the default mode falls back to the local merge. -/
theorem processTask_completed_witness :
    ∃ store' metrics',
      processTask World.quiet TaskStore.empty [flakyDriver 0] (fun _ => none) "t1"
        (specWith []) "" Metrics.fresh = some (store', metrics') ∧
      (∃ st, store'.statuses "t1" = some st ∧ st.State = "completed") ∧
      ∃ tr merge art, store'.traces "t1" = some tr ∧ tr.Merge = some merge ∧
        store'.results "t1" = some merge ∧ store'.artifacts "t1" = some [art] ∧
        tr.MergeSource = "policy_merge" := by
  have hrun : processTask World.quiet TaskStore.empty [flakyDriver 0] (fun _ => none) "t1"
      (specWith []) "" Metrics.fresh =
      some ((processTask World.quiet TaskStore.empty [flakyDriver 0] (fun _ => none) "t1"
        (specWith []) "" Metrics.fresh).get (by decide)) := by
    simp
  have hdone : ∃ st, ((processTask World.quiet TaskStore.empty [flakyDriver 0] (fun _ => none)
      "t1" (specWith []) "" Metrics.fresh).get (by decide)).1.statuses "t1" = some st ∧
      st.State = "completed" := ⟨_, rfl, by decide⟩
  obtain ⟨tr, merge, art, h1, _, h3, h4, h5, _, h7⟩ :=
    (processTask_completed World.quiet TaskStore.empty [flakyDriver 0] (fun _ => none) "t1"
      (specWith []) "" Metrics.fresh).1 _ _ hrun hdone
  refine ⟨_, _, hrun, hdone, tr, merge, art, h1, h3, h4, h5, ?_⟩
  rcases h7 with ⟨_, _, hc⟩ | ⟨hsrc, _⟩
  · have he : tryAgentCompiler World.quiet
        (taskResults World.quiet [flakyDriver 0] (fun _ => none) (specWith []) "" Metrics.fresh)
        (taskPolicy (specWith [])) = .error "agent compiler disabled" := rfl
    rw [he] at hc
    cases hc
  · exact hsrc

/-! ### The task queue -/

theorem chanSend_some {size : Nat} {ch ch' : List queuedTask} {t : queuedTask}
    (h : chanSend size ch t = some ch') : ch' = ch ++ [t] ∧ ch.length < size := by
  unfold chanSend at h
  split at h
  · exact ⟨(Option.some.inj h).symm, by assumption⟩
  · cases h

theorem Enqueue_depth {q q' : TaskQueue} {t : queuedTask} {e : Option String}
    (h : q.Enqueue t = some (q', e)) : q'.Depth = q.Depth + 1 := by
  unfold TaskQueue.Enqueue at h
  simp only at h
  split at h
  · cases hs : chanSend q.size q.high t with
    | none => simp [hs] at h
    | some ch =>
      simp only [hs, Option.map_some', Option.some.injEq, Prod.mk.injEq] at h
      obtain ⟨rfl, _⟩ := h
      obtain ⟨rfl, _⟩ := chanSend_some hs
      simp [TaskQueue.Depth]
      ring
  · split at h
    · cases hs : chanSend q.size q.low t with
      | none => simp [hs] at h
      | some ch =>
        simp only [hs, Option.map_some', Option.some.injEq, Prod.mk.injEq] at h
        obtain ⟨rfl, _⟩ := h
        obtain ⟨rfl, _⟩ := chanSend_some hs
        simp [TaskQueue.Depth]
        ring
    · cases hs : chanSend q.size q.normal t with
      | none => simp [hs] at h
      | some ch =>
        simp only [hs, Option.map_some', Option.some.injEq, Prod.mk.injEq] at h
        obtain ⟨rfl, _⟩ := h
        obtain ⟨rfl, _⟩ := chanSend_some hs
        simp [TaskQueue.Depth]
        ring

/-- The outcomes of `Dequeue`: the head of one tier is taken and returned, or the
queue is left as it is and no task is returned. -/
theorem Dequeue_cases {q q' : TaskQueue} {done : Bool} {pick : Nat} {t : queuedTask} {ok : Bool}
    (h : q.Dequeue done pick = some ((t, ok), q')) :
    (ok = true ∧ ∃ rest, q.high = t :: rest ∧ q' = { q with high := rest }) ∨
    (ok = true ∧ q.high = [] ∧ ∃ rest, q.normal = t :: rest ∧ q' = { q with normal := rest }) ∨
    (ok = true ∧ q.high = [] ∧ ∃ rest, q.low = t :: rest ∧ q' = { q with low := rest }) ∨
    (ok = false ∧ q.high = [] ∧ done = true ∧ t = queuedTask.zero ∧ q' = q) := by
  unfold TaskQueue.Dequeue at h
  have hcase : q.high = [] ∨ ∃ a rest, q.high = a :: rest := by
    cases q.high with
    | nil => exact Or.inl rfl
    | cons a rest => exact Or.inr ⟨a, rest, rfl⟩
  rcases hcase with hh | ⟨a, rest, hh⟩
  · simp only [hh] at h
    cases hg : (readyCases q done)[pick % (readyCases q done).length]? with
    | none => simp [hg] at h
    | some c =>
      have hmem : c ∈ readyCases q done := List.getElem?_mem hg
      simp only [hg] at h
      cases c with
      | high => simp at h
      | normal =>
        have hcn : q.normal = [] ∨ ∃ a rest, q.normal = a :: rest := by
          cases q.normal with
          | nil => exact Or.inl rfl
          | cons a rest => exact Or.inr ⟨a, rest, rfl⟩
        rcases hcn with hn | ⟨a, rest, hn⟩
        · simp [hn] at h
        · simp only [hn, Option.some.injEq, Prod.mk.injEq] at h
          obtain ⟨⟨rfl, rfl⟩, rfl⟩ := h
          exact Or.inr (Or.inl ⟨rfl, hh, rest, hn, by rw [hh]⟩)
      | low =>
        have hcl : q.low = [] ∨ ∃ a rest, q.low = a :: rest := by
          cases q.low with
          | nil => exact Or.inl rfl
          | cons a rest => exact Or.inr ⟨a, rest, rfl⟩
        rcases hcl with hl | ⟨a, rest, hl⟩
        · simp [hl] at h
        · simp only [hl, Option.some.injEq, Prod.mk.injEq] at h
          obtain ⟨⟨rfl, rfl⟩, rfl⟩ := h
          exact Or.inr (Or.inr (Or.inl ⟨rfl, hh, rest, hl, by rw [hh]⟩))
      | done =>
        simp only [Option.some.injEq, Prod.mk.injEq] at h
        obtain ⟨⟨rfl, rfl⟩, rfl⟩ := h
        have hd : done = true := by
          cases done
          · simp [readyCases] at hmem
          · rfl
        exact Or.inr (Or.inr (Or.inr ⟨rfl, hh, hd, rfl, rfl⟩))
  · simp only [hh, Option.some.injEq, Prod.mk.injEq] at h
    obtain ⟨⟨rfl, rfl⟩, rfl⟩ := h
    exact Or.inl ⟨rfl, rest, hh, rfl⟩

theorem Dequeue_depth {q q' : TaskQueue} {done : Bool} {pick : Nat} {t : queuedTask} {ok : Bool}
    (h : q.Dequeue done pick = some ((t, ok), q')) :
    q'.Depth + (if ok then 1 else 0) = q.Depth := by
  rcases Dequeue_cases h with ⟨rfl, rest, hq, rfl⟩ | ⟨rfl, _, rest, hq, rfl⟩ |
    ⟨rfl, _, rest, hq, rfl⟩ | ⟨rfl, _, _, _, rfl⟩
  · simp [TaskQueue.Depth, hq]; ring
  · simp [TaskQueue.Depth, hq]; ring
  · simp [TaskQueue.Depth, hq]; ring
  · simp

theorem runCalls_depth : ∀ (calls : List QueueCall) (q q' : TaskQueue) (j : Nat),
    runCalls q calls = some (q', j) →
      q'.Depth + j = q.Depth + ((calls.filter QueueCall.isEnqueue).length : Int) := by
  intro calls
  induction calls with
  | nil =>
    intro q q' j h
    simp only [runCalls, Option.some.injEq, Prod.mk.injEq] at h
    obtain ⟨rfl, rfl⟩ := h
    simp
  | cons c cs ih =>
    intro q q' j h
    cases c with
    | enqueue t =>
      simp only [runCalls] at h
      cases he : q.Enqueue t with
      | none => simp [he] at h
      | some r =>
        obtain ⟨q1, e⟩ := r
        simp only [he] at h
        have h1 := ih q1 q' j h
        have h2 := Enqueue_depth he
        simp only [List.filter_cons, QueueCall.isEnqueue, if_true, List.length_cons]
        push_cast
        omega
    | dequeue done pick =>
      simp only [runCalls] at h
      cases hd : q.Dequeue done pick with
      | none => simp [hd] at h
      | some r =>
        obtain ⟨⟨t, ok⟩, q1⟩ := r
        simp only [hd] at h
        cases hr : runCalls q1 cs with
        | none => simp [hr] at h
        | some r1 =>
          obtain ⟨q2, j2⟩ := r1
          simp only [hr, Option.map_some', Option.some.injEq, Prod.mk.injEq] at h
          obtain ⟨rfl, rfl⟩ := h
          have h1 := ih q1 q2 j2 hr
          have h2 := Dequeue_depth hd
          simp only [List.filter_cons, QueueCall.isEnqueue]
          cases ok <;> simp at h2 ⊢ <;> omega

/-- C16: after a sequence of calls on a fresh queue, none of which blocks, of
which k are calls of Enqueue and j are calls of Dequeue that returned a task,
j ≤ k and Depth() = k − j, whatever the priorities; Depth is the sum of the
occupancy of the three tiers. -/
theorem TaskQueue_depth_after_calls (size : Int) (calls : List QueueCall) (q : TaskQueue)
    (j : Nat) (h : runCalls (NewTaskQueue size) calls = some (q, j)) :
    j ≤ (calls.filter QueueCall.isEnqueue).length ∧
    q.Depth = ((calls.filter QueueCall.isEnqueue).length : Int) - j ∧
    q.Depth = (q.high.length : Int) + (q.normal.length : Int) + (q.low.length : Int) := by
  have h1 := runCalls_depth calls _ _ _ h
  have h0 : (NewTaskQueue size).Depth = 0 := by simp [NewTaskQueue, TaskQueue.Depth]
  have hd : q.Depth = (q.high.length : Int) + (q.normal.length : Int) + (q.low.length : Int) :=
    rfl
  refine ⟨?_, ?_, hd⟩ <;> omega

/-- Witness of `TaskQueue_depth_after_calls`: three tasks enqueued and one
dequeued leave a depth of two. -/
theorem TaskQueue_depth_after_calls_witness :
    ∃ q, runCalls (NewTaskQueue 0) fourCalls = some (q, 1) ∧ q.Depth = 2 :=
  ⟨twoLeft, by decide,
    (TaskQueue_depth_after_calls 0 fourCalls twoLeft 1 (by decide)).2.1.trans (by decide)⟩

/-- C17: when the high tier is not empty, Dequeue returns its oldest task and
true, whatever the context and the other tiers hold, and only the high tier
changes. -/
theorem Dequeue_high_first (q : TaskQueue) (t : queuedTask) (rest : List queuedTask)
    (done : Bool) (pick : Nat) (h : q.high = t :: rest) :
    q.Dequeue done pick = some ((t, true), { q with high := rest }) ∧
    ∀ r q', q.Dequeue done pick = some (r, q') →
      r = (t, true) ∧ q'.high = rest ∧ q'.normal = q.normal ∧ q'.low = q.low := by
  have h1 : q.Dequeue done pick = some ((t, true), { q with high := rest }) := by
    unfold TaskQueue.Dequeue
    simp only [h]
  refine ⟨h1, ?_⟩
  intro r q' h2
  rw [h1] at h2
  simp only [Option.some.injEq, Prod.mk.injEq] at h2
  obtain ⟨rfl, rfl⟩ := h2
  exact ⟨rfl, rfl, rfl, rfl⟩

/-- Witness of `Dequeue_high_first`: a high task enqueued after a normal and a low
task is dequeued first. -/
theorem Dequeue_high_first_witness :
    ({ twoTiers with high := [taskOf "h" "high"] } : TaskQueue).Dequeue false 1 =
      some ((taskOf "h" "high", true), twoTiers) :=
  (Dequeue_high_first { twoTiers with high := [taskOf "h" "high"] } (taskOf "h" "high") []
    false 1 rfl).1

/-- The second `select` of `Dequeue` on a queue whose high tier is empty and whose
normal and low tiers hold a task: the choice among the cases normal, low and,
when the context is done, done. -/
theorem Dequeue_two_ready (q : TaskQueue) (n l : queuedTask) (ns ls : List queuedTask)
    (done : Bool) (pick : Nat) (hh : q.high = []) (hn : q.normal = n :: ns)
    (hl : q.low = l :: ls) :
    q.Dequeue done pick =
      match ([SelectCase.normal, SelectCase.low] ++
          (if done then [SelectCase.done] else []))[pick %
            ([SelectCase.normal, SelectCase.low] ++
              (if done then [SelectCase.done] else [])).length]? with
      | some SelectCase.normal => some ((n, true), { q with normal := ns })
      | some SelectCase.low => some ((l, true), { q with low := ls })
      | some SelectCase.done => some ((queuedTask.zero, false), q)
      | _ => none := by
  unfold TaskQueue.Dequeue
  have hr : readyCases q done =
      [SelectCase.normal, SelectCase.low] ++ (if done then [SelectCase.done] else []) := by
    simp [readyCases, hh, hn, hl]
  simp only [hh, hr, hn, hl]
  cases done
  · have h2 : pick % 2 = 0 ∨ pick % 2 = 1 := Nat.mod_two_eq_zero_or_one pick
    rcases h2 with h2 | h2 <;> simp [h2]
  · have h3 : pick % 3 = 0 ∨ pick % 3 = 1 ∨ pick % 3 = 2 := by omega
    rcases h3 with h3 | h3 | h3 <;> simp [h3]

/-- C18 fails as stated: on a queue with an empty high tier, a normal task and a
low task, `Dequeue` returns the low task when `select` picks the case of the
low channel. -/
theorem Dequeue_low_before_normal :
    twoTiers.high = [] ∧ twoTiers.normal = [taskOf "n" "normal"] ∧
    twoTiers.low = [taskOf "l" "low"] ∧
    twoTiers.Dequeue false 1 =
      some ((taskOf "l" "low", true), { twoTiers with low := [] }) ∧
    taskOf "l" "low" ≠ taskOf "n" "normal" := by
  decide

/-- C18, amended: when the high tier is empty and the normal tier holds a task,
Dequeue returns without blocking.  If the low tier is empty and the context is
not done, it returns the oldest normal task.  If the low tier holds a task
too, it returns the oldest normal task or the oldest low task, or no task
when the context is done, as `select` picks; each of the two tasks is returned
for some pick, so the normal task is not preferred over the low one. -/
theorem Dequeue_normal_or_low (q : TaskQueue) (n : queuedTask) (ns : List queuedTask)
    (done : Bool) (pick : Nat) (hh : q.high = []) (hn : q.normal = n :: ns) :
    (q.low = [] → done = false →
      q.Dequeue done pick = some ((n, true), { q with normal := ns })) ∧
    (∀ l ls, q.low = l :: ls →
      (q.Dequeue done pick = some ((n, true), { q with normal := ns }) ∨
       q.Dequeue done pick = some ((l, true), { q with low := ls }) ∨
       (done = true ∧ q.Dequeue done pick = some ((queuedTask.zero, false), q))) ∧
      q.Dequeue done 0 = some ((n, true), { q with normal := ns }) ∧
      q.Dequeue done 1 = some ((l, true), { q with low := ls })) := by
  constructor
  · intro hl hd
    subst hd
    unfold TaskQueue.Dequeue
    have hr : readyCases q false = [SelectCase.normal] := by simp [readyCases, hh, hn, hl]
    simp [hh, hr, hn, Nat.mod_one]
  · intro l ls hl
    refine ⟨?_, ?_, ?_⟩
    · rw [Dequeue_two_ready q n l ns ls done pick hh hn hl]
      cases done
      · have h2 : pick % 2 = 0 ∨ pick % 2 = 1 := Nat.mod_two_eq_zero_or_one pick
        rcases h2 with h2 | h2 <;> simp [h2]
      · have h3 : pick % 3 = 0 ∨ pick % 3 = 1 ∨ pick % 3 = 2 := by omega
        rcases h3 with h3 | h3 | h3 <;> simp [h3]
    · rw [Dequeue_two_ready q n l ns ls done 0 hh hn hl]
      cases done <;> simp
    · rw [Dequeue_two_ready q n l ns ls done 1 hh hn hl]
      cases done <;> simp

/-- Witness of `Dequeue_normal_or_low` on the queue `twoTiers`: pick 0 returns the
normal task, pick 1 the low task. -/
theorem Dequeue_normal_or_low_witness :
    twoTiers.Dequeue false 0 =
      some ((taskOf "n" "normal", true), { twoTiers with normal := [] }) ∧
    twoTiers.Dequeue false 1 = some ((taskOf "l" "low", true), { twoTiers with low := [] }) :=
  ((Dequeue_normal_or_low twoTiers (taskOf "n" "normal") [] false 0 rfl rfl).2
    (taskOf "l" "low") [] rfl).2

/-- C19: Enqueue sends a task to the high tier iff its priority, trimmed and
lower-cased, is "high", to the low tier iff it is "low", and to the normal tier
otherwise.  When that tier has room the call returns the nil error and the
task stands at the tail of the tier, nothing else being changed; when the tier
is full the send blocks. -/
theorem Enqueue_tier (q : TaskQueue) (t : queuedTask) :
    (t.priority = "high" →
      (q.high.length < q.size → q.Enqueue t = some ({ q with high := q.high ++ [t] }, none)) ∧
      (¬ q.high.length < q.size → q.Enqueue t = none)) ∧
    (t.priority = "low" →
      (q.low.length < q.size → q.Enqueue t = some ({ q with low := q.low ++ [t] }, none)) ∧
      (¬ q.low.length < q.size → q.Enqueue t = none)) ∧
    (t.priority ≠ "high" → t.priority ≠ "low" →
      (q.normal.length < q.size →
        q.Enqueue t = some ({ q with normal := q.normal ++ [t] }, none)) ∧
      (¬ q.normal.length < q.size → q.Enqueue t = none)) ∧
    (∀ q' e, q.Enqueue t = some (q', e) →
      e = none ∧ q'.size = q.size ∧
      (q'.high = q.high ++ [t] ↔ t.priority = "high") ∧
      (q'.low = q.low ++ [t] ↔ t.priority = "low") ∧
      (q'.normal = q.normal ++ [t] ↔ (t.priority ≠ "high" ∧ t.priority ≠ "low")) ∧
      (t.priority ≠ "high" → q'.high = q.high) ∧
      (t.priority ≠ "low" → q'.low = q.low) ∧
      (t.priority = "high" ∨ t.priority = "low" → q'.normal = q.normal)) := by
  have hne : ∀ l : List queuedTask, l ≠ l ++ [t] := by
    intro l h
    have := congrArg List.length h
    simp at this
  have hhl : ("high" : String) ≠ "low" := by decide
  refine ⟨?_, ?_, ?_, ?_⟩
  · intro hp
    unfold queuedTask.priority at hp
    constructor <;> intro hroom <;> simp [TaskQueue.Enqueue, hp, chanSend, hroom]
  · intro hp
    unfold queuedTask.priority at hp
    constructor <;> intro hroom <;> simp [TaskQueue.Enqueue, hp, chanSend, hroom]
  · intro hp1 hp2
    unfold queuedTask.priority at hp1 hp2
    constructor <;> intro hroom <;> simp [TaskQueue.Enqueue, hp1, hp2, chanSend, hroom]
  · intro q' e h
    by_cases hp1 : t.priority = "high"
    · have hp := hp1
      unfold queuedTask.priority at hp
      by_cases hroom : q.high.length < q.size
      · simp [TaskQueue.Enqueue, hp, chanSend, hroom] at h
        obtain ⟨rfl, rfl⟩ := h
        simp [hp1, hne]
      · simp [TaskQueue.Enqueue, hp, chanSend, hroom] at h
    · by_cases hp2 : t.priority = "low"
      · have hp := hp2
        unfold queuedTask.priority at hp
        by_cases hroom : q.low.length < q.size
        · simp [TaskQueue.Enqueue, hp, chanSend, hroom] at h
          obtain ⟨rfl, rfl⟩ := h
          simp [hp2, hne]
        · simp [TaskQueue.Enqueue, hp, chanSend, hroom] at h
      · have hq1 := hp1
        have hq2 := hp2
        unfold queuedTask.priority at hq1 hq2
        by_cases hroom : q.normal.length < q.size
        · simp [TaskQueue.Enqueue, hq1, hq2, chanSend, hroom] at h
          obtain ⟨rfl, rfl⟩ := h
          simp [hp1, hp2, hne]
        · simp [TaskQueue.Enqueue, hq1, hq2, chanSend, hroom] at h

/-- Witness of `Enqueue_tier`: on a fresh queue a task of priority " HIGH " goes to
the high tier and a task of empty priority to the normal tier. -/
theorem Enqueue_tier_witness :
    (NewTaskQueue 0).Enqueue (taskOf "h" " HIGH ") =
      some ({ NewTaskQueue 0 with high := [taskOf "h" " HIGH "] }, none) ∧
    (NewTaskQueue 0).Enqueue (taskOf "n" "") =
      some ({ NewTaskQueue 0 with normal := [taskOf "n" ""] }, none) :=
  ⟨((Enqueue_tier (NewTaskQueue 0) (taskOf "h" " HIGH ")).1 (by decide)).1 (by decide),
   ((Enqueue_tier (NewTaskQueue 0) (taskOf "n" "")).2.2.1 (by decide) (by decide)).1
     (by decide)⟩

/-! ### `selectDrivers` -/

theorem selectDrivers_eq (spec : TaskSpec) (drivers : List Driver) (drvMeta : GoMap DriverMeta) :
    selectDrivers spec drivers drvMeta =
      if maxModelsOf spec drivers > 0 ∧
          ((candidates spec drivers drvMeta).length : Int) > maxModelsOf spec drivers then
        (candidates spec drivers drvMeta).take (maxModelsOf spec drivers).toNat
      else if minModelsOf spec > 0 ∧
          ((candidates spec drivers drvMeta).length : Int) < minModelsOf spec then
        padDrivers (minModelsOf spec) (candidates spec drivers drvMeta) drivers
      else candidates spec drivers drvMeta := by
  rfl

theorem constraintString_absent (cs : List Constraint) (key : String)
    (h : ∀ c ∈ cs, c.Key ≠ key) : constraintString cs key = "" := by
  induction cs with
  | nil => rfl
  | cons c cs ih =>
    have hc : c.Key ≠ key := h c (List.mem_cons_self _ _)
    have ih' := ih (fun c' hc' => h c' (List.mem_cons_of_mem _ hc'))
    simp [constraintString, hc, ih']

/-- The padding loop: the chosen drivers stay, the drivers appended come from the
registry in its order, their IDs are new and pairwise different, at most
`minModels` drivers are reached, and the loop stops only when `minModels`
drivers are selected or every ID of the registry is selected. -/
theorem padDrivers_spec (m : Int) : ∀ (ds out : List Driver),
    ∃ added, padDrivers m out ds = out ++ added ∧ added.Sublist ds ∧
      (∀ d ∈ added, d.ID ∉ out.map (fun s => s.ID)) ∧
      (added.map (fun s => s.ID)).Nodup ∧
      (m ≤ ((out ++ added).length : Int) ∨
        ∀ d ∈ ds, d.ID ∈ (out ++ added).map (fun s => s.ID)) ∧
      ((out.length : Int) ≤ m → ((out ++ added).length : Int) ≤ m) ∧
      (m ≤ (out.length : Int) → added = []) := by
  intro ds
  induction ds with
  | nil =>
    intro out
    exact ⟨[], by simp [padDrivers], List.Sublist.refl _, by simp, by simp,
      Or.inr (by simp), by simp, fun _ => rfl⟩
  | cons d ds ih =>
    intro out
    by_cases h1 : (out.length : Int) ≥ m
    · exact ⟨[], by simp [padDrivers, h1], List.nil_sublist _, by simp, by simp,
        Or.inl (by simpa using h1), by simp, fun _ => rfl⟩
    · by_cases h2 : out.any (fun s => s.ID == d.ID) = true
      · obtain ⟨added, e, hs, hn, hnd, hstop, hle, _⟩ := ih out
        refine ⟨added, ?_, hs.cons _, hn, hnd, ?_, hle, fun h => absurd h h1⟩
        · simp only [padDrivers, h1, if_false, h2, if_true]
          exact e
        · rcases hstop with hstop | hstop
          · exact Or.inl hstop
          · right
            intro x hx
            rcases List.mem_cons.1 hx with rfl | hx
            · simp only [List.any_eq_true, beq_iff_eq] at h2
              obtain ⟨s, hs1, hs2⟩ := h2
              simp only [List.map_append, List.mem_append, List.mem_map]
              exact Or.inl ⟨s, hs1, hs2⟩
            · exact hstop x hx
      · obtain ⟨added, e, hs, hn, hnd, hstop, hle, _⟩ := ih (out ++ [d])
        have hd : d.ID ∉ out.map (fun s => s.ID) := by
          intro hmem
          apply h2
          simp only [List.mem_map] at hmem
          obtain ⟨s, hs1, hs2⟩ := hmem
          simp only [List.any_eq_true, beq_iff_eq]
          exact ⟨s, hs1, hs2⟩
        refine ⟨d :: added, ?_, hs.cons₂ _, ?_, ?_, ?_, ?_, fun h => absurd h h1⟩
        · simp only [padDrivers, h1, if_false, h2]
          rw [e]
          simp
        · intro x hx
          rcases List.mem_cons.1 hx with rfl | hx
          · exact hd
          · intro hmem
            exact hn x hx (by simp only [List.map_append, List.mem_append]; exact Or.inl hmem)
        · simp only [List.map_cons, List.nodup_cons]
          refine ⟨?_, hnd⟩
          intro hmem
          simp only [List.mem_map] at hmem
          obtain ⟨x, hx1, hx2⟩ := hmem
          exact hn x hx1 (by simp [hx2])
        · rcases hstop with hstop | hstop
          · left
            simpa using hstop
          · right
            intro x hx
            rcases List.mem_cons.1 hx with rfl | hx
            · simp
            · have := hstop x hx
              simpa using this
        · intro _
          have := hle (by simp only [List.length_append, List.length_singleton]; push_cast; omega)
          simpa using this

theorem padDrivers_length_le (m : Int) (ds out : List Driver) :
    ((padDrivers m out ds).length : Int) ≤ max (out.length : Int) m := by
  obtain ⟨added, e, _, _, _, _, hle, hnil⟩ := padDrivers_spec m ds out
  rw [e]
  rcases le_total (out.length : Int) m with h | h
  · exact le_trans (hle h) (le_max_right _ _)
  · rw [hnil h]
    simp

/-- The number of different IDs of a registry is at most the length of a
selection that holds every one of them. -/
theorem distinct_ids_le (drivers sel : List Driver)
    (h : ∀ d ∈ drivers, d.ID ∈ sel.map (fun s => s.ID)) :
    (drivers.map (fun d => d.ID)).dedup.length ≤ sel.length := by
  have hsub : (drivers.map (fun d => d.ID)).dedup ⊆ sel.map (fun s => s.ID) := by
    intro x hx
    rw [List.mem_dedup, List.mem_map] at hx
    obtain ⟨d, hd, rfl⟩ := hx
    exact h d hd
  have := (List.subperm_of_subset (List.nodup_dedup _) hsub).length_le
  simpa using this

/-- C12: when neither max_models nor min_models changes the width, selectDrivers
returns the registered drivers whose ID is an entry of the allowlist (the
comma-separated, trimmed parts of a non-empty "models" string), in registry
order, whatever the budget is; when "models" is absent or empty it returns the
choice of selectByBudget if budget_usd > 0, and all registered drivers
otherwise. -/
theorem selectDrivers_choice (spec : TaskSpec) (drivers : List Driver)
    (drvMeta : GoMap DriverMeta)
    (hmax : ¬ (maxModelsOf spec drivers > 0 ∧
      ((candidates spec drivers drvMeta).length : Int) > maxModelsOf spec drivers))
    (hmin : ¬ (minModelsOf spec > 0 ∧
      ((candidates spec drivers drvMeta).length : Int) < minModelsOf spec)) :
    (constraintString spec.Constraints "models" ≠ "" →
      selectDrivers spec drivers drvMeta =
        drivers.filter (fun d => decide (d.ID ∈ allowlist spec)) ∧
      (selectDrivers spec drivers drvMeta).Sublist drivers) ∧
    (constraintString spec.Constraints "models" = "" →
      F64.gt (budgetOf spec) F64.zero = true →
      selectDrivers spec drivers drvMeta = selectByBudget drivers drvMeta (budgetOf spec)) ∧
    (constraintString spec.Constraints "models" = "" →
      F64.gt (budgetOf spec) F64.zero = false →
      selectDrivers spec drivers drvMeta = drivers) ∧
    ((∀ c ∈ spec.Constraints, c.Key ≠ "models") →
      constraintString spec.Constraints "models" = "") := by
  have hsel : selectDrivers spec drivers drvMeta = candidates spec drivers drvMeta := by
    rw [selectDrivers_eq, if_neg hmax, if_neg hmin]
  refine ⟨?_, ?_, ?_, constraintString_absent _ _⟩
  · intro hp
    have hc : candidates spec drivers drvMeta =
        drivers.filter (fun d => decide (d.ID ∈ allowlist spec)) := by
      simp [candidates, hp]
    rw [hsel, hc]
    exact ⟨rfl, List.filter_sublist _⟩
  · intro hp hb
    rw [hsel]
    simp [candidates, hp, hb]
  · intro hp hb
    rw [hsel]
    simp [candidates, hp, hb]

/-- Witness of `selectDrivers_choice`: the allowlist " c, a" with a budget chooses
the drivers "a" and "c" of the registry a, b, c, in this order. -/
theorem selectDrivers_choice_witness :
    (selectDrivers allowTwo threeDrivers noMeta).map (fun d => d.ID) = ["a", "c"] := by
  rw [((selectDrivers_choice allowTwo threeDrivers noMeta (by decide) (by decide)).1
    (by decide)).1]
  decide

/-- C13 fails as stated: with the allowlist "a", max_models 1 and min_models 3 on
a registry of three drivers, three drivers are returned. -/
theorem selectDrivers_exceeds_max :
    maxModelsOf oneToThree threeDrivers = 1 ∧
    (selectDrivers oneToThree threeDrivers noMeta).map (fun d => d.ID) = ["a", "b", "c"] ∧
    ¬ ((selectDrivers oneToThree threeDrivers noMeta).length ≤ 1) := by
  decide

/-- C13, amended: when max_models reads as the integer N > 0, selectDrivers
returns at most max(N, min_models) drivers, whatever the models and budget_usd
constraints are; so at most N drivers whenever min_models is at most N. -/
theorem selectDrivers_length_le (spec : TaskSpec) (drivers : List Driver)
    (drvMeta : GoMap DriverMeta) (N : Int) (hN : maxModelsOf spec drivers = N) (hpos : N > 0) :
    ((selectDrivers spec drivers drvMeta).length : Int) ≤ max N (minModelsOf spec) ∧
    (minModelsOf spec ≤ N → ((selectDrivers spec drivers drvMeta).length : Int) ≤ N) := by
  have key : ((selectDrivers spec drivers drvMeta).length : Int) ≤ max N (minModelsOf spec) := by
    rw [selectDrivers_eq, hN]
    split
    · rename_i h
      simp only [List.length_take]
      have : ((min N.toNat (candidates spec drivers drvMeta).length : Nat) : Int) ≤ N := by
        have h1 : (min N.toNat (candidates spec drivers drvMeta).length) ≤ N.toNat :=
          Nat.min_le_left _ _
        have h2 : ((N.toNat : Nat) : Int) = N := Int.toNat_of_nonneg (le_of_lt hpos)
        omega
      exact le_trans this (le_max_left _ _)
    · rename_i h
      have hlen : ((candidates spec drivers drvMeta).length : Int) ≤ N := by
        by_contra hc
        exact h ⟨hpos, by omega⟩
      split
      · have := padDrivers_length_le (minModelsOf spec) drivers (candidates spec drivers drvMeta)
        refine le_trans this ?_
        exact max_le (le_trans hlen (le_max_left _ _)) (le_max_right _ _)
      · exact le_trans hlen (le_max_left _ _)
  refine ⟨key, ?_⟩
  intro hle
  rwa [max_eq_left hle] at key

/-- Witness of `selectDrivers_length_le`: with max_models 1 and min_models 3
at most three drivers are selected. -/
theorem selectDrivers_length_le_witness :
    ((selectDrivers oneToThree threeDrivers noMeta).length : Int) ≤ 3 :=
  (selectDrivers_length_le oneToThree threeDrivers noMeta 1 (by decide) (by decide)).1.trans
    (by decide)

/-- C15: when min_models reads as M > 0, exceeds the number of candidates and no
truncation by max_models applies, selectDrivers returns the candidates followed
by drivers of the registry, in registry order, whose IDs are not among the
candidates and are pairwise different; it returns at most M drivers, and
exactly M unless every ID of the registry is selected; so at least min(M, D)
drivers for a registry with D different IDs. -/
theorem selectDrivers_pads (spec : TaskSpec) (drivers : List Driver)
    (drvMeta : GoMap DriverMeta) (M : Int) (hM : minModelsOf spec = M) (hpos : M > 0)
    (hlt : ((candidates spec drivers drvMeta).length : Int) < M)
    (hmax : ¬ (maxModelsOf spec drivers > 0 ∧
      ((candidates spec drivers drvMeta).length : Int) > maxModelsOf spec drivers)) :
    ∃ added, selectDrivers spec drivers drvMeta = candidates spec drivers drvMeta ++ added ∧
      added.Sublist drivers ∧
      (∀ d ∈ added, d.ID ∉ (candidates spec drivers drvMeta).map (fun s => s.ID)) ∧
      (added.map (fun s => s.ID)).Nodup ∧
      ((selectDrivers spec drivers drvMeta).length : Int) ≤ M ∧
      (((selectDrivers spec drivers drvMeta).length : Int) = M ∨
        ∀ d ∈ drivers, d.ID ∈ (selectDrivers spec drivers drvMeta).map (fun s => s.ID)) ∧
      min M ((drivers.map (fun d => d.ID)).dedup.length : Int) ≤
        ((selectDrivers spec drivers drvMeta).length : Int) := by
  have hsel : selectDrivers spec drivers drvMeta =
      padDrivers M (candidates spec drivers drvMeta) drivers := by
    rw [selectDrivers_eq, if_neg hmax, hM, if_pos ⟨hpos, hlt⟩]
  obtain ⟨added, e, hs, hn, hnd, hstop, hle, _⟩ :=
    padDrivers_spec M drivers (candidates spec drivers drvMeta)
  have hsel' : selectDrivers spec drivers drvMeta = candidates spec drivers drvMeta ++ added :=
    hsel.trans e
  have hle' := hle (le_of_lt hlt)
  refine ⟨added, hsel', hs, hn, hnd, ?_, ?_, ?_⟩
  · rw [hsel']
    exact hle'
  · rw [hsel']
    rcases hstop with hstop | hstop
    · exact Or.inl (le_antisymm hle' hstop)
    · exact Or.inr hstop
  · rw [hsel']
    rcases hstop with hstop | hstop
    · exact le_trans (min_le_left _ _) hstop
    · have := distinct_ids_le drivers _ hstop
      exact le_trans (min_le_right _ _) (by exact_mod_cast this)

/-- Witness of `selectDrivers_pads`: the allowlist "b" with min_models 2 on the
registry a, b, c selects "b", then "a". -/
theorem selectDrivers_pads_witness :
    (selectDrivers padToTwo threeDrivers noMeta).map (fun d => d.ID) = ["b", "a"] ∧
    ((selectDrivers padToTwo threeDrivers noMeta).length : Int) ≤ 2 :=
  ⟨by decide,
   (selectDrivers_pads padToTwo threeDrivers noMeta 2 (by decide) (by decide) (by decide)
     (by decide)).choose_spec.2.2.2.2.1⟩

/-! ### `selectByBudget` -/

theorem selectByBudget_eq (drivers : List Driver) (drvMeta : GoMap DriverMeta) (b : F64) :
    selectByBudget drivers drvMeta b =
      ((sortItems (budgetItems drivers drvMeta)).foldl (budgetStep b) ([], F64.zero)).1 := by
  rfl

theorem ofMag_one (neg : Bool) (n : Nat) :
    F64.ofMag neg n 1 =
      if 2 ^ 2098 ≤ n ∨ 2 ^ 2098 ≤ F64.roundMag n 1 then F64.inf neg
      else F64.fin neg (F64.roundMag n 1) := by
  unfold F64.ofMag
  simp only [Nat.div_one]
  by_cases h1 : 2 ^ 2098 ≤ n
  · rw [if_pos h1, if_pos (Or.inl h1)]
  · rw [if_neg h1]
    by_cases h2 : F64.roundMag n 1 < 2 ^ 2098
    · have hno : ¬ (2 ^ 2098 ≤ n ∨ 2 ^ 2098 ≤ F64.roundMag n 1) := by
        rintro (h | h) <;> omega
      rw [if_neg hno]
      simp only [h2, if_true]
    · rw [if_pos (Or.inr (by omega))]
      simp only [h2, if_false]

theorem overflow_mono (n m : Nat) (h : n ≤ m)
    (hn : 2 ^ 2098 ≤ n ∨ 2 ^ 2098 ≤ F64.roundMag n 1) :
    2 ^ 2098 ≤ m ∨ 2 ^ 2098 ≤ F64.roundMag m 1 := by
  by_cases hm : 2 ^ 2098 ≤ m
  · exact Or.inl hm
  · right
    have hm' : m < 2 ^ 4096 :=
      lt_of_lt_of_le (not_le.1 hm) (Nat.pow_le_pow_right (by norm_num) (by norm_num))
    rcases hn with hn | hn
    · omega
    · exact le_trans hn (F64.roundMag_mono n m h hm')

/-- The sum of two finite values as a function of the exact sum `z` in units. -/
theorem add_fin_fin (s t : Bool) (k l : Nat) :
    F64.add (F64.fin s k) (F64.fin t l) =
      if F64.signed s k + F64.signed t l = 0 then F64.fin (s && t) 0
      else F64.ofMag (decide (F64.signed s k + F64.signed t l < 0))
        (F64.signed s k + F64.signed t l).natAbs 1 := by
  rfl

theorem ord_units_nonneg (b : Bool) (z : Int) (hz : 0 ≤ z) :
    toLex ((0 : ℤ), (0 : ℤ)) ≤
      F64.ord (if z = 0 then F64.fin b 0 else F64.ofMag (decide (z < 0)) z.natAbs 1) := by
  by_cases h0 : z = 0
  · rw [if_pos h0]
    simp only [F64.ord]
    exact (Prod.Lex.le_iff _ _).2 (Or.inr ⟨rfl, by cases b <;> simp [F64.signed]⟩)
  · rw [if_neg h0, ofMag_one]
    have hd : decide (z < 0) = false := by simp; omega
    rw [hd]
    split
    · simp only [F64.ord]
      exact (Prod.Lex.le_iff _ _).2 (Or.inl (by norm_num))
    · simp only [F64.ord]
      exact (Prod.Lex.le_iff _ _).2 (Or.inr ⟨rfl, by simp [F64.signed]⟩)

theorem ord_units_nonpos (b : Bool) (z : Int) (hz : z ≤ 0) :
    F64.ord (if z = 0 then F64.fin b 0 else F64.ofMag (decide (z < 0)) z.natAbs 1) ≤
      toLex ((0 : ℤ), (0 : ℤ)) := by
  by_cases h0 : z = 0
  · rw [if_pos h0]
    simp only [F64.ord]
    exact (Prod.Lex.le_iff _ _).2 (Or.inr ⟨rfl, by cases b <;> simp [F64.signed]⟩)
  · rw [if_neg h0, ofMag_one]
    have hd : decide (z < 0) = true := by simp; omega
    rw [hd]
    split
    · simp only [F64.ord]
      exact (Prod.Lex.le_iff _ _).2 (Or.inl (by norm_num))
    · simp only [F64.ord]
      exact (Prod.Lex.le_iff _ _).2 (Or.inr ⟨rfl, by simp [F64.signed]⟩)

theorem ord_units_mono (b c : Bool) (z w : Int) (h : z ≤ w) :
    F64.ord (if z = 0 then F64.fin b 0 else F64.ofMag (decide (z < 0)) z.natAbs 1) ≤
      F64.ord (if w = 0 then F64.fin c 0 else F64.ofMag (decide (w < 0)) w.natAbs 1) := by
  rcases lt_trichotomy 0 z with hz | hz | hz
  · -- both positive
    have hw : 0 < w := lt_of_lt_of_le hz h
    rw [if_neg (by omega), if_neg (by omega), ofMag_one, ofMag_one]
    have hd : decide (z < 0) = false := by simp; omega
    have hd' : decide (w < 0) = false := by simp; omega
    rw [hd, hd']
    have hab : z.natAbs ≤ w.natAbs := by omega
    by_cases ho : 2 ^ 2098 ≤ w.natAbs ∨ 2 ^ 2098 ≤ F64.roundMag w.natAbs 1
    · rw [if_pos ho]
      split
      · exact le_refl _
      · simp only [F64.ord]
        exact (Prod.Lex.le_iff _ _).2 (Or.inl (by norm_num))
    · rw [if_neg ho, if_neg (fun hn => ho (overflow_mono _ _ hab hn))]
      have hm := F64.roundMag_mono z.natAbs w.natAbs hab
        (lt_of_lt_of_le (by omega) (Nat.pow_le_pow_right (by norm_num) (by norm_num : 2098 ≤ 4096)))
      simp only [F64.ord]
      exact (Prod.Lex.le_iff _ _).2 (Or.inr ⟨rfl, by simpa [F64.signed] using hm⟩)
  · exact le_trans (ord_units_nonpos b z (by omega)) (ord_units_nonneg c w (by omega))
  · rcases le_or_lt 0 w with hw | hw
    · exact le_trans (ord_units_nonpos b z (by omega)) (ord_units_nonneg c w hw)
    · rw [if_neg (by omega), if_neg (by omega), ofMag_one, ofMag_one]
      have hd : decide (z < 0) = true := by simp; omega
      have hd' : decide (w < 0) = true := by simp; omega
      rw [hd, hd']
      have hab : w.natAbs ≤ z.natAbs := by omega
      by_cases ho : 2 ^ 2098 ≤ z.natAbs ∨ 2 ^ 2098 ≤ F64.roundMag z.natAbs 1
      · rw [if_pos ho]
        split
        · exact le_refl _
        · simp only [F64.ord]
          exact (Prod.Lex.le_iff _ _).2 (Or.inl (by norm_num))
      · rw [if_neg ho, if_neg (fun hn => ho (overflow_mono _ _ hab hn))]
        have hm := F64.roundMag_mono w.natAbs z.natAbs hab
          (lt_of_lt_of_le (by omega) (Nat.pow_le_pow_right (by norm_num) (by norm_num : 2098 ≤ 4096)))
        simp only [F64.ord]
        exact (Prod.Lex.le_iff _ _).2 (Or.inr ⟨rfl, by simpa [F64.signed] using hm⟩)

theorem isNaN_of_le {x y : F64} (h : F64.le x y = true) :
    x.isNaN = false ∧ y.isNaN = false := by
  cases x <;> cases y <;> simp [F64.le, F64.lt, F64.eq, F64.isNaN] at h ⊢

theorem le_of_lt_true {x y : F64} (h : F64.lt x y = true) : F64.le x y = true := by
  simp [F64.le, h]

theorem le_of_lt_false {x y : F64} (hx : x.isNaN = false) (hy : y.isNaN = false)
    (h : F64.lt x y = false) : F64.le y x = true := by
  rw [F64.le_iff_ord hy hx]
  have : ¬ (F64.ord x < F64.ord y) := by
    rw [← F64.lt_iff_ord hx hy, h]
    simp
  exact not_lt.1 this

theorem le_trans_true {x y z : F64} (h1 : F64.le x y = true) (h2 : F64.le y z = true) :
    F64.le x z = true := by
  have a := isNaN_of_le h1
  have b := isNaN_of_le h2
  rw [F64.le_iff_ord a.1 b.2]
  exact le_trans ((F64.le_iff_ord a.1 a.2).1 h1) ((F64.le_iff_ord b.1 b.2).1 h2)

theorem le_refl_true {x : F64} (hx : x.isNaN = false) : F64.le x x = true := by
  rw [F64.le_iff_ord hx hx]

theorem add_fin_fin_isNaN (s t : Bool) (k l : Nat) :
    (F64.add (F64.fin s k) (F64.fin t l)).isNaN = false := by
  rw [add_fin_fin]
  split
  · rfl
  · rcases ofMag_cases (decide (F64.signed s k + F64.signed t l < 0))
      (F64.signed s k + F64.signed t l).natAbs 1 with h | ⟨h, _⟩ <;> rw [h] <;> rfl

/-- Adding to a fixed value is monotone, as long as no NaN arises. -/
theorem add_le_add_left (s c e : F64) (hc : F64.le c e = true)
    (h1 : (F64.add s c).isNaN = false) (h2 : (F64.add s e).isNaN = false) :
    F64.le (F64.add s c) (F64.add s e) = true := by
  cases s with
  | nan => simp [F64.add, F64.isNaN] at h1
  | inf a =>
    cases c with
    | nan => simp [F64.le, F64.lt, F64.eq] at hc
    | inf b =>
      cases e with
      | nan => cases b <;> simp [F64.le, F64.lt, F64.eq] at hc
      | inf b2 =>
        cases a <;> cases b <;> cases b2 <;>
          simp [F64.add, F64.isNaN, F64.le, F64.lt, F64.eq] at h1 h2 hc ⊢
      | fin u m =>
        cases a <;> cases b <;>
          simp [F64.add, F64.isNaN, F64.le, F64.lt, F64.eq] at h1 h2 hc ⊢
    | fin t l =>
      cases e with
      | nan => simp [F64.le, F64.lt, F64.eq] at hc
      | inf b2 =>
        cases a <;> cases b2 <;>
          simp [F64.add, F64.isNaN, F64.le, F64.lt, F64.eq] at h1 h2 hc ⊢
      | fin u m => cases a <;> simp [F64.add, F64.le, F64.lt, F64.eq]
  | fin s k =>
    cases c with
    | nan => simp [F64.le, F64.lt, F64.eq] at hc
    | inf b =>
      cases e with
      | nan => cases b <;> simp [F64.le, F64.lt, F64.eq] at hc
      | inf b2 =>
        cases b <;> cases b2 <;> simp [F64.add, F64.le, F64.lt, F64.eq] at hc ⊢
      | fin u m =>
        have hb : b = true := by
          cases b <;> simp [F64.le, F64.lt, F64.eq] at hc ⊢
        subst hb
        have : F64.add (F64.fin s k) (F64.inf true) = F64.inf true := rfl
        rw [this]
        generalize F64.add (F64.fin s k) (F64.fin u m) = r at h2
        cases r <;> simp [F64.isNaN, F64.le, F64.lt, F64.eq] at h2 ⊢
    | fin t l =>
      cases e with
      | nan => simp [F64.le, F64.lt, F64.eq] at hc
      | inf b2 =>
        have hb : b2 = false := by
          cases b2 <;> simp [F64.le, F64.lt, F64.eq] at hc ⊢
        subst hb
        have : F64.add (F64.fin s k) (F64.inf false) = F64.inf false := rfl
        rw [this]
        generalize F64.add (F64.fin s k) (F64.fin t l) = r at h1
        cases r <;> simp [F64.isNaN, F64.le, F64.lt, F64.eq] at h1 ⊢
      | fin u m =>
        rw [F64.le_iff_ord h1 h2, add_fin_fin, add_fin_fin]
        have hle : F64.signed t l ≤ F64.signed u m := by
          have := (F64.le_iff_ord (x := F64.fin t l) (y := F64.fin u m) rfl rfl).1 hc
          simp only [F64.ord] at this
          rcases (Prod.Lex.le_iff _ _).1 this with h | ⟨_, h⟩
          · exact absurd h (lt_irrefl _)
          · exact h
        exact ord_units_mono _ _ _ _ (by omega)

/-- Once a cost is rejected by the budget test, every cost at least as high is
rejected. -/
theorem reject_mono (s c e b : F64) (hs : s.isNaN = false) (hce : F64.le c e = true)
    (hinv : ¬ (s = F64.inf false ∧ c = F64.inf true))
    (hrej : F64.le (F64.add s c) b = false) : F64.le (F64.add s e) b = false := by
  by_contra hacc
  have hacc2 : F64.le (F64.add s e) b = true := by simpa using hacc
  have h2 := (isNaN_of_le hacc2).1
  by_cases h1 : (F64.add s c).isNaN = false
  · have := le_trans_true (add_le_add_left s c e hce h1 h2) hacc2
    rw [this] at hrej
    exact absurd hrej (by simp)
  · cases s with
    | nan => simp [F64.isNaN] at hs
    | inf a =>
      cases c with
      | nan => simp [F64.le, F64.lt, F64.eq] at hce
      | inf b1 =>
        cases e with
        | nan => cases b1 <;> simp [F64.le, F64.lt, F64.eq] at hce
        | inf b2 =>
          cases a <;> cases b1 <;> cases b2 <;>
            simp [F64.add, F64.isNaN, F64.le, F64.lt, F64.eq] at h1 h2 hce hinv
        | fin u m =>
          cases a <;> cases b1 <;>
            simp [F64.add, F64.isNaN, F64.le, F64.lt, F64.eq] at h1 h2 hce hinv
      | fin t l => simp [F64.add, F64.isNaN] at h1
    | fin s k =>
      cases c with
      | nan => simp [F64.le, F64.lt, F64.eq] at hce
      | inf b1 => simp [F64.add, F64.isNaN] at h1
      | fin t l => exact h1 (add_fin_fin_isNaN s t k l)

theorem add_zero_isNaN (c : F64) (hc : c.isNaN = false) :
    (F64.add F64.zero c).isNaN = false := by
  cases c with
  | nan => simp [F64.isNaN] at hc
  | inf b => rfl
  | fin t l => exact add_fin_fin_isNaN _ _ _ _

theorem add_inf_true_ne (s : F64) : F64.add s (F64.inf true) ≠ F64.inf false := by
  cases s with
  | nan => simp [F64.add]
  | inf a => cases a <;> simp [F64.add]
  | fin s k => simp [F64.add]

theorem insertItem_perm (x : Item) : ∀ l : List Item, (insertItem x l).Perm (x :: l)
  | [] => List.Perm.refl _
  | y :: ys => by
    unfold insertItem
    split
    · exact ((insertItem_perm x ys).cons y).trans (List.Perm.swap x y ys)
    · exact List.Perm.refl _

theorem insertLoop_perm : ∀ (items acc : List Item),
    (items.foldl (fun rev x => insertItem x rev) acc).Perm (items ++ acc)
  | [], acc => List.Perm.refl _
  | x :: xs, acc => by
    simp only [List.foldl_cons, List.cons_append]
    exact (insertLoop_perm xs (insertItem x acc)).trans
      (((insertItem_perm x acc).append_left xs).trans List.perm_middle)

theorem sortItems_perm (items : List Item) : (sortItems items).Perm items := by
  unfold sortItems
  have := insertLoop_perm items []
  rw [List.append_nil] at this
  exact (List.reverse_perm _).trans this

theorem insertItem_desc (x : Item) (hx : x.cost.isNaN = false) :
    ∀ l : List Item, (∀ y ∈ l, y.cost.isNaN = false) →
      l.Pairwise (fun a b => F64.le b.cost a.cost = true) →
      (insertItem x l).Pairwise (fun a b => F64.le b.cost a.cost = true)
  | [], _, _ => by simp [insertItem]
  | y :: ys, hn, hp => by
    have hy : y.cost.isNaN = false := hn y (List.mem_cons_self _ _)
    have hys : ∀ z ∈ ys, z.cost.isNaN = false := fun z hz => hn z (List.mem_cons_of_mem _ hz)
    rw [List.pairwise_cons] at hp
    unfold insertItem
    split
    · rename_i hlt
      rw [List.pairwise_cons]
      refine ⟨?_, insertItem_desc x hx ys hys hp.2⟩
      intro z hz
      rcases List.mem_cons.1 ((insertItem_perm x ys).mem_iff.1 hz) with rfl | hz
      · exact le_of_lt_true hlt
      · exact hp.1 z hz
    · rename_i hlt
      have hyx : F64.le y.cost x.cost = true :=
        le_of_lt_false hx hy (by simpa using hlt)
      rw [List.pairwise_cons]
      refine ⟨?_, List.pairwise_cons.2 hp⟩
      intro z hz
      rcases List.mem_cons.1 hz with rfl | hz
      · exact hyx
      · exact le_trans_true (hp.1 z hz) hyx

theorem insertLoop_desc : ∀ (items acc : List Item),
    (∀ y ∈ items, y.cost.isNaN = false) → (∀ y ∈ acc, y.cost.isNaN = false) →
    acc.Pairwise (fun a b => F64.le b.cost a.cost = true) →
    (items.foldl (fun rev x => insertItem x rev) acc).Pairwise
      (fun a b => F64.le b.cost a.cost = true)
  | [], acc, _, _, hp => hp
  | x :: xs, acc, hi, ha, hp => by
    simp only [List.foldl_cons]
    have hx := hi x (List.mem_cons_self _ _)
    refine insertLoop_desc xs (insertItem x acc)
      (fun y hy => hi y (List.mem_cons_of_mem _ hy)) ?_ (insertItem_desc x hx acc ha hp)
    intro y hy
    rcases List.mem_cons.1 ((insertItem_perm x acc).mem_iff.1 hy) with rfl | hy
    · exact hx
    · exact ha y hy

/-- Without a NaN among the costs the sort puts the items in ascending order of
cost. -/
theorem sortItems_sorted (items : List Item) (hn : ∀ y ∈ items, y.cost.isNaN = false) :
    (sortItems items).Pairwise (fun a b => F64.le a.cost b.cost = true) := by
  unfold sortItems
  rw [List.pairwise_reverse]
  exact insertLoop_desc items [] hn (by simp) List.Pairwise.nil

theorem budgetLoop_reject (b : F64) (out : List Driver) (sum : F64) (hout : out ≠ []) :
    ∀ l : List Item, (∀ it ∈ l, F64.le (F64.add sum it.cost) b = false) →
      l.foldl (budgetStep b) (out, sum) = (out, sum)
  | [], _ => rfl
  | it :: rest, h => by
    have hl : out.length ≠ 0 := fun hc => hout (List.length_eq_zero.1 hc)
    have hstep : budgetStep b (out, sum) it = (out, sum) := by
      simp [budgetStep, h it (List.mem_cons_self _ _), hl]
    rw [List.foldl_cons, hstep]
    exact budgetLoop_reject b out sum hout rest (fun x hx => h x (List.mem_cons_of_mem _ hx))

/-- The loop of `selectByBudget` on items in ascending order of cost accepts a
prefix of the items. -/
theorem budgetLoop_accepts (b : F64) : ∀ (l : List Item) (out : List Driver) (sum : F64),
    l.Pairwise (fun x y => F64.le x.cost y.cost = true) →
    (∀ it ∈ l, it.cost.isNaN = false) →
    sum.isNaN = false →
    (out = [] → sum = F64.zero) →
    (sum = F64.inf false → ∀ it ∈ l, it.cost ≠ F64.inf true) →
    ∃ pre suf, l = pre ++ suf ∧
      l.foldl (budgetStep b) (out, sum) =
        (out ++ pre.map (fun it => it.d), pre.foldl (fun s it => F64.add s it.cost) sum) ∧
      (out = [] → l ≠ [] → pre ≠ []) ∧
      (pre = [] ∨ F64.le (pre.foldl (fun s it => F64.add s it.cost) sum) b = true ∨
        (out = [] ∧ pre.length = 1)) := by
  intro l
  induction l with
  | nil =>
    intro out sum _ _ _ _ _
    exact ⟨[], [], rfl, by simp, fun _ h => absurd rfl h, Or.inl rfl⟩
  | cons it rest ih =>
    intro out sum hp hn hs hz hinf
    rw [List.pairwise_cons] at hp
    have hit : it.cost.isNaN = false := hn it (List.mem_cons_self _ _)
    by_cases hacc : F64.le (F64.add sum it.cost) b = true ∨ out = []
    · have hstep : budgetStep b (out, sum) it = (out ++ [it.d], F64.add sum it.cost) := by
        rcases hacc with h | h
        · simp [budgetStep, h]
        · simp [budgetStep, h]
      have hs2 : (F64.add sum it.cost).isNaN = false := by
        rcases hacc with h | h
        · exact (isNaN_of_le h).1
        · rw [hz h]
          exact add_zero_isNaN _ hit
      have hinf2 : F64.add sum it.cost = F64.inf false →
          ∀ x ∈ rest, x.cost ≠ F64.inf true := by
        intro he x hx hc
        have hle := hp.1 x hx
        rw [hc] at hle
        have hcost : it.cost = F64.inf true := by
          generalize it.cost = c at hle
          cases c with
          | nan => simp [F64.le, F64.lt, F64.eq] at hle
          | inf a => cases a <;> simp [F64.le, F64.lt, F64.eq] at hle ⊢
          | fin t l => simp [F64.le, F64.lt, F64.eq] at hle
        rw [hcost] at he
        exact add_inf_true_ne sum he
      obtain ⟨pre, suf, hl, hf, _, hb⟩ := ih (out ++ [it.d]) (F64.add sum it.cost) hp.2
        (fun x hx => hn x (List.mem_cons_of_mem _ hx)) hs2 (fun h => by simp at h) hinf2
      refine ⟨it :: pre, suf, by rw [hl]; rfl, ?_, fun _ _ => by simp, ?_⟩
      · rw [List.foldl_cons, hstep, hf]
        simp
      · right
        rcases hb with hb | hb | hb
        · subst hb
          rcases hacc with h | h
          · exact Or.inl (by simpa using h)
          · exact Or.inr ⟨h, rfl⟩
        · exact Or.inl (by simpa using hb)
        · exact absurd hb.1 (by simp)
    · have hrej : F64.le (F64.add sum it.cost) b = false := by
        cases h : F64.le (F64.add sum it.cost) b
        · rfl
        · exact absurd (Or.inl h) hacc
      have hout : out ≠ [] := fun h => hacc (Or.inr h)
      have hall : ∀ x ∈ it :: rest, F64.le (F64.add sum x.cost) b = false := by
        intro x hx
        rcases List.mem_cons.1 hx with rfl | hx
        · exact hrej
        · exact reject_mono sum it.cost x.cost b hs (hp.1 x hx)
            (fun h => hinf h.1 it (List.mem_cons_self _ _) h.2) hrej
      refine ⟨[], it :: rest, rfl, ?_, fun h => absurd h hout, Or.inl rfl⟩
      rw [budgetLoop_reject b out sum hout _ hall]
      simp

theorem budgetItems_cost (drivers : List Driver) (drvMeta : GoMap DriverMeta) :
    ∀ it ∈ budgetItems drivers drvMeta, it.cost = staticCost drvMeta it.d := by
  intro it hit
  simp only [budgetItems, List.mem_map] at hit
  obtain ⟨d, _, rfl⟩ := hit
  rfl

theorem budgetItems_drivers (drivers : List Driver) (drvMeta : GoMap DriverMeta) :
    (budgetItems drivers drvMeta).map (fun it => it.d) = drivers := by
  unfold budgetItems
  rw [List.map_map]
  exact List.map_id _

theorem foldl_cost (drvMeta : GoMap DriverMeta) : ∀ (pre : List Item) (s : F64),
    (∀ it ∈ pre, it.cost = staticCost drvMeta it.d) →
    (pre.map (fun it => it.d)).foldl (fun s d => F64.add s (staticCost drvMeta d)) s =
      pre.foldl (fun s it => F64.add s it.cost) s
  | [], _, _ => rfl
  | it :: rest, s, h => by
    simp only [List.map_cons, List.foldl_cons]
    rw [← h it (List.mem_cons_self _ _)]
    exact foldl_cost drvMeta rest _ (fun x hx => h x (List.mem_cons_of_mem _ hx))

/-- The result of `selectByBudget` for costs without NaN: the sorted items split
into the accepted items `pre` and the rest; the sorted drivers are a permutation
of the drivers in ascending order of cost. -/
theorem selectByBudget_split (drivers : List Driver) (drvMeta : GoMap DriverMeta) (b : F64)
    (hnan : ∀ d ∈ drivers, (staticCost drvMeta d).isNaN = false) :
    ∃ pre suf, sortItems (budgetItems drivers drvMeta) = pre ++ suf ∧
      selectByBudget drivers drvMeta b = pre.map (fun it => it.d) ∧
      (drivers ≠ [] → pre ≠ []) ∧
      (pre = [] ∨ F64.le (pre.foldl (fun s it => F64.add s it.cost) F64.zero) b = true ∨
        pre.length = 1) ∧
      (sortItems (budgetItems drivers drvMeta)).Pairwise
        (fun x y => F64.le x.cost y.cost = true) ∧
      ((sortItems (budgetItems drivers drvMeta)).map (fun it => it.d)).Perm drivers ∧
      (∀ it ∈ sortItems (budgetItems drivers drvMeta),
        it.cost = staticCost drvMeta it.d ∧ it.cost.isNaN = false) := by
  have hperm := sortItems_perm (budgetItems drivers drvMeta)
  have hcost : ∀ it ∈ sortItems (budgetItems drivers drvMeta),
      it.cost = staticCost drvMeta it.d :=
    fun it hit => budgetItems_cost drivers drvMeta it (hperm.mem_iff.1 hit)
  have hnn : ∀ it ∈ budgetItems drivers drvMeta, it.cost.isNaN = false := by
    intro it hit
    rw [budgetItems_cost drivers drvMeta it hit]
    have : it.d ∈ (budgetItems drivers drvMeta).map (fun it => it.d) :=
      List.mem_map_of_mem _ hit
    rw [budgetItems_drivers] at this
    exact hnan _ this
  have hsorted := sortItems_sorted (budgetItems drivers drvMeta) hnn
  have hpd : ((sortItems (budgetItems drivers drvMeta)).map (fun it => it.d)).Perm drivers := by
    have := hperm.map (fun it => it.d)
    rwa [budgetItems_drivers] at this
  obtain ⟨pre, suf, hl, hf, hpre, hb⟩ :=
    budgetLoop_accepts b (sortItems (budgetItems drivers drvMeta)) [] F64.zero hsorted
      (fun it hit => hnn it (hperm.mem_iff.1 hit)) rfl (fun _ => rfl)
      (fun h => by cases h)
  refine ⟨pre, suf, hl, ?_, ?_, ?_, hsorted, hpd,
    fun it hit => ⟨hcost it hit, hnn it (hperm.mem_iff.1 hit)⟩⟩
  · rw [selectByBudget_eq, hf]
    simp
  · intro hne
    refine hpre rfl ?_
    intro hc
    rw [hc] at hpd
    exact hne (List.Perm.nil_eq hpd).symm
  · rcases hb with hb | hb | hb
    · exact Or.inl hb
    · exact Or.inr (Or.inl hb)
    · exact Or.inr (Or.inr hb.2)

/-- C11 fails as stated: with the costs a = 1, b = NaN, c = 0 and the budget 5
the sort leaves the items in the order a, b, c and selectByBudget returns a and
c: its first driver costs 1 although c costs 0, and what it returns is no
prefix of the drivers in ascending order of cost. -/
theorem selectByBudget_nan_first :
    (selectByBudget threeDrivers nanCosts (F64.ofRat 5 1)).map (fun d => d.ID) = ["a", "c"] ∧
    staticCost nanCosts (idleDriver "a") = F64.ofRat 1 1 ∧
    staticCost nanCosts (idleDriver "c") = F64.zero ∧
    F64.lt (staticCost nanCosts (idleDriver "c")) (staticCost nanCosts (idleDriver "a")) = true ∧
    F64.le (staticCost nanCosts (idleDriver "a")) (staticCost nanCosts (idleDriver "c")) = false := by
  decide

/-- C11, amended: for every non-empty driver list whose static costs (a driver
without metadata costs 0) are not NaN, every cost table and every budget,
selectByBudget returns a non-empty list that is a prefix of the drivers
ordered by ascending static cost; its first element is a cheapest driver;
either the total cost of the returned drivers (their float64 sum, added in
order) is at most the budget or exactly one driver is returned; no entry of
the driver list is returned twice, so the returned IDs are pairwise different
when the IDs of the list are. -/
theorem selectByBudget_cheapest_first (drivers : List Driver) (drvMeta : GoMap DriverMeta)
    (b : F64) (hne : drivers ≠ [])
    (hnan : ∀ d ∈ drivers, (staticCost drvMeta d).isNaN = false) :
    (∃ sorted : List Driver, sorted.Perm drivers ∧
      sorted.Pairwise
        (fun x y => F64.le (staticCost drvMeta x) (staticCost drvMeta y) = true) ∧
      selectByBudget drivers drvMeta b <+: sorted) ∧
    selectByBudget drivers drvMeta b ≠ [] ∧
    (∀ f ∈ (selectByBudget drivers drvMeta b).head?, ∀ d ∈ drivers,
      F64.le (staticCost drvMeta f) (staticCost drvMeta d) = true) ∧
    (F64.le (totalCost drvMeta (selectByBudget drivers drvMeta b)) b = true ∨
      (selectByBudget drivers drvMeta b).length = 1) ∧
    (selectByBudget drivers drvMeta b).Subperm drivers ∧
    ((drivers.map (fun d => d.ID)).Nodup →
      ((selectByBudget drivers drvMeta b).map (fun d => d.ID)).Nodup) := by
  obtain ⟨pre, suf, hl, hsel, hpre, hb, hsorted, hpd, hitem⟩ :=
    selectByBudget_split drivers drvMeta b hnan
  have hpne : pre ≠ [] := hpre hne
  have hpfx : pre.map (fun it => it.d) <+:
      (sortItems (budgetItems drivers drvMeta)).map (fun it => it.d) :=
    ⟨suf.map (fun it => it.d), by rw [hl, List.map_append]⟩
  have hsp : (pre.map (fun it => it.d)).Subperm drivers :=
    hpfx.sublist.subperm.trans hpd.subperm
  rw [hsel]
  refine ⟨⟨_, hpd, ?_, hpfx⟩, ?_, ?_, ?_, hsp, ?_⟩
  · rw [List.pairwise_map]
    refine hsorted.imp_of_mem ?_
    intro x y hx hy hxy
    rw [← (hitem x hx).1, ← (hitem y hy).1]
    exact hxy
  · intro hc
    exact hpne (List.map_eq_nil_iff.1 hc)
  · intro f hf2 d hd
    cases pre with
    | nil => exact absurd rfl hpne
    | cons it rest =>
      simp only [List.map_cons, List.head?_cons, Option.mem_def, Option.some.injEq] at hf2
      subst hf2
      have hitS : it ∈ sortItems (budgetItems drivers drvMeta) := by
        rw [hl]
        exact List.mem_append_left _ (List.mem_cons_self _ _)
      obtain ⟨x, hxS, hxd⟩ := List.mem_map.1 (hpd.mem_iff.2 hd)
      rw [← hxd, ← (hitem it hitS).1, ← (hitem x hxS).1]
      rw [hl, List.cons_append, List.pairwise_cons] at hsorted
      have hx2 := hxS
      rw [hl, List.cons_append] at hx2
      rcases List.mem_cons.1 hx2 with rfl | hx2
      · exact le_refl_true (hitem _ hitS).2
      · exact hsorted.1 x hx2
  · have htot : totalCost drvMeta (pre.map (fun it => it.d)) =
        pre.foldl (fun s it => F64.add s it.cost) F64.zero := by
      unfold totalCost
      exact foldl_cost drvMeta pre _
        (fun it hit => (hitem it (by rw [hl]; exact List.mem_append_left _ hit)).1)
    rw [htot, List.length_map]
    rcases hb with hb | hb | hb
    · exact absurd hb hpne
    · exact Or.inl hb
    · exact Or.inr hb
  · intro hnd
    have h1 : (((sortItems (budgetItems drivers drvMeta)).map (fun it => it.d)).map
        (fun d => d.ID)).Nodup := ((hpd.map (fun d => d.ID)).nodup_iff).2 hnd
    exact List.Nodup.sublist (hpfx.sublist.map (fun d => d.ID)) h1

/-- Witness of `selectByBudget_cheapest_first`: with the costs a = 0.02, b = 0.01,
no metadata for c and the budget 0.015, the drivers c and b are returned. -/
theorem selectByBudget_cheapest_first_witness :
    (selectByBudget threeDrivers mixedCosts (F64.ofRat 15 1000)).map (fun d => d.ID) =
      ["c", "b"] ∧
    (F64.le (totalCost mixedCosts (selectByBudget threeDrivers mixedCosts (F64.ofRat 15 1000)))
        (F64.ofRat 15 1000) = true ∨
      (selectByBudget threeDrivers mixedCosts (F64.ofRat 15 1000)).length = 1) :=
  ⟨by decide,
   (selectByBudget_cheapest_first threeDrivers mixedCosts (F64.ofRat 15 1000)
     (List.cons_ne_nil _ _) (by decide)).2.2.2.1⟩

/-- C14 fails as stated: with the costs a = 0.02, b = 0.01 and none for c, a budget
of 10 and max_models 1, the candidates chosen by the budget are c, b, a, in
this order, and the driver kept is c, the cheapest, while the first candidate
in registry order is a. -/
theorem selectDrivers_keeps_cheapest :
    (candidates cheapestOne threeDrivers mixedCosts).map (fun d => d.ID) = ["c", "b", "a"] ∧
    maxModelsOf cheapestOne threeDrivers = 1 ∧
    (selectDrivers cheapestOne threeDrivers mixedCosts).map (fun d => d.ID) = ["c"] ∧
    ((inRegistryOrder threeDrivers (candidates cheapestOne threeDrivers mixedCosts)).take 1).map
      (fun d => d.ID) = ["a"] := by
  decide

/-- With the costs a = 1, b = NaN and c = 0, a budget of 5 and max_models 1, the
candidates chosen by the budget are a, c, in this order, and the driver kept
is a, while c is cheaper: a NaN cost leaves the candidates out of cost
order. -/
theorem selectDrivers_nan_cost_order :
    (candidates nanBudgetOne threeDrivers nanCosts).map (fun d => d.ID) = ["a", "c"] ∧
    maxModelsOf nanBudgetOne threeDrivers = 1 ∧
    (selectDrivers nanBudgetOne threeDrivers nanCosts).map (fun d => d.ID) = ["a"] ∧
    F64.lt (staticCost nanCosts (idleDriver "c")) (staticCost nanCosts (idleDriver "a")) =
      true := by
  decide

/-- C14, amended: whenever max_models = N truncates the candidate set in
selectDrivers, the N drivers kept are the first N of the candidates in the
order in which they were chosen: registry order when they were chosen by the
allowlist or as the whole registry, the order in which selectByBudget returned
them when they were chosen by budget_usd, which is ascending order of static
cost (the N cheapest drivers) provided no static cost is NaN. -/
theorem selectDrivers_truncates (spec : TaskSpec) (drivers : List Driver)
    (drvMeta : GoMap DriverMeta) (N : Int) (hN : maxModelsOf spec drivers = N) (hpos : N > 0)
    (hlen : ((candidates spec drivers drvMeta).length : Int) > N) :
    selectDrivers spec drivers drvMeta = (candidates spec drivers drvMeta).take N.toNat ∧
    ((selectDrivers spec drivers drvMeta).length : Int) = N ∧
    (constraintString spec.Constraints "models" ≠ "" →
      selectDrivers spec drivers drvMeta =
        (drivers.filter (fun d => decide (d.ID ∈ allowlist spec))).take N.toNat) ∧
    (constraintString spec.Constraints "models" = "" →
      F64.gt (budgetOf spec) F64.zero = false →
      selectDrivers spec drivers drvMeta = drivers.take N.toNat) ∧
    (constraintString spec.Constraints "models" = "" →
      F64.gt (budgetOf spec) F64.zero = true →
      selectDrivers spec drivers drvMeta =
        (selectByBudget drivers drvMeta (budgetOf spec)).take N.toNat ∧
      ((∀ d ∈ drivers, (staticCost drvMeta d).isNaN = false) →
        ∃ sorted : List Driver, sorted.Perm drivers ∧
          sorted.Pairwise
            (fun x y => F64.le (staticCost drvMeta x) (staticCost drvMeta y) = true) ∧
          selectDrivers spec drivers drvMeta = sorted.take N.toNat)) := by
  have hsel : selectDrivers spec drivers drvMeta =
      (candidates spec drivers drvMeta).take N.toNat := by
    rw [selectDrivers_eq, hN, if_pos ⟨hpos, hlen⟩]
  have hNat : ((N.toNat : Nat) : Int) = N := Int.toNat_of_nonneg (le_of_lt hpos)
  refine ⟨hsel, ?_, ?_, ?_, ?_⟩
  · rw [hsel, List.length_take]
    have : N.toNat ≤ (candidates spec drivers drvMeta).length := by omega
    rw [Nat.min_eq_left this]
    exact hNat
  · intro hp
    rw [hsel]
    simp [candidates, hp]
  · intro hp hb
    rw [hsel]
    simp [candidates, hp, hb]
  · intro hp hb
    have hc : candidates spec drivers drvMeta =
        selectByBudget drivers drvMeta (budgetOf spec) := by
      simp [candidates, hp, hb]
    refine ⟨by rw [hsel, hc], ?_⟩
    intro hnan
    obtain ⟨pre, suf, hl, hsb, _, _, hsorted, hpd, hitem⟩ :=
      selectByBudget_split drivers drvMeta (budgetOf spec) hnan
    refine ⟨_, hpd, ?_, ?_⟩
    · rw [List.pairwise_map]
      refine hsorted.imp_of_mem ?_
      intro x y hx hy hxy
      rw [← (hitem x hx).1, ← (hitem y hy).1]
      exact hxy
    · rw [hsel, hc, hsb, hl, List.map_append]
      have hle : N.toNat ≤ (pre.map (fun it => it.d)).length := by
        rw [hc, hsb] at hlen
        omega
      rw [List.take_append_of_le_length hle]

/-- Witness of `selectDrivers_truncates`: with a budget of 10 and max_models 1
one driver is kept, the first of the candidates c, b, a. -/
theorem selectDrivers_truncates_witness :
    ((selectDrivers cheapestOne threeDrivers mixedCosts).length : Int) = 1 :=
  (selectDrivers_truncates cheapestOne threeDrivers mixedCosts 1 (by decide) (by decide)
    (by decide)).2.1

/-! ### The store -/

theorem agrees_set (s n : TaskStore) (id : String) (st : TaskStatus) (tr : TaskTrace)
    (hs : s.Agrees) (h : tr.State = st.State)
    (h1 : ∀ k, n.statuses k = if k = id then some st else s.statuses k)
    (h2 : ∀ k, n.traces k = if k = id then some tr else s.traces k) : n.Agrees := by
  intro k
  rw [h1, h2]
  by_cases hk : k = id
  · simp only [hk, if_true, Option.isSome_some, true_and]
    intro a b ha hb
    cases ha
    cases hb
    exact h
  · simp only [hk, if_false]
    exact hs k

theorem failTask_agrees (W : World) (s : TaskStore) (id : String) (e : Option TaskTrace)
    (trace : TaskTrace) (errText : String) (m : Metrics) (hs : s.Agrees) :
    (failTask W (s.withTraceRead id e) id trace errText m).1.Agrees := by
  refine agrees_set s _ id _
    { trace with State := "failed", FinishedAt := W.finishedAt, Error := errText }
    hs ?_ (fun k => rfl) ?_
  · rfl
  · intro k
    simp only [failTask, TaskStore.withTraceRead, GoMap.set]
    split <;> simp_all

theorem completeTask_agrees (W : World) (s : TaskStore) (id : String) (e : Option TaskTrace)
    (trace : TaskTrace) (src : String) (merge : MergeResult) (m : Metrics) (hs : s.Agrees) :
    (completeTask W (s.withTraceRead id e) id trace src merge m).1.Agrees := by
  refine agrees_set s _ id _
    { trace with State := "completed", FinishedAt := W.finishedAt, MergeSource := src,
                 Merge := some merge }
    hs ?_ (fun k => rfl) ?_
  · rfl
  · intro k
    simp only [completeTask, TaskStore.withTraceRead, GoMap.set]
    split <;> simp_all

theorem processTask_agrees (W : World) (s : TaskStore) (e : Option TaskTrace)
    (drivers : List Driver) (drvMeta : GoMap DriverMeta) (id : String) (spec : TaskSpec)
    (ragURL : String) (m : Metrics) (r : TaskStore × Metrics) (hs : s.Agrees)
    (h : processTask W (s.withTraceRead id e) drivers drvMeta id spec ragURL m = some r) :
    r.1.Agrees := by
  rw [processTask_eq] at h
  split at h
  · cases h
    exact failTask_agrees W s id e _ _ _ hs
  · split at h
    · cases h
    · cases h
      exact failTask_agrees W s id e _ _ _ hs
    · cases h
      exact completeTask_agrees W s id e _ _ _ _ hs

/-- C20: in every state of the TaskStore reachable from the empty store by task
submission, replay, worker start, processTask and cancel, a task id has a
TaskStatus exactly when it has a TaskTrace, and the state recorded in the trace
of a task equals the state recorded in its status. -/
theorem store_status_trace_agree (s : TaskStore) (h : Reachable s) (id : String) :
    ((s.statuses id).isSome ↔ (s.traces id).isSome) ∧
    ∀ st tr, s.statuses id = some st → s.traces id = some tr → tr.State = st.State := by
  have key : s.Agrees := by
    induction h with
    | init =>
      intro id
      exact ⟨Iff.rfl, fun st tr h => by cases h⟩
    | submit W s m spec now _ ih =>
      exact agrees_set s _ _ _ _ ih rfl (fun k => rfl) (fun k => rfl)
    | replay W s m parentID mode now r _ hr ih =>
      unfold enqueueReplayTask at hr
      simp only at hr
      split at hr
      · cases hr
      · split at hr
        · cases hr
        · cases hr
          exact agrees_set s _ _ _ _ ih rfl (fun k => rfl) (fun k => rfl)
    | start s task now _ ih =>
      refine agrees_set s _ task.id _ _ ih ?_ (fun k => rfl) (fun k => rfl)
      simp only
      split <;> rfl
    | process W s e drivers drvMeta id spec ragURL m r _ hr ih =>
      exact processTask_agrees W s e drivers drvMeta id spec ragURL m r ih hr
    | cancel s m id now _ ih =>
      unfold cancelTask
      split
      · exact agrees_set s _ id _ _ ih rfl (fun k => rfl) (fun k => rfl)
      · exact ih
  exact key id

/-- Witness of `store_status_trace_agree`: after the task "t1" is submitted,
started and canceled, its status and its trace both record "canceled". -/
theorem store_status_trace_agree_witness :
    (canceledStore.statuses "t1").map (fun st => st.State) = some "canceled" ∧
    (((canceledStore.statuses "t1").isSome ↔ (canceledStore.traces "t1").isSome) ∧
      ∀ st tr, canceledStore.statuses "t1" = some st → canceledStore.traces "t1" = some tr →
        tr.State = st.State) :=
  ⟨by decide,
   store_status_trace_agree canceledStore
     (Reachable.cancel _ _ _ _ (Reachable.start _ _ _ (Reachable.submit _ _ _ _ _ Reachable.init)))
     "t1"⟩

/-! ### Replay -/

/-- When every constraint whose key equals `key` under case folding has exactly
the key `key`, the constraint written by `upsertConstraint` is the one that
`constraintString` reads. -/
theorem upsertConstraint_read (key v : String) :
    ∀ cs : List Constraint, (∀ c ∈ cs, EqualFold c.Key key = true → c.Key = key) →
      EqualFold key key = true →
      constraintString (upsertConstraint cs key (.str v)) key = v := by
  intro cs
  induction cs with
  | nil =>
    intro _ _
    simp [upsertConstraint, constraintString]
  | cons c cs ih =>
    intro h hk
    unfold upsertConstraint
    by_cases hf : EqualFold c.Key key = true
    · have hc : c.Key = key := h c (List.mem_cons_self _ _) hf
      rw [if_pos hf]
      simp [constraintString, hc]
    · have hc : c.Key ≠ key := by
        intro hc
        rw [hc] at hf
        exact hf hk
      rw [if_neg hf]
      simp only [constraintString, beq_iff_eq, hc, if_false]
      exact ih (fun x hx => h x (List.mem_cons_of_mem _ hx)) hk

/-- A replay in a mode other than force-agent, force-agent-soft and force-policy
leaves the constraints equal to those of the parent. -/
theorem enqueueReplayTask_default (W : World) (store : TaskStore) (m : Option Metrics)
    (parentID mode now : String) (r : TaskSpec × TaskStatus × TaskStore × Option Metrics)
    (h : enqueueReplayTask W store m parentID mode now = .ok r)
    (h1 : ToLower (TrimSpace mode) ≠ "force-agent")
    (h2 : ToLower (TrimSpace mode) ≠ "force-agent-soft")
    (h3 : ToLower (TrimSpace mode) ≠ "force-policy") :
    ∃ parentSpec, store.specs (TrimSpace parentID) = some parentSpec ∧
      r.1.Constraints = parentSpec.Constraints := by
  unfold enqueueReplayTask at h
  simp only at h
  split at h
  · cases h
  · split at h
    · cases h
    · rename_i parentSpec hp
      cases h
      refine ⟨parentSpec, hp, ?_⟩
      simp [h1, h2, h3]

/-- C24, at the failing input: the parent spec carries the constraint
"Force_Merge_Source" = "policy_merge" and is replayed in the mode force-agent.
`upsertConstraint` finds the key under case folding and overwrites that
constraint, so the child carries "Force_Merge_Source" = "agent_compiler" and no
constraint with the key "force_merge_source": `processTask`, which reads the
key exactly, reads the empty string and forces nothing. -/
theorem replay_capital_key_not_forced :
    ∃ r, enqueueReplayTask World.quiet capitalKeyStore none "t1" "force-agent" "t1" = .ok r ∧
      r.1.Constraints = [⟨"Force_Merge_Source", .str "agent_compiler"⟩] ∧
      constraintString r.1.Constraints "force_merge_source" = "" ∧
      constraintString
        (upsertConstraint capitalKeySpec.Constraints "force_merge_source" (.str "agent_compiler"))
        "force_merge_source" ≠ "agent_compiler" := by
  refine ⟨_, rfl, ?_, ?_, ?_⟩ <;> decide

/-! ### The quality score of a merge -/

/-- On a non-empty list `mergeLowest` succeeds, and the quality score it reports
is 0 when the metric compared is not the quality score. -/
theorem mergeLowest_quality (results : List ModelResult) (m : String) (hne : results ≠ [])
    (hm : m ≠ "quality_score") :
    ∃ mr, mergeLowest results m = .ok mr ∧ mr.QualityScore = F64.zero := by
  have hne2 : mapped results m ≠ [] := by simpa [mapped] using hne
  have hmem := (Internal.MergeResults_least_diff false m (mapped results m) hne2).1
  have hok : (Internal.MergeResults (mapped results m) m false).2 = true := by
    cases h : mapped results m with
    | nil => exact absurd h hne2
    | cons a l => rfl
  obtain ⟨r, _, hr⟩ := List.mem_map.1 hmem
  have hml : mergeLowest results m = .ok
      { SchemaVersion := schemaVersion,
        Diff := (Internal.MergeResults (mapped results m) m false).1.Diff,
        Rationale := "selected lowest " ++ m ++ " with deterministic tie-breaker",
        Confidence := F64.ofRat 6 10,
        QualityScore := metricValueInternal
          (Internal.MergeResults (mapped results m) m false).1 "quality_score" } := by
    simp only [mergeLowest, hok, Bool.not_true, Bool.false_eq_true, if_false]
  refine ⟨_, hml, ?_⟩
  simp only
  rw [← hr]
  simp [metricValueInternal, hm]

/-- C30 fails as stated: under the policy quality, on a list whose first result
has a NaN quality score and whose second has 0.9, the QualityScore returned is
NaN, which is not the maximum of the list. -/
theorem mergeResults_nan_quality :
    ∃ mr, mergeResults World.quiet nanQuality "quality" (F64.ofRat 3 10) (F64.ofRat 7 10)
        F64.zero = some (.ok mr) ∧
      mr.QualityScore = F64.nan ∧
      (nanQuality.map (fun r => metricValue r "quality_score")) = [F64.nan, F64.ofRat 9 10] ∧
      F64.le (F64.ofRat 9 10) mr.QualityScore = false := by
  refine ⟨_, rfl, ?_, ?_, ?_⟩ <;> decide

/-- C30, amended: for every non-empty result list, the MergeResult returned by
mergeResults under the cost policy and under every policy without a branch of
its own (the default and latency among them) has QualityScore 0, whatever
quality_score metrics the candidates carry; under the quality policy, when no
quality_score of the list is NaN, QualityScore is the quality_score of a result
of the list and no result has a higher one. -/
theorem mergeResults_quality_score (W : World) (results : List ModelResult) (policy : String)
    (weightCost weightLatency weightQuality : F64) (hne : results ≠ []) :
    (EqualFold policy "cost" = true →
      ∃ mr, mergeResults W results policy weightCost weightLatency weightQuality =
        some (.ok mr) ∧ mr.QualityScore = F64.zero) ∧
    (EqualFold policy "cost" = false → EqualFold policy "quality" = false →
      EqualFold policy "quantum" = false → EqualFold policy "weighted" = false →
      EqualFold policy "weighted_quality" = false →
      ∃ mr, mergeResults W results policy weightCost weightLatency weightQuality =
        some (.ok mr) ∧ mr.QualityScore = F64.zero) ∧
    (∀ p ∈ ["", "latency"], EqualFold p "cost" = false ∧ EqualFold p "quality" = false ∧
      EqualFold p "quantum" = false ∧ EqualFold p "weighted" = false ∧
      EqualFold p "weighted_quality" = false) ∧
    (EqualFold policy "cost" = false → EqualFold policy "quality" = true →
      (∀ r ∈ results, (metricValue r "quality_score").isNaN = false) →
      ∃ mr, mergeResults W results policy weightCost weightLatency weightQuality =
          some (.ok mr) ∧
        (∃ r ∈ results, mr.QualityScore = metricValue r "quality_score") ∧
        ∀ x ∈ results, F64.le (metricValue x "quality_score") mr.QualityScore = true) := by
  refine ⟨?_, ?_, by decide, ?_⟩
  · intro hc
    obtain ⟨mr, h1, h2⟩ := mergeLowest_quality results "cost_usd" hne (by decide)
    exact ⟨mr, by simp only [mergeResults, hc, if_true, h1], h2⟩
  · intro hc hq hqu hw hwq
    obtain ⟨mr, h1, h2⟩ := mergeLowest_quality results "latency_ms" hne (by decide)
    refine ⟨mr, ?_, h2⟩
    simp only [mergeResults, hc, hq, hqu, hw, hwq, Bool.false_eq_true, if_false, h1]
  · intro hc hq hnan
    obtain ⟨hok, r, hr, hbest, hext, _⟩ := mergeInternal_spec true "quality_score" results hne hnan
    have hmq : mergeResults W results policy weightCost weightLatency weightQuality =
        some (.ok
          { SchemaVersion := schemaVersion,
            Diff := (Internal.MergeResults (mapped results "quality_score") "quality_score"
              true).1.Diff,
            Rationale := "selected highest " ++ "quality_score" ++
              " with deterministic tie-breaker",
            Confidence := F64.ofRat 6 10,
            QualityScore := metricValueInternal
              (Internal.MergeResults (mapped results "quality_score") "quality_score" true).1
              "quality_score" }) := by
      simp only [mergeResults, hc, hq, if_true, Bool.false_eq_true, if_false, hok, Bool.not_true]
    refine ⟨_, hmq, ⟨r, hr, ?_⟩, ?_⟩
    · simp only
      rw [hbest]
      simp [metricValueInternal]
    · intro x hx
      simp only
      rw [hbest]
      have := hext x hx
      simpa [metricValueInternal, dirLe] using this

/-- Witness of `mergeResults_quality_score`: on the results of the two stub
drivers the policy latency reports the quality score 0. -/
theorem mergeResults_quality_score_witness :
    ∃ mr, mergeResults World.quiet twoResults "latency" (F64.ofRat 3 10) (F64.ofRat 7 10)
        F64.zero = some (.ok mr) ∧ mr.QualityScore = F64.zero :=
  (mergeResults_quality_score World.quiet twoResults "latency" (F64.ofRat 3 10) (F64.ofRat 7 10)
    F64.zero (by decide)).2.1 (by decide) (by decide) (by decide) (by decide) (by decide)

/-! ### Terminal states -/

theorem stateOf_set (s n : TaskStore) (id k : String) (st : TaskStatus)
    (h : ∀ j, n.statuses j = if j = id then some st else s.statuses j) :
    stateOf n k = if k = id then some st.State else stateOf s k := by
  unfold stateOf
  rw [h]
  split <;> rfl

theorem stateOf_failTask (W : World) (s : TaskStore) (id k : String) (e : Option TaskTrace)
    (trace : TaskTrace) (errText : String) (m : Metrics) :
    stateOf (failTask W (s.withTraceRead id e) id trace errText m).1 k =
      if k = id then some "failed" else stateOf s k :=
  stateOf_set s _ id k
    { (s.statuses id).getD {} with
      State := "failed", Progress := F64.one, UpdatedAt := W.updatedAt }
    (fun _ => rfl)

theorem stateOf_completeTask (W : World) (s : TaskStore) (id k : String)
    (e : Option TaskTrace) (trace : TaskTrace) (src : String) (merge : MergeResult)
    (m : Metrics) :
    stateOf (completeTask W (s.withTraceRead id e) id trace src merge m).1 k =
      if k = id then some "completed" else stateOf s k :=
  stateOf_set s _ id k
    { (s.statuses id).getD {} with
      State := "completed", Progress := F64.one, UpdatedAt := W.updatedAt }
    (fun _ => rfl)

theorem withTraceRead_self (s : TaskStore) (id : String) :
    s.withTraceRead id (s.traces id) = s := by
  cases s
  simp only [TaskStore.withTraceRead, TaskStore.mk.injEq, true_and, and_true]
  funext j
  split
  · rename_i h
    rw [h]
  · rfl

/-- C21 fails as stated: the task "t1" is canceled while it is queued; the worker
that dequeues it sets its state to running and `processTask` sets it to
completed; a cancel request then sets the completed task to canceled, and a
submission with the same id sets it to queued. -/
theorem terminal_state_overwritten :
    stateOf canceledStore "t1" = some "canceled" ∧
    stateOf (workerStart canceledStore (taskOf "t1" "high") "t3") "t1" = some "running" ∧
    stateOf completedStore "t1" = some "completed" ∧
    stateOf (cancelTask completedStore Metrics.fresh "t1" "t4").2.1 "t1" = some "canceled" ∧
    stateOf (submitTask World.quiet completedStore Metrics.fresh (specWith []) "t5").2.2.1 "t1" =
      some "queued" := by
  refine ⟨?_, ?_, ?_, ?_, ?_⟩ <;> decide

/-- C21, amended: an operation of the orchestrator changes the state of no task
but the one it is addressed to, so a state completed, failed or canceled stays
under the operations on other tasks; the state of the task it is addressed to is
overwritten, whatever it was: a submission writes queued, a replay writes queued
for the new task, a worker start writes running, the end of `processTask` writes
completed or failed, and a cancel request writes canceled when the task has a
status. -/
theorem state_after_operation (s : TaskStore) (k : String) :
    (∀ W m spec now,
      stateOf (submitTask W s m spec now).2.2.1 k =
        if k = (submitTask W s m spec now).1.ID then some "queued" else stateOf s k) ∧
    (∀ W m parentID mode now r, enqueueReplayTask W s m parentID mode now = .ok r →
      stateOf r.2.2.1 k = if k = r.1.ID then some "queued" else stateOf s k) ∧
    (∀ task now,
      stateOf (workerStart s task now) k =
        if k = task.id then some "running" else stateOf s k) ∧
    (∀ W e drivers drvMeta id spec ragURL m r,
      processTask W (s.withTraceRead id e) drivers drvMeta id spec ragURL m = some r →
      stateOf r.1 k =
        if k = id then stateOf r.1 id else stateOf s k) ∧
    (∀ W e drivers drvMeta id spec ragURL m r,
      processTask W (s.withTraceRead id e) drivers drvMeta id spec ragURL m = some r →
      stateOf r.1 id = some "completed" ∨ stateOf r.1 id = some "failed") ∧
    (∀ m id now,
      stateOf (cancelTask s m id now).2.1 k =
        if k = id ∧ (s.statuses id).isSome then some "canceled" else stateOf s k) := by
  have hproc : ∀ W e drivers drvMeta id spec ragURL m r j,
      processTask W (s.withTraceRead id e) drivers drvMeta id spec ragURL m = some r →
      (stateOf r.1 j = if j = id then some "completed" else stateOf s j) ∨
      (stateOf r.1 j = if j = id then some "failed" else stateOf s j) := by
    intro W e drivers drvMeta id spec ragURL m r j h
    rw [processTask_eq] at h
    split at h
    · cases h
      exact Or.inr (stateOf_failTask W s id j e _ _ _)
    · split at h
      · cases h
      · cases h
        exact Or.inr (stateOf_failTask W s id j e _ _ _)
      · cases h
        exact Or.inl (stateOf_completeTask W s id j e _ _ _ _)
  refine ⟨?_, ?_, ?_, ?_, ?_, ?_⟩
  · intro W m spec now
    exact stateOf_set s _ (submitTask W s m spec now).1.ID k
      (submitTask W s m spec now).2.1 (fun _ => rfl)
  · intro W m parentID mode now r hr
    unfold enqueueReplayTask at hr
    simp only at hr
    split at hr
    · cases hr
    · split at hr
      · cases hr
      · have key : ∀ j, r.2.2.1.statuses j =
            if j = r.1.ID then some r.2.1 else s.statuses j := by
          cases hr
          intro j
          rfl
        have hst : r.2.1.State = "queued" := by
          cases hr
          rfl
        rw [stateOf_set s _ r.1.ID k r.2.1 key, hst]
  · intro task now
    exact stateOf_set s _ task.id k
      { (s.statuses task.id).getD {} with
        State := "running", Progress := F64.ofRat 1 10, StartedAt := now, UpdatedAt := now }
      (fun _ => rfl)
  · intro W e drivers drvMeta id spec ragURL m r h
    by_cases hk : k = id
    · rw [if_pos hk, hk]
    · rw [if_neg hk]
      rcases hproc W e drivers drvMeta id spec ragURL m r k h with h1 | h1 <;>
        rw [h1, if_neg hk]
  · intro W e drivers drvMeta id spec ragURL m r h
    rcases hproc W e drivers drvMeta id spec ragURL m r id h with h1 | h1
    · exact Or.inl (by rw [h1, if_pos rfl])
    · exact Or.inr (by rw [h1, if_pos rfl])
  · intro m id now
    unfold cancelTask
    cases hst : s.statuses id with
    | none =>
      simp only [Option.isSome_none, Bool.false_eq_true, and_false, if_false]
    | some st =>
      simp only [Option.isSome_some, and_true]
      exact stateOf_set s _ id k { st with State := "canceled", UpdatedAt := now }
        (fun _ => rfl)

/-- Witness of `state_after_operation`: `processTask` on the canceled task "t1"
leaves it completed or failed. -/
theorem state_after_operation_witness :
    stateOf completedStore "t1" = some "completed" ∨
      stateOf completedStore "t1" = some "failed" :=
  (state_after_operation canceledStore "t1").2.2.2.2.1 World.quiet (canceledStore.traces "t1")
    [flakyDriver 0] (fun _ => none) "t1" (specWith []) "" Metrics.fresh
    ((processTask World.quiet canceledStore [flakyDriver 0] (fun _ => none) "t1" (specWith []) ""
      Metrics.fresh).get (by decide))
    (by
      rw [withTraceRead_self]
      simp)

/-! ### The availability prober -/

theorem IsAvailable_ok_cached (p : PingService) (id : String) (now : Int) (ping : Bool)
    (st : pingState) (hst : p.m id = some st) (h : st.okUntil > now) :
    p.IsAvailable id now ping = (true, { p with skipCount := p.skipCount + 1 }, 0) := by
  simp [PingService.IsAvailable, hst, h]

theorem IsAvailable_fail_cached (p : PingService) (id : String) (now : Int) (ping : Bool)
    (st : pingState) (hst : p.m id = some st) (h1 : ¬ st.okUntil > now)
    (h2 : st.failUntil > now) :
    p.IsAvailable id now ping = (false, { p with skipCount := p.skipCount + 1 }, 0) := by
  simp [PingService.IsAvailable, hst, h1, h2]

/-- A call of `IsAvailable` for a model keeps the state of every other model and
the configuration. -/
theorem IsAvailable_other (p : PingService) (id : String) (now : Int) (ping : Bool)
    (k : String) (hk : k ≠ id) :
    (p.IsAvailable id now ping).2.1.m k = p.m k ∧
    (p.IsAvailable id now ping).2.1.ttl = p.ttl ∧
    (p.IsAvailable id now ping).2.1.backoff = p.backoff ∧
    (p.IsAvailable id now ping).2.1.backoffMax = p.backoffMax := by
  unfold PingService.IsAvailable
  simp only
  split <;> split <;> (try split) <;> (try split) <;> simp [GoMap.set, hk]

theorem wrapInt64_of_range (x : Int) (h1 : -(2 ^ 63) ≤ x) (h2 : x < 2 ^ 63) :
    wrapInt64 x = x := by
  unfold wrapInt64
  omega

/-- The state of the model after a call of `IsAvailable` that made a live probe. -/
theorem IsAvailable_probed (p : PingService) (id : String) (now : Int) (ping : Bool)
    (h : (p.IsAvailable id now ping).2.2 = 1) :
    ¬ (p.stateOf id).okUntil > now ∧ ¬ (p.stateOf id).failUntil > now ∧
    (p.IsAvailable id now ping).1 = ping ∧
    (ping = true →
      (p.IsAvailable id now ping).2.1.m id =
        some { okUntil := now + p.ttl, failUntil := 0, backoff := 0 }) ∧
    (ping = false →
      (p.IsAvailable id now ping).2.1.m id =
        some
          { okUntil := (p.stateOf id).okUntil,
            failUntil := now +
              (if (p.stateOf id).backoff = 0 then p.backoff
               else if wrapInt64 ((p.stateOf id).backoff * 2) > p.backoffMax then p.backoffMax
               else wrapInt64 ((p.stateOf id).backoff * 2)),
            backoff :=
              (if (p.stateOf id).backoff = 0 then p.backoff
               else if wrapInt64 ((p.stateOf id).backoff * 2) > p.backoffMax then p.backoffMax
               else wrapInt64 ((p.stateOf id).backoff * 2)) }) := by
  unfold PingService.IsAvailable at h ⊢
  unfold PingService.stateOf
  simp only at h ⊢
  by_cases h1 : ((p.m id).getD {}).okUntil > now
  · simp [h1] at h
  · by_cases h2 : ((p.m id).getD {}).failUntil > now
    · simp [h1, h2] at h
    · refine ⟨h1, h2, ?_, ?_, ?_⟩
      · cases ping <;> simp [h1, h2]
      · intro hp
        subst hp
        simp only [h1, h2, if_false, if_true]
        split <;> simp [GoMap.set]
      · intro hp
        subst hp
        simp only [h1, h2, if_false, Bool.false_eq_true]
        split <;> simp [GoMap.set]

/-- Calls of `IsAvailable` keep a state of the model whose ok-until lies after
them: each such call returns true without a live probe. -/
theorem runPings_ok_cached (id : String) (st : pingState) :
    ∀ (cs : List PingCall) (q : PingService), q.m id = some st →
      (∀ c ∈ cs, c.modelID = id → c.now < st.okUntil) →
      ∀ o ∈ (runPings q cs).1, o.modelID = id → o.available = true ∧ o.probes = 0 := by
  intro cs
  induction cs with
  | nil =>
    intro q _ _ o ho
    simp [runPings] at ho
  | cons c cs ih =>
    intro q hq hw o ho ho2
    simp only [runPings, List.mem_cons] at ho
    by_cases hc : c.modelID = id
    · have hlt := hw c (List.mem_cons_self _ _) hc
      have hstep := IsAvailable_ok_cached q id c.now c.ping st hq hlt
      rw [hc, hstep] at ho
      rcases ho with rfl | ho
      · exact ⟨rfl, rfl⟩
      · exact ih { q with skipCount := q.skipCount + 1 } hq
          (fun x hx => hw x (List.mem_cons_of_mem _ hx)) o ho ho2
    · rcases ho with rfl | ho
      · exact absurd ho2 hc
      · have hk := (IsAvailable_other q c.modelID c.now c.ping id (Ne.symm hc)).1
        exact ih _ (hk.trans hq) (fun x hx => hw x (List.mem_cons_of_mem _ hx)) o ho ho2

/-- Calls of `IsAvailable` keep a state of the model whose ok-until lies before
them and whose fail-until lies after them: each such call returns false without
a live probe. -/
theorem runPings_fail_cached (id : String) (st : pingState) :
    ∀ (cs : List PingCall) (q : PingService), q.m id = some st →
      (∀ c ∈ cs, c.modelID = id → st.okUntil ≤ c.now ∧ c.now < st.failUntil) →
      ∀ o ∈ (runPings q cs).1, o.modelID = id → o.available = false ∧ o.probes = 0 := by
  intro cs
  induction cs with
  | nil =>
    intro q _ _ o ho
    simp [runPings] at ho
  | cons c cs ih =>
    intro q hq hw o ho ho2
    simp only [runPings, List.mem_cons] at ho
    by_cases hc : c.modelID = id
    · have hlt := hw c (List.mem_cons_self _ _) hc
      have hstep := IsAvailable_fail_cached q id c.now c.ping st hq (by omega) hlt.2
      rw [hc, hstep] at ho
      rcases ho with rfl | ho
      · exact ⟨rfl, rfl⟩
      · exact ih { q with skipCount := q.skipCount + 1 } hq
          (fun x hx => hw x (List.mem_cons_of_mem _ hx)) o ho ho2
    · rcases ho with rfl | ho
      · exact absurd ho2 hc
      · have hk := (IsAvailable_other q c.modelID c.now c.ping id (Ne.symm hc)).1
        exact ih _ (hk.trans hq) (fun x hx => hw x (List.mem_cons_of_mem _ hx)) o ho ho2

/-- C25: after a live probe of a model at time t succeeded, every call of
IsAvailable for that model at a time t' with t ≤ t' < t + ttl returns true
without a live probe and only increments the skip counter; after a failed probe
every call from t on and before fail-until returns false without a live probe.
A successful probe resets the backoff to zero, sets ok-until to t + ttl and
clears fail-until.  The calls are made one after the other, calls for other
models between them. -/
theorem IsAvailable_cache (p : PingService) (id : String) (t : Int) (ping : Bool)
    (hprobe : (p.IsAvailable id t ping).2.2 = 1) :
    (p.IsAvailable id t ping).1 = ping ∧
    (ping = true →
      (p.IsAvailable id t ping).2.1.m id =
        some { okUntil := t + p.ttl, failUntil := 0, backoff := 0 } ∧
      (∀ q : PingService, q.m id = (p.IsAvailable id t ping).2.1.m id →
        ∀ now answer, t ≤ now → now < t + p.ttl →
          q.IsAvailable id now answer = (true, { q with skipCount := q.skipCount + 1 }, 0)) ∧
      ∀ cs : List PingCall, (∀ c ∈ cs, c.modelID = id → t ≤ c.now ∧ c.now < t + p.ttl) →
        ∀ o ∈ (runPings (p.IsAvailable id t ping).2.1 cs).1, o.modelID = id →
          o.available = true ∧ o.probes = 0) ∧
    (ping = false →
      ∃ st, (p.IsAvailable id t ping).2.1.m id = some st ∧
        st.failUntil = t + st.backoff ∧
        (∀ q : PingService, q.m id = some st →
          ∀ now answer, t ≤ now → now < st.failUntil →
            q.IsAvailable id now answer =
              (false, { q with skipCount := q.skipCount + 1 }, 0)) ∧
        ∀ cs : List PingCall, (∀ c ∈ cs, c.modelID = id → t ≤ c.now ∧ c.now < st.failUntil) →
          ∀ o ∈ (runPings (p.IsAvailable id t ping).2.1 cs).1, o.modelID = id →
            o.available = false ∧ o.probes = 0) := by
  obtain ⟨hok, _, hres, hT, hF⟩ := IsAvailable_probed p id t ping hprobe
  refine ⟨hres, ?_, ?_⟩
  · intro hp
    have hst := hT hp
    refine ⟨hst, ?_, ?_⟩
    · intro q hq now answer _ hlt
      exact IsAvailable_ok_cached q id now answer _ (hq.trans hst) hlt
    · intro cs hw
      exact runPings_ok_cached id _ cs _ hst (fun c hc h => (hw c hc h).2)
  · intro hp
    have hst := hF hp
    refine ⟨_, hst, rfl, ?_, ?_⟩
    · intro q hq now answer hle hlt
      exact IsAvailable_fail_cached q id now answer _ hq (by simp only; omega) hlt
    · intro cs hw
      exact runPings_fail_cached id _ cs _ hst
        (fun c hc h => ⟨by simp only; have := (hw c hc h).1; omega, (hw c hc h).2⟩)

/-- Witness of `IsAvailable_cache`: with a ttl of 15 s, after a successful probe
at time 100 a call at time 200 returns true without a live probe. -/
theorem IsAvailable_cache_witness :
    ((NewPingService 15000000000 1000000000 10000000000).IsAvailable "m" 100 true).2.2 = 1 ∧
    ∀ o ∈ (runPings
        ((NewPingService 15000000000 1000000000 10000000000).IsAvailable "m" 100 true).2.1
        [{ modelID := "m", now := 200, ping := false }]).1,
      o.modelID = "m" → o.available = true ∧ o.probes = 0 :=
  ⟨by decide,
   ((IsAvailable_cache (NewPingService 15000000000 1000000000 10000000000) "m" 100 true
      (by decide)).2.1 rfl).2.2 [{ modelID := "m", now := 200, ping := false }]
      (by decide)⟩

theorem IsAvailable_config (p : PingService) (id : String) (now : Int) (ping : Bool) :
    (p.IsAvailable id now ping).2.1.ttl = p.ttl ∧
    (p.IsAvailable id now ping).2.1.backoff = p.backoff ∧
    (p.IsAvailable id now ping).2.1.backoffMax = p.backoffMax := by
  unfold PingService.IsAvailable
  simp only
  split <;> split <;> (try split) <;> (try split) <;> simp

/-- The backoff after one more failed probe: with `k` failed probes made, the
backoff is 0 before the first and min(base·2^(k−1), max) after the k-th. -/
theorem backoff_next (base max b : Int) (k : Nat) (h0 : 0 ≤ base) (h1 : base ≤ max)
    (h2 : max < 2 ^ 62)
    (hb : (k = 0 ∧ b = 0) ∨ (1 ≤ k ∧ b = min (base * 2 ^ (k - 1)) max)) :
    (if b = 0 then base
     else if wrapInt64 (b * 2) > max then max else wrapInt64 (b * 2)) =
      min (base * 2 ^ k) max := by
  rcases hb with ⟨hk, hb⟩ | ⟨hk, hb⟩
  · subst hk
    subst hb
    simp only [if_true, pow_zero, mul_one]
    omega
  · obtain ⟨j, rfl⟩ : ∃ j, k = j + 1 := ⟨k - 1, by omega⟩
    simp only [Nat.add_sub_cancel] at hb
    have hx : (0 : Int) ≤ base * 2 ^ j := mul_nonneg h0 (by positivity)
    have hpow : base * 2 ^ (j + 1) = 2 * (base * 2 ^ j) := by ring
    have hzero : base * 2 ^ j = 0 → base = 0 := by
      intro h
      rcases mul_eq_zero.1 h with h | h
      · exact h
      · exact absurd h (by positivity)
    rw [hpow]
    generalize base * 2 ^ j = x at hb hx hzero
    by_cases hz : b = 0
    · rw [if_pos hz]
      have hbase : base = 0 := by
        rcases le_total x max with h | h
        · rw [min_eq_left h] at hb
          exact hzero (by omega)
        · rw [min_eq_right h] at hb
          omega
      omega
    · rw [if_neg hz]
      have hbr : 0 < b ∧ b ≤ max := by
        rcases le_total x max with h | h
        · rw [min_eq_left h] at hb
          omega
        · rw [min_eq_right h] at hb
          omega
      rw [wrapInt64_of_range (b * 2) (by omega) (by omega)]
      rcases le_total x max with h | h
      · rw [min_eq_left h] at hb
        split <;> omega
      · rw [min_eq_right h] at hb
        split <;> omega

/-- Failed live probes of one model, one after the other: the backoff after the
last one and the fail-until it sets. -/
theorem failingCalls_backoff (base max : Int) (id : String) (h0 : 0 ≤ base) (h1 : base ≤ max)
    (h2 : max < 2 ^ 62) :
    ∀ (times : List Int) (q : PingService) (k : Nat), q.backoff = base → q.backoffMax = max →
      ((k = 0 ∧ (q.stateOf id).backoff = 0) ∨
        (1 ≤ k ∧ (q.stateOf id).backoff = min (base * 2 ^ (k - 1)) max)) →
      (∀ o ∈ (runPings q (failingCalls id times)).1, o.probes = 1) → times ≠ [] →
      ((runPings q (failingCalls id times)).2.stateOf id).backoff =
          min (base * 2 ^ (k + times.length - 1)) max ∧
        ∀ tl, times.getLast? = some tl →
          ((runPings q (failingCalls id times)).2.stateOf id).failUntil =
            tl + ((runPings q (failingCalls id times)).2.stateOf id).backoff := by
  intro times
  induction times with
  | nil => intro q k _ _ _ _ hne; exact absurd rfl hne
  | cons t rest ih =>
    intro q k hqb hqm hb hpr _
    have hrun : runPings q (failingCalls id (t :: rest)) =
        ({ modelID := id, available := (q.IsAvailable id t false).1,
           probes := (q.IsAvailable id t false).2.2 } ::
          (runPings (q.IsAvailable id t false).2.1 (failingCalls id rest)).1,
         (runPings (q.IsAvailable id t false).2.1 (failingCalls id rest)).2) := rfl
    have hp1 : (q.IsAvailable id t false).2.2 = 1 :=
      hpr { modelID := id, available := (q.IsAvailable id t false).1,
            probes := (q.IsAvailable id t false).2.2 }
        (by rw [hrun]; exact List.mem_cons_self _ _)
    obtain ⟨_, _, _, _, hF⟩ := IsAvailable_probed q id t false hp1
    have hst := hF rfl
    rw [hqb, hqm, backoff_next base max _ k h0 h1 h2 hb] at hst
    obtain ⟨_, hcb, hcm⟩ := IsAvailable_config q id t false
    by_cases hr : rest = []
    · subst hr
      have hfin : (runPings q (failingCalls id [t])).2 = (q.IsAvailable id t false).2.1 := rfl
      rw [hfin]
      unfold PingService.stateOf
      rw [hst]
      simp only [Option.getD_some, List.length_singleton, Nat.add_sub_cancel, List.getLast?_singleton,
        Option.some.injEq]
      refine ⟨trivial, ?_⟩
      intro tl htl
      rw [htl]
    · have hb1 : (k + 1 = 0 ∧ ((q.IsAvailable id t false).2.1.stateOf id).backoff = 0) ∨
          (1 ≤ k + 1 ∧ ((q.IsAvailable id t false).2.1.stateOf id).backoff =
            min (base * 2 ^ (k + 1 - 1)) max) := by
        right
        refine ⟨by omega, ?_⟩
        unfold PingService.stateOf
        rw [hst]
        simp
      have hpr1 : ∀ o ∈ (runPings (q.IsAvailable id t false).2.1 (failingCalls id rest)).1,
          o.probes = 1 := by
        intro o ho
        exact hpr o (by rw [hrun]; exact List.mem_cons_of_mem _ ho)
      obtain ⟨hA, hB⟩ := ih (q.IsAvailable id t false).2.1 (k + 1) (hcb.trans hqb)
        (hcm.trans hqm) hb1 hpr1 hr
      rw [hrun]
      simp only
      refine ⟨?_, ?_⟩
      · rw [hA]
        have : k + 1 + rest.length - 1 = k + (t :: rest).length - 1 := by
          simp only [List.length_cons]
          omega
        rw [this]
      · intro tl htl
        apply hB
        rw [← htl]
        cases rest with
        | nil => exact absurd rfl hr
        | cons a l => simp [List.getLast?_cons_cons]

/-- A call of `IsAvailable` makes a live probe, or it makes none and keeps the
state of the model. -/
theorem IsAvailable_hit_or_probe (q : PingService) (id : String) (now : Int) (ping : Bool) :
    (q.IsAvailable id now ping).2.2 = 1 ∨
      ((q.IsAvailable id now ping).2.2 = 0 ∧
        (q.IsAvailable id now ping).2.1.stateOf id = q.stateOf id) := by
  cases hq : q.m id with
  | none =>
    simp only [PingService.IsAvailable, PingService.stateOf, hq, Option.getD_none,
      Option.isSome_none, Bool.false_eq_true, if_false]
    split
    · right
      simp [GoMap.set]
    · left
      split <;> rfl
  | some st =>
    simp only [PingService.IsAvailable, PingService.stateOf, hq, Option.getD_some,
      Option.isSome_some, if_true]
    split
    · right
      simp [hq]
    · split
      · right
        simp [hq]
      · left
        split <;> rfl

/-- With 0 ≤ base ≤ max < 2^62 the backoff of every model stays between 0 and
max under calls of `IsAvailable`. -/
theorem IsAvailable_backoff_le (base max : Int) (h0 : 0 ≤ base) (h1 : base ≤ max)
    (h2 : max < 2 ^ 62) (q : PingService) (hqb : q.backoff = base) (hqm : q.backoffMax = max)
    (hinv : ∀ k, 0 ≤ (q.stateOf k).backoff ∧ (q.stateOf k).backoff ≤ max)
    (id : String) (now : Int) (ping : Bool) (k : String) :
    0 ≤ ((q.IsAvailable id now ping).2.1.stateOf k).backoff ∧
      ((q.IsAvailable id now ping).2.1.stateOf k).backoff ≤ max := by
  by_cases hk : k = id
  · subst hk
    have hold := hinv k
    by_cases hp : (q.IsAvailable k now ping).2.2 = 1
    · obtain ⟨_, _, _, hT, hF⟩ := IsAvailable_probed q k now ping hp
      cases ping with
      | true =>
        unfold PingService.stateOf
        rw [hT rfl]
        simp only [Option.getD_some]
        omega
      | false =>
        have hnew := hF rfl
        have hs : ((q.IsAvailable k now false).2.1.stateOf k).backoff =
            (if (q.stateOf k).backoff = 0 then q.backoff
             else if wrapInt64 ((q.stateOf k).backoff * 2) > q.backoffMax then q.backoffMax
             else wrapInt64 ((q.stateOf k).backoff * 2)) := by
          show (((q.IsAvailable k now false).2.1.m k).getD {}).backoff = _
          rw [hnew]
          rfl
        rw [hs, hqb, hqm]
        have hb := hold
        generalize (q.stateOf k).backoff = b at hb
        by_cases hz : b = 0
        · rw [if_pos hz]
          omega
        · rw [if_neg hz, wrapInt64_of_range (b * 2) (by omega) (by omega)]
          split <;> omega
    · rcases IsAvailable_hit_or_probe q k now ping with h | ⟨_, hsame⟩
      · exact absurd h hp
      · rw [hsame]
        exact hold
  · unfold PingService.stateOf
    rw [(IsAvailable_other q id now ping k hk).1]
    exact hinv k

theorem runPings_backoff_le (base max : Int) (h0 : 0 ≤ base) (h1 : base ≤ max)
    (h2 : max < 2 ^ 62) :
    ∀ (cs : List PingCall) (q : PingService), q.backoff = base → q.backoffMax = max →
      (∀ k, 0 ≤ (q.stateOf k).backoff ∧ (q.stateOf k).backoff ≤ max) →
      ∀ k, 0 ≤ ((runPings q cs).2.stateOf k).backoff ∧
        ((runPings q cs).2.stateOf k).backoff ≤ max := by
  intro cs
  induction cs with
  | nil => intro q _ _ hinv k; exact hinv k
  | cons c cs ih =>
    intro q hqb hqm hinv k
    obtain ⟨_, hcb, hcm⟩ := IsAvailable_config q c.modelID c.now c.ping
    exact ih (q.IsAvailable c.modelID c.now c.ping).2.1 (hcb.trans hqb) (hcm.trans hqm)
      (fun j => IsAvailable_backoff_le base max h0 h1 h2 q hqb hqm hinv c.modelID c.now c.ping j)
      k

/-- C26 fails as stated.  With base 2 and max 1 the first failed probe sets the
backoff to 2, above max.  With base 2^62 and max 2^63 − 1 the second failed
probe doubles the backoff to 2^63, which wraps to −2^63.  With base −2^62 and
max 0 the third failed probe wraps the backoff to 0. -/
theorem backoff_not_capped :
    ((runPings (NewPingService 15 2 1) (failingCalls "m" [0])).1.map (fun o => o.probes) = [1] ∧
      ((runPings (NewPingService 15 2 1) (failingCalls "m" [0])).2.stateOf "m").backoff = 2 ∧
      min (2 * 2 ^ (1 - 1)) 1 = (1 : Int)) ∧
    ((runPings (NewPingService 15 (2 ^ 62) (2 ^ 63 - 1))
        (failingCalls "m" [0, 2 ^ 62])).1.map (fun o => o.probes) = [1, 1] ∧
      ((runPings (NewPingService 15 (2 ^ 62) (2 ^ 63 - 1))
        (failingCalls "m" [0, 2 ^ 62])).2.stateOf "m").backoff = -(2 ^ 63) ∧
      min (2 ^ 62 * 2 ^ (2 - 1)) (2 ^ 63 - 1) = (2 ^ 63 - 1 : Int)) ∧
    ((runPings (NewPingService 15 (-(2 ^ 62)) 0)
        (failingCalls "m" [0, 0, 0])).1.map (fun o => o.probes) = [1, 1, 1] ∧
      ((runPings (NewPingService 15 (-(2 ^ 62)) 0)
        (failingCalls "m" [0, 0, 0])).2.stateOf "m").backoff = 0 ∧
      min (-(2 ^ 62) * 2 ^ (3 - 1)) 0 = (-(2 ^ 64) : Int)) := by
  refine ⟨⟨?_, ?_, ?_⟩, ⟨?_, ?_, ?_⟩, ⟨?_, ?_, ?_⟩⟩ <;> decide

/-- C26, amended: for every configured base and max backoff with
0 ≤ base ≤ max < 2^62 nanoseconds and every n ≥ 1, after n consecutive failed
live probes of a model whose backoff was zero, the backoff of the model equals
min(base·2^(n−1), max) and fail-until equals the time of the last probe plus
that backoff; in every state of the prober reached by calls of IsAvailable the
backoff of a model is at most max (and at least 0). -/
theorem backoff_doubles (ttl base max : Int) (h0 : 0 ≤ base) (h1 : base ≤ max)
    (h2 : max < 2 ^ 62) :
    (∀ (p : PingService) (id : String) (times : List Int),
      p.backoff = base → p.backoffMax = max → (p.stateOf id).backoff = 0 → times ≠ [] →
      (∀ o ∈ (runPings p (failingCalls id times)).1, o.probes = 1) →
      ((runPings p (failingCalls id times)).2.stateOf id).backoff =
          min (base * 2 ^ (times.length - 1)) max ∧
        ∀ tl, times.getLast? = some tl →
          ((runPings p (failingCalls id times)).2.stateOf id).failUntil =
            tl + ((runPings p (failingCalls id times)).2.stateOf id).backoff) ∧
    (∀ (cs : List PingCall) (id : String),
      0 ≤ ((runPings (NewPingService ttl base max) cs).2.stateOf id).backoff ∧
        ((runPings (NewPingService ttl base max) cs).2.stateOf id).backoff ≤ max) := by
  refine ⟨?_, ?_⟩
  · intro p id times hb hm hz hne hpr
    have := failingCalls_backoff base max id h0 h1 h2 times p 0 hb hm (Or.inl ⟨rfl, hz⟩) hpr hne
    simpa using this
  · intro cs id
    exact runPings_backoff_le base max h0 h1 h2 cs (NewPingService ttl base max) rfl rfl
      (fun k => ⟨le_refl _, by show (0 : Int) ≤ max; omega⟩) id

/-- Witness of `backoff_doubles`: with base 1 s and max 10 s, three failed probes
at 0 s, 1 s and 3 s leave a backoff of 4 s. -/
theorem backoff_doubles_witness :
    ((runPings (NewPingService 15000000000 1000000000 10000000000)
      (failingCalls "m" [0, 1000000000, 3000000000])).2.stateOf "m").backoff = 4000000000 :=
  ((backoff_doubles 15000000000 1000000000 10000000000 (by decide) (by decide) (by decide)).1
    (NewPingService 15000000000 1000000000 10000000000) "m" [0, 1000000000, 3000000000]
    rfl rfl rfl (by decide) (by decide)).1.trans (by decide)

/-! ### The quality estimate -/

theorem diffStats_example :
    diffStats "diff --git a/f b/f\n--- a/f\n+++ b/f\n@@ -1 +1,2 @@\n-x\n+y\n+z\n" =
      { files := 1, hunks := 1, additions := 2, deletions := 1, totalLines := 8 } := by
  decide

theorem errorTokenCount_example :
    errorTokenCount "Error: panic, FAILED; errorerror" = 5 := by
  decide

theorem estimateQuality_example :
    estimateQuality (constHash 255) "a patch that applies cleanly" "+x\n" =
      F64.add (F64.mul (F64.ofRat 9 10) (F64.ofRat 7 10))
        (F64.mul (F64.div (F64.ofInt 255) (F64.ofRat 255 1)) (F64.ofRat 3 10)) := by
  decide

theorem Within.mono {x : F64} {e f : Nat} (h : Within x e) (hef : e ≤ f) : Within x f := by
  obtain ⟨s, k, hx, hk⟩ := h
  exact ⟨s, k, hx, le_trans hk (Nat.pow_le_pow_right (by norm_num) hef)⟩

theorem Within.isNaN {x : F64} {e : Nat} (h : Within x e) : x.isNaN = false := by
  obtain ⟨s, k, hx, _⟩ := h
  rw [hx]
  rfl

theorem ofMag_within (neg : Bool) (n d e : Nat) (hd : 0 < d) (h : n ≤ 2 ^ e * d)
    (he : e < 2098) : Within (F64.ofMag neg n d) e := by
  have hq : n / d ≤ 2 ^ e := by
    calc n / d ≤ (2 ^ e * d) / d := Nat.div_le_div_right h
      _ = 2 ^ e := Nat.mul_div_cancel _ hd
  have hlt : 2 ^ e < 2 ^ 2098 := Nat.pow_lt_pow_right (by norm_num) he
  have hlt2 : (2 : Nat) ^ 2098 < 2 ^ 4096 := Nat.pow_lt_pow_right (by norm_num) (by norm_num)
  have hr := F64.roundMag_le_pow n d e hd (by omega) h
  unfold F64.ofMag
  rw [if_neg (by omega)]
  simp only
  rw [if_pos (by omega)]
  exact ⟨neg, _, rfl, hr⟩

theorem ofRat_within (n d : Nat) (hd : 0 < d) (h : n ≤ d) : Within (F64.ofRat n d) 1074 := by
  unfold F64.ofRat
  refine ofMag_within false _ d 1074 hd ?_ (by norm_num)
  unfold F64.unit
  rw [Nat.mul_comm]
  exact Nat.mul_le_mul_left _ h

theorem ofInt_within (i : Int) (e : Nat) (h : i.natAbs ≤ 2 ^ e) (he : e + 1074 < 2098) :
    Within (F64.ofInt i) (e + 1074) := by
  unfold F64.ofInt
  split
  · exact ⟨false, 0, rfl, Nat.zero_le _⟩
  · refine ofMag_within _ _ 1 _ (by norm_num) ?_ he
    unfold F64.unit
    rw [Nat.mul_one, pow_add]
    exact Nat.mul_le_mul_right _ h

theorem add_within {x y : F64} {e : Nat} (hx : Within x e) (hy : Within y e)
    (he : e + 1 < 2098) : Within (F64.add x y) (e + 1) := by
  obtain ⟨s, k, rfl, hk⟩ := hx
  obtain ⟨t, l, rfl, hl⟩ := hy
  rw [add_fin_fin]
  split
  · exact ⟨_, 0, rfl, Nat.zero_le _⟩
  · refine ofMag_within _ _ 1 _ (by norm_num) ?_ he
    rw [Nat.mul_one, pow_succ]
    have h1 : (F64.signed s k + F64.signed t l).natAbs ≤ k + l := by
      have a1 : (F64.signed s k).natAbs = k := by cases s <;> simp [F64.signed]
      have a2 : (F64.signed t l).natAbs = l := by cases t <;> simp [F64.signed]
      calc (F64.signed s k + F64.signed t l).natAbs
          ≤ (F64.signed s k).natAbs + (F64.signed t l).natAbs := Int.natAbs_add_le _ _
        _ = k + l := by rw [a1, a2]
    omega

theorem neg_within {x : F64} {e : Nat} (hx : Within x e) : Within (F64.neg x) e := by
  obtain ⟨s, k, rfl, hk⟩ := hx
  exact ⟨!s, k, rfl, hk⟩

theorem sub_within {x y : F64} {e : Nat} (hx : Within x e) (hy : Within y e)
    (he : e + 1 < 2098) : Within (F64.sub x y) (e + 1) :=
  add_within hx (neg_within hy) he

theorem mul_within {x y : F64} {a b e : Nat} (hx : Within x a) (hy : Within y b)
    (hab : a + b ≤ e + 1074) (he : e < 2098) : Within (F64.mul x y) e := by
  obtain ⟨s, k, rfl, hk⟩ := hx
  obtain ⟨t, l, rfl, hl⟩ := hy
  show Within (F64.ofMag (s != t) (k * l) F64.unit) e
  refine ofMag_within _ _ _ e (Nat.two_pow_pos _) ?_ he
  unfold F64.unit
  calc k * l ≤ 2 ^ a * 2 ^ b := Nat.mul_le_mul hk hl
    _ = 2 ^ (a + b) := (pow_add 2 a b).symm
    _ ≤ 2 ^ (e + 1074) := Nat.pow_le_pow_right (by norm_num) hab
    _ = 2 ^ e * 2 ^ 1074 := pow_add 2 e 1074

theorem div_within {x : F64} {a : Nat} (hx : Within x a) (t : Bool) (l : Nat)
    (hl : F64.unit ≤ l) (ha : a < 2098) : Within (F64.div x (F64.fin t l)) a := by
  obtain ⟨s, k, rfl, hk⟩ := hx
  have hl0 : l ≠ 0 := by
    have : 0 < F64.unit := Nat.two_pow_pos _
    omega
  show Within (if l = 0 then (if k = 0 then F64.nan else F64.inf (s != t))
    else F64.ofMag (s != t) (k * F64.unit) l) a
  rw [if_neg hl0]
  refine ofMag_within _ _ _ a (by omega) ?_ ha
  exact Nat.mul_le_mul hk hl

/-- A value that is not NaN is clamped into [0, 1]. -/
theorem clampUnit_bounds (x : F64) (hx : x.isNaN = false) :
    F64.le F64.zero (clampUnit x) = true ∧ F64.le (clampUnit x) F64.one = true := by
  unfold clampUnit
  by_cases h1 : F64.lt x F64.zero = true
  · rw [if_pos h1]
    exact ⟨by decide, by decide⟩
  · rw [if_neg h1]
    by_cases h2 : F64.gt x F64.one = true
    · rw [if_pos h2]
      exact ⟨by decide, by decide⟩
    · rw [if_neg h2]
      exact ⟨le_of_lt_false hx rfl (by simpa using h1),
        le_of_lt_false rfl hx (by simpa [F64.gt] using h2)⟩

/-- The function `estimateQuality` in two parts: the heuristic score, then the
blend with the hash and the clamp. -/
theorem estimateQuality_eq (sha256First : String → Fin 256) (output diff : String) :
    estimateQuality sha256First output diff =
      if output == "" && diff == "" then F64.zero
      else
        clampUnit
          (F64.add
            (F64.mul (codeScore (diffStats diff) output.utf8ByteSize (errorTokenCount output))
              (F64.ofRat 7 10))
            (F64.mul
              (F64.div (F64.ofInt (sha256First (output ++ "|" ++ diff)).val) (F64.ofRat 255 1))
              (F64.ofRat 3 10))) := by
  rfl

theorem step_within {s c : F64} {e : Nat} (p : Prop) [Decidable p] (hs : Within s e)
    (hc : p → Within c e) (he : e + 1 < 2098) :
    Within (if p then F64.sub s c else s) (e + 1) := by
  split
  · rename_i hp
    exact sub_within hs (hc hp) he
  · exact hs.mono (Nat.le_succ e)

theorem step2_within {s c : F64} {e : Nat} (p q : Prop) [Decidable p] [Decidable q]
    (hs : Within s e) (hc : Within c e) (he : e + 1 < 2098) :
    Within (if p then (if q then F64.sub s c else s) else s) (e + 1) := by
  split
  · exact step_within q hs (fun _ => hc) he
  · exact hs.mono (Nat.le_succ e)

theorem scoreHead_within (lines outputLen : Int) : Within (scoreHead lines outputLen) 1079 := by
  have c1 : ∀ e, 1074 ≤ e → Within (F64.ofRat 1 10) e :=
    fun e he => (ofRat_within 1 10 (by norm_num) (by norm_num)).mono he
  have c2 : ∀ e, 1074 ≤ e → Within (F64.ofRat 2 10) e :=
    fun e he => (ofRat_within 2 10 (by norm_num) (by norm_num)).mono he
  have h0 : Within (F64.ofRat 9 10) 1077 :=
    (ofRat_within 9 10 (by norm_num) (by norm_num)).mono (by norm_num)
  have h1 : Within
      (if lines > 800 then F64.sub (F64.ofRat 9 10) (F64.ofRat 2 10)
       else if lines > 300 then F64.sub (F64.ofRat 9 10) (F64.ofRat 1 10)
       else F64.ofRat 9 10) 1078 := by
    split
    · exact sub_within h0 (c2 _ (by norm_num)) (by norm_num)
    · exact step_within _ h0 (fun _ => c1 _ (by norm_num)) (by norm_num)
  exact step_within (outputLen < 20) h1 (fun _ => c1 _ (by norm_num)) (by norm_num)

theorem scoreErrors_within (errCount : Int) (s : F64) (hs : Within s 1079) :
    Within (scoreErrors errCount s) 1080 := by
  refine step_within (errCount > 0) hs ?_ (by norm_num)
  intro hpos
  have hm : (minInt errCount 3).natAbs ≤ 2 ^ 2 := by
    unfold minInt
    split <;> omega
  exact (mul_within (ofRat_within 1 10 (by norm_num) (by norm_num))
    (ofInt_within _ 2 hm (by norm_num)) (by norm_num) (by norm_num) : Within _ 1076).mono
    (by norm_num)

theorem scoreTail_within (stats : diffStat) (s : F64) (hs : Within s 1080) :
    Within (scoreTail stats s) 1084 := by
  have c1 : ∀ e, 1074 ≤ e → Within (F64.ofRat 1 10) e :=
    fun e he => (ofRat_within 1 10 (by norm_num) (by norm_num)).mono he
  have c5 : ∀ e, 1074 ≤ e → Within (F64.ofRat 5 100) e :=
    fun e he => (ofRat_within 5 100 (by norm_num) (by norm_num)).mono he
  have h4 := step_within (stats.files > 10) hs (fun _ => c1 _ (by norm_num)) (by norm_num)
  have h5 := step_within (stats.hunks > 20) h4 (fun _ => c1 _ (by norm_num)) (by norm_num)
  have h6 := step_within (stats.additions + stats.deletions > 200) h5
    (fun _ => c1 _ (by norm_num)) (by norm_num)
  exact step2_within _ _ h6 (c5 _ (by norm_num)) (by norm_num)

theorem codeScore_within (stats : diffStat) (outputLen errCount : Int) :
    Within (codeScore stats outputLen errCount) 1084 :=
  scoreTail_within stats _ (scoreErrors_within errCount _ (scoreHead_within _ _))

/-- C27: for all strings output and diff, estimateQuality(output, diff) lies in
[0, 1] (and is not NaN), and it is a function of the pair (output, diff) only:
the one thing it takes from outside its arguments is the first byte of the
SHA-256 digest of the string output + "|" + diff, so whatever the hash answers
on other strings, two calls with the same pair return the same score, and the
two scores are equal under the `==` of Go. -/
theorem estimateQuality_unit_interval (sha256First : String → Fin 256) (output diff : String) :
    F64.le F64.zero (estimateQuality sha256First output diff) = true ∧
    F64.le (estimateQuality sha256First output diff) F64.one = true ∧
    ∀ digest : String → Fin 256,
      digest (output ++ "|" ++ diff) = sha256First (output ++ "|" ++ diff) →
      estimateQuality digest output diff = estimateQuality sha256First output diff ∧
      F64.eq (estimateQuality digest output diff) (estimateQuality sha256First output diff) =
        true := by
  have hzero : F64.le F64.zero (estimateQuality sha256First output diff) = true ∧
      F64.le (estimateQuality sha256First output diff) F64.one = true := by
    refine ⟨?_, ?_⟩
    · rw [estimateQuality_eq]
      split
      · decide
      · refine (clampUnit_bounds _ ?_).1
        refine (add_within (e := 1084) ?_ ?_ (by norm_num)).isNaN
        · exact mul_within (codeScore_within _ _ _)
            (ofRat_within 7 10 (by norm_num) (by norm_num)) (by norm_num) (by norm_num)
        · have hb : (F64.ofRat 255 1) = F64.fin false (255 * F64.unit) := by decide
          rw [hb]
          refine mul_within (a := 1082) (b := 1074) ?_
            (ofRat_within 3 10 (by norm_num) (by norm_num)) (by norm_num) (by norm_num)
          refine div_within ?_ false _ (by unfold F64.unit; omega) (by norm_num)
          refine ofInt_within _ 8 ?_ (by norm_num)
          have := (sha256First (output ++ "|" ++ diff)).isLt
          simp only [Int.natAbs_ofNat]
          omega
    · rw [estimateQuality_eq]
      split
      · decide
      · refine (clampUnit_bounds _ ?_).2
        refine (add_within (e := 1084) ?_ ?_ (by norm_num)).isNaN
        · exact mul_within (codeScore_within _ _ _)
            (ofRat_within 7 10 (by norm_num) (by norm_num)) (by norm_num) (by norm_num)
        · have hb : (F64.ofRat 255 1) = F64.fin false (255 * F64.unit) := by decide
          rw [hb]
          refine mul_within (a := 1082) (b := 1074) ?_
            (ofRat_within 3 10 (by norm_num) (by norm_num)) (by norm_num) (by norm_num)
          refine div_within ?_ false _ (by unfold F64.unit; omega) (by norm_num)
          refine ofInt_within _ 8 ?_ (by norm_num)
          have := (sha256First (output ++ "|" ++ diff)).isLt
          simp only [Int.natAbs_ofNat]
          omega
  refine ⟨hzero.1, hzero.2, ?_⟩
  intro digest h
  have h1 : estimateQuality digest output diff = estimateQuality sha256First output diff := by
    rw [estimateQuality_eq, estimateQuality_eq, h]
  refine ⟨h1, ?_⟩
  rw [h1]
  have hn := (isNaN_of_le hzero.1).2
  exact (F64.eq_iff_ord hn hn).2 rfl

/-- Witness of `estimateQuality_unit_interval`: two hashes that agree on the
string "ok|+x" only give the pair ("ok", "+x") the same score. -/
theorem estimateQuality_unit_interval_witness :
    estimateQuality (hashOn "ok|+x" 7 0) "ok" "+x" = estimateQuality (constHash 7) "ok" "+x" ∧
    F64.eq (estimateQuality (hashOn "ok|+x" 7 0) "ok" "+x")
      (estimateQuality (constHash 7) "ok" "+x") = true :=
  (estimateQuality_unit_interval (constHash 7) "ok" "+x").2.2 (hashOn "ok|+x" 7 0) (by decide)

theorem mul_comm_f64 (x y : F64) : F64.mul x y = F64.mul y x := by
  cases x with
  | nan => cases y <;> rfl
  | inf a =>
    cases y with
    | nan => rfl
    | inf b => cases a <;> cases b <;> rfl
    | fin t l => cases a <;> cases t <;> rfl
  | fin s k =>
    cases y with
    | nan => rfl
    | inf b => cases s <;> cases b <;> rfl
    | fin t l =>
      show F64.ofMag (s != t) (k * l) F64.unit = F64.ofMag (t != s) (l * k) F64.unit
      rw [Nat.mul_comm k l]
      cases s <;> cases t <;> rfl

theorem errorTokenCount_nonneg (text : String) : 0 ≤ errorTokenCount text := by
  unfold errorTokenCount Count
  simp only [List.foldl]
  positivity

theorem scoreErrors_eq (lines outputLen errCount : Int) (h : 0 ≤ errCount) :
    scoreErrors errCount (scoreHead lines outputLen) =
      F64.sub (scoreHead lines outputLen)
        (F64.mul (F64.ofRat 1 10) (F64.ofInt (min errCount 3))) := by
  unfold scoreErrors
  by_cases hpos : errCount > 0
  · rw [if_pos hpos]
    have : minInt errCount 3 = min errCount 3 := by
      unfold minInt
      split <;> omega
    rw [this]
  · rw [if_neg hpos]
    have hz : errCount = 0 := by omega
    subst hz
    unfold scoreHead
    simp only
    split <;> (try split) <;> (try split) <;> decide

theorem scoreTail_eq (stats : diffStat) (s : F64) :
    scoreTail stats s =
      heuristicTail stats.files stats.hunks (stats.additions + stats.deletions)
        (decide (stats.deletions > 0) && ratioOutside stats.additions stats.deletions) s := by
  unfold scoreTail heuristicTail ratioOutside
  by_cases hd : stats.deletions > 0
  · simp only [hd, if_true, decide_True, Bool.true_and]
  · simp only [hd, if_false, decide_False, Bool.false_and, Bool.false_eq_true]

theorem heuristicScore_eq (lines outLen errs files hunks changes : Int) (ratioOut : Bool) :
    heuristicScore lines outLen errs files hunks changes ratioOut =
      heuristicTail files hunks changes ratioOut
        (F64.sub (scoreHead lines outLen)
          (F64.mul (F64.ofRat 1 10) (F64.ofInt (min errs 3)))) := by
  rfl

set_option maxRecDepth 100000

/-- C28 fails as stated, whatever the first byte `b` of the hash is.  For the
empty output and the empty diff estimateQuality returns 0 and not the blend.
For an output of ten two-byte characters it deducts nothing for a short output,
because it counts 20 bytes.  For a diff with an addition and no deletion it
deducts nothing for the ratio, because it looks at the ratio only when there
are deletions. -/
theorem estimateQuality_not_as_stated :
    (∀ b : Fin 256, estimateQuality (constHash b) "" "" = F64.zero ∧
      statedQuality (constHash b) "" "" ≠ F64.zero) ∧
    (∀ b : Fin 256, estimateQuality (constHash b) "éééééééééé" "+x\n-y\n" ≠
      statedQuality (constHash b) "éééééééééé" "+x\n-y\n") ∧
    (∀ b : Fin 256, estimateQuality (constHash b) "a patch that applies cleanly" "+x\n" ≠
      statedQuality (constHash b) "a patch that applies cleanly" "+x\n") := by
  refine ⟨?_, ?_, ?_⟩ <;> decide

/-- C28, amended: for the empty output and the empty diff estimateQuality is 0;
for all other strings output and diff it equals 0.7·h + 0.3·(b / 255) clamped
to [0, 1], where b is the first byte of the content hash of output and diff and
h is the heuristic that starts at 0.9 and subtracts 0.2 if the diff has more
than 800 lines (else 0.1 if more than 300), 0.1 if the output has fewer than 20
bytes, 0.1·min(error-token count, 3), 0.1 if more than 10 files changed, 0.1 if
more than 20 hunks, 0.1 if additions + deletions exceed 200, and 0.05 if there
are deletions and the addition/deletion ratio is outside [0.5, 2.0]. -/
theorem estimateQuality_formula (sha256First : String → Fin 256) (output diff : String) :
    estimateQuality sha256First output diff =
      if output = "" ∧ diff = "" then F64.zero
      else
        blend
          (heuristicScore (diffStats diff).totalLines output.utf8ByteSize
            (errorTokenCount output) (diffStats diff).files (diffStats diff).hunks
            ((diffStats diff).additions + (diffStats diff).deletions)
            (decide ((diffStats diff).deletions > 0) &&
              ratioOutside (diffStats diff).additions (diffStats diff).deletions))
          (sha256First (output ++ "|" ++ diff)) := by
  rw [estimateQuality_eq]
  by_cases he : output = "" ∧ diff = ""
  · rw [if_pos he, if_pos (by simp [he.1, he.2])]
  · rw [if_neg he, if_neg (by simpa using he)]
    unfold blend codeScore
    rw [heuristicScore_eq, scoreErrors_eq _ _ _ (errorTokenCount_nonneg output), scoreTail_eq,
      mul_comm_f64 (F64.ofRat 7 10), mul_comm_f64 (F64.ofRat 3 10)]

/-! ### The replay chain -/

theorem ReplayChain_examples :
    ((threeGenerations.ReplayChain ["B", "C", "A"] 7 "C").map
        (fun r => (r.1.Lineage.map (fun x => x.ID), r.1.Descendants.map (fun x => x.ID), r.2))) =
      some (["A", "B", "C"], [], true) ∧
    ((threeGenerations.ReplayChain ["B", "C", "A"] 7 "A").map
        (fun r => (r.1.Lineage.map (fun x => x.ID), r.1.Descendants.map (fun x => x.ID), r.2))) =
      some (["A"], ["C", "B"], true) ∧
    ((threeGenerations.ReplayChain ["B", "C", "A"] 7 "D").map (fun r => r.2)) = some false ∧
    ((twoCycle.ReplayChain ["A", "B"] 5 "A").map
        (fun r => (r.1.Lineage.map (fun x => x.ID), r.1.Descendants.map (fun x => x.ID), r.2))) =
      some (["B", "A"], ["B", "A"], true) := by
  refine ⟨?_, ?_, ?_, ?_⟩ <;> decide

theorem childrenMap_fold (s : TaskStore) :
    ∀ (order : List String) (acc : GoMap (List String)) (p : String),
      ((order.foldl
          (fun children id =>
            let q := TrimSpace ((s.traces id).getD {}).ParentTaskID
            if q != "" then children.set q ((children q).getD [] ++ [id]) else children)
          acc) p).getD [] =
        (acc p).getD [] ++ (if p = "" then [] else order.filter (fun id => parentOf s id == p)) := by
  intro order
  induction order with
  | nil => intro acc p; simp
  | cons id rest ih =>
    intro acc p
    rw [List.foldl_cons, ih]
    have hpar : TrimSpace ((s.traces id).getD {}).ParentTaskID = parentOf s id := rfl
    simp only [hpar]
    by_cases hq : parentOf s id = ""
    · simp only [hq, bne_self_eq_false, Bool.false_eq_true, if_false]
      by_cases hp : p = ""
      · simp [hp]
      · have hbe : ("" == p) = false := by simpa using fun h => hp h.symm
        simp [hp, List.filter_cons, hq, hbe]
    · have hb : (parentOf s id != "") = true := by simpa using hq
      simp only [hb, if_true]
      by_cases hp : p = ""
      · have hne : ¬ ("" = parentOf s id) := fun h => hq h.symm
        simp [hp, GoMap.set, hne]
      · by_cases hpe : parentOf s id = p
        · have hbe : (parentOf s id == p) = true := by simpa using hpe
          subst hpe
          simp [hq, GoMap.set, List.filter_cons]
        · have hpe2 : ¬ (p = parentOf s id) := fun h => hpe h.symm
          have hbe : (parentOf s id == p) = false := by simpa using hpe
          simp [hp, GoMap.set, hpe2, List.filter_cons, hbe]

/-- The children of a task in the map `children`: the ids of `order` whose
parent it is, in the order of `order`; the empty id has none. -/
theorem childrenOf_eq (s : TaskStore) (order : List String) (p : String) :
    childrenOf s order p =
      if p = "" then [] else order.filter (fun id => parentOf s id == p) := by
  unfold childrenOf childrenMap
  rw [childrenMap_fold]
  simp

theorem mem_childrenOf (s : TaskStore) (order : List String) (p c : String) :
    c ∈ childrenOf s order p ↔ c ∈ order ∧ IsParentOf s p c := by
  rw [childrenOf_eq]
  unfold IsParentOf
  by_cases hp : p = ""
  · simp [hp]
  · simp [hp, List.mem_filter]

theorem descLoop_eq (s : TaskStore) (ch : GoMap (List String)) :
    ∀ (n : Nat) (queue seen : List String) (acc : List TaskSummary),
      descLoop s ch n queue seen acc =
        (descIds s ch n queue seen).map (fun r => acc ++ r.1.map (summaryOf s)) := by
  intro n
  induction n with
  | zero =>
    intro queue seen acc
    cases queue <;> simp [descLoop, descIds]
  | succ n ih =>
    intro queue seen acc
    cases queue with
    | nil => simp [descLoop, descIds]
    | cons id queue =>
      simp only [descLoop, descIds]
      split
      · exact ih _ _ _
      · split
        · exact ih _ _ _
        · rw [ih, Option.map_map]
          congr 1
          funext r
          simp

theorem lineageLoop_eq (s : TaskStore) :
    ∀ (n : Nat) (cur : String) (seen : List String) (acc : List TaskSummary),
      lineageLoop s n cur seen acc =
        (lineageIds s n cur seen).map (fun v => acc ++ v.map (summaryOf s)) := by
  intro n
  induction n with
  | zero =>
    intro cur seen acc
    simp only [lineageLoop, lineageIds]
    split <;> simp
  | succ n ih =>
    intro cur seen acc
    simp only [lineageLoop, lineageIds]
    split
    · have := ih (parentOf s cur) (cur :: seen) (acc ++ [summaryOf s cur])
      unfold parentOf at this ⊢
      rw [this, Option.map_map]
      congr 1
      funext v
      simp
    · simp

/-- What the descendants loop returns, whatever the fuel: the ids it appends
are distinct, were not seen before, have a status and satisfy every property
`P` of the queue that passes from a task with a status to its children; the
final set `seenDesc` holds the initial one and the queue, holds nothing else
but appended ids and ids without a status, and is closed under children. -/
theorem descIds_spec (s : TaskStore) (ch : GoMap (List String)) (P : String → Prop)
    (hP : ∀ x, P x → (s.statuses x).isSome → ∀ c ∈ (ch x).getD [], P c) :
    ∀ (n : Nat) (queue seen new seenF : List String),
      descIds s ch n queue seen = some (new, seenF) →
      (∀ q ∈ queue, P q) →
      (∀ x ∈ seen, (s.statuses x).isSome → ∀ c ∈ (ch x).getD [], c ∈ seen ∨ c ∈ queue) →
      new.Nodup ∧ (∀ x ∈ new, x ∉ seen ∧ (s.statuses x).isSome ∧ P x) ∧
        (∀ x ∈ seen, x ∈ seenF) ∧ (∀ q ∈ queue, q ∈ seenF) ∧
        (∀ x ∈ seenF, x ∈ seen ∨ x ∈ new ∨ (s.statuses x).isNone) ∧
        (∀ x ∈ seenF, (s.statuses x).isSome → ∀ c ∈ (ch x).getD [], c ∈ seenF) := by
  intro n
  induction n with
  | zero =>
    intro queue seen new seenF h hq hcl
    cases queue with
    | nil =>
      simp only [descIds, Option.some.injEq, Prod.mk.injEq] at h
      obtain ⟨rfl, rfl⟩ := h
      refine ⟨List.nodup_nil, by simp, fun x hx => hx, by simp, fun x hx => Or.inl hx, ?_⟩
      intro x hx hs c hc
      rcases hcl x hx hs c hc with h1 | h1
      · exact h1
      · simp at h1
    | cons id queue => simp [descIds] at h
  | succ n ih =>
    intro queue seen new seenF h hq hcl
    cases queue with
    | nil =>
      simp only [descIds, Option.some.injEq, Prod.mk.injEq] at h
      obtain ⟨rfl, rfl⟩ := h
      refine ⟨List.nodup_nil, by simp, fun x hx => hx, by simp, fun x hx => Or.inl hx, ?_⟩
      intro x hx hs c hc
      rcases hcl x hx hs c hc with h1 | h1
      · exact h1
      · simp at h1
    | cons id queue =>
      simp only [descIds] at h
      by_cases hseen : seen.contains id = true
      · rw [if_pos hseen] at h
        have hmem : id ∈ seen := by simpa using hseen
        obtain ⟨h1, h2, h3, h4, h5, h6⟩ := ih queue seen new seenF h
          (fun q hq1 => hq q (List.mem_cons_of_mem _ hq1))
          (by
            intro x hx hs c hc
            rcases hcl x hx hs c hc with h1 | h1
            · exact Or.inl h1
            · rcases List.mem_cons.1 h1 with h2 | h2
              · exact Or.inl (h2 ▸ hmem)
              · exact Or.inr h2)
        refine ⟨h1, h2, h3, ?_, h5, h6⟩
        intro q hq1
        rcases List.mem_cons.1 hq1 with h7 | h7
        · exact h3 _ (h7 ▸ hmem)
        · exact h4 _ h7
      · rw [if_neg hseen] at h
        have hnmem : id ∉ seen := by simpa using hseen
        by_cases hst : (s.statuses id).isNone = true
        · rw [if_pos hst] at h
          have hnot : ¬ (s.statuses id).isSome = true := by
            cases hs : s.statuses id <;> simp [hs] at hst ⊢
          obtain ⟨h1, h2, h3, h4, h5, h6⟩ := ih queue (id :: seen) new seenF h
            (fun q hq1 => hq q (List.mem_cons_of_mem _ hq1))
            (by
              intro x hx hs c hc
              rcases List.mem_cons.1 hx with hx1 | hx1
              · exact absurd (hx1 ▸ hs) hnot
              · rcases hcl x hx1 hs c hc with h1 | h1
                · exact Or.inl (List.mem_cons_of_mem _ h1)
                · rcases List.mem_cons.1 h1 with h2 | h2
                  · exact Or.inl (h2 ▸ List.mem_cons_self _ _)
                  · exact Or.inr h2)
          refine ⟨h1, ?_, fun x hx => h3 x (List.mem_cons_of_mem _ hx), ?_, ?_, h6⟩
          · intro x hx
            obtain ⟨h7, h8, h9⟩ := h2 x hx
            exact ⟨fun h10 => h7 (List.mem_cons_of_mem _ h10), h8, h9⟩
          · intro q hq1
            rcases List.mem_cons.1 hq1 with h7 | h7
            · exact h3 _ (h7 ▸ List.mem_cons_self _ _)
            · exact h4 _ h7
          · intro x hx
            rcases h5 x hx with h7 | h7 | h7
            · rcases List.mem_cons.1 h7 with h8 | h8
              · exact Or.inr (Or.inr (h8 ▸ hst))
              · exact Or.inl h8
            · exact Or.inr (Or.inl h7)
            · exact Or.inr (Or.inr h7)
        · rw [if_neg hst] at h
          have hsome : (s.statuses id).isSome = true := by
            cases hs : s.statuses id <;> simp [hs] at hst ⊢
          cases hrec : descIds s ch n (queue ++ (ch id).getD []) (id :: seen) with
          | none => simp [hrec] at h
          | some r =>
            obtain ⟨new1, seenF1⟩ := r
            simp only [hrec, Option.map_some', Option.some.injEq, Prod.mk.injEq] at h
            obtain ⟨rfl, rfl⟩ := h
            have hPid : P id := hq id (List.mem_cons_self _ _)
            obtain ⟨h1, h2, h3, h4, h5, h6⟩ := ih (queue ++ (ch id).getD []) (id :: seen)
              new1 seenF1 hrec
              (by
                intro q hq1
                rcases List.mem_append.1 hq1 with h7 | h7
                · exact hq q (List.mem_cons_of_mem _ h7)
                · exact hP id hPid hsome q h7)
              (by
                intro x hx hs c hc
                rcases List.mem_cons.1 hx with hx1 | hx1
                · subst hx1
                  exact Or.inr (List.mem_append_right _ hc)
                · rcases hcl x hx1 hs c hc with h7 | h7
                  · exact Or.inl (List.mem_cons_of_mem _ h7)
                  · rcases List.mem_cons.1 h7 with h8 | h8
                    · exact Or.inl (h8 ▸ List.mem_cons_self _ _)
                    · exact Or.inr (List.mem_append_left _ h8))
            refine ⟨?_, ?_, fun x hx => h3 x (List.mem_cons_of_mem _ hx), ?_, ?_, h6⟩
            · refine List.nodup_cons.2 ⟨?_, h1⟩
              intro h7
              exact (h2 id h7).1 (List.mem_cons_self _ _)
            · intro x hx
              rcases List.mem_cons.1 hx with h7 | h7
              · subst h7
                exact ⟨hnmem, hsome, hPid⟩
              · obtain ⟨h8, h9, h10⟩ := h2 x h7
                exact ⟨fun h11 => h8 (List.mem_cons_of_mem _ h11), h9, h10⟩
            · intro q hq1
              rcases List.mem_cons.1 hq1 with h7 | h7
              · exact h3 _ (h7 ▸ List.mem_cons_self _ _)
              · exact h4 _ (List.mem_append_left _ h7)
            · intro x hx
              rcases h5 x hx with h7 | h7 | h7
              · rcases List.mem_cons.1 h7 with h8 | h8
                · exact Or.inr (Or.inl (h8 ▸ List.mem_cons_self _ _))
                · exact Or.inl h8
              · exact Or.inr (Or.inl (List.mem_cons_of_mem _ h7))
              · exact Or.inr (Or.inr h7)

theorem filter_length_split {α : Type} (P Q R : α → Bool) (hPQR : ∀ x, P x = (Q x || R x))
    (hQR : ∀ x, Q x = true → R x = true → False) :
    ∀ l : List α, (l.filter P).length = (l.filter Q).length + (l.filter R).length := by
  intro l
  induction l with
  | nil => rfl
  | cons a l ih =>
    simp only [List.filter_cons, hPQR a]
    cases hq : Q a <;> cases hr : R a
    · simpa using ih
    · simp only [Bool.false_or, if_true, List.length_cons, Bool.false_eq_true, if_false]
      omega
    · simp only [Bool.or_false, if_true, List.length_cons, Bool.false_eq_true, if_false]
      omega
    · exact absurd hr (fun h => hQR a hq h)

theorem filter_length_mono {α : Type} (P Q : α → Bool) (hPQ : ∀ x, P x = true → Q x = true) :
    ∀ l : List α, (l.filter P).length ≤ (l.filter Q).length := by
  intro l
  induction l with
  | nil => exact Nat.le_refl _
  | cons a l ih =>
    simp only [List.filter_cons]
    cases hp : P a
    · cases hq : Q a
      · simpa using ih
      · simp only [Bool.false_eq_true, if_false, if_true, List.length_cons]
        omega
    · simp only [hPQ a hp, if_true, List.length_cons]
      omega

theorem pending_cons_le (s : TaskStore) (order seen : List String) (id : String) :
    pending s order (id :: seen) ≤ pending s order seen := by
  unfold pending
  apply filter_length_mono
  intro x hx
  simp only [Bool.and_eq_true, bne_iff_ne, ne_eq, Bool.not_eq_true', List.elem_eq_mem,
    List.contains, List.mem_cons, decide_eq_false_iff_not, not_or] at hx ⊢
  exact ⟨hx.1, hx.2.2⟩

theorem pending_expand (s : TaskStore) (order seen : List String) (id : String)
    (hid : id ∉ seen) :
    pending s order seen = pending s order (id :: seen) + (childrenOf s order id).length := by
  rw [childrenOf_eq]
  unfold pending
  by_cases h0 : id = ""
  · subst h0
    simp only [if_true, List.length_nil, Nat.add_zero]
    congr 1
    apply List.filter_congr
    intro x _
    by_cases hx : parentOf s x = ""
    · simp [hx]
    · have : ¬ (parentOf s x = "") := hx
      simp [hx]
  · rw [if_neg h0]
    apply filter_length_split
    · intro x
      by_cases hx : parentOf s x = id
      · simp [hx, h0, hid]
      · have hb : (parentOf s x == id) = false := by simpa using hx
        simp [hx, hb]
    · intro x h1 h2
      simp only [Bool.and_eq_true, bne_iff_ne, ne_eq, Bool.not_eq_true', List.elem_eq_mem,
        List.contains, List.mem_cons, decide_eq_false_iff_not, not_or, beq_iff_eq] at h1 h2
      exact h1.2.1 h2

/-- The descendants loop ends: the iterations left never exceed the length of
the queue plus the number of ids whose parent is still to be expanded. -/
theorem descIds_isSome (s : TaskStore) (order : List String) :
    ∀ (n : Nat) (queue seen : List String),
      queue.length + pending s order seen ≤ n →
      (descIds s (childrenMap s order) n queue seen).isSome = true := by
  intro n
  induction n with
  | zero =>
    intro queue seen h
    cases queue with
    | nil => rfl
    | cons id queue => simp at h
  | succ n ih =>
    intro queue seen h
    cases queue with
    | nil => rfl
    | cons id queue =>
      simp only [descIds]
      simp only [List.length_cons] at h
      by_cases hseen : seen.contains id = true
      · rw [if_pos hseen]
        exact ih _ _ (by omega)
      · rw [if_neg hseen]
        have hnmem : id ∉ seen := by simpa using hseen
        by_cases hst : (s.statuses id).isNone = true
        · rw [if_pos hst]
          have := pending_cons_le s order seen id
          exact ih _ _ (by omega)
        · rw [if_neg hst]
          have h1 := pending_expand s order seen id hnmem
          have h2 : (descIds s (childrenMap s order) n
              (queue ++ (childrenMap s order id).getD []) (id :: seen)).isSome = true := by
            apply ih
            rw [List.length_append]
            have : ((childrenMap s order id).getD []).length = (childrenOf s order id).length := rfl
            omega
          cases hrec : descIds s (childrenMap s order) n
              (queue ++ (childrenMap s order id).getD []) (id :: seen) with
          | none => rw [hrec] at h2; exact absurd h2 (by simp)
          | some r => rfl

theorem pending_le (s : TaskStore) (order seen : List String) :
    pending s order seen ≤ order.length :=
  List.length_filter_le _ _

theorem childrenOf_length_le (s : TaskStore) (order : List String) (p : String) :
    (childrenOf s order p).length ≤ order.length := by
  rw [childrenOf_eq]
  split
  · exact Nat.zero_le _
  · exact List.length_filter_le _ _

theorem parentOf_no_trace (s : TaskStore) (id : String) (h : s.traces id = none) :
    parentOf s id = "" := by
  unfold parentOf
  rw [h]
  rfl

theorem lineageIds_stop (s : TaskStore) (n : Nat) (cur : String) (seen : List String)
    (h : ¬ (cur ≠ "" ∧ cur ∉ seen)) : lineageIds s n cur seen = some [] := by
  have hb : ¬ ((cur != "" && !seen.contains cur) = true) := by
    intro hb
    apply h
    simpa using hb
  cases n <;> simp only [lineageIds, if_neg hb]

theorem lineageIds_step (s : TaskStore) (n : Nat) (cur : String) (seen : List String)
    (h1 : cur ≠ "") (h2 : cur ∉ seen) :
    lineageIds s (n + 1) cur seen =
      (lineageIds s n (parentOf s cur) (cur :: seen)).map (fun v => cur :: v) := by
  have hb : (cur != "" && !seen.contains cur) = true := by simpa using ⟨h1, h2⟩
  simp only [lineageIds, if_pos hb]

theorem remaining_lt (order seen : List String) (cur : String) (h1 : cur ∈ order)
    (h2 : cur ∉ seen) : remaining order (cur :: seen) + 1 ≤ remaining order seen := by
  unfold remaining
  have h := filter_length_split (fun x => !seen.contains x)
    (fun x => !(cur :: seen).contains x) (fun x => x == cur)
    (by
      intro x
      by_cases hx : x = cur
      · subst hx
        simp [h2]
      · have hb : (x == cur) = false := by simpa using hx
        simp [hx, hb])
    (by
      intro x h3 h4
      simp only [Bool.not_eq_true', List.elem_eq_mem, List.contains, List.mem_cons,
        decide_eq_false_iff_not, not_or, beq_iff_eq] at h3 h4
      exact h3.1 h4)
    order
  have h5 : 0 < (order.filter (fun x => x == cur)).length := by
    apply List.length_pos_of_mem (a := cur)
    simp [List.mem_filter, h1]
  omega

/-- The lineage walk ends: the iterations left never exceed the number of ids
of traces not yet visited, plus one; as many summaries at most are appended. -/
theorem lineageIds_isSome (s : TaskStore) (order : List String)
    (horder : ∀ id, (s.traces id).isSome = true → id ∈ order) :
    ∀ (n : Nat) (cur : String) (seen : List String),
      remaining order seen + 1 ≤ n →
      ∃ v, lineageIds s n cur seen = some v ∧ v.length ≤ remaining order seen + 1 := by
  intro n
  induction n with
  | zero => intro cur seen h; omega
  | succ n ih =>
    intro cur seen h
    by_cases hfresh : cur ≠ "" ∧ cur ∉ seen
    · rw [lineageIds_step s n cur seen hfresh.1 hfresh.2]
      cases htr : s.traces cur with
      | none =>
        rw [parentOf_no_trace s cur htr, lineageIds_stop s n "" (cur :: seen) (by simp)]
        exact ⟨[cur], rfl, by simp⟩
      | some tr =>
        have hin : cur ∈ order := horder cur (by rw [htr]; rfl)
        have hlt := remaining_lt order seen cur hin hfresh.2
        obtain ⟨v, hv, hlen⟩ := ih (parentOf s cur) (cur :: seen) (by omega)
        rw [hv]
        refine ⟨cur :: v, rfl, ?_⟩
        simp only [List.length_cons]
        omega
    · rw [lineageIds_stop s (n + 1) cur seen hfresh]
      exact ⟨[], rfl, by simp⟩

theorem remaining_le (order seen : List String) : remaining order seen ≤ order.length :=
  List.length_filter_le _ _

/-- What the lineage walk returns, whatever the fuel: distinct non-empty ids
not seen before, starting at `cur`, each followed by its parent, the parent of
the last being empty, seen before or visited. -/
theorem lineageIds_spec (s : TaskStore) :
    ∀ (n : Nat) (cur : String) (seen v : List String),
      lineageIds s n cur seen = some v →
      (∀ x ∈ v, x ≠ "" ∧ x ∉ seen) ∧ v.Nodup ∧
        List.Chain' (fun a b => IsParentOf s b a) v ∧
        (v.head? = if cur ≠ "" ∧ cur ∉ seen then some cur else none) ∧
        (∀ l, v.getLast? = some l →
          parentOf s l = "" ∨ parentOf s l ∈ seen ∨ parentOf s l ∈ v) := by
  intro n
  induction n with
  | zero =>
    intro cur seen v h
    by_cases hfresh : cur ≠ "" ∧ cur ∉ seen
    · have hb : (cur != "" && !seen.contains cur) = true := by simpa using hfresh
      simp only [lineageIds, if_pos hb] at h
      cases h
    · rw [lineageIds_stop s 0 cur seen hfresh] at h
      cases h
      simp [hfresh]
  | succ n ih =>
    intro cur seen v h
    by_cases hfresh : cur ≠ "" ∧ cur ∉ seen
    · rw [lineageIds_step s n cur seen hfresh.1 hfresh.2] at h
      cases hrec : lineageIds s n (parentOf s cur) (cur :: seen) with
      | none => simp [hrec] at h
      | some w =>
        simp only [hrec, Option.map_some', Option.some.injEq] at h
        subst h
        obtain ⟨h1, h2, h3, h4, h5⟩ := ih _ _ _ hrec
        refine ⟨?_, ?_, ?_, ?_, ?_⟩
        · intro x hx
          rcases List.mem_cons.1 hx with h6 | h6
          · subst h6
            exact hfresh
          · exact ⟨(h1 x h6).1, fun h7 => (h1 x h6).2 (List.mem_cons_of_mem _ h7)⟩
        · exact List.nodup_cons.2 ⟨fun h6 => (h1 cur h6).2 (List.mem_cons_self _ _), h2⟩
        · refine List.chain'_cons'.2 ⟨?_, h3⟩
          intro y hy
          rw [h4] at hy
          split at hy
          · rename_i hp
            simp only [Option.mem_def, Option.some.injEq] at hy
            exact ⟨hy ▸ hp.1, hy⟩
          · simp at hy
        · simp [hfresh]
        · intro l hl
          cases w with
          | nil =>
            simp only [List.getLast?_singleton, Option.some.injEq] at hl
            subst hl
            simp only [List.head?_nil] at h4
            by_cases hp : parentOf s cur ≠ "" ∧ parentOf s cur ∉ cur :: seen
            · rw [if_pos hp] at h4
              cases h4
            · by_cases hp1 : parentOf s cur = ""
              · exact Or.inl hp1
              · have hp2 : parentOf s cur ∈ cur :: seen := by
                  by_contra hp3
                  exact hp ⟨hp1, hp3⟩
                rcases List.mem_cons.1 hp2 with h6 | h6
                · exact Or.inr (Or.inr (by rw [h6]; exact List.mem_singleton_self _))
                · exact Or.inr (Or.inl h6)
          | cons b w =>
            have hl2 : (b :: w).getLast? = some l := by
              rw [List.getLast?_cons_cons] at hl
              exact hl
            rcases h5 l hl2 with h6 | h6 | h6
            · exact Or.inl h6
            · rcases List.mem_cons.1 h6 with h7 | h7
              · exact Or.inr (Or.inr (by rw [h7]; exact List.mem_cons_self _ _))
              · exact Or.inr (Or.inl h7)
            · exact Or.inr (Or.inr (List.mem_cons_of_mem _ h6))
    · rw [lineageIds_stop s (n + 1) cur seen hfresh] at h
      cases h
      simp [hfresh]

/-- In a list in which each id is followed by its parent, the last id is an
ancestor of every other. -/
theorem chain_transGen (s : TaskStore) :
    ∀ (v : List String) (l : String),
      List.Chain' (fun a b => IsParentOf s b a) v →
      v.getLast? = some l → ∀ x ∈ v, x = l ∨ Relation.TransGen (IsParentOf s) l x := by
  intro v
  induction v with
  | nil => intro l _ _ x hx; simp at hx
  | cons a v ih =>
    intro l hch hl x hx
    cases v with
    | nil =>
      simp only [List.getLast?_singleton, Option.some.injEq] at hl
      simp only [List.mem_singleton] at hx
      exact Or.inl (hx.trans hl)
    | cons b w =>
      have hl2 : (b :: w).getLast? = some l := by
        rw [List.getLast?_cons_cons] at hl
        exact hl
      have hch2 := List.chain'_cons.1 hch
      have ih2 := ih l hch2.2 hl2
      rcases List.mem_cons.1 hx with h1 | h1
      · subst h1
        have hpar : IsParentOf s b x := hch2.1
        rcases ih2 b (List.mem_cons_self _ _) with h2 | h2
        · subst h2
          exact Or.inr (Relation.TransGen.single hpar)
        · exact Or.inr (Relation.TransGen.tail h2 hpar)
      · exact ih2 x h1

/-- A store in which every task ranks above its parent is acyclic. -/
theorem acyclic_of_rank (s : TaskStore) (r : String → Nat)
    (h : ∀ a b, IsParentOf s a b → r a < r b) : Acyclic s := by
  intro x hx
  have key : ∀ a b, Relation.TransGen (IsParentOf s) a b → r a < r b := by
    intro a b hab
    induction hab with
    | single h1 => exact h _ _ h1
    | tail _ h2 ih => exact Nat.lt_trans ih (h _ _ h2)
  exact Nat.lt_irrefl _ (key x x hx)

theorem ltRunes_asymm : ∀ a b : List Char, ltRunes a b = true → ltRunes b a = false := by
  intro a
  induction a with
  | nil => intro b _; cases b <;> rfl
  | cons x xs ih =>
    intro b h
    cases b with
    | nil => simp [ltRunes] at h
    | cons y ys =>
      simp only [ltRunes] at h ⊢
      by_cases h1 : x.toNat < y.toNat
      · rw [if_neg (by omega), if_pos h1]
      · rw [if_neg h1] at h
        by_cases h2 : y.toNat < x.toNat
        · rw [if_pos h2] at h
          cases h
        · rw [if_neg h2] at h
          rw [if_neg h2, if_neg h1]
          exact ih ys h

theorem ltRunes_negtrans :
    ∀ a b c : List Char, ltRunes a c = true → ltRunes a b = true ∨ ltRunes b c = true := by
  intro a
  induction a with
  | nil =>
    intro b c h
    cases c with
    | nil => simp [ltRunes] at h
    | cons z zs =>
      cases b with
      | nil => exact Or.inr rfl
      | cons y ys => exact Or.inl rfl
  | cons x xs ih =>
    intro b c h
    cases c with
    | nil => simp [ltRunes] at h
    | cons z zs =>
      cases b with
      | nil => exact Or.inr rfl
      | cons y ys =>
        simp only [ltRunes] at h ⊢
        by_cases hxy : x.toNat < y.toNat
        · exact Or.inl (by rw [if_pos hxy])
        · by_cases hyz : y.toNat < z.toNat
          · exact Or.inr (by rw [if_pos hyz])
          · rw [if_neg hxy, if_neg hyz]
            by_cases hxz : x.toNat < z.toNat
            · omega
            · rw [if_neg hxz] at h
              by_cases hzx : z.toNat < x.toNat
              · rw [if_pos hzx] at h
                cases h
              · rw [if_neg hzx] at h
                rw [if_neg (by omega), if_neg (by omega)]
                exact ih ys zs h

theorem insertSummary_perm (x : TaskSummary) :
    ∀ l : List TaskSummary, List.Perm (insertSummary x l) (x :: l) := by
  intro l
  induction l with
  | nil => exact List.Perm.refl _
  | cons y ys ih =>
    simp only [insertSummary]
    split
    · exact (List.Perm.cons y ih).trans (List.Perm.swap x y ys)
    · exact List.Perm.refl _

theorem insertSummary_sorted (x : TaskSummary) :
    ∀ l : List TaskSummary,
      List.Pairwise (fun a b => strLess b.UpdatedAt a.UpdatedAt = false) l →
      List.Pairwise (fun a b => strLess b.UpdatedAt a.UpdatedAt = false) (insertSummary x l) := by
  intro l
  induction l with
  | nil => intro _; simp [insertSummary]
  | cons y ys ih =>
    intro h
    have h1 := List.pairwise_cons.1 h
    simp only [insertSummary]
    by_cases hlt : strLess y.UpdatedAt x.UpdatedAt = true
    · rw [if_pos hlt]
      refine List.pairwise_cons.2 ⟨?_, ih h1.2⟩
      intro z hz
      rcases List.mem_cons.1 ((insertSummary_perm x ys).mem_iff.1 hz) with h2 | h2
      · subst h2
        exact ltRunes_asymm _ _ hlt
      · exact h1.1 z h2
    · rw [if_neg hlt]
      refine List.pairwise_cons.2 ⟨?_, h⟩
      intro z hz
      rcases List.mem_cons.1 hz with h2 | h2
      · subst h2
        simpa using hlt
      · have h3 := h1.1 z h2
        cases h4 : strLess z.UpdatedAt x.UpdatedAt with
        | false => rfl
        | true =>
          rcases ltRunes_negtrans _ y.UpdatedAt.data _ h4 with h5 | h5
          · exact absurd (show strLess z.UpdatedAt y.UpdatedAt = true from h5) (by simp [h3])
          · exact absurd (show strLess y.UpdatedAt x.UpdatedAt = true from h5) hlt

/-- The sort of the descendants keeps the summaries. -/
theorem sortSummaries_perm (l : List TaskSummary) : List.Perm (sortSummaries l) l := by
  have key : ∀ (l acc : List TaskSummary),
      List.Perm (l.foldl (fun rev x => insertSummary x rev) acc) (l.reverse ++ acc) := by
    intro l
    induction l with
    | nil => intro acc; exact List.Perm.refl _
    | cons x xs ih =>
      intro acc
      rw [List.foldl_cons, List.reverse_cons, List.append_assoc]
      exact (ih _).trans (List.Perm.append_left _ (insertSummary_perm x acc))
  unfold sortSummaries
  refine (List.reverse_perm _).trans ((key l []).trans ?_)
  rw [List.append_nil]
  exact List.reverse_perm _

/-- The sort of the descendants leaves no summary before one updated after it. -/
theorem sortSummaries_sorted (l : List TaskSummary) :
    List.Pairwise (fun a b => strLess a.UpdatedAt b.UpdatedAt = false) (sortSummaries l) := by
  have key : ∀ (l acc : List TaskSummary),
      List.Pairwise (fun a b => strLess b.UpdatedAt a.UpdatedAt = false) acc →
      List.Pairwise (fun a b => strLess b.UpdatedAt a.UpdatedAt = false)
        (l.foldl (fun rev x => insertSummary x rev) acc) := by
    intro l
    induction l with
    | nil => intro acc h; exact h
    | cons x xs ih =>
      intro acc h
      rw [List.foldl_cons]
      exact ih _ (insertSummary_sorted x acc h)
  unfold sortSummaries
  rw [List.pairwise_reverse]
  exact key l [] List.Pairwise.nil

theorem map_summaryOf_ID (s : TaskStore) (l : List String) :
    (l.map (summaryOf s)).map (fun x => x.ID) = l := by
  rw [List.map_map]
  exact List.map_id _

theorem has_trace_of_parent (s : TaskStore) (a x : String) (h : IsParentOf s a x) :
    (s.traces x).isSome = true := by
  cases htr : s.traces x with
  | none => exact absurd ((parentOf_no_trace s x htr).symm.trans h.2).symm h.1
  | some tr => rfl

/-- With fuel for twice the traces and one more, `ReplayChain` returns: it
fails without a status, and otherwise holds the summaries of the ids that the
lineage walk visited, reversed, and the sorted summaries of the ids that the
descendants loop appended. -/
theorem ReplayChain_run (s : TaskStore) (order : List String) (fuel : Nat) (taskID : String)
    (horder : ∀ id, (s.traces id).isSome = true → id ∈ order)
    (hfuel : 2 * order.length + 1 ≤ fuel) :
    ∃ lin desc seenF,
      lineageIds s fuel taskID [] = some lin ∧ lin.length ≤ order.length + 1 ∧
      descIds s (childrenMap s order) fuel (childrenOf s order taskID) [] = some (desc, seenF) ∧
      s.ReplayChain order fuel taskID =
        some (if (s.statuses taskID).isNone then ({}, false)
          else ({ SchemaVersion := schemaVersion, TaskID := taskID,
                  Lineage := (lin.map (summaryOf s)).reverse,
                  Descendants := sortSummaries (desc.map (summaryOf s)) }, true)) := by
  have hrem := remaining_le order []
  obtain ⟨lin, hlin, hlen⟩ := lineageIds_isSome s order horder fuel taskID [] (by omega)
  have hpend := pending_le s order []
  have hch := childrenOf_length_le s order taskID
  have hd := descIds_isSome s order fuel (childrenOf s order taskID) [] (by omega)
  cases hdesc : descIds s (childrenMap s order) fuel (childrenOf s order taskID) [] with
  | none => rw [hdesc] at hd; exact absurd hd (by simp)
  | some r =>
    obtain ⟨desc, seenF⟩ := r
    refine ⟨lin, desc, seenF, hlin, by omega, rfl, ?_⟩
    unfold TaskStore.ReplayChain
    by_cases hst : (s.statuses taskID).isNone = true
    · rw [if_pos hst, if_pos hst]
    · rw [if_neg hst, if_neg hst, lineageLoop_eq, hlin]
      simp only [Option.map_some', List.nil_append]
      have hq : (childrenMap s order taskID).getD [] = childrenOf s order taskID := rfl
      rw [hq, descLoop_eq, hdesc]
      simp only [Option.map_some', List.nil_append]

theorem threeGenerations_traces (id : String) :
    threeGenerations.traces id =
      if id = "C" then some { TaskID := "C", ParentTaskID := "B", State := "completed" }
      else if id = "B" then some { TaskID := "B", ParentTaskID := "A", State := "completed" }
      else if id = "A" then some { TaskID := "A", ParentTaskID := "", State := "completed" }
      else none := by
  simp only [threeGenerations, TaskStore.withTask, GoMap.set, NewTaskStore]

theorem threeGenerations_order (id : String)
    (h : (threeGenerations.traces id).isSome = true) : id ∈ ["B", "C", "A"] := by
  rw [threeGenerations_traces] at h
  by_cases hC : id = "C"
  · simp [hC]
  · by_cases hB : id = "B"
    · simp [hB]
    · by_cases hA : id = "A"
      · simp [hA]
      · simp [hA, hB, hC] at h

theorem threeGenerations_agree (id : String)
    (h : (threeGenerations.traces id).isSome = true) :
    (threeGenerations.statuses id).isSome = true := by
  have h1 := threeGenerations_order id h
  simp only [List.mem_cons, List.mem_singleton, List.not_mem_nil, or_false] at h1
  rcases h1 with h1 | h1 | h1 <;> subst h1 <;> decide

theorem threeGenerations_parentOf (id : String) :
    parentOf threeGenerations id =
      if id = "C" then "B" else if id = "B" then "A" else "" := by
  unfold parentOf
  rw [threeGenerations_traces]
  by_cases hC : id = "C"
  · rw [if_pos hC, if_pos hC]
    decide
  · rw [if_neg hC, if_neg hC]
    by_cases hB : id = "B"
    · rw [if_pos hB, if_pos hB]
      decide
    · rw [if_neg hB, if_neg hB]
      by_cases hA : id = "A"
      · rw [if_pos hA]
        decide
      · rw [if_neg hA]
        decide

theorem threeGenerations_acyclic : Acyclic threeGenerations := by
  apply acyclic_of_rank threeGenerations
    (fun x => if x = "C" then 2 else if x = "B" then 1 else 0)
  intro a b h
  obtain ⟨hne, hp⟩ := h
  rw [threeGenerations_parentOf] at hp
  by_cases hC : b = "C"
  · rw [if_pos hC] at hp
    subst hp
    subst hC
    decide
  · rw [if_neg hC] at hp
    by_cases hB : b = "B"
    · rw [if_pos hB] at hp
      subst hp
      subst hB
      decide
    · rw [if_neg hB] at hp
      exact absurd hp.symm hne

theorem twoCycle_order (id : String) (h : (twoCycle.traces id).isSome = true) :
    id ∈ ["A", "B"] := by
  simp only [twoCycle, TaskStore.withTask, GoMap.set, NewTaskStore] at h
  by_cases hB : id = "B"
  · simp [hB]
  · by_cases hA : id = "A"
    · simp [hA]
    · simp [hA, hB] at h

/-- C23: for every store content, cyclic parent links included, and every order
in which the traces are listed, `ReplayChain` returns once it has fuel for
twice the traces and one more: the lineage has no repeated id and at most one
entry per listed trace plus the start, and no id is appended twice to the
descendants. -/
theorem ReplayChain_terminates (s : TaskStore) (order : List String) (fuel : Nat)
    (taskID : String) (horder : ∀ id, (s.traces id).isSome = true → id ∈ order)
    (hfuel : 2 * order.length + 1 ≤ fuel) :
    ∃ r ok, s.ReplayChain order fuel taskID = some (r, ok) ∧
      (r.Lineage.map (fun x => x.ID)).Nodup ∧ r.Lineage.length ≤ order.length + 1 ∧
      (r.Descendants.map (fun x => x.ID)).Nodup := by
  obtain ⟨lin, desc, seenF, hlin, hlen, hdesc, hrun⟩ :=
    ReplayChain_run s order fuel taskID horder hfuel
  by_cases hst : (s.statuses taskID).isNone = true
  · rw [if_pos hst] at hrun
    exact ⟨{}, false, hrun, List.nodup_nil, Nat.zero_le _, List.nodup_nil⟩
  · rw [if_neg hst] at hrun
    refine ⟨_, true, hrun, ?_, ?_, ?_⟩
    · simp only [List.map_reverse, map_summaryOf_ID]
      exact List.nodup_reverse.2 (lineageIds_spec s fuel taskID [] lin hlin).2.1
    · simpa using hlen
    · have hnd := (descIds_spec s (childrenMap s order) (fun _ => True)
        (fun _ _ _ _ _ => trivial) fuel (childrenOf s order taskID) [] desc seenF hdesc
        (fun _ _ => trivial) (by simp)).1
      have hperm := (sortSummaries_perm (desc.map (summaryOf s))).map (fun x => x.ID)
      rw [map_summaryOf_ID] at hperm
      exact hperm.nodup_iff.2 hnd

/-- Witness of `ReplayChain_terminates`: two tasks that are each the parent of
the other. -/
theorem ReplayChain_terminates_witness :
    ∃ r ok, twoCycle.ReplayChain ["A", "B"] 5 "A" = some (r, ok) ∧
      (r.Lineage.map (fun x => x.ID)).Nodup ∧ r.Lineage.length ≤ ["A", "B"].length + 1 ∧
      (r.Descendants.map (fun x => x.ID)).Nodup :=
  ReplayChain_terminates twoCycle ["A", "B"] 5 "A" twoCycle_order (by decide)

/-- The ids that the descendants loop appends, started on the children of a
task in a store in which every trace has a status, are the tasks that have it
among their ancestors. -/
theorem descIds_descendants (s : TaskStore) (order : List String) (fuel : Nat)
    (taskID : String) (desc seenF : List String)
    (horder : ∀ id, (s.traces id).isSome = true → id ∈ order)
    (hagree : ∀ id, (s.traces id).isSome = true → (s.statuses id).isSome = true)
    (hdesc : descIds s (childrenMap s order) fuel (childrenOf s order taskID) [] =
      some (desc, seenF)) :
    desc.Nodup ∧ ∀ x, x ∈ desc ↔ Relation.TransGen (IsParentOf s) taskID x := by
  obtain ⟨h1, h2, _, h4, h5, h6⟩ := descIds_spec s (childrenMap s order)
    (fun x => Relation.TransGen (IsParentOf s) taskID x)
    (fun x hx _ c hc =>
      Relation.TransGen.tail hx ((mem_childrenOf s order x c).1 hc).2)
    fuel (childrenOf s order taskID) [] desc seenF hdesc
    (fun q hq => Relation.TransGen.single ((mem_childrenOf s order taskID q).1 hq).2)
    (by simp)
  refine ⟨h1, fun x => ⟨fun hx => (h2 x hx).2.2, ?_⟩⟩
  intro hx
  have key : ∀ y, Relation.TransGen (IsParentOf s) taskID y →
      y ∈ seenF ∧ (s.statuses y).isSome = true := by
    intro y hy
    induction hy with
    | single hpar =>
      have htr := has_trace_of_parent s _ _ hpar
      exact ⟨h4 _ ((mem_childrenOf s order taskID _).2 ⟨horder _ htr, hpar⟩), hagree _ htr⟩
    | tail _ hpar ih =>
      have htr := has_trace_of_parent s _ _ hpar
      exact ⟨h6 _ ih.1 ih.2 _ ((mem_childrenOf s order _ _).2 ⟨horder _ htr, hpar⟩),
        hagree _ htr⟩
  obtain ⟨hmem, hsome⟩ := key x hx
  rcases h5 x hmem with h7 | h7 | h7
  · simp at h7
  · exact h7
  · cases hs : s.statuses x <;> simp [hs] at h7 hsome

/-- C22: with fuel for twice the traces and one more, `ReplayChain` returns, and
fails exactly when the id has no status. When it succeeds on a non-empty id in a
store whose parent links are acyclic and whose traces all have a status, the
lineage holds the summaries of a list of ids that ends with the id, in which
each id is the parent of the next and the first has no parent (the id alone
when it has no parent), and the descendants hold the summaries of the tasks
that have the id among their ancestors, each once and never the id itself, no
summary before one whose `UpdatedAt` is greater. -/
theorem ReplayChain_lineage_descendants (s : TaskStore) (order : List String) (fuel : Nat)
    (taskID : String) (horder : ∀ id, (s.traces id).isSome = true → id ∈ order)
    (hfuel : 2 * order.length + 1 ≤ fuel) :
    ∃ r ok, s.ReplayChain order fuel taskID = some (r, ok) ∧
      (ok = false ↔ s.statuses taskID = none) ∧
      (ok = true → Acyclic s →
        (∀ id, (s.traces id).isSome = true → (s.statuses id).isSome = true) → taskID ≠ "" →
        ∃ lin desc : List String,
          r.Lineage = lin.map (summaryOf s) ∧ lin.getLast? = some taskID ∧
          List.Chain' (IsParentOf s) lin ∧ (∀ f, lin.head? = some f → parentOf s f = "") ∧
          (parentOf s taskID = "" → lin = [taskID]) ∧
          r.Descendants = desc.map (summaryOf s) ∧
          (∀ x, x ∈ desc ↔ Relation.TransGen (IsParentOf s) taskID x) ∧
          desc.Nodup ∧ taskID ∉ desc ∧
          List.Pairwise (fun a b => strLess a.UpdatedAt b.UpdatedAt = false) r.Descendants) := by
  obtain ⟨lin, desc, seenF, hlin, _, hdesc, hrun⟩ :=
    ReplayChain_run s order fuel taskID horder hfuel
  by_cases hst : (s.statuses taskID).isNone = true
  · rw [if_pos hst] at hrun
    refine ⟨{}, false, hrun, ?_, ?_⟩
    · cases hs : s.statuses taskID <;> simp [hs] at hst ⊢
    · intro h
      cases h
  · rw [if_neg hst] at hrun
    refine ⟨_, true, hrun, ?_, ?_⟩
    · cases hs : s.statuses taskID <;> simp [hs] at hst ⊢
    · intro _ hacyc hagree hid
      obtain ⟨h1, h2, h3, h4, h5⟩ := lineageIds_spec s fuel taskID [] lin hlin
      rw [if_pos ⟨hid, List.not_mem_nil _⟩] at h4
      obtain ⟨hnd, hmem⟩ := descIds_descendants s order fuel taskID desc seenF horder hagree hdesc
      have hperm := sortSummaries_perm (desc.map (summaryOf s))
      have hperm2 := hperm.map (fun x => x.ID)
      rw [map_summaryOf_ID] at hperm2
      refine ⟨lin.reverse, (sortSummaries (desc.map (summaryOf s))).map (fun x => x.ID),
        ?_, ?_, ?_, ?_, ?_, ?_, ?_, ?_, ?_, ?_⟩
      · simp only [List.map_reverse]
      · rw [List.getLast?_reverse]
        exact h4
      · rw [List.chain'_reverse]
        exact h3
      · intro f hf
        rw [List.head?_reverse] at hf
        rcases h5 f hf with h6 | h6 | h6
        · exact h6
        · simp at h6
        · exfalso
          have hpar : IsParentOf s (parentOf s f) f := ⟨(h1 _ h6).1, rfl⟩
          rcases chain_transGen s lin f h3 hf _ h6 with h7 | h7
          · rw [h7] at hpar
            exact hacyc f (Relation.TransGen.single hpar)
          · exact hacyc f (Relation.TransGen.tail h7 hpar)
      · intro hroot
        cases lin with
        | nil => simp at h4
        | cons a w =>
          simp only [List.head?_cons, Option.some.injEq] at h4
          subst h4
          cases w with
          | nil => rfl
          | cons b w =>
            have hpar : IsParentOf s b a := (List.chain'_cons.1 h3).1
            exact absurd (hpar.2.symm.trans hroot) hpar.1
      · simp only [List.map_map]
        symm
        apply List.map_congr_left (g := id) _ |>.trans (List.map_id _)
        intro σ hσ
        obtain ⟨x, _, rfl⟩ := List.mem_map.1 (hperm.mem_iff.1 hσ)
        rfl
      · intro x
        rw [hperm2.mem_iff]
        exact hmem x
      · exact hperm2.nodup_iff.2 hnd
      · rw [hperm2.mem_iff, hmem]
        exact hacyc taskID
      · exact sortSummaries_sorted _

/-- Witness of `ReplayChain_lineage_descendants`: the task A of three
generations A, B, C. -/
theorem ReplayChain_lineage_descendants_witness :
    ∃ r ok, threeGenerations.ReplayChain ["B", "C", "A"] 7 "A" = some (r, ok) ∧
      (ok = false ↔ threeGenerations.statuses "A" = none) ∧
      (ok = true →
        ∃ lin desc : List String,
          r.Lineage = lin.map (summaryOf threeGenerations) ∧ lin.getLast? = some "A" ∧
          List.Chain' (IsParentOf threeGenerations) lin ∧
          (∀ f, lin.head? = some f → parentOf threeGenerations f = "") ∧
          (parentOf threeGenerations "A" = "" → lin = ["A"]) ∧
          r.Descendants = desc.map (summaryOf threeGenerations) ∧
          (∀ x, x ∈ desc ↔ Relation.TransGen (IsParentOf threeGenerations) "A" x) ∧
          desc.Nodup ∧ "A" ∉ desc ∧
          List.Pairwise (fun a b => strLess a.UpdatedAt b.UpdatedAt = false) r.Descendants) := by
  obtain ⟨r, ok, h1, h2, h3⟩ :=
    ReplayChain_lineage_descendants threeGenerations ["B", "C", "A"] 7 "A"
      threeGenerations_order (by decide)
  exact ⟨r, ok, h1, h2,
    fun hok => h3 hok threeGenerations_acyclic threeGenerations_agree (by decide)⟩

end Orchestrator

namespace Web6

theorem computeProxyAlert_cases (j p s c : Int) :
    ((j < 0 ∨ p < 0 ∨ j > max c s ∨ p > max c s) →
      ((computeProxyAlert j p s c).1, (computeProxyAlert j p s c).2.1) = ("critical", 2)) ∧
    (¬ (j < 0 ∨ p < 0 ∨ j > max c s ∨ p > max c s) → (j > s ∨ p > s) →
      ((computeProxyAlert j p s c).1, (computeProxyAlert j p s c).2.1) = ("warn", 1)) ∧
    (¬ (j < 0 ∨ p < 0 ∨ j > max c s ∨ p > max c s) → ¬ (j > s ∨ p > s) →
      ((computeProxyAlert j p s c).1, (computeProxyAlert j p s c).2.1) = ("ok", 0)) := by
  have hmax : (if c < s then s else c) = max c s := by
    rcases lt_or_le c s with h | h
    · rw [if_pos h, max_eq_right (le_of_lt h)]
    · rw [if_neg (not_lt.2 h), max_eq_left h]
  unfold computeProxyAlert
  simp only [hmax]
  by_cases h1 : (decide (j < 0) || decide (p < 0)) = true
  · rw [if_pos h1]
    have h1p : j < 0 ∨ p < 0 := by simpa using h1
    refine ⟨fun _ => rfl, fun h => ?_, fun h => ?_⟩ <;>
      exact absurd (h1p.elim Or.inl (fun x => Or.inr (Or.inl x))) h
  · rw [if_neg h1]
    have h1n : ¬ (j < 0 ∨ p < 0) := by simpa using h1
    by_cases h2 : (decide (j > max c s) || decide (p > max c s)) = true
    · rw [if_pos h2]
      have h2p : j > max c s ∨ p > max c s := by
        rcases (Bool.or_eq_true_iff).1 h2 with h | h
        · exact Or.inl (of_decide_eq_true h)
        · exact Or.inr (of_decide_eq_true h)
      refine ⟨fun _ => rfl, fun h => ?_, fun h => ?_⟩ <;>
        exact absurd (h2p.elim (fun x => Or.inr (Or.inr (Or.inl x)))
          (fun x => Or.inr (Or.inr (Or.inr x)))) h
    · rw [if_neg h2]
      have h2n : ¬ (j > max c s ∨ p > max c s) := by
        rintro (h | h)
        · exact h2 ((Bool.or_eq_true_iff).2 (Or.inl (decide_eq_true h)))
        · exact h2 ((Bool.or_eq_true_iff).2 (Or.inr (decide_eq_true h)))
      have hnc : ¬ (j < 0 ∨ p < 0 ∨ j > max c s ∨ p > max c s) := by
        rintro (h | h | h | h)
        · exact h1n (Or.inl h)
        · exact h1n (Or.inr h)
        · exact h2n (Or.inl h)
        · exact h2n (Or.inr h)
      by_cases h3 : (decide (j > s) || decide (p > s)) = true
      · rw [if_pos h3]
        have h3p : j > s ∨ p > s := by
          rcases (Bool.or_eq_true_iff).1 h3 with h | h
          · exact Or.inl (of_decide_eq_true h)
          · exact Or.inr (of_decide_eq_true h)
        exact ⟨fun h => absurd h hnc, fun _ _ => rfl, fun _ h => absurd h3p h⟩
      · rw [if_neg h3]
        have h3n : ¬ (j > s ∨ p > s) := by
          rintro (h | h)
          · exact h3 ((Bool.or_eq_true_iff).2 (Or.inl (decide_eq_true h)))
          · exact h3 ((Bool.or_eq_true_iff).2 (Or.inr (decide_eq_true h)))
        exact ⟨fun h => absurd h hnc, fun _ h => absurd h h3n, fun _ _ => rfl⟩

/-- C29: for all integer ages and thresholds, computeProxyAlert returns
("critical", 2) iff the JSON or the Prometheus age is negative or exceeds
max(criticalThreshold, staleThreshold), ("warn", 1) iff neither holds and one of
the ages exceeds staleThreshold, and ("ok", 0) otherwise; the score is 0, 1 or 2
and matches the level ok, warn, critical. -/
theorem computeProxyAlert_levels (j p s c : Int) :
    (((computeProxyAlert j p s c).1, (computeProxyAlert j p s c).2.1) = ("critical", 2) ↔
      (j < 0 ∨ p < 0 ∨ j > max c s ∨ p > max c s)) ∧
    (((computeProxyAlert j p s c).1, (computeProxyAlert j p s c).2.1) = ("warn", 1) ↔
      (¬ (j < 0 ∨ p < 0 ∨ j > max c s ∨ p > max c s) ∧ (j > s ∨ p > s))) ∧
    (((computeProxyAlert j p s c).1, (computeProxyAlert j p s c).2.1) = ("ok", 0) ↔
      (¬ (j < 0 ∨ p < 0 ∨ j > max c s ∨ p > max c s) ∧ ¬ (j > s ∨ p > s))) ∧
    (((computeProxyAlert j p s c).1, (computeProxyAlert j p s c).2.1) = ("ok", 0) ∨
      ((computeProxyAlert j p s c).1, (computeProxyAlert j p s c).2.1) = ("warn", 1) ∨
      ((computeProxyAlert j p s c).1, (computeProxyAlert j p s c).2.1) = ("critical", 2)) := by
  obtain ⟨hA, hB, hC⟩ := computeProxyAlert_cases j p s c
  have d1 : (("critical", 2) : String × Int) ≠ ("warn", 1) := by decide
  have d2 : (("critical", 2) : String × Int) ≠ ("ok", 0) := by decide
  have d3 : (("warn", 1) : String × Int) ≠ ("ok", 0) := by decide
  by_cases hc : j < 0 ∨ p < 0 ∨ j > max c s ∨ p > max c s
  · rw [hA hc]
    exact ⟨⟨fun _ => hc, fun _ => rfl⟩, ⟨fun h => absurd h d1, fun h => absurd hc h.1⟩,
      ⟨fun h => absurd h d2, fun h => absurd hc h.1⟩, Or.inr (Or.inr rfl)⟩
  · by_cases hw : j > s ∨ p > s
    · rw [hB hc hw]
      exact ⟨⟨fun h => absurd h.symm d1, fun h => absurd h hc⟩, ⟨fun _ => ⟨hc, hw⟩, fun _ => rfl⟩,
        ⟨fun h => absurd h d3, fun h => absurd hw h.2⟩, Or.inr (Or.inl rfl)⟩
    · rw [hC hc hw]
      exact ⟨⟨fun h => absurd h.symm d2, fun h => absurd h hc⟩,
        ⟨fun h => absurd h.symm d3, fun h => absurd h.2 hw⟩,
        ⟨fun _ => ⟨hc, hw⟩, fun _ => rfl⟩, Or.inl rfl⟩

end Web6

end RechainIDE
